import Mathlib

/-!
# Maneuver scheduling: evaluator, verifier, neighborhoods, local search and ILS

A shallow embedding of `orcs::Problem` (problem.h, problem.cpp), of
`orcs::utils::evaluate` (utils.cpp), of the neighborhoods `Shift`, `Reassignement` and
`Swap` (neighborhood.cpp), of `orcs::LocalSearch` (local_search.cpp) and of `orcs::ILS`
(heur_ils.cpp).

Modelling conventions.

* `double` is modelled by `ℚ` with exact arithmetic; `std::numeric_limits<double>::max()`
  is the rational constant `DBL_MAX`. The statements on the order of values, on the
  structure of schedules and on the control flow are made in this model.
* The statements on numerical values (the tolerance of `utils::compare`, the makespan as
  a sum) are made in double arithmetic, namespace `binary64`: `binary64.nearest` rounds a
  real number to the nearest double, ties to even, `binary64.Double` adds the infinities
  and NaN to the finite values, and `binary64.utils.compare` and `binary64.utils.evaluate`
  are the functions of utils.cpp with every `+` and `-` rounded. The evaluator is
  modelled there on finite values only: a sum that overflows has no result.
* `std::vector` members of `Problem` and the local arrays of the functions are total
  functions on `Nat`; `std::set<int>` is the list of its elements in iteration order.
  The constructor of `Problem` only stores predecessor and successor ids that index
  its own vectors, so the only indices that can leave the allocated range are the
  switch ids carried by a schedule; a function that would index a vector with such
  an id, or a schedule with a missing team, has no defined result (`none`).
* The pointers `t[k]` of `utils::evaluate` are addresses (`Ptr`) into a store that
  holds the moment fields of the team lists `0..m` and the local `t0`.
* `std::shuffle(movements.begin(), movements.end(), generator)` is a function `generator`
  on the list of movements; the statements about it assume that it returns a permutation
  of its argument. The state of the generator after the call is not modelled.
* The virtual call `neighborhood.best_improvement` is a function on the inductive type
  `Neighborhood`; the loops of `LocalSearch` are unrolled at most `fuel` times, and the
  theorems give a number of passes that is enough on well-formed entries.
* In `ILS` the generator `std::mt19937` is a structure `Generator` of pure functions on
  its state, the value of `timer.count<std::chrono::seconds>()` at the test of the main
  loop is a function of the number of iterations made, and the solution of
  `Greedy::solve` is an argument `start`. The counters of `ILS::solve` are natural
  numbers without a largest value. The body of the main loop (`ILS.pass`) counts its
  calls of `ILS::perturb`.
* `Greedy::solve` is declared in heur_greedy.h and its code is not in the repository;
  `Greedy.solve` is the earliest-start-time construction as section 4.5 of the
  specification describes it.
* The drivers `LocalSearch::first_improvement` and `first_improvement_vnd` hand the
  generator from call to call: there the shuffle of a vector of movements is the shuffle
  of its positions by the `Generator` (`Generator.permute`), and the virtual calls
  `first_improvement` and `shake` return the generator after the shuffle.
-/

namespace orcs

/-- Types of technologies used by switches (problem.h). -/
inductive Technology
  | UNKNOWN
  | MANUAL
  | REMOTE
  deriving DecidableEq, Repr

/-- A maneuver is the tuple (switch id, moment). -/
abbrev Maneuver := Int × ℚ

/-- A schedule holds one list of maneuvers per team. -/
abbrev Schedule := List (List Maneuver)

/-- The data members of `orcs::Problem` read by the evaluator and the verifier. -/
structure Problem where
  n : Nat
  m : Nat
  technology : Nat → Technology
  p : Nat → ℚ
  c : Nat → Nat → Nat → ℚ
  predecessors : Nat → List Nat
  successors : Nat → List Nat

/-- The largest finite `double`, `(2 - 2^(-52)) * 2^1023`. -/
def DBL_MAX : ℚ := ((2 ^ 1024 - 2 ^ 971 : Nat) : ℚ)

/-- The literal `1e-5` used by `is_feasible`. -/
def EPS : ℚ := 1 / 100000

/-- The list `schedule[l]`. -/
def teamOf (schedule : Schedule) (l : Nat) : List Maneuver := schedule.getD l []

/-- The maneuver `schedule[l][idx]`. -/
def maneuverAt (schedule : Schedule) (l idx : Nat) : Maneuver :=
  (teamOf schedule l).getD idx (0, 0)

/-- The switch id `std::get<ATTR_SWITCH>(schedule[l][idx])`, as a vector index. -/
def switchAt (schedule : Schedule) (l idx : Nat) : Nat := (maneuverAt schedule l idx).1.toNat

/-- The moment `std::get<ATTR_MOMENT>(schedule[l][idx])`. -/
def momentAt (schedule : Schedule) (l idx : Nat) : ℚ := (maneuverAt schedule l idx).2

/-- Every access `schedule[l]`, `l = 0..m`, and every vector access indexed by a switch id
of those lists stays within bounds. -/
def inBounds (P : Problem) (schedule : Schedule) : Bool :=
  decide (P.m + 1 ≤ schedule.length) &&
  (List.range (P.m + 1)).all (fun l =>
    (teamOf schedule l).all (fun mv => decide (0 ≤ mv.1) && decide (mv.1 ≤ (P.n : Int))))

/-- Makespan of a schedule, `Problem::evaluate` (problem.cpp). -/
def Problem.evaluate (P : Problem) (schedule : Schedule) : Option ℚ :=
  if inBounds P schedule then
    some ((List.range (P.m + 1)).foldl
      (fun makespan l =>
        (teamOf schedule l).foldl (fun makespan mv => max makespan (mv.2 + P.p mv.1.toNat))
          makespan)
      0)
  else none

/-- The loop of `is_feasible` that validates the switch ids and fills `assignment`:
`none` is the early `return false`. -/
def checkIds (P : Problem) (schedule : Schedule) : Option (Nat → Nat) :=
  (List.range (P.m + 1)).foldlM
    (fun assignment l =>
      (teamOf schedule l).foldlM
        (fun assignment mv =>
          if mv.1 < 1 ∨ mv.1 > (P.n : Int) then none
          else some (Function.update assignment mv.1.toNat (assignment mv.1.toNat + 1)))
        assignment)
    (fun _ => 0)

/-- The array `t` of `is_feasible`: `t[switch] = moment` for each maneuver of teams `0..m`. -/
def Problem.moments (P : Problem) (schedule : Schedule) : Nat → ℚ :=
  (List.range (P.m + 1)).foldl
    (fun t l => (teamOf schedule l).foldl (fun t mv => Function.update t mv.1.toNat mv.2) t)
    (fun _ => 0)

/-- The precedence loop of `is_feasible` finds `t[j] + 1e-5 < t[i]`. -/
def precedenceViolated (P : Problem) (schedule : Schedule) : Bool :=
  (List.range' 1 P.n).any (fun j =>
    (P.predecessors j).any (fun i =>
      decide (P.moments schedule j + EPS < P.moments schedule i)))

/-- The sequence loop of `is_feasible` finds a moment below the one before it. -/
def sequenceViolated (P : Problem) (schedule : Schedule) : Bool :=
  (List.range (P.m + 1)).any (fun l =>
    decide ((teamOf schedule l).length > 1) &&
    (List.range' 1 ((teamOf schedule l).length - 1)).any (fun i =>
      decide (momentAt schedule l i + EPS < momentAt schedule l (i - 1))))

/-- The travel-time loop of `is_feasible` finds an inconsistent moment. -/
def travelViolated (P : Problem) (schedule : Schedule) : Bool :=
  (List.range' 1 P.m).any (fun l =>
    !(teamOf schedule l).isEmpty &&
    (decide (momentAt schedule l 0 + EPS < P.c 0 (switchAt schedule l 0) l) ||
     (decide ((teamOf schedule l).length > 1) &&
      (List.range' 1 ((teamOf schedule l).length - 1)).any (fun i =>
        decide (momentAt schedule l i + EPS <
          momentAt schedule l (i - 1) + P.p (switchAt schedule l i) +
            P.c (switchAt schedule l (i - 1)) (switchAt schedule l i) l)))))

/-- The statement `if (msg != nullptr) *msg = text; return false;`. -/
def reject (msg : Option String) (text : String) : Option (Bool × Option String) :=
  some (false, msg.map (fun _ => text))

/-- Verifier `Problem::is_feasible` (problem.cpp). The receiver `msg` is `none` for
`nullptr`, else its current content; the result is the returned flag and the receiver
after the call. The last statement `*msg = "Feasible solution."` is not guarded, so with
no receiver it has no defined result. -/
def Problem.is_feasible (P : Problem) (schedule : Schedule) (msg : Option String) :
    Option (Bool × Option String) :=
  if schedule.length ≠ P.m + 1 then
    reject msg "The number of maintenance teams is wrong."
  else
    match checkIds P schedule with
    | none => reject msg "Using invalid switch IDs."
    | some assignment =>
      if (List.range' 1 P.n).any (fun i => decide (assignment i ≠ 1)) then
        reject msg
          "There are switches assigned to more than one team or not assigned to any team."
      else if (teamOf schedule 0).any
          (fun mv => decide (P.technology mv.1.toNat ≠ Technology.REMOTE)) then
        reject msg "Non-remote controlled switch assigned to dummy team 0."
      else if (List.range' 1 P.m).any (fun l => (teamOf schedule l).any
          (fun mv => decide (P.technology mv.1.toNat ≠ Technology.MANUAL))) then
        reject msg "Non-manual controlled switch assigned to a maintenace team."
      else if precedenceViolated P schedule then
        reject msg "Precedence rules violated."
      else if sequenceViolated P schedule then
        reject msg "Moments not consistent to the sequence."
      else if travelViolated P schedule then
        reject msg "Moments not consistent to travel times."
      else
        match msg with
        | none => none
        | some _ => some (true, some "Feasible solution.")

namespace utils

/-- Target of a `double*` of `utils::evaluate`: the local `t0` or the moment field of
`schedule[l][idx]`. -/
inductive Ptr
  | t0
  | slot (l idx : Nat)
  deriving DecidableEq

/-- The arrays `pendings` and `t` and the store while the first loop of `utils::evaluate`
runs. -/
structure InitState where
  pendings : Nat → Int
  t : Nat → Option Ptr
  mem : Ptr → ℚ

/-- One pass of the body of the first loop, at `schedule[l][idx]`. -/
def initSlot (P : Problem) (schedule : Schedule) (l : Nat) (s : InitState) (idx : Nat) :
    InitState :=
  { pendings := Function.update s.pendings (switchAt schedule l idx)
      ((P.predecessors (switchAt schedule l idx)).length : Int)
    t := Function.update s.t (switchAt schedule l idx) (some (Ptr.slot l idx))
    mem := Function.update s.mem (Ptr.slot l idx) DBL_MAX }

/-- The state before the first loop: `pendings` zero, `t` null except `t[0] = &t0`, the
store holding `t0 = 0.0` and the moments of the entry. -/
def initStart (P : Problem) (schedule : Schedule) : InitState :=
  { pendings := fun _ => 0
    t := Function.update (fun _ => none) 0 (some Ptr.t0)
    mem := fun ptr =>
      match ptr with
      | Ptr.t0 => 0
      | Ptr.slot l idx => if l ≤ P.m then momentAt schedule l idx else 0 }

/-- The first loop of `utils::evaluate` (lines 48-54). -/
def init (P : Problem) (schedule : Schedule) : InitState :=
  (List.range (P.m + 1)).foldl
    (fun s l => (List.range (teamOf schedule l).length).foldl (initSlot P schedule l) s)
    (initStart P schedule)

/-- The variables of the main loop of `utils::evaluate`. -/
structure EvalState where
  mem : Ptr → ℚ
  makespan : ℚ
  index : Nat → Nat
  location : Nat → Nat
  pendings : Nat → Int
  n_done : Nat
  feasibility : Bool

/-- The read `*t[k]`; a null `t[k]` has no defined result. -/
def deref (t : Nat → Option Ptr) (mem : Ptr → ℚ) (k : Nat) : Option ℚ := (t k).map mem

/-- The loop `for (auto k : problem.predecessors[j]) *t[j] = max(*t[j], *t[k] + p[k])`. -/
def maxPredecessors (P : Problem) (t : Nat → Option Ptr) (tj : Ptr) (preds : List Nat)
    (mem : Ptr → ℚ) : Option (Ptr → ℚ) :=
  preds.foldlM
    (fun mem k =>
      (deref t mem k).map (fun tk => Function.update mem tj (max (mem tj) (tk + P.p k))))
    mem

/-- The loop `for (auto k : problem.successors[j]) --pendings[k]`. -/
def decPendings (succs : List Nat) (pendings : Nat → Int) : Nat → Int :=
  succs.foldl (fun pd k => Function.update pd k (pd k - 1)) pendings

/-- The body of the scan `for (int l = 0; l <= problem.m; ++l)` for one team `l`
(lines 65-105). -/
def visit (P : Problem) (schedule : Schedule) (t : Nat → Option Ptr) (s : EvalState)
    (l : Nat) : Option EvalState :=
  if s.index l < (teamOf schedule l).length then
    if s.pendings (switchAt schedule l (s.index l)) = 0 then
      match t (switchAt schedule l (s.index l)) with
      | none => none
      | some tj =>
        match (if l ≠ 0 then
            (deref t s.mem (s.location l)).map (fun ti =>
              ti + P.p (s.location l) +
                P.c (s.location l) (switchAt schedule l (s.index l)) l)
          else some 0) with
        | none => none
        | some v =>
          match maxPredecessors P t tj (P.predecessors (switchAt schedule l (s.index l)))
              (Function.update s.mem tj v) with
          | none => none
          | some mem =>
            some
              { mem := mem
                makespan := max s.makespan (mem tj + P.p (switchAt schedule l (s.index l)))
                index := Function.update s.index l (s.index l + 1)
                location := Function.update s.location l (switchAt schedule l (s.index l))
                pendings :=
                  decPendings (P.successors (switchAt schedule l (s.index l))) s.pendings
                n_done := s.n_done + 1
                feasibility := true }
    else some s
  else some s

/-- One pass of the body of the `while`: clear the flag, then visit the teams `0..m`. -/
def scan (P : Problem) (schedule : Schedule) (t : Nat → Option Ptr) (s : EvalState) :
    Option EvalState :=
  (List.range (P.m + 1)).foldlM (visit P schedule t) { s with feasibility := false }

/-- The loop `while (n_done < problem.n && feasibility)`, unrolled at most `fuel` times. -/
def whileLoop (P : Problem) (schedule : Schedule) (t : Nat → Option Ptr) :
    Nat → EvalState → Option EvalState
  | 0, s => some s
  | fuel + 1, s =>
    if s.n_done < P.n ∧ s.feasibility = true then
      match scan P schedule t s with
      | none => none
      | some s1 => whileLoop P schedule t fuel s1
    else some s

/-- The state on entry to the main loop. -/
def evalStart (P : Problem) (schedule : Schedule) : EvalState :=
  { mem := (init P schedule).mem
    makespan := 0
    index := fun _ => 0
    location := fun _ => 0
    pendings := (init P schedule).pendings
    n_done := 0
    feasibility := true }

/-- The schedule of the entry with the moment fields of teams `0..m` read from the store. -/
def writeBack (P : Problem) (schedule : Schedule) (mem : Ptr → ℚ) : Schedule :=
  schedule.mapIdx (fun l team =>
    if l ≤ P.m then team.mapIdx (fun idx mv => (mv.1, mem (Ptr.slot l idx))) else team)

/-- Evaluator `utils::evaluate` (utils.cpp): the returned flag and the entry after the
call. Every pass of the `while` that does not end it increments `n_done`, so `n` passes
are enough (`whileLoop_exit`); on a schedule that places each switch once the result is
defined (`evaluate_defined`). -/
def evaluate (P : Problem) (entry : Schedule × ℚ) : Option (Bool × (Schedule × ℚ)) :=
  if inBounds P entry.1 then
    match whileLoop P entry.1 (init P entry.1).t P.n (evalStart P entry.1) with
    | none => none
    | some s =>
      some (s.feasibility,
        (writeBack P entry.1 s.mem, if s.feasibility then s.makespan else DBL_MAX))
  else none

end utils

namespace utils

/-- The threshold used when comparing floating point values (utils.h). -/
def THRESHOLD : ℚ := 1 / 100000

/-- Tolerance comparison `utils::compare` (utils.cpp). -/
def compare (first second : ℚ) : Int :=
  if |first - second| < THRESHOLD then 0 else (if first < second then -1 else 1)

/-- The test `utils::is_lower`. -/
def is_lower (first second : ℚ) : Bool := decide (utils.compare first second = -1)

end utils

namespace utils

/-- The test `utils::is_equal`. -/
def is_equal (first second : ℚ) : Bool := decide (utils.compare first second = 0)

/-- The test `utils::is_greater`. -/
def is_greater (first second : ℚ) : Bool := decide (utils.compare first second = 1)

/-- The test `utils::is_greater_equal`. -/
def is_greater_equal (first second : ℚ) : Bool := decide (utils.compare first second ≠ -1)

/-- The test `utils::is_lower_equal`. -/
def is_lower_equal (first second : ℚ) : Bool := decide (utils.compare first second ≠ 1)

/-- The number of passes the loop `while (n_done < problem.n && feasibility)` of
`utils::evaluate` makes from the state `s`, when it makes at most `fuel` of them; `none`
when a pass has no defined result or `fuel` passes do not end the loop. -/
def passes (P : Problem) (schedule : Schedule) (t : Nat → Option Ptr) :
    Nat → EvalState → Option Nat
  | 0, s => if s.n_done < P.n ∧ s.feasibility = true then none else some 0
  | fuel + 1, s =>
    if s.n_done < P.n ∧ s.feasibility = true then
      match scan P schedule t s with
      | none => none
      | some s1 => (passes P schedule t fuel s1).map (fun k => k + 1)
    else some 0

end utils

/-! ## Neighborhoods (neighborhood.cpp) -/

/-- The statement `schedule[l].erase(schedule[l].begin() + idx)`. -/
def eraseAt (schedule : Schedule) (l idx : Nat) : Schedule :=
  schedule.set l ((teamOf schedule l).eraseIdx idx)

/-- The statement `schedule[l].insert(schedule[l].begin() + idx, maneuver)`. -/
def insertAt (schedule : Schedule) (l idx : Nat) (maneuver : Maneuver) : Schedule :=
  schedule.set l ((teamOf schedule l).insertIdx idx maneuver)

/-- The body shared by the `best_improvement` loops: evaluate the neighbor
`(current_schedule, 0.0)` and keep it when it is feasible and strictly below the best one. -/
def keepBetter (P : Problem) (best_neighbor : Schedule × ℚ) (current_schedule : Schedule) :
    Option (Schedule × ℚ) :=
  match utils.evaluate P (current_schedule, 0) with
  | none => none
  | some (is_feasible, neighbor) =>
    if is_feasible = true ∧ neighbor.2 < best_neighbor.2 then some neighbor
    else some best_neighbor

/-- The loop over the shuffled movements shared by the `first_improvement` functions: it
stops at the first feasible neighbor strictly below the entry. -/
def firstImprovementLoop {α : Type} (P : Problem) (entry : Schedule × ℚ)
    (move : α → Schedule) : List α → Option (Schedule × ℚ)
  | [] => some entry
  | movement :: rest =>
    match utils.evaluate P (move movement, 0) with
    | none => none
    | some (is_feasible, neighbor) =>
      if is_feasible = true ∧ neighbor.2 < entry.2 then some neighbor
      else firstImprovementLoop P entry move rest

/-- The loop over the shuffled movements shared by the `shake` functions: it stops at the
first neighbor with `is_feasible || !feasible_only`. -/
def shakeLoop {α : Type} (P : Problem) (entry : Schedule × ℚ) (feasible_only : Bool)
    (move : α → Schedule) : List α → Option (Schedule × ℚ)
  | [] => some entry
  | movement :: rest =>
    match utils.evaluate P (move movement, 0) with
    | none => none
    | some (is_feasible, neighbor) =>
      if is_feasible = true ∨ feasible_only = false then some neighbor
      else shakeLoop P entry feasible_only move rest

namespace Shift

/-- The function `Shift::best_improvement`. Reading `entry[l]` for `l = 0..m` needs `m+1`
team lists. -/
def best_improvement (P : Problem) (entry : Schedule × ℚ) : Option (Schedule × ℚ) :=
  if P.m + 1 ≤ entry.1.length then
    (List.range (P.m + 1)).foldlM
      (fun best_neighbor l =>
        (List.range (teamOf entry.1 l).length).foldlM
          (fun best_neighbor idx_origin =>
            (List.range ((teamOf (eraseAt entry.1 l idx_origin) l).length + 1)).foldlM
              (fun best_neighbor idx_target =>
                if idx_target ≠ idx_origin then
                  keepBetter P best_neighbor
                    (insertAt (eraseAt entry.1 l idx_origin) l idx_target
                      (maneuverAt entry.1 l idx_origin))
                else some best_neighbor)
              best_neighbor)
          best_neighbor)
      entry
  else none

/-- The vector `movements` of `Shift::first_improvement` and `Shift::shake`, before the
shuffle: the tuples `(l, idx_origin, idx_target)`. -/
def movements (P : Problem) (entry : Schedule × ℚ) : List (Nat × Nat × Nat) :=
  (List.range (P.m + 1)).flatMap (fun l =>
    (List.range (teamOf entry.1 l).length).flatMap (fun idx_origin =>
      ((List.range ((teamOf entry.1 l).length - 1 + 1)).filter
        (fun idx_target => decide (idx_target ≠ idx_origin))).map
        (fun idx_target => (l, idx_origin, idx_target))))

/-- The schedule a movement `(l, idx_origin, idx_target)` yields: erase, then insert. -/
def move (schedule : Schedule) (movement : Nat × Nat × Nat) : Schedule :=
  insertAt (eraseAt schedule movement.1 movement.2.1) movement.1 movement.2.2
    (maneuverAt schedule movement.1 movement.2.1)

/-- The function `Shift::first_improvement`; `generator` is the permutation that
`std::shuffle` applies to the movements. -/
def first_improvement (P : Problem) (entry : Schedule × ℚ)
    (generator : List (Nat × Nat × Nat) → List (Nat × Nat × Nat)) : Option (Schedule × ℚ) :=
  if P.m + 1 ≤ entry.1.length then
    firstImprovementLoop P entry (move entry.1) (generator (movements P entry))
  else none

/-- The function `Shift::shake`. -/
def shake (P : Problem) (entry : Schedule × ℚ) (feasible_only : Bool)
    (generator : List (Nat × Nat × Nat) → List (Nat × Nat × Nat)) : Option (Schedule × ℚ) :=
  if P.m + 1 ≤ entry.1.length then
    shakeLoop P entry feasible_only (move entry.1) (generator (movements P entry))
  else none

end Shift

namespace Reassignement

/-- The function `Reassignement::best_improvement`. Its loops read `entry[l]` for
`l = 1..m`. -/
def best_improvement (P : Problem) (entry : Schedule × ℚ) : Option (Schedule × ℚ) :=
  if P.m = 0 ∨ P.m + 1 ≤ entry.1.length then
    (List.range' 1 P.m).foldlM
      (fun best_neighbor l_origin =>
        (List.range (teamOf entry.1 l_origin).length).foldlM
          (fun best_neighbor idx_origin =>
            (List.range' 1 P.m).foldlM
              (fun best_neighbor l_target =>
                if l_target ≠ l_origin then
                  (List.range
                    ((teamOf (eraseAt entry.1 l_origin idx_origin) l_target).length + 1)).foldlM
                    (fun best_neighbor idx_target =>
                      keepBetter P best_neighbor
                        (insertAt (eraseAt entry.1 l_origin idx_origin) l_target idx_target
                          (maneuverAt entry.1 l_origin idx_origin)))
                    best_neighbor
                else some best_neighbor)
              best_neighbor)
          best_neighbor)
      entry
  else none

/-- The vector `movements` of `Reassignement::first_improvement` and
`Reassignement::shake`: the tuples `(l_origin, idx_origin, l_target, idx_target)`. -/
def movements (P : Problem) (entry : Schedule × ℚ) : List (Nat × Nat × Nat × Nat) :=
  (List.range' 1 P.m).flatMap (fun l_origin =>
    (List.range (teamOf entry.1 l_origin).length).flatMap (fun idx_origin =>
      ((List.range' 1 P.m).filter (fun l_target => decide (l_target ≠ l_origin))).flatMap
        (fun l_target =>
          (List.range ((teamOf entry.1 l_target).length + 1)).map
            (fun idx_target => (l_origin, idx_origin, l_target, idx_target)))))

/-- The schedule a movement `(l_origin, idx_origin, l_target, idx_target)` yields. -/
def move (schedule : Schedule) (movement : Nat × Nat × Nat × Nat) : Schedule :=
  insertAt (eraseAt schedule movement.1 movement.2.1) movement.2.2.1 movement.2.2.2
    (maneuverAt schedule movement.1 movement.2.1)

/-- The function `Reassignement::first_improvement`. -/
def first_improvement (P : Problem) (entry : Schedule × ℚ)
    (generator : List (Nat × Nat × Nat × Nat) → List (Nat × Nat × Nat × Nat)) :
    Option (Schedule × ℚ) :=
  if P.m = 0 ∨ P.m + 1 ≤ entry.1.length then
    firstImprovementLoop P entry (move entry.1) (generator (movements P entry))
  else none

/-- The function `Reassignement::shake`. -/
def shake (P : Problem) (entry : Schedule × ℚ) (feasible_only : Bool)
    (generator : List (Nat × Nat × Nat × Nat) → List (Nat × Nat × Nat × Nat)) :
    Option (Schedule × ℚ) :=
  if P.m = 0 ∨ P.m + 1 ≤ entry.1.length then
    shakeLoop P entry feasible_only (move entry.1) (generator (movements P entry))
  else none

end Reassignement

namespace Swap

/-- The schedule a movement `(l1, l2, idx1, idx2, target1, target2)` yields: erase
`maneuver1` from `l1` and `maneuver2` from `l2`, insert `maneuver1` into `l2` at `target1`
and `maneuver2` into `l1` at `target2`. -/
def move (schedule : Schedule) (movement : Nat × Nat × Nat × Nat × Nat × Nat) : Schedule :=
  insertAt
    (insertAt
      (eraseAt (eraseAt schedule movement.1 movement.2.2.1) movement.2.1 movement.2.2.2.1)
      movement.2.1 movement.2.2.2.2.1 (maneuverAt schedule movement.1 movement.2.2.1))
    movement.1 movement.2.2.2.2.2
    (maneuverAt (eraseAt schedule movement.1 movement.2.2.1) movement.2.1 movement.2.2.2.1)

/-- The function `Swap::best_improvement`. Its loops read `entry[l]` for `l = 1..m`. -/
def best_improvement (P : Problem) (entry : Schedule × ℚ) : Option (Schedule × ℚ) :=
  if P.m = 0 ∨ P.m + 1 ≤ entry.1.length then
    (List.range' 1 P.m).foldlM
      (fun best_neighbor l1 =>
        if (teamOf entry.1 l1).length > 0 then
          (List.range' (l1 + 1) (P.m - l1)).foldlM
            (fun best_neighbor l2 =>
              if (teamOf entry.1 l2).length > 0 then
                (List.range (teamOf entry.1 l1).length).foldlM
                  (fun best_neighbor idx1 =>
                    (List.range (teamOf entry.1 l2).length).foldlM
                      (fun best_neighbor idx2 =>
                        (List.range ((teamOf entry.1 l2).length - 1 + 1)).foldlM
                          (fun best_neighbor target1 =>
                            (List.range ((teamOf entry.1 l1).length - 1 + 1)).foldlM
                              (fun best_neighbor target2 =>
                                keepBetter P best_neighbor
                                  (move entry.1 (l1, l2, idx1, idx2, target1, target2)))
                              best_neighbor)
                          best_neighbor)
                      best_neighbor)
                  best_neighbor
              else some best_neighbor)
            best_neighbor
        else some best_neighbor)
      entry
  else none

/-- The vector `movements` of `Swap::first_improvement` and `Swap::shake`: the tuples
`(l1, l2, idx1, idx2, target1, target2)`. -/
def movements (P : Problem) (entry : Schedule × ℚ) :
    List (Nat × Nat × Nat × Nat × Nat × Nat) :=
  ((List.range' 1 P.m).filter (fun l1 => decide ((teamOf entry.1 l1).length > 0))).flatMap
    (fun l1 =>
      ((List.range' (l1 + 1) (P.m - l1)).filter
        (fun l2 => decide ((teamOf entry.1 l2).length > 0))).flatMap (fun l2 =>
        (List.range (teamOf entry.1 l1).length).flatMap (fun idx1 =>
          (List.range (teamOf entry.1 l2).length).flatMap (fun idx2 =>
            (List.range ((teamOf entry.1 l2).length - 1 + 1)).flatMap (fun target1 =>
              (List.range ((teamOf entry.1 l1).length - 1 + 1)).map (fun target2 =>
                (l1, l2, idx1, idx2, target1, target2)))))))

/-- The function `Swap::first_improvement`. -/
def first_improvement (P : Problem) (entry : Schedule × ℚ)
    (generator : List (Nat × Nat × Nat × Nat × Nat × Nat) →
      List (Nat × Nat × Nat × Nat × Nat × Nat)) : Option (Schedule × ℚ) :=
  if P.m = 0 ∨ P.m + 1 ≤ entry.1.length then
    firstImprovementLoop P entry (move entry.1) (generator (movements P entry))
  else none

/-- The function `Swap::shake`. -/
def shake (P : Problem) (entry : Schedule × ℚ) (feasible_only : Bool)
    (generator : List (Nat × Nat × Nat × Nat × Nat × Nat) →
      List (Nat × Nat × Nat × Nat × Nat × Nat)) : Option (Schedule × ℚ) :=
  if P.m = 0 ∨ P.m + 1 ≤ entry.1.length then
    shakeLoop P entry feasible_only (move entry.1) (generator (movements P entry))
  else none

end Swap

/-- The subclasses of the abstract class `Neighborhood` (neighborhood.h). -/
inductive Neighborhood
  | Shift
  | Reassignement
  | Swap
  deriving DecidableEq, Repr

/-- The virtual call `neighborhood.best_improvement(problem, entry)`. -/
def Neighborhood.best_improvement (neighborhood : Neighborhood) (P : Problem)
    (entry : Schedule × ℚ) : Option (Schedule × ℚ) :=
  match neighborhood with
  | Neighborhood.Shift => Shift.best_improvement P entry
  | Neighborhood.Reassignement => Reassignement.best_improvement P entry
  | Neighborhood.Swap => Swap.best_improvement P entry

/-! ## Local search (local_search.cpp) -/

namespace LocalSearch

/-- The loop `while (!stop)` of `LocalSearch::best_improvement`, for a neighborhood whose
`best_improvement` is `step`, unrolled at most `fuel` times; `none` when a call of `step`
has no defined result or `fuel` passes do not reach `stop`. -/
def descend (step : Schedule × ℚ → Option (Schedule × ℚ)) :
    Nat → Schedule × ℚ → Option (Schedule × ℚ)
  | 0, _ => none
  | fuel + 1, incumbent =>
    match step incumbent with
    | none => none
    | some neighbor =>
      if utils.is_lower neighbor.2 incumbent.2 = true then descend step fuel neighbor
      else some incumbent

/-- The function `LocalSearch::best_improvement`, with the loop unrolled at most `fuel`
times. -/
def best_improvement (P : Problem) (entry : Schedule × ℚ) (neighborhood : Neighborhood)
    (fuel : Nat) : Option (Schedule × ℚ) :=
  descend (neighborhood.best_improvement P) fuel entry

/-- The loop `while (k != neighborhoods.end())` of `LocalSearch::best_improvement_vnd`:
`rest` is the list from the iterator `k` on. -/
def vndLoop (steps : List (Schedule × ℚ → Option (Schedule × ℚ))) :
    Nat → List (Schedule × ℚ → Option (Schedule × ℚ)) → Schedule × ℚ → Option (Schedule × ℚ)
  | _, [], incumbent => some incumbent
  | 0, _ :: _, _ => none
  | fuel + 1, step :: rest, incumbent =>
    match step incumbent with
    | none => none
    | some neighbor =>
      if utils.is_lower neighbor.2 incumbent.2 = true then vndLoop steps fuel steps neighbor
      else vndLoop steps fuel rest incumbent

/-- The function `LocalSearch::best_improvement_vnd`, with the loop unrolled at most `fuel`
times. -/
def best_improvement_vnd (P : Problem) (entry : Schedule × ℚ)
    (neighborhoods : List Neighborhood) (fuel : Nat) : Option (Schedule × ℚ) :=
  vndLoop (neighborhoods.map (fun neighborhood => neighborhood.best_improvement P)) fuel
    (neighborhoods.map (fun neighborhood => neighborhood.best_improvement P)) entry

end LocalSearch

/-! ## Concrete instances -/

/-- Two MANUAL switches on one team, no precedence, zero travel, durations 1 and 10. -/
def exTravel : Problem :=
  { n := 2, m := 1
    technology := fun _ => Technology.MANUAL
    p := fun i => if i = 1 then 1 else if i = 2 then 10 else 0
    c := fun _ _ _ => 0
    predecessors := fun _ => []
    successors := fun _ => [] }

/-- One MANUAL switch 1 of duration 5 preceding the REMOTE switch 2; REMOTE switch 3 free. -/
def exRemote : Problem :=
  { n := 3, m := 1
    technology := fun i => if i = 1 then Technology.MANUAL else Technology.REMOTE
    p := fun i => if i = 1 then 5 else 0
    c := fun _ _ _ => 0
    predecessors := fun j => if j = 2 then [1] else []
    successors := fun i => if i = 1 then [2] else [] }


/-- Two MANUAL switches on one team, switch 1 of duration 5 preceding switch 2. -/
def exChain : Problem :=
  { n := 2, m := 1
    technology := fun _ => Technology.MANUAL
    p := fun i => if i = 1 then 5 else 0
    c := fun _ _ _ => 0
    predecessors := fun j => if j = 2 then [1] else []
    successors := fun i => if i = 1 then [2] else [] }

/-- Two MANUAL switches of zero duration on one team; every travel takes 1 except the
travel from switch 2 to switch 1, which takes 0.999999: visiting 1 then 2 ends at 2 and
visiting 2 then 1 ends at 1.999999. -/
def exNear : Problem :=
  { n := 2, m := 1
    technology := fun _ => Technology.MANUAL
    p := fun _ => 0
    c := fun i j _ => if i = 2 ∧ j = 1 then 999999 / 1000000 else 1
    predecessors := fun _ => []
    successors := fun _ => [] }

/-- Two MANUAL switches of duration 1 and two teams, no precedence; the only travel that
takes time is the one from the depot to switch `l` by team `l`, which takes 5. -/
def exTwoTeams : Problem :=
  { n := 2, m := 2
    technology := fun _ => Technology.MANUAL
    p := fun _ => 1
    c := fun i j l => if i = 0 ∧ j = l then 5 else 0
    predecessors := fun _ => []
    successors := fun _ => [] }

/-- Three MANUAL switches of durations 2, 3 and 1 and one team, no precedence, zero travel
costs. -/
def exSerial : Problem :=
  { n := 3, m := 1
    technology := fun _ => Technology.MANUAL
    p := fun i => if i = 1 then 2 else if i = 2 then 3 else if i = 3 then 1 else 0
    c := fun _ _ _ => 0
    predecessors := fun _ => []
    successors := fun _ => [] }

/-! ## Specification predicates -/

/-- The switch ids of teams `0..m`, in list order. -/
def switchIds (P : Problem) (schedule : Schedule) : List Int :=
  (schedule.take (P.m + 1)).flatten.map Prod.fst

/-- Teams `0..m` of the schedule hold each switch `1..n` exactly once and nothing else. -/
def placesEachSwitchOnce (P : Problem) (schedule : Schedule) : Prop :=
  (switchIds P schedule).Perm ((List.range' 1 P.n).map Int.ofNat)

/-- The constraint classes of `is_feasible`, in the order of its checks. -/
inductive Violation
  | teamCount
  | switchIds
  | assignment
  | remote
  | manual
  | precedence
  | sequence
  | travel
  deriving DecidableEq, Repr

/-- The diagnostic of a constraint class. -/
def Violation.message : Violation → String
  | Violation.teamCount => "The number of maintenance teams is wrong."
  | Violation.switchIds => "Using invalid switch IDs."
  | Violation.assignment =>
    "There are switches assigned to more than one team or not assigned to any team."
  | Violation.remote => "Non-remote controlled switch assigned to dummy team 0."
  | Violation.manual => "Non-manual controlled switch assigned to a maintenace team."
  | Violation.precedence => "Precedence rules violated."
  | Violation.sequence => "Moments not consistent to the sequence."
  | Violation.travel => "Moments not consistent to travel times."

/-- The schedule violates a constraint class, stated on the schedule itself. The three
timing classes are the comparisons `is_feasible` makes, with its tolerance. -/
def violates (P : Problem) (schedule : Schedule) : Violation → Prop
  | Violation.teamCount => schedule.length ≠ P.m + 1
  | Violation.switchIds => ∃ x ∈ switchIds P schedule, x < 1 ∨ (P.n : Int) < x
  | Violation.assignment =>
    ∃ i : Nat, 1 ≤ i ∧ i ≤ P.n ∧ (switchIds P schedule).count (i : Int) ≠ 1
  | Violation.remote =>
    ∃ mv ∈ teamOf schedule 0, P.technology mv.1.toNat ≠ Technology.REMOTE
  | Violation.manual =>
    ∃ l, 1 ≤ l ∧ l ≤ P.m ∧ ∃ mv ∈ teamOf schedule l, P.technology mv.1.toNat ≠ Technology.MANUAL
  | Violation.precedence =>
    ∃ j, 1 ≤ j ∧ j ≤ P.n ∧ ∃ i ∈ P.predecessors j,
      P.moments schedule j + EPS < P.moments schedule i
  | Violation.sequence =>
    ∃ l, l ≤ P.m ∧ ∃ idx, 0 < idx ∧ idx < (teamOf schedule l).length ∧
      momentAt schedule l idx + EPS < momentAt schedule l (idx - 1)
  | Violation.travel =>
    ∃ l, 1 ≤ l ∧ l ≤ P.m ∧
      ((0 < (teamOf schedule l).length ∧
        momentAt schedule l 0 + EPS < P.c 0 (switchAt schedule l 0) l) ∨
       ∃ idx, 0 < idx ∧ idx < (teamOf schedule l).length ∧
        momentAt schedule l idx + EPS <
          momentAt schedule l (idx - 1) + P.p (switchAt schedule l idx) +
            P.c (switchAt schedule l (idx - 1)) (switchAt schedule l idx) l)

instance placesEachSwitchOnce.decide (P : Problem) (schedule : Schedule) :
    Decidable (placesEachSwitchOnce P schedule) := by
  unfold placesEachSwitchOnce
  infer_instance

/-- Facts about the positions `(l, idx)` of teams `0..m` that follow from
`placesEachSwitchOnce`. -/
structure Slots (P : Problem) (schedule : Schedule) : Prop where
  bounds : ∀ l idx, l < P.m + 1 → idx < (teamOf schedule l).length →
    0 < (maneuverAt schedule l idx).1 ∧
    1 ≤ switchAt schedule l idx ∧ switchAt schedule l idx ≤ P.n
  inj : ∀ l idx l1 idx1, l < P.m + 1 → idx < (teamOf schedule l).length → l1 < P.m + 1 →
    idx1 < (teamOf schedule l1).length →
    switchAt schedule l idx = switchAt schedule l1 idx1 → l = l1 ∧ idx = idx1
  total : ∑ l in Finset.range (P.m + 1), (teamOf schedule l).length = P.n
  surj : ∀ k, 1 ≤ k → k ≤ P.n →
    ∃ l idx, l < P.m + 1 ∧ idx < (teamOf schedule l).length ∧ switchAt schedule l idx = k

/-- Switch `i` has been fixed: it sits in front of the cursor of its team. -/
def processed (P : Problem) (schedule : Schedule) (index : Nat → Nat) (i : Nat) : Prop :=
  ∃ l idx, l < P.m + 1 ∧ idx < index l ∧ switchAt schedule l idx = i

/-- What the first loop of `utils::evaluate` leaves in `t` when each switch is placed
once. -/
structure TInit (P : Problem) (schedule : Schedule) (t : Nat → Option utils.Ptr) : Prop where
  slot : ∀ l idx, l < P.m + 1 → idx < (teamOf schedule l).length →
    t (switchAt schedule l idx) = some (utils.Ptr.slot l idx)
  zero : t 0 = some utils.Ptr.t0

/-- Invariant of the main loop of `utils::evaluate` that needs no assumption on the
precedence sets. -/
structure BasicInv (P : Problem) (schedule : Schedule) (s : utils.EvalState) : Prop where
  idx_le : ∀ l, l < P.m + 1 → s.index l ≤ (teamOf schedule l).length
  loc : ∀ l, l < P.m + 1 →
    s.location l = if s.index l = 0 then 0 else switchAt schedule l (s.index l - 1)
  done : s.n_done = ∑ l in Finset.range (P.m + 1), s.index l
  t0 : s.mem utils.Ptr.t0 = 0
  travel : ∀ l idx, 1 ≤ l → l < P.m + 1 → idx < s.index l →
    (if idx = 0 then 0 + P.p 0 + P.c 0 (switchAt schedule l 0) l
      else s.mem (utils.Ptr.slot l (idx - 1)) + P.p (switchAt schedule l (idx - 1)) +
        P.c (switchAt schedule l (idx - 1)) (switchAt schedule l idx) l) ≤
      s.mem (utils.Ptr.slot l idx)
  span : ∀ x, s.makespan ≤ x ↔
    0 ≤ x ∧ ∀ l idx, l < P.m + 1 → idx < s.index l →
      s.mem (utils.Ptr.slot l idx) + P.p (switchAt schedule l idx) ≤ x

open Classical in
/-- Invariant of the main loop of `utils::evaluate` on the pending counters and the
precedence bounds. -/
structure PrecInv (P : Problem) (schedule : Schedule) (s : utils.EvalState) : Prop where
  pend : ∀ l idx, l < P.m + 1 → idx < (teamOf schedule l).length →
    s.pendings (switchAt schedule l idx) =
      (((P.predecessors (switchAt schedule l idx)).countP
        (fun i => decide (¬ processed P schedule s.index i)) : Nat) : Int)
  prec : ∀ l idx, l < P.m + 1 → idx < s.index l → ∀ i ∈ P.predecessors (switchAt schedule l idx),
    ∃ l1 idx1, l1 < P.m + 1 ∧ idx1 < s.index l1 ∧ switchAt schedule l1 idx1 = i ∧
      s.mem (utils.Ptr.slot l1 idx1) + P.p i ≤ s.mem (utils.Ptr.slot l idx)

/-- The sets `predecessors` and `successors` hold no element twice and are inverse to
each other, as the constructor of `Problem` builds them. -/
structure Problem.inverseSets (P : Problem) : Prop where
  nodupPred : ∀ j, (P.predecessors j).Nodup
  nodupSucc : ∀ i, (P.successors i).Nodup
  inverse : ∀ i j, i ∈ P.predecessors j ↔ j ∈ P.successors i

/-- The neighbor `(cand, 0.0)` is marked feasible by `utils::evaluate` with a makespan
strictly below the recorded makespan of the entry. -/
def improving (P : Problem) (entry : Schedule × ℚ) (cand : Schedule) : Prop :=
  ∃ out, utils.evaluate P (cand, 0) = some (true, out) ∧ out.2 < entry.2

/-- The neighbor `(cand, 0.0)` is marked feasible by `utils::evaluate`. -/
def feasibleNeighbor (P : Problem) (cand : Schedule) : Prop :=
  ∃ out, utils.evaluate P (cand, 0) = some (true, out)

/-- Shift move space: `cand` is the schedule with one maneuver of a team `l` in `0..m`
removed and put back at a different position of the same list. -/
def Shift.neighbor (P : Problem) (schedule cand : Schedule) : Prop :=
  ∃ l idx_origin idx_target, l ≤ P.m ∧ idx_origin < (teamOf schedule l).length ∧
    idx_target < (teamOf schedule l).length ∧ idx_target ≠ idx_origin ∧
    cand = schedule.set l
      (((teamOf schedule l).eraseIdx idx_origin).insertIdx idx_target
        (maneuverAt schedule l idx_origin))

/-- Reassignment move space: `cand` is the schedule with one maneuver removed from a team
`l_origin` in `1..m` and inserted at a position `0..|list|` of another team `l_target` in
`1..m`. -/
def Reassignement.neighbor (P : Problem) (schedule cand : Schedule) : Prop :=
  ∃ l_origin idx_origin l_target idx_target,
    1 ≤ l_origin ∧ l_origin ≤ P.m ∧ 1 ≤ l_target ∧ l_target ≤ P.m ∧ l_target ≠ l_origin ∧
    idx_origin < (teamOf schedule l_origin).length ∧
    idx_target ≤ (teamOf schedule l_target).length ∧
    cand = (schedule.set l_origin ((teamOf schedule l_origin).eraseIdx idx_origin)).set l_target
      ((teamOf schedule l_target).insertIdx idx_target (maneuverAt schedule l_origin idx_origin))

/-- Swap move space: for physical teams `l1 < l2`, one maneuver is removed from each, the
one of `l1` is inserted at a position of the remaining list of `l2` and the one of `l2` at
a position of the remaining list of `l1`. -/
def Swap.neighbor (P : Problem) (schedule cand : Schedule) : Prop :=
  ∃ l1 l2 idx1 idx2 target1 target2,
    1 ≤ l1 ∧ l1 < l2 ∧ l2 ≤ P.m ∧
    idx1 < (teamOf schedule l1).length ∧ idx2 < (teamOf schedule l2).length ∧
    target1 < (teamOf schedule l2).length ∧ target2 < (teamOf schedule l1).length ∧
    cand = (schedule.set l1
        (((teamOf schedule l1).eraseIdx idx1).insertIdx target2 (maneuverAt schedule l2 idx2))).set
      l2 (((teamOf schedule l2).eraseIdx idx2).insertIdx target1 (maneuverAt schedule l1 idx1))

/-- The move space of a neighborhood. -/
def Neighborhood.neighbor (neighborhood : Neighborhood) (P : Problem)
    (schedule cand : Schedule) : Prop :=
  match neighborhood with
  | Neighborhood.Shift => Shift.neighbor P schedule cand
  | Neighborhood.Reassignement => Reassignement.neighbor P schedule cand
  | Neighborhood.Swap => Swap.neighbor P schedule cand

/-- What a best-improvement scan of the move space `space` returns from `entry`: the entry
itself when no neighbor is improving, else the evaluation of a neighbor that is feasible
and of least makespan among the feasible neighbors. -/
def bestOf (P : Problem) (space : Schedule → Prop) (entry r : Schedule × ℚ) : Prop :=
  ((∀ cand, space cand → ¬ improving P entry cand) → r = entry) ∧
  ((∃ cand, space cand ∧ improving P entry cand) →
    (∃ cand, space cand ∧ utils.evaluate P (cand, 0) = some (true, r)) ∧
    ∀ cand out, space cand → utils.evaluate P (cand, 0) = some (true, out) → r.2 ≤ out.2)

/-- The schedule has the `m+1` team lists the loops read and places each switch once. -/
def wellFormed (P : Problem) (schedule : Schedule) : Prop :=
  P.m + 1 ≤ schedule.length ∧ placesEachSwitchOnce P schedule

/-- What the loop of a `first_improvement` returns on the shuffled candidates: the
evaluation of the first improving candidate, or the entry when no candidate is improving. -/
def firstImproving (P : Problem) (entry : Schedule × ℚ) (shuffled : List Schedule)
    (r : Schedule × ℚ) : Prop :=
  (∃ pre cand post, shuffled = pre ++ cand :: post ∧ (∀ c ∈ pre, ¬ improving P entry c) ∧
      utils.evaluate P (cand, 0) = some (true, r) ∧ r.2 < entry.2) ∨
  ((∀ c ∈ shuffled, ¬ improving P entry c) ∧ r = entry)

/-- What the loop of a `shake` with `feasible_only = true` returns on the shuffled
candidates: the evaluation of the first feasible candidate, or the entry when no candidate
is feasible. -/
def firstFeasible (P : Problem) (entry : Schedule × ℚ) (shuffled : List Schedule)
    (r : Schedule × ℚ) : Prop :=
  (∃ pre cand post, shuffled = pre ++ cand :: post ∧ (∀ c ∈ pre, ¬ feasibleNeighbor P c) ∧
      utils.evaluate P (cand, 0) = some (true, r)) ∨
  ((∀ c ∈ shuffled, ¬ feasibleNeighbor P c) ∧ r = entry)

/-- What the loop of a `shake` with `feasible_only = false` returns on the shuffled
candidates: the entry when there is no candidate, else the evaluation of the very first
one, whose makespan is `DBL_MAX` when it is not feasible. -/
def veryFirst (P : Problem) (entry : Schedule × ℚ) (shuffled : List Schedule)
    (r : Schedule × ℚ) : Prop :=
  match shuffled with
  | [] => r = entry
  | cand :: _ =>
    ∃ b, utils.evaluate P (cand, 0) = some (b, r) ∧ (b = false → r.2 = DBL_MAX)

/-- The switch ids of all team lists, position by position. -/
def ids (schedule : Schedule) : List (List Int) := schedule.map (List.map Prod.fst)

/-- Bound on the number of accepted rounds of a descent from a recorded makespan: each
accepted round lowers the makespan by at least `THRESHOLD` and no makespan written by the
evaluator is negative. -/
def rounds (makespan : ℚ) : Nat := ⌊makespan / utils.THRESHOLD⌋₊

/-- What a `first_improvement` over the move space `space` returns when its loop runs over
the candidates `shuffled`: these are the neighbors of the space, the result is the
evaluation of the first improving one, and it is the entry exactly when the space has no
improving neighbor. -/
def firstImprovementOf (P : Problem) (space : Schedule → Prop) (entry : Schedule × ℚ)
    (shuffled : List Schedule) (r : Schedule × ℚ) : Prop :=
  (∀ cand, cand ∈ shuffled ↔ space cand) ∧ firstImproving P entry shuffled r ∧
    (r = entry ↔ ∀ cand, space cand → ¬ improving P entry cand)

/-- What a `shake` over the move space `space` returns when its loop runs over the
candidates `shuffled`. With `feasible_only` it is the evaluation of the first feasible
candidate, the entry when the space has no feasible neighbor. Without, it is the
evaluation of the very first candidate; the entry is returned when the space is empty,
and for a well-formed entry only then. -/
def shakeOf (P : Problem) (space : Schedule → Prop) (entry : Schedule × ℚ)
    (feasible_only : Bool) (shuffled : List Schedule) (r : Schedule × ℚ) : Prop :=
  (∀ cand, cand ∈ shuffled ↔ space cand) ∧
  (feasible_only = true → firstFeasible P entry shuffled r ∧
    ((∀ cand, space cand → ¬ feasibleNeighbor P cand) → r = entry)) ∧
  (feasible_only = false → veryFirst P entry shuffled r ∧
    ((∀ cand, ¬ space cand) → r = entry) ∧
    (wellFormed P entry.1 → r = entry → ∀ cand, ¬ space cand))

/-- The result `r` leaves team 0 as in the entry and has either the switch ids of the
entry or those of the entry with one maneuver moved between two distinct teams of
`1..m`. -/
def Reassignement.movesAtMostOne (P : Problem) (entry r : Schedule × ℚ) : Prop :=
  (teamOf r.1 0).map Prod.fst = (teamOf entry.1 0).map Prod.fst ∧
  (ids r.1 = ids entry.1 ∨
    ∃ cand, Reassignement.neighbor P entry.1 cand ∧ ids r.1 = ids cand)

/-- Edge `i → j` of the order graph of a schedule: `i` is a direct predecessor of the
switch `j` of `1..n`, or `j` is the maneuver next to `i` in a team list `0..m`. -/
def follows (P : Problem) (schedule : Schedule) (i j : Nat) : Prop :=
  (1 ≤ j ∧ j ≤ P.n ∧ i ∈ P.predecessors j) ∨
  ∃ l idx, l ≤ P.m ∧ idx + 1 < (teamOf schedule l).length ∧
    switchAt schedule l idx = i ∧ switchAt schedule l (idx + 1) = j

/-- The order graph of the schedule has no cycle. -/
def acyclic (P : Problem) (schedule : Schedule) : Prop :=
  ∀ i, ¬ Relation.TransGen (follows P schedule) i i

/-- The moments `τ l idx`, one for each position of the team lists `0..m`, respect every
timing lower bound: they are not negative, a maneuver starts after each direct predecessor
of its switch has finished, the first maneuver of a physical team starts after the travel
from the depot, and the next one after the duration of the one before and the travel
between the two. -/
structure admissible (P : Problem) (schedule : Schedule) (τ : Nat → Nat → ℚ) : Prop where
  nonneg : ∀ l idx, l ≤ P.m → idx < (teamOf schedule l).length → 0 ≤ τ l idx
  precedence : ∀ l idx l1 idx1, l ≤ P.m → idx < (teamOf schedule l).length → l1 ≤ P.m →
    idx1 < (teamOf schedule l1).length →
    switchAt schedule l1 idx1 ∈ P.predecessors (switchAt schedule l idx) →
    τ l1 idx1 + P.p (switchAt schedule l1 idx1) ≤ τ l idx
  first : ∀ l, 1 ≤ l → l ≤ P.m → 0 < (teamOf schedule l).length →
    P.c 0 (switchAt schedule l 0) l ≤ τ l 0
  next : ∀ l idx, 1 ≤ l → l ≤ P.m → idx + 1 < (teamOf schedule l).length →
    τ l idx + P.p (switchAt schedule l idx) +
      P.c (switchAt schedule l idx) (switchAt schedule l (idx + 1)) l ≤ τ l (idx + 1)

/-- The moments fixed so far by the main loop of `utils::evaluate` are at most the
moments `τ`. -/
def earliest (P : Problem) (τ : Nat → Nat → ℚ) (s : utils.EvalState) : Prop :=
  ∀ l idx, l < P.m + 1 → idx < s.index l → s.mem (utils.Ptr.slot l idx) ≤ τ l idx

/-- The order graph has no cycle among the switches fixed so far. -/
def acyclicOn (P : Problem) (schedule : Schedule) (index : Nat → Nat) : Prop :=
  ∀ v, ¬ Relation.TransGen
    (fun a b => follows P schedule a b ∧ processed P schedule index a ∧
      processed P schedule index b) v v

/-- The sum of the durations of the first `idx` maneuvers of a team list. -/
def elapsed (P : Problem) (team : List Maneuver) (idx : Nat) : ℚ :=
  ((team.take idx).map (fun mv => P.p mv.1.toNat)).sum

/-! ## The precedence matrix (constructor of `Problem`, problem.cpp 95-130) -/

/-- The call `pending.insert(k)` on a `std::set<int>`, kept as the list of its elements in
increasing order. -/
def setInsert (k : Nat) (pending : List Nat) : List Nat :=
  if k ∈ pending then pending else List.orderedInsert (fun a b => a ≤ b) k pending

/-- The variables of the loop that computes the precedence matrix. -/
structure ClosureState where
  pending : List Nat
  processed : Nat → Bool
  precedence_matrix : Nat → Nat → Bool

/-- The body of `while (!pending.empty())` for the column `j`, with `i` the element taken
from `pending.begin()` and `rest` the set after `pending.erase(iter)`. -/
def closureStep (predecessors : Nat → List Nat) (j : Nat) (s : ClosureState) (i : Nat)
    (rest : List Nat) : ClosureState :=
  { pending :=
      (predecessors i).foldl
        (fun pending k =>
          if (Function.update s.processed i true) k = false then setInsert k pending
          else pending)
        rest
    processed := Function.update s.processed i true
    precedence_matrix :=
      Function.update s.precedence_matrix i (Function.update (s.precedence_matrix i) j true) }

/-- The loop `while (!pending.empty())`, unrolled at most `fuel` times; `none` when `fuel`
passes do not empty `pending`. -/
def closureLoop (predecessors : Nat → List Nat) (j : Nat) :
    Nat → ClosureState → Option ClosureState
  | fuel, s =>
    match s.pending with
    | [] => some s
    | i :: rest =>
      match fuel with
      | 0 => none
      | fuel + 1 => closureLoop predecessors j fuel (closureStep predecessors j s i rest)

/-- One pass of the loop `for (std::size_t j = 1; j <= n; ++j)`: clear `processed` and
`pending`, insert the predecessors of `j`, run the inner loop. Each pass of the inner loop
checks a switch that was not checked before, so `n` passes are enough when the
predecessor ids are switches `1..n`. -/
def closureColumn (n : Nat) (predecessors : Nat → List Nat)
    (precedence_matrix : Nat → Nat → Bool) (j : Nat) : Option (Nat → Nat → Bool) :=
  (closureLoop predecessors j n
    { pending := (predecessors j).foldl (fun pending i => setInsert i pending) []
      processed := fun _ => false
      precedence_matrix := precedence_matrix }).map (fun s => s.precedence_matrix)

/-- The full precedence matrix as the constructor of `Problem` computes it from the
predecessor sets. -/
def precedenceMatrix (n : Nat) (predecessors : Nat → List Nat) : Option (Nat → Nat → Bool) :=
  (List.range' 1 n).foldlM (closureColumn n predecessors) (fun _ _ => false)

/-- There is a chain `i = v0, v1, ..., vk = j` with `k ≥ 1` in which each switch is a direct
predecessor of the next. -/
def precedes (predecessors : Nat → List Nat) (i j : Nat) : Prop :=
  Relation.TransGen (fun a b => a ∈ predecessors b) i j

/-- Invariant of the loop `while (!pending.empty())` for the column `j`, from the matrix
`M0` at the start of the column. -/
structure ClosureInv (predecessors : Nat → List Nat) (j : Nat) (M0 : Nat → Nat → Bool)
    (s : ClosureState) : Prop where
  nodup : s.pending.Nodup
  sound : ∀ i, s.processed i = true → precedes predecessors i j
  pend : ∀ i ∈ s.pending, precedes predecessors i j ∧ s.processed i = false
  start : ∀ i ∈ predecessors j, s.processed i = true ∨ i ∈ s.pending
  closed : ∀ i, s.processed i = true →
    ∀ k ∈ predecessors i, s.processed k = true ∨ k ∈ s.pending
  column : ∀ i, s.precedence_matrix i j = s.processed i
  others : ∀ i j1, j1 ≠ j → s.precedence_matrix i j1 = M0 i j1

/-- Two MANUAL switches on one team, each the direct predecessor of the other. -/
def exCycle : Problem :=
  { n := 2, m := 1
    technology := fun _ => Technology.MANUAL
    p := fun i => if i = 0 then 0 else 1
    c := fun _ _ _ => 0
    predecessors := fun j => if j = 1 then [2] else if j = 2 then [1] else []
    successors := fun i => if i = 1 then [2] else if i = 2 then [1] else [] }

/-! ## Iterated local search (heur_ils.cpp) -/

/-- The random number generator `std::mt19937` as `ILS` uses it, over states `γ`:
`seed` is `generator.seed(seed)`, `draw` the call `generator()` and `shuffle` the call
`std::shuffle(first, last, generator)`, each with the state it leaves. -/
structure Generator (γ : Type) where
  seed : Nat → γ
  draw : γ → Nat × γ
  shuffle : γ → List Nat → List Nat × γ

/-- The shuffle returns a permutation of its argument. -/
def Generator.lawful {γ : Type} (R : Generator γ) : Prop :=
  ∀ g xs, (R.shuffle g xs).1.Perm xs

/-- The options `ILS::solve` reads from `opt_input`. -/
structure Settings where
  verbose : Bool
  seed : Nat
  time_limit : ℚ
  iterations_limit : Int
  perturbation_passes_limit : Int

/-- The call `LocalSearch::best_improvement_vnd(problem, entry, neighborhoods)` of
`ILS::solve`, with the list `{Shift, Reassignement, Swap}`. The loop is given
`rounds entry.2 * 4 + 3` passes, which are enough on well-formed entries
(`vndLoop_defined`). -/
def LocalSearch.vnd (P : Problem) (entry : Schedule × ℚ) : Option (Schedule × ℚ) :=
  LocalSearch.best_improvement_vnd P entry
    [Neighborhood.Shift, Neighborhood.Reassignement, Neighborhood.Swap]
    (rounds entry.2 * 4 + 3)

namespace ILS

/-- The loop `for (auto idx_target : indexes)` of `ILS::perturb`: insert `operation` at
`idx_target` of the target list, evaluate the entry, stop when it is feasible, else erase
the maneuver again. The result is the flag `success` and the entry; an insertion behind
the end of the list has no defined result. -/
def tryPositions (P : Problem) (l_target : Nat) (operation : Maneuver) :
    Schedule × ℚ → List Nat → Option (Bool × (Schedule × ℚ))
  | perturbed, [] => some (false, perturbed)
  | perturbed, idx_target :: rest =>
    if idx_target ≤ (teamOf perturbed.1 l_target).length then
      match utils.evaluate P
          (insertAt perturbed.1 l_target idx_target operation, perturbed.2) with
      | none => none
      | some (is_feasible, evaluated) =>
        if is_feasible = true then some (true, evaluated)
        else
          tryPositions P l_target operation
            (eraseAt evaluated.1 l_target idx_target, evaluated.2) rest
    else none

/-- One reassignment of the ejection chain once `idx_origin` is drawn and `indexes` is
shuffled (heur_ils.cpp 166-202): take the maneuver out of the origin list, try the
positions of the target list, and when none is feasible put the maneuver back and
evaluate the entry. -/
def relocate (P : Problem) (perturbed : Schedule × ℚ) (l_origin idx_origin l_target : Nat)
    (indexes : List Nat) : Option (Schedule × ℚ) :=
  match tryPositions P l_target (maneuverAt perturbed.1 l_origin idx_origin)
      (eraseAt perturbed.1 l_origin idx_origin, perturbed.2) indexes with
  | none => none
  | some (success, moved) =>
    if success = true then some moved
    else
      (utils.evaluate P
        (insertAt moved.1 l_origin idx_origin (maneuverAt perturbed.1 l_origin idx_origin),
          moved.2)).map (fun result => result.2)

/-- The body of the loop `for (int idx = 0; idx < chain.size(); ++idx)` of `ILS::perturb`,
on the entry and the generator. Reading `schedule[l]` needs `l` to index a team list. -/
def chainStep {γ : Type} (R : Generator γ) (P : Problem) (chain : List Nat)
    (state : (Schedule × ℚ) × γ) (idx : Nat) : Option ((Schedule × ℚ) × γ) :=
  let l_origin := chain.getD idx 0
  let l_target := chain.getD ((idx + 1) % chain.length) 0
  if l_origin < state.1.1.length then
    if (teamOf state.1.1 l_origin).length ≠ 0 then
      let drawn := R.draw state.2
      let idx_origin := drawn.1 % (teamOf state.1.1 l_origin).length
      if l_target < state.1.1.length then
        let shuffled := R.shuffle drawn.2
          (List.range ((teamOf (eraseAt state.1.1 l_origin idx_origin) l_target).length + 1))
        (relocate P state.1 l_origin idx_origin l_target shuffled.1).map
          (fun perturbed => (perturbed, shuffled.2))
      else none
    else some state
  else none

/-- The function `ILS::perturb`: the result and the generator after the call. -/
def perturb {γ : Type} (R : Generator γ) (P : Problem) (entry : Schedule × ℚ) (generator : γ) :
    Option ((Schedule × ℚ) × γ) :=
  let chain := R.shuffle generator (List.range' 1 P.m)
  (List.range chain.1.length).foldlM (chainStep R P chain.1) (entry, chain.2)

/-- The loop `for (long i = 1; i < perturbation_passes; ++i)` of `ILS::solve`, for `count`
passes, on the entry with the generator and on the number of calls of `ILS::perturb` made
in the iteration, which each pass increments. -/
def perturbAgain {γ : Type} (R : Generator γ) (P : Problem) :
    Nat → ((Schedule × ℚ) × γ) × Nat → Option (((Schedule × ℚ) × γ) × Nat)
  | 0, state => some state
  | count + 1, state =>
    match perturb R P state.1.1 state.1.2 with
    | none => none
    | some perturbed => perturbAgain R P count (perturbed, state.2 + 1)

/-- The variables of the main loop of `ILS::solve`. -/
structure State (γ : Type) where
  incumbent : Schedule × ℚ
  iteration : Nat
  perturbation_passes : Nat
  iteration_last_improvement : Nat
  generator : γ
  deriving DecidableEq

/-- The test of the main loop of `ILS::solve`; `timer k` is the value of
`timer.count<std::chrono::seconds>()` at the test made after `k` iterations. -/
def continues {γ : Type} (settings : Settings) (timer : Nat → Int) (s : State γ) : Prop :=
  (s.iteration : Int) < settings.iterations_limit ∧
    ((timer s.iteration : Int) : ℚ) < settings.time_limit ∧
    (s.perturbation_passes : Int) ≤ settings.perturbation_passes_limit

instance continues.decide {γ : Type} (settings : Settings) (timer : Nat → Int) (s : State γ) :
    Decidable (continues settings timer s) := by
  unfold continues
  infer_instance

/-- The body of the main loop of `ILS::solve` (heur_ils.cpp 77-110): the variables after
it and the number of calls of `ILS::perturb` it made, one for the first call and one for
each pass of the loop after it. -/
def pass {γ : Type} (R : Generator γ) (P : Problem) (s : State γ) : Option (State γ × Nat) :=
  match perturb R P s.incumbent s.generator with
  | none => none
  | some first =>
    match perturbAgain R P (s.perturbation_passes - 1) (first, 1) with
    | none => none
    | some perturbed =>
      match LocalSearch.vnd P perturbed.1.1 with
      | none => none
      | some trial =>
        if utils.is_lower trial.2 s.incumbent.2 = true then
          some
            ({ incumbent := trial
               iteration := s.iteration + 1
               perturbation_passes := 1
               iteration_last_improvement := s.iteration + 1
               generator := perturbed.1.2 }, perturbed.2)
        else
          some
            ({ incumbent := s.incumbent
               iteration := s.iteration + 1
               perturbation_passes := s.perturbation_passes + 1
               iteration_last_improvement := s.iteration_last_improvement
               generator := perturbed.1.2 }, perturbed.2)

/-- The variables of the main loop of `ILS::solve` after one pass of its body. -/
def iterate {γ : Type} (R : Generator γ) (P : Problem) (s : State γ) : Option (State γ) :=
  (pass R P s).map Prod.fst

/-- The main loop of `ILS::solve`, unrolled at most `fuel` times; `none` when a call has
no defined result or `fuel` passes do not end the loop. -/
def loop {γ : Type} (R : Generator γ) (P : Problem) (settings : Settings)
    (timer : Nat → Int) : Nat → State γ → Option (State γ)
  | fuel, s =>
    if continues settings timer s then
      match fuel with
      | 0 => none
      | fuel + 1 =>
        match iterate R P s with
        | none => none
        | some s1 => loop R P settings timer fuel s1
    else some s

/-- The successive states of the main loop of `ILS::solve` at its test, the first one
before the first iteration. -/
def states {γ : Type} (R : Generator γ) (P : Problem) (settings : Settings)
    (timer : Nat → Int) : Nat → State γ → Option (List (State γ))
  | fuel, s =>
    if continues settings timer s then
      match fuel with
      | 0 => none
      | fuel + 1 =>
        match iterate R P s with
        | none => none
        | some s1 => (states R P settings timer fuel s1).map (fun rest => s :: rest)
    else some [s]

/-- The state in which the main loop of `ILS::solve` starts: the incumbent is the local
optimum that the VND reaches from the start solution. -/
def initial {γ : Type} (R : Generator γ) (P : Problem) (settings : Settings)
    (start : Schedule × ℚ) : Option (State γ) :=
  (LocalSearch.vnd P start).map (fun incumbent =>
    { incumbent := incumbent
      iteration := 0
      perturbation_passes := 1
      iteration_last_improvement := 0
      generator := R.seed settings.seed })

/-- The function `ILS::solve`, from the solution `start` that `Greedy::solve` builds
(heur_greedy.h declares it). The result is the state at the end of the main
loop: `incumbent` is the returned solution and `iteration` the reported `Iterations`. -/
def solve {γ : Type} (R : Generator γ) (P : Problem) (settings : Settings)
    (start : Schedule × ℚ) (timer : Nat → Int) (fuel : Nat) : Option (State γ) :=
  match initial R P settings start with
  | none => none
  | some s => loop R P settings timer fuel s

end ILS

/-- Three MANUAL switches of duration 1 and three teams, no precedence; the travel from the
depot to switch `j` by team `l` takes 0 when `j = l`, 10 when `j` is two teams further
round, else 100, and every other travel takes 0. -/
def exRotate : Problem :=
  { n := 3, m := 3
    technology := fun _ => Technology.MANUAL
    p := fun i => if i = 0 then 0 else 1
    c := fun i j l =>
      if i = 0 then (if j = l then 0 else if j = (l + 1) % 3 + 1 then 10 else 100) else 0
    predecessors := fun _ => []
    successors := fun _ => [] }

/-- A generator without state that always draws 0 and shuffles by reversing. -/
def reversing : Generator Unit :=
  { seed := fun _ => ()
    draw := fun _ => (0, ())
    shuffle := fun _ xs => (xs.reverse, ()) }

/-- The options of a run of one iteration within a time limit of one second. -/
def exSettings : Settings :=
  { verbose := false, seed := 0, time_limit := 1, iterations_limit := 1,
    perturbation_passes_limit := 15 }

/-- A local optimum of `exRotate` for the three neighborhoods: each switch is operated by
the team that is two further round, with makespan 11. -/
def exStart : Schedule × ℚ := ([[], [(3, 10)], [(1, 10)], [(2, 10)]], 11)

/-- Three MANUAL switches of duration 1 and two teams, zero travel, switch 1 preceding
switch 2. -/
def exCrossed : Problem :=
  { n := 3, m := 2
    technology := fun _ => Technology.MANUAL
    p := fun i => if i = 0 then 0 else 1
    c := fun _ _ _ => 0
    predecessors := fun j => if j = 2 then [1] else []
    successors := fun i => if i = 1 then [2] else [] }

/-! ## Randomised search drivers (neighborhood.h, local_search.cpp) -/

/-- The call `std::shuffle(movements.begin(), movements.end(), generator)` on a vector of
movements: the generator shuffles the positions `0..size-1`, and the result holds the
movements in the order of the shuffled positions. -/
def Generator.permute {γ α : Type} (R : Generator γ) (generator : γ) (movements : List α) :
    List α :=
  (R.shuffle generator (List.range movements.length)).1.filterMap (fun i => movements[i]?)

/-- The state of the generator after `std::shuffle` on a vector of `size` movements. -/
def Generator.after {γ : Type} (R : Generator γ) (generator : γ) (size : Nat) : γ :=
  (R.shuffle generator (List.range size)).2

/-- The virtual call `neighborhood.first_improvement(problem, entry, generator)`: the result
and the generator after the call. -/
def Neighborhood.first_improvement {γ : Type} (neighborhood : Neighborhood) (R : Generator γ)
    (P : Problem) (entry : Schedule × ℚ) (generator : γ) : Option ((Schedule × ℚ) × γ) :=
  match neighborhood with
  | Neighborhood.Shift =>
    (Shift.first_improvement P entry (R.permute generator)).map
      (fun r => (r, R.after generator (Shift.movements P entry).length))
  | Neighborhood.Reassignement =>
    (Reassignement.first_improvement P entry (R.permute generator)).map
      (fun r => (r, R.after generator (Reassignement.movements P entry).length))
  | Neighborhood.Swap =>
    (Swap.first_improvement P entry (R.permute generator)).map
      (fun r => (r, R.after generator (Swap.movements P entry).length))

/-- The virtual call `neighborhood.shake(problem, entry, feasible_only, generator)`: the
result and the generator after the call. -/
def Neighborhood.shake {γ : Type} (neighborhood : Neighborhood) (R : Generator γ)
    (P : Problem) (entry : Schedule × ℚ) (feasible_only : Bool) (generator : γ) :
    Option ((Schedule × ℚ) × γ) :=
  match neighborhood with
  | Neighborhood.Shift =>
    (Shift.shake P entry feasible_only (R.permute generator)).map
      (fun r => (r, R.after generator (Shift.movements P entry).length))
  | Neighborhood.Reassignement =>
    (Reassignement.shake P entry feasible_only (R.permute generator)).map
      (fun r => (r, R.after generator (Reassignement.movements P entry).length))
  | Neighborhood.Swap =>
    (Swap.shake P entry feasible_only (R.permute generator)).map
      (fun r => (r, R.after generator (Swap.movements P entry).length))

namespace LocalSearch

/-- The loop `while (!stop)` of `LocalSearch::first_improvement`, for a neighborhood whose
`first_improvement` is `step`, unrolled at most `fuel` times; the generator is handed from
call to call. -/
def descendWith {γ : Type} (step : Schedule × ℚ → γ → Option ((Schedule × ℚ) × γ)) :
    Nat → Schedule × ℚ → γ → Option ((Schedule × ℚ) × γ)
  | 0, _, _ => none
  | fuel + 1, incumbent, generator =>
    match step incumbent generator with
    | none => none
    | some neighbor =>
      if utils.is_lower neighbor.1.2 incumbent.2 = true then
        descendWith step fuel neighbor.1 neighbor.2
      else some (incumbent, neighbor.2)

/-- The function `LocalSearch::first_improvement`, with the loop unrolled at most `fuel`
times: the result and the generator after the call. -/
def first_improvement {γ : Type} (R : Generator γ) (P : Problem) (entry : Schedule × ℚ)
    (neighborhood : Neighborhood) (generator : γ) (fuel : Nat) :
    Option ((Schedule × ℚ) × γ) :=
  descendWith (neighborhood.first_improvement R P) fuel entry generator

/-- The loop `while (k != neighborhoods.end())` of `LocalSearch::first_improvement_vnd`:
`rest` is the list from the iterator `k` on. -/
def vndLoopWith {γ : Type}
    (steps : List (Schedule × ℚ → γ → Option ((Schedule × ℚ) × γ))) :
    Nat → List (Schedule × ℚ → γ → Option ((Schedule × ℚ) × γ)) → Schedule × ℚ → γ →
      Option ((Schedule × ℚ) × γ)
  | _, [], incumbent, generator => some (incumbent, generator)
  | 0, _ :: _, _, _ => none
  | fuel + 1, step :: rest, incumbent, generator =>
    match step incumbent generator with
    | none => none
    | some neighbor =>
      if utils.is_lower neighbor.1.2 incumbent.2 = true then
        vndLoopWith steps fuel steps neighbor.1 neighbor.2
      else vndLoopWith steps fuel rest incumbent neighbor.2

/-- The function `LocalSearch::first_improvement_vnd`, with the loop unrolled at most
`fuel` times: the result and the generator after the call. -/
def first_improvement_vnd {γ : Type} (R : Generator γ) (P : Problem) (entry : Schedule × ℚ)
    (neighborhoods : List Neighborhood) (generator : γ) (fuel : Nat) :
    Option ((Schedule × ℚ) × γ) :=
  vndLoopWith (neighborhoods.map (fun neighborhood => neighborhood.first_improvement R P)) fuel
    (neighborhoods.map (fun neighborhood => neighborhood.first_improvement R P)) entry
    generator

end LocalSearch

/-- The switch ids of the physical teams `1..m`, team after team. -/
def crewIds (P : Problem) (schedule : Schedule) : List Int :=
  (List.range' 1 P.m).flatMap (fun l => (teamOf schedule l).map Prod.fst)

/-- The schedule `r` assigns as `schedule` does: it has as many team lists, team 0 holds
the same switch ids, and the teams `1..m` together hold the same switch ids, each as
often. -/
structure keepsAssignment (P : Problem) (schedule r : Schedule) : Prop where
  teams : r.length = schedule.length
  remote : ((teamOf r 0).map Prod.fst).Perm ((teamOf schedule 0).map Prod.fst)
  crews : (crewIds P r).Perm (crewIds P schedule)

/-- The entry is marked feasible by `utils::evaluate` and records the moments and the
makespan that the evaluator computes. -/
def consistent (P : Problem) (entry : Schedule × ℚ) : Prop :=
  utils.evaluate P entry = some (true, entry)

/-- Every entry that a search operator returns from `entry` satisfies `I`: the operators
are `best_improvement`, `first_improvement` and `shake` of the three neighborhoods, the
four drivers of `LocalSearch` with any number of passes, and `ILS::perturb`, for every
state of the generator. With `feasible = true` only the calls of `shake` with
`feasible_only = true` are meant. -/
def operatorsReturnOnly {γ : Type} (R : Generator γ) (P : Problem) (entry : Schedule × ℚ)
    (feasible : Bool) (I : Schedule × ℚ → Prop) : Prop :=
  (∀ (neighborhood : Neighborhood) r, neighborhood.best_improvement P entry = some r →
    I r) ∧
  (∀ (neighborhood : Neighborhood) (generator : γ) r,
    neighborhood.first_improvement R P entry generator = some r → I r.1) ∧
  (∀ (neighborhood : Neighborhood) (feasible_only : Bool) (generator : γ) r,
    (feasible = true → feasible_only = true) →
    neighborhood.shake R P entry feasible_only generator = some r → I r.1) ∧
  (∀ (neighborhood : Neighborhood) fuel r,
    LocalSearch.best_improvement P entry neighborhood fuel = some r → I r) ∧
  (∀ (neighborhood : Neighborhood) (generator : γ) fuel r,
    LocalSearch.first_improvement R P entry neighborhood generator fuel = some r →
    I r.1) ∧
  (∀ (neighborhoods : List Neighborhood) fuel r,
    LocalSearch.best_improvement_vnd P entry neighborhoods fuel = some r → I r) ∧
  (∀ (neighborhoods : List Neighborhood) (generator : γ) fuel r,
    LocalSearch.first_improvement_vnd R P entry neighborhoods generator fuel = some r →
    I r.1) ∧
  (∀ (generator : γ) r, ILS.perturb R P entry generator = some r → I r.1)

/-- Every search operator returns a result from `entry`, the drivers of `LocalSearch` after
the number of passes that `rounds` gives. -/
def operatorsReturn {γ : Type} (R : Generator γ) (P : Problem) (entry : Schedule × ℚ) :
    Prop :=
  (∀ neighborhood : Neighborhood, ∃ r, neighborhood.best_improvement P entry = some r) ∧
  (∀ (neighborhood : Neighborhood) (generator : γ),
    ∃ r, neighborhood.first_improvement R P entry generator = some r) ∧
  (∀ (neighborhood : Neighborhood) (feasible_only : Bool) (generator : γ),
    ∃ r, neighborhood.shake R P entry feasible_only generator = some r) ∧
  (∀ neighborhood : Neighborhood,
    ∃ r, LocalSearch.best_improvement P entry neighborhood (rounds entry.2 + 1) = some r) ∧
  (∀ (neighborhood : Neighborhood) (generator : γ),
    ∃ r, LocalSearch.first_improvement R P entry neighborhood generator
      (rounds entry.2 + 1) = some r) ∧
  (∀ neighborhoods : List Neighborhood,
    ∃ r, LocalSearch.best_improvement_vnd P entry neighborhoods
      (rounds entry.2 * (neighborhoods.length + 1) + neighborhoods.length) = some r) ∧
  (∀ (neighborhoods : List Neighborhood) (generator : γ),
    ∃ r, LocalSearch.first_improvement_vnd R P entry neighborhoods generator
      (rounds entry.2 * (neighborhoods.length + 1) + neighborhoods.length) = some r) ∧
  (∀ generator : γ, ∃ r, ILS.perturb R P entry generator = some r)

/-- The moments `τ l idx` respect the lower bounds that `utils::evaluate` imposes on the
positions of the team lists `0..m`: a maneuver of team 0 does not start before 0, a
maneuver starts after each direct predecessor of its switch has finished, the first
maneuver of a physical team starts after the travel from the depot, and the next one after
the duration of the one before and the travel between the two. -/
structure lowerBounds (P : Problem) (schedule : Schedule) (τ : Nat → Nat → ℚ) : Prop where
  remote : ∀ idx, idx < (teamOf schedule 0).length → 0 ≤ τ 0 idx
  precedence : ∀ l idx l1 idx1, l ≤ P.m → idx < (teamOf schedule l).length → l1 ≤ P.m →
    idx1 < (teamOf schedule l1).length →
    switchAt schedule l1 idx1 ∈ P.predecessors (switchAt schedule l idx) →
    τ l1 idx1 + P.p (switchAt schedule l1 idx1) ≤ τ l idx
  first : ∀ l, 1 ≤ l → l ≤ P.m → 0 < (teamOf schedule l).length →
    P.c 0 (switchAt schedule l 0) l ≤ τ l 0
  next : ∀ l idx, 1 ≤ l → l ≤ P.m → idx + 1 < (teamOf schedule l).length →
    τ l idx + P.p (switchAt schedule l idx) +
      P.c (switchAt schedule l idx) (switchAt schedule l (idx + 1)) l ≤ τ l (idx + 1)

/-! ## Double arithmetic (IEEE 754 binary64) for the claims on numerical values -/

namespace binary64

/-- The power `2^k` for an integer `k`. -/
def pow2 (k : Int) : ℚ :=
  if 0 ≤ k then ((2 ^ k.toNat : Nat) : ℚ) else 1 / ((2 ^ (-k).toNat : Nat) : ℚ)

/-- The number of halvings that bring `n` below 2, at most `fuel` of them. -/
def halvings : Nat → Nat → Nat
  | 0, _ => 0
  | fuel + 1, n => if n < 2 then 0 else halvings fuel (n / 2) + 1

/-- The binary logarithm of a natural number `n ≠ 0`, rounded down. -/
def log2 (n : Nat) : Nat := halvings n n

/-- The binary exponent of a rational `x ≠ 0`: the `e` with `2^e ≤ |x| < 2^(e+1)`. -/
def exponent (x : ℚ) : Int :=
  if pow2 ((log2 x.num.natAbs : Int) - (log2 x.den : Int)) ≤ |x| then
    (log2 x.num.natAbs : Int) - (log2 x.den : Int)
  else (log2 x.num.natAbs : Int) - (log2 x.den : Int) - 1

/-- The integer nearest to `y ≥ 0`, the even one of the two when `y` is halfway. -/
def roundHalfEven (y : ℚ) : Nat :=
  if y - (⌊y⌋₊ : ℚ) < 1 / 2 then ⌊y⌋₊
  else if 1 / 2 < y - (⌊y⌋₊ : ℚ) then ⌊y⌋₊ + 1
  else if ⌊y⌋₊ % 2 = 0 then ⌊y⌋₊ else ⌊y⌋₊ + 1

/-- A value of the type `double` (IEEE 754 binary64): a finite number, an infinity or a
NaN. The sign of a zero is not kept. -/
inductive Double
  | finite (value : ℚ)
  | infinity (negative : Bool)
  | nan
  deriving DecidableEq

/-- The spacing of the doubles in the binade of `x ≠ 0`: `2^(e-52)` for the exponent `e` of
`x`, and `2^(-1074)` below `2^(-1022)`. -/
def spacing (x : ℚ) : ℚ := pow2 (max (exponent x) (-1022) - 52)

/-- The double nearest to the real number `x`, the one with an even significand when `x`
is halfway between two doubles (the rounding of a literal and of the result of `+` and
`-`); a magnitude that rounds to `2^1024` or more gives an infinity. -/
def nearest (x : ℚ) : Double :=
  if x = 0 then Double.finite 0
  else if pow2 1024 ≤ (roundHalfEven (|x| / spacing x) : ℚ) * spacing x then
    Double.infinity (decide (x < 0))
  else if x < 0 then Double.finite (-((roundHalfEven (|x| / spacing x) : ℚ) * spacing x))
  else Double.finite ((roundHalfEven (|x| / spacing x) : ℚ) * spacing x)

/-- The operator `-` of `double`. -/
def Double.sub : Double → Double → Double
  | Double.finite x, Double.finite y => nearest (x - y)
  | Double.finite _, Double.infinity negative => Double.infinity (!negative)
  | Double.infinity negative, Double.finite _ => Double.infinity negative
  | Double.infinity negative, Double.infinity negative1 =>
    if negative = negative1 then Double.nan else Double.infinity negative
  | _, _ => Double.nan

/-- The function `std::abs` on `double`. -/
def Double.abs : Double → Double
  | Double.finite x => Double.finite |x|
  | Double.infinity _ => Double.infinity false
  | Double.nan => Double.nan

/-- The operator `<` of `double`: false when an operand is a NaN. -/
def Double.lt : Double → Double → Bool
  | Double.finite x, Double.finite y => decide (x < y)
  | Double.finite _, Double.infinity negative => !negative
  | Double.infinity negative, Double.finite _ => negative
  | Double.infinity negative, Double.infinity negative1 => negative && !negative1
  | _, _ => false

namespace utils

/-- The constant `constexpr double THRESHOLD = 1e-5` (utils.h): the double nearest to
`1e-5`. -/
def THRESHOLD : Double := nearest (1 / 100000)

/-- Tolerance comparison `utils::compare` (utils.cpp) on doubles. -/
def compare (first second : Double) : Int :=
  if Double.lt (Double.abs (Double.sub first second)) THRESHOLD = true then 0
  else (if Double.lt first second = true then -1 else 1)

/-- The test `utils::is_equal` on doubles. -/
def is_equal (first second : Double) : Bool := decide (compare first second = 0)

/-- The test `utils::is_greater` on doubles. -/
def is_greater (first second : Double) : Bool := decide (compare first second = 1)

/-- The test `utils::is_lower` on doubles. -/
def is_lower (first second : Double) : Bool := decide (compare first second = -1)

/-- The test `utils::is_greater_equal` on doubles. -/
def is_greater_equal (first second : Double) : Bool := decide (compare first second ≠ -1)

/-- The test `utils::is_lower_equal` on doubles. -/
def is_lower_equal (first second : Double) : Bool := decide (compare first second ≠ 1)

end utils

/-- The operator `+` of `double` on two finite operands whose sum is finite; the model has
no result for a sum that rounds to an infinity. -/
def add (x y : ℚ) : Option ℚ :=
  match nearest (x + y) with
  | Double.finite value => some value
  | Double.infinity _ => none
  | Double.nan => none

namespace utils

/-- The loop `for (auto k : problem.predecessors[j]) *t[j] = max(*t[j], *t[k] + p[k])` in
double arithmetic. -/
def maxPredecessors (P : Problem) (t : Nat → Option orcs.utils.Ptr) (tj : orcs.utils.Ptr)
    (preds : List Nat) (mem : orcs.utils.Ptr → ℚ) : Option (orcs.utils.Ptr → ℚ) :=
  preds.foldlM
    (fun mem k =>
      match orcs.utils.deref t mem k with
      | none => none
      | some tk => (add tk (P.p k)).map (fun v => Function.update mem tj (max (mem tj) v)))
    mem

/-- The body of the scan `for (int l = 0; l <= problem.m; ++l)` for one team `l`
(lines 65-105) in double arithmetic: the sums `*t[i] + p[i] + c[i][j][l]`,
`*t[k] + p[k]` and `*t[j] + p[j]` are rounded after each addition. -/
def visit (P : Problem) (schedule : Schedule) (t : Nat → Option orcs.utils.Ptr)
    (s : orcs.utils.EvalState) (l : Nat) : Option orcs.utils.EvalState :=
  if s.index l < (teamOf schedule l).length then
    if s.pendings (switchAt schedule l (s.index l)) = 0 then
      match t (switchAt schedule l (s.index l)) with
      | none => none
      | some tj =>
        match (if l ≠ 0 then
            (orcs.utils.deref t s.mem (s.location l)).bind (fun ti =>
              (add ti (P.p (s.location l))).bind (fun a =>
                add a (P.c (s.location l) (switchAt schedule l (s.index l)) l)))
          else some 0) with
        | none => none
        | some v =>
          match maxPredecessors P t tj (P.predecessors (switchAt schedule l (s.index l)))
              (Function.update s.mem tj v) with
          | none => none
          | some mem =>
            match add (mem tj) (P.p (switchAt schedule l (s.index l))) with
            | none => none
            | some finish =>
              some
                { mem := mem
                  makespan := max s.makespan finish
                  index := Function.update s.index l (s.index l + 1)
                  location := Function.update s.location l (switchAt schedule l (s.index l))
                  pendings :=
                    orcs.utils.decPendings (P.successors (switchAt schedule l (s.index l)))
                      s.pendings
                  n_done := s.n_done + 1
                  feasibility := true }
    else some s
  else some s

/-- One pass of the body of the `while` in double arithmetic. -/
def scan (P : Problem) (schedule : Schedule) (t : Nat → Option orcs.utils.Ptr)
    (s : orcs.utils.EvalState) : Option orcs.utils.EvalState :=
  (List.range (P.m + 1)).foldlM (visit P schedule t) { s with feasibility := false }

/-- The loop `while (n_done < problem.n && feasibility)` in double arithmetic, unrolled at
most `fuel` times. -/
def whileLoop (P : Problem) (schedule : Schedule) (t : Nat → Option orcs.utils.Ptr) :
    Nat → orcs.utils.EvalState → Option orcs.utils.EvalState
  | 0, s => some s
  | fuel + 1, s =>
    if s.n_done < P.n ∧ s.feasibility = true then
      match scan P schedule t s with
      | none => none
      | some s1 => whileLoop P schedule t fuel s1
    else some s

/-- Evaluator `utils::evaluate` (utils.cpp) in double arithmetic, for finite durations,
travel costs and sums: the returned flag and the entry after the call. -/
def evaluate (P : Problem) (entry : Schedule × ℚ) : Option (Bool × (Schedule × ℚ)) :=
  if inBounds P entry.1 then
    match whileLoop P entry.1 (orcs.utils.init P entry.1).t P.n
        (orcs.utils.evalStart P entry.1) with
    | none => none
    | some s =>
      some (s.feasibility,
        (orcs.utils.writeBack P entry.1 s.mem, if s.feasibility then s.makespan else DBL_MAX))
  else none

end utils

/-- The moments and the makespan of a team that works alone, in double arithmetic, from
the location `i` left at the moment `ti` with the makespan so far: the next maneuver `j`
starts at `(ti + p[i]) + c[i][j][1]`, rounded after each addition, and the makespan
becomes the larger of itself and the rounded sum `tj + p[j]`. -/
def serial (P : Problem) : Nat → ℚ → ℚ → List Nat → Option (List ℚ × ℚ)
  | _, _, makespan, [] => some ([], makespan)
  | i, ti, makespan, j :: rest =>
    match (add ti (P.p i)).bind (fun a => add a (P.c i j 1)) with
    | none => none
    | some tj =>
      match add tj (P.p j) with
      | none => none
      | some finish =>
        (serial P j tj (max makespan finish) rest).map (fun r => (tj :: r.1, r.2))

end binary64

/-- Three MANUAL switches whose durations are the doubles of the literals `0.1`, `0.2` and
`0.3`, one team, no precedence, zero travel costs. -/
def exDecimal : Problem :=
  { n := 3, m := 1
    technology := fun _ => Technology.MANUAL
    p := fun i =>
      if i = 1 then 3602879701896397 / 2 ^ 55
      else if i = 2 then 3602879701896397 / 2 ^ 54
      else if i = 3 then 5404319552844595 / 2 ^ 54
      else 0
    c := fun _ _ _ => 0
    predecessors := fun _ => []
    successors := fun _ => [] }

/-- Two MANUAL switches of durations 2 and -1, one team, no precedence, zero travel
costs. -/
def exNegative : Problem :=
  { n := 2, m := 1
    technology := fun _ => Technology.MANUAL
    p := fun i => if i = 1 then 2 else if i = 2 then -1 else 0
    c := fun _ _ _ => 0
    predecessors := fun _ => []
    successors := fun _ => [] }

/-! ## The constructive heuristic (spec 4.5; heur_greedy.h declares `Greedy::solve`) -/

namespace Greedy

/-- Modelled from the spec: the teams compatible with the technology of switch `j`, the
virtual team 0 for a REMOTE switch and the teams `1..m` for a MANUAL one. -/
def teams (P : Problem) (j : Nat) : List Nat :=
  match P.technology j with
  | Technology.REMOTE => [0]
  | Technology.MANUAL => List.range' 1 P.m
  | Technology.UNKNOWN => []

/-- Modelled from the spec: the switch `j` has a maneuver in the schedule. -/
def scheduled (schedule : Schedule) (j : Nat) : Bool :=
  (schedule.flatten.map Prod.fst).contains (j : Int)

/-- Modelled from the spec: the start time of switch `j` when it is appended to the list of
team `l`, the latest of the finish times of its direct predecessors and of the arrival of
the team (0 for the virtual team 0; for a team of `1..m`, the travel from the depot when
its list is empty, else the finish time of its last maneuver plus the travel from there). -/
def startTime (P : Problem) (schedule : Schedule) (j l : Nat) : ℚ :=
  (P.predecessors j).foldl (fun t k => max t (P.moments schedule k + P.p k))
    (if l = 0 then 0
     else
      match (teamOf schedule l).getLast? with
      | none => P.c 0 j l
      | some mv => mv.2 + P.p mv.1.toNat + P.c mv.1.toNat j l)

/-- Modelled from the spec: the pairings (start time, switch, team) of the switches not yet
scheduled whose direct predecessors are all scheduled with the teams compatible with their
technology. -/
def candidates (P : Problem) (schedule : Schedule) : List (ℚ × Nat × Nat) :=
  ((List.range' 1 P.n).map (fun j =>
    if scheduled schedule j = false ∧ (P.predecessors j).all (scheduled schedule) = true then
      (teams P j).map (fun l => (startTime P schedule j l, j, l))
    else [])).flatten

/-- Modelled from the spec: a pairing of least start time, the first one in the order of the
candidates (the spec does not say which one is taken among several of least start time). -/
def select : List (ℚ × Nat × Nat) → Option (ℚ × Nat × Nat)
  | [] => none
  | c :: rest =>
    match select rest with
    | none => some c
    | some best => if best.1 < c.1 then some best else some c

/-- Modelled from the spec: the construction, at most `fuel` maneuvers long: append the
selected pairing to the list of its team until no pairing is left. -/
def build (P : Problem) : Nat → Schedule → Schedule
  | 0, schedule => schedule
  | fuel + 1, schedule =>
    match select (candidates P schedule) with
    | none => schedule
    | some (start, j, l) =>
      build P fuel (schedule.set l (teamOf schedule l ++ [((j : Int), start)]))

/-- Modelled from the spec: `Greedy::solve`, the earliest-start-time construction (spec 4.5;
the repository has only its declaration, heur_greedy.h). Starting from `m+1` empty lists
it repeatedly selects, among the switches whose direct predecessors are all scheduled, the
technology-compatible pairing of a switch and a team with the least resulting start time
and appends it to the list of that team; the makespan is the latest finish time. -/
def solve (P : Problem) : Schedule × ℚ :=
  (build P P.n (List.replicate (P.m + 1) []),
    (build P P.n (List.replicate (P.m + 1) [])).flatten.foldl
      (fun makespan mv => max makespan (mv.2 + P.p mv.1.toNat)) 0)

end Greedy

/-- Nested loop that stores `val l idx` at `key l idx`. -/
def nestUpdate {κ β : Type} [DecidableEq κ] (K : Nat) (len : Nat → Nat) (key : Nat → Nat → κ)
    (val : Nat → Nat → β) (f0 : κ → β) : κ → β :=
  (List.range K).foldl
    (fun f l => (List.range (len l)).foldl (fun f idx => Function.update f (key l idx) (val l idx)) f)
    f0


/-! ## Loop and list lemmas -/

theorem foldl_range_inv {σ : Type} (f : σ → Nat → σ) (I : Nat → σ → Prop) (k : Nat) (s0 : σ)
    (h0 : I 0 s0) (hstep : ∀ i s, i < k → I i s → I (i + 1) (f s i)) :
    I k ((List.range k).foldl f s0) := by
  induction k with
  | zero => simpa using h0
  | succ k ih =>
    rw [List.range_succ, List.foldl_append]
    simp only [List.foldl_cons, List.foldl_nil]
    exact hstep k _ (Nat.lt_succ_self k) (ih (fun i s hi => hstep i s (Nat.lt_succ_of_lt hi)))

theorem foldlM_range_inv {σ : Type} (f : σ → Nat → Option σ) (I : Nat → σ → Prop) (k : Nat)
    (s0 : σ) (h0 : I 0 s0) (hstep : ∀ i s s1, i < k → I i s → f s i = some s1 → I (i + 1) s1) :
    ∀ s1, (List.range k).foldlM f s0 = some s1 → I k s1 := by
  induction k with
  | zero =>
    intro s1 h
    simp at h
    subst h
    exact h0
  | succ k ih =>
    intro s1 h
    rw [List.range_succ, List.foldlM_append] at h
    cases hk : (List.range k).foldlM f s0 with
    | none => simp [hk] at h
    | some s2 =>
      simp [hk] at h
      exact hstep k s2 s1 (Nat.lt_succ_self k)
        (ih (fun i s s3 hi => hstep i s s3 (Nat.lt_succ_of_lt hi)) s2 hk) h

theorem foldl_eq_foldl_range {α σ : Type} (f : σ → α → σ) (d : α) (xs : List α) (s : σ) :
    xs.foldl f s = (List.range xs.length).foldl (fun s i => f s (xs.getD i d)) s := by
  induction xs using List.reverseRecOn with
  | nil => simp
  | append_singleton xs x ih =>
    rw [List.foldl_append, List.length_append, List.length_singleton, List.range_succ,
      List.foldl_append, ih]
    simp only [List.foldl_cons, List.foldl_nil]
    have h1 : (xs ++ [x]).getD xs.length d = x := by simp [List.getD_eq_getElem?_getD]
    rw [h1]
    congr 1
    apply List.foldl_ext
    intro s i hi
    have hi2 : i < xs.length := by simpa using hi
    simp [List.getD_eq_getElem?_getD, List.getElem?_append_left hi2]

theorem nestUpdate_spec {κ β : Type} [DecidableEq κ] (K : Nat) (len : Nat → Nat)
    (key : Nat → Nat → κ) (val : Nat → Nat → β) (f0 : κ → β)
    (hinj : ∀ l idx l1 idx1, l < K → idx < len l → l1 < K → idx1 < len l1 →
      key l idx = key l1 idx1 → l = l1 ∧ idx = idx1) :
    (∀ l idx, l < K → idx < len l → nestUpdate K len key val f0 (key l idx) = val l idx) ∧
    (∀ k, (∀ l idx, l < K → idx < len l → key l idx ≠ k) → nestUpdate K len key val f0 k = f0 k) := by
  unfold nestUpdate
  refine foldl_range_inv _
    (fun k f => (∀ l idx, l < k → idx < len l → f (key l idx) = val l idx) ∧
      (∀ x, (∀ l idx, l < k → idx < len l → key l idx ≠ x) → f x = f0 x)) K f0 ?_ ?_
  · exact ⟨fun l idx hl => absurd hl (Nat.not_lt_zero l), fun x _ => rfl⟩
  · intro k f hk ⟨h1, h2⟩
    have h := foldl_range_inv (fun g idx => Function.update g (key k idx) (val k idx))
      (fun i g => (∀ l idx, (l < k ∧ idx < len l) ∨ (l = k ∧ idx < i) → g (key l idx) = val l idx) ∧
        (∀ x, (∀ l idx, (l < k ∧ idx < len l) ∨ (l = k ∧ idx < i) → key l idx ≠ x) → g x = f0 x))
      (len k) f ?_ ?_
    rotate_left
    · constructor
      · intro l idx h
        rcases h with ⟨hl, hi⟩ | ⟨_, hi⟩
        · exact h1 l idx hl hi
        · exact absurd hi (Nat.not_lt_zero idx)
      · intro x hx
        exact h2 x (fun l idx hl hi => hx l idx (Or.inl ⟨hl, hi⟩))
    · intro i g hi ⟨g1, g2⟩
      show (∀ l idx, (l < k ∧ idx < len l) ∨ (l = k ∧ idx < i + 1) →
          Function.update g (key k i) (val k i) (key l idx) = val l idx) ∧
        (∀ x, (∀ l idx, (l < k ∧ idx < len l) ∨ (l = k ∧ idx < i + 1) → key l idx ≠ x) →
          Function.update g (key k i) (val k i) x = f0 x)
      constructor
      · intro l idx h
        by_cases heq : l = k ∧ idx = i
        · rw [heq.1, heq.2, Function.update_same]
        · have hne : key l idx ≠ key k i := by
            intro hkey
            apply heq
            rcases h with ⟨hl, hidx⟩ | ⟨hl, hidx⟩
            · exact hinj l idx k i (by omega) hidx (by omega) hi hkey
            · subst hl
              exact hinj l idx l i hk (by omega) hk hi hkey
          rw [Function.update_noteq hne]
          apply g1
          rcases h with h | ⟨hl, hidx⟩
          · exact Or.inl h
          · exact Or.inr ⟨hl, by
              rcases Nat.lt_succ_iff_lt_or_eq.mp hidx with h3 | h3
              · exact h3
              · exact absurd ⟨hl, h3⟩ heq⟩
      · intro x hx
        have hne : x ≠ key k i := fun h => hx k i (Or.inr ⟨rfl, Nat.lt_succ_self i⟩) h.symm
        rw [Function.update_noteq hne]
        exact g2 x (fun l idx h => hx l idx (by
          rcases h with h | ⟨hl, hidx⟩
          · exact Or.inl h
          · exact Or.inr ⟨hl, Nat.lt_succ_of_lt hidx⟩))
    · constructor
      · intro l idx hl hidx
        apply h.1
        rcases Nat.lt_succ_iff_lt_or_eq.mp hl with h3 | h3
        · exact Or.inl ⟨h3, hidx⟩
        · exact Or.inr ⟨h3, by rw [← h3]; exact hidx⟩
      · intro x hx
        apply h.2
        intro l idx h3
        rcases h3 with ⟨hl, hidx⟩ | ⟨hl, hidx⟩
        · exact hx l idx (Nat.lt_succ_of_lt hl) hidx
        · exact hx l idx (by omega) (by rw [hl]; exact hidx)


theorem flatten_getElem_inj {α : Type} (L : List (List α)) (hnd : L.flatten.Nodup)
    (i j a b : Nat) (A B : List α) (x : α) (hi : L[i]? = some A) (hj : L[j]? = some B)
    (ha : A[a]? = some x) (hb : B[b]? = some x) : i = j ∧ a = b := by
  rw [List.nodup_flatten] at hnd
  obtain ⟨h1, h2⟩ := hnd
  rw [List.pairwise_iff_getElem] at h2
  obtain ⟨hi1, hi2⟩ := List.getElem?_eq_some_iff.mp hi
  obtain ⟨hj1, hj2⟩ := List.getElem?_eq_some_iff.mp hj
  obtain ⟨ha1, ha2⟩ := List.getElem?_eq_some_iff.mp ha
  obtain ⟨hb1, hb2⟩ := List.getElem?_eq_some_iff.mp hb
  have hxA : x ∈ A := ha2 ▸ List.getElem_mem ha1
  have hxB : x ∈ B := hb2 ▸ List.getElem_mem hb1
  subst hi2 hj2
  rcases Nat.lt_trichotomy i j with hlt | heq | hgt
  · exact absurd hxB (h2 i j hi1 hj1 hlt hxA)
  · subst heq
    exact ⟨rfl, (List.Nodup.getElem_inj_iff (h1 _ (List.getElem_mem hi1))).mp (ha2.trans hb2.symm)⟩
  · exact absurd hxA (h2 j i hj1 hi1 hgt hxB)

theorem sum_length_take {α : Type} (L : List (List α)) (k : Nat) (hk : k ≤ L.length) :
    ((L.take k).map List.length).sum = ∑ l in Finset.range k, (L.getD l []).length := by
  induction k with
  | zero => simp
  | succ k ih =>
    have hk1 : k < L.length := hk
    rw [List.take_succ, Finset.sum_range_succ, List.map_append, List.sum_append, ih (Nat.le_of_lt hk1)]
    simp [List.getElem?_eq_getElem hk1, List.getD_eq_getElem?_getD]

/-! ## Positions of a schedule that places each switch once -/

theorem teamOf_eq_getElem (schedule : Schedule) (l : Nat) (h : l < schedule.length) :
    teamOf schedule l = schedule[l] := by
  simp [teamOf, List.getD_eq_getElem?_getD, List.getElem?_eq_getElem h]

theorem maneuverAt_eq_getElem (schedule : Schedule) (l idx : Nat)
    (h : idx < (teamOf schedule l).length) :
    maneuverAt schedule l idx = (teamOf schedule l)[idx] := by
  simp [maneuverAt, List.getD_eq_getElem?_getD, List.getElem?_eq_getElem h]

theorem maneuverAt_mem_take (P : Problem) (schedule : Schedule)
    (hlen : P.m + 1 ≤ schedule.length) (l idx : Nat) (hl : l < P.m + 1)
    (hidx : idx < (teamOf schedule l).length) :
    maneuverAt schedule l idx ∈ (schedule.take (P.m + 1)).flatten := by
  rw [List.mem_flatten]
  refine ⟨teamOf schedule l, ?_, ?_⟩
  · rw [teamOf_eq_getElem schedule l (by omega), List.mem_take_iff_getElem]
    exact ⟨l, by simp; omega, rfl⟩
  · rw [maneuverAt_eq_getElem schedule l idx hidx]
    exact List.getElem_mem _

theorem slots_of_once (P : Problem) (schedule : Schedule) (hlen : P.m + 1 ≤ schedule.length)
    (h : placesEachSwitchOnce P schedule) : Slots P schedule := by
  unfold placesEachSwitchOnce switchIds at h
  have hmem : ∀ x : Int, x ∈ (schedule.take (P.m + 1)).flatten.map Prod.fst ↔
      ∃ k : Nat, (1 ≤ k ∧ k ≤ P.n) ∧ x = (k : Int) := by
    intro x
    rw [h.mem_iff]
    simp only [List.mem_map, List.mem_range'_1]
    constructor
    · rintro ⟨k, ⟨h1, h2⟩, rfl⟩
      exact ⟨k, ⟨h1, by omega⟩, rfl⟩
    · rintro ⟨k, ⟨h1, h2⟩, rfl⟩
      exact ⟨k, ⟨h1, by omega⟩, rfl⟩
  have hnd : ((schedule.take (P.m + 1)).map (List.map Prod.fst)).flatten.Nodup := by
    rw [← List.map_flatten, h.nodup_iff]
    exact (List.nodup_range' 1 P.n).map (fun a b hab => by simpa using hab)
  have hb : ∀ l idx, l < P.m + 1 → idx < (teamOf schedule l).length →
      0 < (maneuverAt schedule l idx).1 ∧
      1 ≤ switchAt schedule l idx ∧ switchAt schedule l idx ≤ P.n := by
    intro l idx hl hidx
    have h1 := List.mem_map_of_mem Prod.fst (maneuverAt_mem_take P schedule hlen l idx hl hidx)
    obtain ⟨k, ⟨hk1, hk2⟩, hk⟩ := (hmem _).mp h1
    unfold switchAt
    rw [hk]
    simp
    omega
  refine ⟨hb, ?_, ?_, ?_⟩
  · intro l idx l1 idx1 hl hidx hl1 hidx1 heq
    have e1 := (hb l idx hl hidx).1
    have e2 := (hb l1 idx1 hl1 hidx1).1
    have heq2 : (maneuverAt schedule l idx).1 = (maneuverAt schedule l1 idx1).1 := by
      unfold switchAt at heq
      omega
    have hT : ∀ l, l < P.m + 1 →
        ((schedule.take (P.m + 1)).map (List.map Prod.fst))[l]? =
          some ((teamOf schedule l).map Prod.fst) := by
      intro l hl
      have hl2 : l < schedule.length := by omega
      simp [teamOf_eq_getElem schedule l hl2, List.getElem?_take, hl,
        List.getElem?_eq_getElem hl2]
    have hM : ∀ l idx, idx < (teamOf schedule l).length →
        ((teamOf schedule l).map Prod.fst)[idx]? = some (maneuverAt schedule l idx).1 := by
      intro l idx hidx
      simp [maneuverAt_eq_getElem schedule l idx hidx, List.getElem?_eq_getElem hidx]
    exact flatten_getElem_inj _ hnd l l1 idx idx1 _ _ _ (hT l hl) (hT l1 hl1)
      (hM l idx hidx) (heq2 ▸ hM l1 idx1 hidx1)
  · have h1 := h.length_eq
    rw [List.length_map, List.length_map, List.length_range', List.length_flatten,
      sum_length_take schedule (P.m + 1) hlen] at h1
    exact h1
  · intro k hk1 hk2
    have h1 := (hmem (k : Int)).mpr ⟨k, ⟨hk1, hk2⟩, rfl⟩
    rw [List.mem_map] at h1
    obtain ⟨mv, hmv, hmvk⟩ := h1
    rw [List.mem_flatten] at hmv
    obtain ⟨team, hteam, hmvt⟩ := hmv
    rw [List.mem_take_iff_getElem] at hteam
    obtain ⟨l, hl, rfl⟩ := hteam
    obtain ⟨idx, hidx, hget⟩ := List.getElem_of_mem hmvt
    have hl2 : l < P.m + 1 := by
      simp at hl
      omega
    have hl3 : l < schedule.length := by omega
    refine ⟨l, idx, hl2, by rw [teamOf_eq_getElem schedule l hl3]; exact hidx, ?_⟩
    unfold switchAt
    rw [maneuverAt_eq_getElem schedule l idx (by rw [teamOf_eq_getElem schedule l hl3]; exact hidx)]
    simp only [teamOf_eq_getElem schedule l hl3, hget, hmvk]
    simp

/-! ## The first loop of `utils::evaluate` -/

theorem init_t (P : Problem) (schedule : Schedule) :
    (utils.init P schedule).t =
      nestUpdate (P.m + 1) (fun l => (teamOf schedule l).length) (switchAt schedule)
        (fun l idx => some (utils.Ptr.slot l idx)) (utils.initStart P schedule).t := by
  unfold utils.init nestUpdate
  refine (List.foldl_hom utils.InitState.t _ _ _ _ ?_).symm
  intro s l
  refine List.foldl_hom utils.InitState.t _ _ _ _ ?_
  intro s1 idx
  rfl

theorem init_pendings (P : Problem) (schedule : Schedule) :
    (utils.init P schedule).pendings =
      nestUpdate (P.m + 1) (fun l => (teamOf schedule l).length) (switchAt schedule)
        (fun l idx => ((P.predecessors (switchAt schedule l idx)).length : Int))
        (utils.initStart P schedule).pendings := by
  unfold utils.init nestUpdate
  refine (List.foldl_hom utils.InitState.pendings _ _ _ _ ?_).symm
  intro s l
  refine List.foldl_hom utils.InitState.pendings _ _ _ _ ?_
  intro s1 idx
  rfl

theorem init_mem (P : Problem) (schedule : Schedule) :
    (utils.init P schedule).mem =
      nestUpdate (P.m + 1) (fun l => (teamOf schedule l).length) utils.Ptr.slot
        (fun _ _ => DBL_MAX) (utils.initStart P schedule).mem := by
  unfold utils.init nestUpdate
  refine (List.foldl_hom utils.InitState.mem _ _ _ _ ?_).symm
  intro s l
  refine List.foldl_hom utils.InitState.mem _ _ _ _ ?_
  intro s1 idx
  rfl

theorem init_mem_t0 (P : Problem) (schedule : Schedule) :
    (utils.init P schedule).mem utils.Ptr.t0 = 0 := by
  rw [init_mem]
  have h := (nestUpdate_spec (P.m + 1) (fun l => (teamOf schedule l).length) utils.Ptr.slot
    (fun _ _ => DBL_MAX) (utils.initStart P schedule).mem
    (fun l idx l1 idx1 _ _ _ _ h => by
      injection h with h1 h2
      exact ⟨h1, h2⟩)).2 utils.Ptr.t0 (fun l idx _ _ h => by cases h)
  rw [h]
  rfl

theorem tinit_of_slots (P : Problem) (schedule : Schedule) (hs : Slots P schedule) :
    TInit P schedule (utils.init P schedule).t := by
  have h := nestUpdate_spec (P.m + 1) (fun l => (teamOf schedule l).length) (switchAt schedule)
    (fun l idx => some (utils.Ptr.slot l idx)) (utils.initStart P schedule).t hs.inj
  rw [init_t]
  refine ⟨h.1, ?_⟩
  rw [h.2 0 (fun l idx hl hidx h0 => by have := (hs.bounds l idx hl hidx).2.1; omega)]
  simp [utils.initStart]

theorem init_pendings_slot (P : Problem) (schedule : Schedule) (hs : Slots P schedule)
    (l idx : Nat) (hl : l < P.m + 1) (hidx : idx < (teamOf schedule l).length) :
    (utils.init P schedule).pendings (switchAt schedule l idx) =
      ((P.predecessors (switchAt schedule l idx)).length : Int) := by
  rw [init_pendings]
  exact (nestUpdate_spec (P.m + 1) (fun l => (teamOf schedule l).length) (switchAt schedule)
    (fun l idx => ((P.predecessors (switchAt schedule l idx)).length : Int))
    (utils.initStart P schedule).pendings hs.inj).1 l idx hl hidx

/-! ## One visit of the main loop -/

theorem maxPredecessors_spec (P : Problem) (t : Nat → Option utils.Ptr) (tj : utils.Ptr) :
    ∀ (preds : List Nat) (mem mem1 : utils.Ptr → ℚ),
      utils.maxPredecessors P t tj preds mem = some mem1 →
      (∀ ptr, ptr ≠ tj → mem1 ptr = mem ptr) ∧ mem tj ≤ mem1 tj ∧
      ∀ k ∈ preds, ∀ tk, t k = some tk → tk ≠ tj → mem tk + P.p k ≤ mem1 tj := by
  intro preds
  induction preds with
  | nil =>
    intro mem mem1 h
    simp [utils.maxPredecessors] at h
    subst h
    exact ⟨fun _ _ => rfl, le_refl _, fun k hk => absurd hk (List.not_mem_nil k)⟩
  | cons k ks ih =>
    intro mem mem1 h
    unfold utils.maxPredecessors at h
    rw [List.foldlM_cons] at h
    cases htk : t k with
    | none => simp [utils.deref, htk] at h
    | some tk =>
      simp only [utils.deref, htk, Option.map_some', Option.some_bind, Option.bind_eq_bind] at h
      obtain ⟨h1, h2, h3⟩ := ih _ mem1 h
      refine ⟨?_, ?_, ?_⟩
      · intro ptr hne
        rw [h1 ptr hne, Function.update_noteq hne]
      · refine le_trans ?_ h2
        rw [Function.update_same]
        exact le_max_left _ _
      · intro k1 hk1 tk1 htk1 hne
        rcases List.mem_cons.mp hk1 with heq | hmem
        · subst heq
          rw [htk] at htk1
          injection htk1 with htk1
          subst htk1
          refine le_trans ?_ h2
          rw [Function.update_same]
          exact le_max_right _ _
        · have := h3 k1 hmem tk1 htk1 hne
          rwa [Function.update_noteq hne] at this

theorem decPendings_apply (succs : List Nat) (hnd : succs.Nodup) (pd : Nat → Int) (k : Nat) :
    utils.decPendings succs pd k = pd k - (if k ∈ succs then 1 else 0) := by
  induction succs generalizing pd with
  | nil => simp [utils.decPendings]
  | cons a as ih =>
    have hnd1 := List.nodup_cons.mp hnd
    have h := ih hnd1.2 (Function.update pd a (pd a - 1))
    unfold utils.decPendings at h ⊢
    rw [List.foldl_cons, h]
    by_cases hka : k = a
    · subst hka
      simp [hnd1.1]
    · have hak : ¬ a = k := fun h => hka h.symm
      simp [Function.update_noteq hka, hka, hak]

theorem countP_remove (l : List Nat) (hnd : l.Nodup) (q q1 : Nat → Bool) (j : Nat)
    (hj : q j = true) (h : ∀ i, q1 i = (q i && decide (i ≠ j))) :
    l.countP q = l.countP q1 + (if j ∈ l then 1 else 0) := by
  induction l with
  | nil => simp
  | cons a as ih =>
    have hnd1 := List.nodup_cons.mp hnd
    have ih1 := ih hnd1.2
    by_cases haj : a = j
    · subst haj
      have hq1 : q1 a = false := by simp [h a]
      simp [List.countP_cons, hj, hq1, hnd1.1] at ih1 ⊢
      omega
    · have hq1 : q1 a = q a := by simp [h a, haj]
      have hja : ¬ j = a := fun h => haj h.symm
      simp only [List.countP_cons, hq1, List.mem_cons, hja, false_or]
      omega

theorem visit_cases (P : Problem) (schedule : Schedule) (t : Nat → Option utils.Ptr)
    (s s1 : utils.EvalState) (l : Nat) (h : utils.visit P schedule t s l = some s1) :
    s1 = s ∨
    (s.index l < (teamOf schedule l).length ∧
      s.pendings (switchAt schedule l (s.index l)) = 0 ∧
      ∃ tj v mem, t (switchAt schedule l (s.index l)) = some tj ∧
        (l ≠ 0 → ∃ ti, t (s.location l) = some ti ∧
          v = s.mem ti + P.p (s.location l) +
            P.c (s.location l) (switchAt schedule l (s.index l)) l) ∧
        (l = 0 → v = 0) ∧
        utils.maxPredecessors P t tj (P.predecessors (switchAt schedule l (s.index l)))
          (Function.update s.mem tj v) = some mem ∧
        s1 =
          { mem := mem
            makespan := max s.makespan (mem tj + P.p (switchAt schedule l (s.index l)))
            index := Function.update s.index l (s.index l + 1)
            location := Function.update s.location l (switchAt schedule l (s.index l))
            pendings :=
              utils.decPendings (P.successors (switchAt schedule l (s.index l))) s.pendings
            n_done := s.n_done + 1
            feasibility := true }) := by
  unfold utils.visit at h
  split at h
  · rename_i hlt
    split at h
    · rename_i hpend
      split at h
      · exact absurd h (by simp)
      · rename_i tj htj
        split at h
        · exact absurd h (by simp)
        · rename_i v hv
          split at h
          · exact absurd h (by simp)
          · rename_i mem hmem
            right
            refine ⟨hlt, hpend, tj, v, mem, htj, ?_, ?_, hmem, ?_⟩
            · intro hl
              rw [if_pos hl] at hv
              cases hti : t (s.location l) with
              | none => simp [utils.deref, hti] at hv
              | some ti =>
                simp [utils.deref, hti] at hv
                exact ⟨ti, rfl, hv.symm⟩
            · intro hl
              rw [if_neg (by simpa using hl)] at hv
              injection hv with hv
              exact hv.symm
            · injection h with h
              exact h.symm
    · left
      injection h with h
      exact h.symm
  · left
    injection h with h
    exact h.symm

theorem lt_update_index (index : Nat → Nat) (l l1 idx1 : Nat) :
    idx1 < Function.update index l (index l + 1) l1 ↔
      idx1 < index l1 ∨ (l1 = l ∧ idx1 = index l) := by
  by_cases h : l1 = l
  · subst h
    rw [Function.update_same]
    constructor
    · intro h1
      rcases Nat.lt_succ_iff_lt_or_eq.mp h1 with h2 | h2
      · exact Or.inl h2
      · exact Or.inr ⟨rfl, h2⟩
    · rintro (h1 | ⟨_, h1⟩) <;> omega
  · rw [Function.update_noteq h]
    constructor
    · exact Or.inl
    · rintro (h1 | ⟨h1, _⟩)
      · exact h1
      · exact absurd h1 h

theorem sum_update_index (index : Nat → Nat) (K l : Nat) (hl : l < K) :
    ∑ x in Finset.range K, Function.update index l (index l + 1) x =
      (∑ x in Finset.range K, index x) + 1 := by
  have hmem : l ∈ Finset.range K := Finset.mem_range.mpr hl
  rw [Finset.sum_update_of_mem hmem, ← Finset.add_sum_erase _ index hmem,
    Finset.sdiff_singleton_eq_erase]
  omega

theorem visit_basic (P : Problem) (schedule : Schedule) (t : Nat → Option utils.Ptr)
    (ht : TInit P schedule t) (s s1 : utils.EvalState) (l : Nat) (hl : l < P.m + 1)
    (hb : BasicInv P schedule s) (h : utils.visit P schedule t s l = some s1) :
    BasicInv P schedule s1 := by
  rcases visit_cases P schedule t s s1 l h with rfl | ⟨hlt, _, tj, v, mem, htj, hv1, _, hmax, rfl⟩
  · exact hb
  have htj1 : tj = utils.Ptr.slot l (s.index l) := by
    have := ht.slot l (s.index l) hl hlt
    rw [htj] at this
    injection this
  subst htj1
  obtain ⟨hm1, hm2, _⟩ := maxPredecessors_spec P t _ _ _ _ hmax
  rw [Function.update_same] at hm2
  have hold : ∀ l1 idx1, idx1 < s.index l1 →
      mem (utils.Ptr.slot l1 idx1) = s.mem (utils.Ptr.slot l1 idx1) := by
    intro l1 idx1 hlt1
    have hne : utils.Ptr.slot l1 idx1 ≠ utils.Ptr.slot l (s.index l) := by
      intro heq
      injection heq with h1 h2
      subst h1
      omega
    rw [hm1 _ hne, Function.update_noteq hne]
  refine ⟨?_, ?_, ?_, ?_, ?_, ?_⟩
  · intro l1 hl1
    show Function.update s.index l (s.index l + 1) l1 ≤ _
    by_cases h1 : l1 = l
    · subst h1
      rw [Function.update_same]
      exact hlt
    · rw [Function.update_noteq h1]
      exact hb.idx_le l1 hl1
  · intro l1 hl1
    show Function.update s.location l _ l1 =
      if Function.update s.index l (s.index l + 1) l1 = 0 then 0
      else switchAt schedule l1 (Function.update s.index l (s.index l + 1) l1 - 1)
    by_cases h1 : l1 = l
    · subst h1
      simp
    · simp only [Function.update_noteq h1]
      exact hb.loc l1 hl1
  · show s.n_done + 1 = ∑ x in Finset.range (P.m + 1), Function.update s.index l (s.index l + 1) x
    rw [sum_update_index s.index (P.m + 1) l hl, hb.done]
  · show mem utils.Ptr.t0 = 0
    rw [hm1 _ (by intro h; cases h), Function.update_noteq (by intro h; cases h)]
    exact hb.t0
  · intro l1 idx1 h1 hl1 hidx1
    change idx1 < Function.update s.index l (s.index l + 1) l1 at hidx1
    show (if idx1 = 0 then 0 + P.p 0 + P.c 0 (switchAt schedule l1 0) l1
      else mem (utils.Ptr.slot l1 (idx1 - 1)) + P.p (switchAt schedule l1 (idx1 - 1)) +
        P.c (switchAt schedule l1 (idx1 - 1)) (switchAt schedule l1 idx1) l1) ≤
      mem (utils.Ptr.slot l1 idx1)
    rcases (lt_update_index s.index l l1 idx1).mp hidx1 with hlt1 | ⟨rfl, rfl⟩
    · have := hb.travel l1 idx1 h1 hl1 hlt1
      rw [hold l1 idx1 hlt1]
      by_cases h0 : idx1 = 0
      · simpa [h0] using this
      · rw [if_neg h0] at this ⊢
        rw [hold l1 (idx1 - 1) (by omega)]
        exact this
    · obtain ⟨ti, hti, hv⟩ := hv1 (by omega)
      have hloc := hb.loc l1 hl
      refine le_trans (le_of_eq ?_) hm2
      by_cases h0 : s.index l1 = 0
      · rw [if_pos h0] at hloc
        rw [hloc, ht.zero] at hti
        injection hti with hti
        subst hti
        rw [if_pos h0, hv, hloc, hb.t0, h0]
      · rw [if_neg h0] at hloc
        rw [hloc, ht.slot l1 (s.index l1 - 1) hl (by omega)] at hti
        injection hti with hti
        subst hti
        rw [if_neg h0, hv, hloc, hold l1 (s.index l1 - 1) (by omega)]
  · intro x
    show max s.makespan (mem (utils.Ptr.slot l (s.index l)) +
        P.p (switchAt schedule l (s.index l))) ≤ x ↔
      0 ≤ x ∧ ∀ l1 idx1, l1 < P.m + 1 → idx1 < Function.update s.index l (s.index l + 1) l1 →
        mem (utils.Ptr.slot l1 idx1) + P.p (switchAt schedule l1 idx1) ≤ x
    rw [max_le_iff, hb.span x]
    constructor
    · rintro ⟨⟨h0, h1⟩, h2⟩
      refine ⟨h0, ?_⟩
      intro l1 idx1 hl1 hidx1
      rcases (lt_update_index s.index l l1 idx1).mp hidx1 with hlt1 | ⟨rfl, rfl⟩
      · rw [hold l1 idx1 hlt1]
        exact h1 l1 idx1 hl1 hlt1
      · exact h2
    · rintro ⟨h0, h1⟩
      refine ⟨⟨h0, ?_⟩, ?_⟩
      · intro l1 idx1 hl1 hlt1
        rw [← hold l1 idx1 hlt1]
        exact h1 l1 idx1 hl1 ((lt_update_index s.index l l1 idx1).mpr (Or.inl hlt1))
      · exact h1 l (s.index l) hl ((lt_update_index s.index l l (s.index l)).mpr (Or.inr ⟨rfl, rfl⟩))

theorem processed_update (P : Problem) (schedule : Schedule) (index : Nat → Nat) (l : Nat)
    (hl : l < P.m + 1) (i : Nat) :
    processed P schedule (Function.update index l (index l + 1)) i ↔
      processed P schedule index i ∨ i = switchAt schedule l (index l) := by
  unfold processed
  constructor
  · rintro ⟨l1, idx1, hl1, hidx1, heq⟩
    rcases (lt_update_index index l l1 idx1).mp hidx1 with hlt1 | ⟨rfl, rfl⟩
    · exact Or.inl ⟨l1, idx1, hl1, hlt1, heq⟩
    · exact Or.inr heq.symm
  · rintro (⟨l1, idx1, hl1, hidx1, heq⟩ | heq)
    · exact ⟨l1, idx1, hl1, (lt_update_index index l l1 idx1).mpr (Or.inl hidx1), heq⟩
    · exact ⟨l, index l, hl, (lt_update_index index l l (index l)).mpr (Or.inr ⟨rfl, rfl⟩),
        heq.symm⟩

theorem not_processed_cursor (P : Problem) (schedule : Schedule) (hs : Slots P schedule)
    (s : utils.EvalState) (hb : BasicInv P schedule s) (l : Nat) (hl : l < P.m + 1)
    (hlt : s.index l < (teamOf schedule l).length) :
    ¬ processed P schedule s.index (switchAt schedule l (s.index l)) := by
  rintro ⟨l1, idx1, hl1, hidx1, heq⟩
  have h1 := hs.inj l1 idx1 l (s.index l) hl1
    (lt_of_lt_of_le hidx1 (hb.idx_le l1 hl1)) hl hlt heq
  obtain ⟨rfl, rfl⟩ := h1
  exact absurd hidx1 (lt_irrefl _)

open Classical in
theorem visit_prec (P : Problem) (schedule : Schedule) (t : Nat → Option utils.Ptr)
    (hs : Slots P schedule) (ht : TInit P schedule t) (hinv : P.inverseSets)
    (s s1 : utils.EvalState) (l : Nat) (hl : l < P.m + 1)
    (hb : BasicInv P schedule s) (hp : PrecInv P schedule s)
    (h : utils.visit P schedule t s l = some s1) : PrecInv P schedule s1 := by
  rcases visit_cases P schedule t s s1 l h with rfl | ⟨hlt, hpend, tj, v, mem, htj, _, _, hmax, rfl⟩
  · exact hp
  have htj1 : tj = utils.Ptr.slot l (s.index l) := by
    have := ht.slot l (s.index l) hl hlt
    rw [htj] at this
    injection this
  subst htj1
  obtain ⟨hm1, _, hm3⟩ := maxPredecessors_spec P t _ _ _ _ hmax
  have hne : ∀ l1 idx1, idx1 < s.index l1 →
      utils.Ptr.slot l1 idx1 ≠ utils.Ptr.slot l (s.index l) := by
    intro l1 idx1 hlt1 heq
    injection heq with h1 h2
    subst h1
    omega
  have hold : ∀ l1 idx1, idx1 < s.index l1 →
      mem (utils.Ptr.slot l1 idx1) = s.mem (utils.Ptr.slot l1 idx1) := by
    intro l1 idx1 hlt1
    rw [hm1 _ (hne l1 idx1 hlt1), Function.update_noteq (hne l1 idx1 hlt1)]
  have hnp := not_processed_cursor P schedule hs s hb l hl hlt
  have hall : ∀ i ∈ P.predecessors (switchAt schedule l (s.index l)),
      processed P schedule s.index i := by
    have h0 := hp.pend l (s.index l) hl hlt
    rw [hpend] at h0
    have h1 : (P.predecessors (switchAt schedule l (s.index l))).countP
        (fun i => decide (¬ processed P schedule s.index i)) = 0 := by
      exact_mod_cast h0.symm
    rw [List.countP_eq_zero] at h1
    intro i hi
    have := h1 i hi
    simpa using this
  refine ⟨?_, ?_⟩
  · intro l1 idx1 hl1 hidx1
    show utils.decPendings (P.successors (switchAt schedule l (s.index l))) s.pendings
        (switchAt schedule l1 idx1) =
      (((P.predecessors (switchAt schedule l1 idx1)).countP
        (fun i => decide (¬ processed P schedule
          (Function.update s.index l (s.index l + 1)) i)) : Nat) : Int)
    rw [decPendings_apply _ (hinv.nodupSucc _), hp.pend l1 idx1 hl1 hidx1,
      countP_remove (P.predecessors (switchAt schedule l1 idx1)) (hinv.nodupPred _)
        (fun i => decide (¬ processed P schedule s.index i))
        (fun i => decide (¬ processed P schedule (Function.update s.index l (s.index l + 1)) i))
        (switchAt schedule l (s.index l)) (by simpa using hnp)
        (fun i => by
          have hpu := processed_update P schedule s.index l hl i
          rw [Bool.eq_iff_iff]
          simp only [decide_eq_true_eq, Bool.and_eq_true, hpu]
          tauto)]
    by_cases hmem : switchAt schedule l (s.index l) ∈ P.predecessors (switchAt schedule l1 idx1)
    · rw [if_pos hmem, if_pos ((hinv.inverse _ _).mp hmem)]
      push_cast
      ring
    · rw [if_neg hmem, if_neg (fun h => hmem ((hinv.inverse _ _).mpr h))]
      simp
  · intro l1 idx1 hl1 hidx1 i hi
    change idx1 < Function.update s.index l (s.index l + 1) l1 at hidx1
    show ∃ l2 idx2, l2 < P.m + 1 ∧ idx2 < Function.update s.index l (s.index l + 1) l2 ∧
      switchAt schedule l2 idx2 = i ∧
      mem (utils.Ptr.slot l2 idx2) + P.p i ≤ mem (utils.Ptr.slot l1 idx1)
    rcases (lt_update_index s.index l l1 idx1).mp hidx1 with hlt1 | ⟨rfl, rfl⟩
    · obtain ⟨l2, idx2, hl2, hidx2, heq, hle⟩ := hp.prec l1 idx1 hl1 hlt1 i hi
      refine ⟨l2, idx2, hl2, (lt_update_index s.index l l2 idx2).mpr (Or.inl hidx2), heq, ?_⟩
      rw [hold l2 idx2 hidx2, hold l1 idx1 hlt1]
      exact hle
    · obtain ⟨l2, idx2, hl2, hidx2, heq⟩ := hall i hi
      refine ⟨l2, idx2, hl2, (lt_update_index s.index l1 l2 idx2).mpr (Or.inl hidx2), heq, ?_⟩
      have hti : t i = some (utils.Ptr.slot l2 idx2) := by
        rw [← heq]
        exact ht.slot l2 idx2 hl2 (lt_of_lt_of_le hidx2 (hb.idx_le l2 hl2))
      have := hm3 i hi _ hti (hne l2 idx2 hidx2)
      rw [Function.update_noteq (hne l2 idx2 hidx2)] at this
      rw [hold l2 idx2 hidx2]
      exact this

/-! ## The main loop of `utils::evaluate` -/

theorem scan_basic (P : Problem) (schedule : Schedule) (t : Nat → Option utils.Ptr)
    (ht : TInit P schedule t) (s s1 : utils.EvalState) (hb : BasicInv P schedule s)
    (h : utils.scan P schedule t s = some s1) : BasicInv P schedule s1 :=
  foldlM_range_inv (utils.visit P schedule t) (fun _ s2 => BasicInv P schedule s2) (P.m + 1)
    { s with feasibility := false }
    ⟨hb.idx_le, hb.loc, hb.done, hb.t0, hb.travel, hb.span⟩
    (fun l s2 s3 hl h2 h3 => visit_basic P schedule t ht s2 s3 l hl h2 h3) s1 h

theorem scan_prec (P : Problem) (schedule : Schedule) (t : Nat → Option utils.Ptr)
    (hs : Slots P schedule) (ht : TInit P schedule t) (hinv : P.inverseSets)
    (s s1 : utils.EvalState) (hb : BasicInv P schedule s) (hp : PrecInv P schedule s)
    (h : utils.scan P schedule t s = some s1) : PrecInv P schedule s1 :=
  (foldlM_range_inv (utils.visit P schedule t)
    (fun _ s2 => BasicInv P schedule s2 ∧ PrecInv P schedule s2) (P.m + 1)
    { s with feasibility := false }
    ⟨⟨hb.idx_le, hb.loc, hb.done, hb.t0, hb.travel, hb.span⟩, ⟨hp.pend, hp.prec⟩⟩
    (fun l s2 s3 hl h2 h3 =>
      ⟨visit_basic P schedule t ht s2 s3 l hl h2.1 h3,
        visit_prec P schedule t hs ht hinv s2 s3 l hl h2.1 h2.2 h3⟩) s1 h).2

theorem scan_progress (P : Problem) (schedule : Schedule) (t : Nat → Option utils.Ptr)
    (s s1 : utils.EvalState) (h : utils.scan P schedule t s = some s1) :
    s1.feasibility = true → s.n_done + 1 ≤ s1.n_done := by
  have := foldlM_range_inv (utils.visit P schedule t)
    (fun _ s2 => s.n_done ≤ s2.n_done ∧ (s2.feasibility = true → s.n_done + 1 ≤ s2.n_done))
    (P.m + 1) { s with feasibility := false } ⟨le_refl _, fun h => by simp at h⟩
    (fun l s2 s3 _ h2 h3 => by
      rcases visit_cases P schedule t s2 s3 l h3 with rfl | ⟨_, _, _, _, _, _, _, _, _, rfl⟩
      · exact h2
      · exact ⟨Nat.le_succ_of_le h2.1, fun _ => Nat.succ_le_succ h2.1⟩) s1 h
  exact this.2

theorem whileLoop_stop (P : Problem) (schedule : Schedule) (t : Nat → Option utils.Ptr)
    (fuel : Nat) (s : utils.EvalState) (h : ¬ (s.n_done < P.n ∧ s.feasibility = true)) :
    utils.whileLoop P schedule t fuel s = some s := by
  cases fuel with
  | zero => rfl
  | succ fuel => simp only [utils.whileLoop, if_neg h]

theorem whileLoop_inv (P : Problem) (schedule : Schedule) (t : Nat → Option utils.Ptr)
    (I : utils.EvalState → Prop)
    (hI : ∀ s s1, I s → utils.scan P schedule t s = some s1 → I s1) :
    ∀ (fuel : Nat) (s s1 : utils.EvalState), I s →
      utils.whileLoop P schedule t fuel s = some s1 → I s1 := by
  intro fuel
  induction fuel with
  | zero =>
    intro s s1 hs h
    simp only [utils.whileLoop] at h
    injection h with h
    exact h ▸ hs
  | succ fuel ih =>
    intro s s1 hs h
    simp only [utils.whileLoop] at h
    split at h
    · split at h
      · exact absurd h (by simp)
      · rename_i s2 hs2
        exact ih s2 s1 (hI s s2 hs hs2) h
    · injection h with h
      exact h ▸ hs

theorem whileLoop_exit (P : Problem) (schedule : Schedule) (t : Nat → Option utils.Ptr) :
    ∀ (fuel : Nat) (s s1 : utils.EvalState), utils.whileLoop P schedule t fuel s = some s1 →
      P.n ≤ s.n_done + fuel → ¬ (s1.n_done < P.n ∧ s1.feasibility = true) := by
  intro fuel
  induction fuel with
  | zero =>
    intro s s1 h hn
    simp only [utils.whileLoop] at h
    injection h with h
    subst h
    intro hc
    omega
  | succ fuel ih =>
    intro s s1 h hn
    simp only [utils.whileLoop] at h
    split at h
    · split at h
      · exact absurd h (by simp)
      · rename_i s2 hs2
        by_cases hf : s2.feasibility = true
        · have := scan_progress P schedule t s s2 hs2 hf
          exact ih s2 s1 h (by omega)
        · rw [whileLoop_stop P schedule t fuel s2 (fun hc => hf hc.2)] at h
          injection h with h
          subst h
          exact fun hc => hf hc.2
    · rename_i hc
      injection h with h
      subst h
      exact hc

theorem evalStart_basic (P : Problem) (schedule : Schedule) :
    BasicInv P schedule (utils.evalStart P schedule) := by
  refine ⟨fun l _ => Nat.zero_le _, fun l _ => rfl, ?_, init_mem_t0 P schedule, ?_, ?_⟩
  · simp [utils.evalStart]
  · intro l idx _ _ hidx
    exact absurd hidx (Nat.not_lt_zero idx)
  · intro x
    simp [utils.evalStart]

open Classical in
theorem evalStart_prec (P : Problem) (schedule : Schedule) (hs : Slots P schedule) :
    PrecInv P schedule (utils.evalStart P schedule) := by
  refine ⟨?_, ?_⟩
  · intro l idx hl hidx
    show (utils.init P schedule).pendings (switchAt schedule l idx) = _
    rw [init_pendings_slot P schedule hs l idx hl hidx]
    congr 1
    symm
    rw [List.countP_eq_length]
    intro i _
    simp only [decide_eq_true_eq]
    rintro ⟨l1, idx1, _, hidx1, _⟩
    exact absurd hidx1 (Nat.not_lt_zero idx1)
  · intro l idx _ hidx
    exact absurd hidx (Nat.not_lt_zero idx)

theorem all_done (P : Problem) (schedule : Schedule) (hs : Slots P schedule)
    (s : utils.EvalState) (hb : BasicInv P schedule s) (hn : P.n ≤ s.n_done) :
    ∀ l, l < P.m + 1 → s.index l = (teamOf schedule l).length := by
  intro l hl
  by_contra hne
  have hlt : s.index l < (teamOf schedule l).length :=
    lt_of_le_of_ne (hb.idx_le l hl) hne
  have := Finset.sum_lt_sum (s := Finset.range (P.m + 1))
    (fun i hi => hb.idx_le i (Finset.mem_range.mp hi)) ⟨l, Finset.mem_range.mpr hl, hlt⟩
  rw [hs.total, ← hb.done] at this
  omega

/-! ## The entry written by `utils::evaluate` -/

theorem writeBack_length (P : Problem) (schedule : Schedule) (mem : utils.Ptr → ℚ) :
    (utils.writeBack P schedule mem).length = schedule.length := by
  simp [utils.writeBack]

theorem teamOf_writeBack (P : Problem) (schedule : Schedule) (mem : utils.Ptr → ℚ) (l : Nat) :
    teamOf (utils.writeBack P schedule mem) l =
      if l ≤ P.m then
        (teamOf schedule l).mapIdx (fun idx mv => (mv.1, mem (utils.Ptr.slot l idx)))
      else teamOf schedule l := by
  unfold teamOf utils.writeBack
  rw [List.getD_eq_getElem?_getD, List.getElem?_mapIdx, List.getD_eq_getElem?_getD]
  cases schedule[l]? with
  | none => simp
  | some team => simp

theorem teamOf_writeBack_length (P : Problem) (schedule : Schedule) (mem : utils.Ptr → ℚ)
    (l : Nat) :
    (teamOf (utils.writeBack P schedule mem) l).length = (teamOf schedule l).length := by
  rw [teamOf_writeBack]
  split <;> simp

theorem maneuverAt_writeBack (P : Problem) (schedule : Schedule) (mem : utils.Ptr → ℚ)
    (l idx : Nat) (hl : l < P.m + 1) (hidx : idx < (teamOf schedule l).length) :
    maneuverAt (utils.writeBack P schedule mem) l idx =
      ((maneuverAt schedule l idx).1, mem (utils.Ptr.slot l idx)) := by
  unfold maneuverAt
  rw [teamOf_writeBack, if_pos (by omega), List.getD_eq_getElem?_getD, List.getElem?_mapIdx,
    List.getD_eq_getElem?_getD, List.getElem?_eq_getElem hidx]
  simp

theorem switchAt_writeBack (P : Problem) (schedule : Schedule) (mem : utils.Ptr → ℚ)
    (l idx : Nat) :
    switchAt (utils.writeBack P schedule mem) l idx = switchAt schedule l idx := by
  unfold switchAt maneuverAt
  rw [teamOf_writeBack]
  split
  · rw [List.getD_eq_getElem?_getD, List.getElem?_mapIdx, List.getD_eq_getElem?_getD]
    cases (teamOf schedule l)[idx]? with
    | none => simp
    | some mv => simp
  · rfl

theorem momentAt_writeBack (P : Problem) (schedule : Schedule) (mem : utils.Ptr → ℚ)
    (l idx : Nat) (hl : l < P.m + 1) (hidx : idx < (teamOf schedule l).length) :
    momentAt (utils.writeBack P schedule mem) l idx = mem (utils.Ptr.slot l idx) := by
  unfold momentAt
  rw [maneuverAt_writeBack P schedule mem l idx hl hidx]

theorem writeBack_ids (P : Problem) (schedule : Schedule) (mem : utils.Ptr → ℚ) :
    (utils.writeBack P schedule mem).map (List.map Prod.fst) =
      schedule.map (List.map Prod.fst) := by
  apply List.ext_getElem?
  intro l
  simp only [utils.writeBack, List.getElem?_map, List.getElem?_mapIdx]
  cases schedule[l]? with
  | none => simp
  | some team =>
    simp only [Option.map_some']
    congr 1
    split
    · apply List.ext_getElem?
      intro idx
      simp only [List.getElem?_map, List.getElem?_mapIdx]
      cases team[idx]? with
      | none => simp
      | some mv => simp
    · rfl

theorem slots_writeBack (P : Problem) (schedule : Schedule) (mem : utils.Ptr → ℚ)
    (hs : Slots P schedule) : Slots P (utils.writeBack P schedule mem) := by
  refine ⟨?_, ?_, ?_, ?_⟩
  · intro l idx hl hidx
    rw [teamOf_writeBack_length] at hidx
    rw [switchAt_writeBack, maneuverAt_writeBack P schedule mem l idx hl hidx]
    exact hs.bounds l idx hl hidx
  · intro l idx l1 idx1 hl hidx hl1 hidx1 heq
    rw [teamOf_writeBack_length] at hidx hidx1
    rw [switchAt_writeBack, switchAt_writeBack] at heq
    exact hs.inj l idx l1 idx1 hl hidx hl1 hidx1 heq
  · simp only [teamOf_writeBack_length]
    exact hs.total
  · intro k hk1 hk2
    obtain ⟨l, idx, hl, hidx, heq⟩ := hs.surj k hk1 hk2
    exact ⟨l, idx, hl, by rw [teamOf_writeBack_length]; exact hidx,
      by rw [switchAt_writeBack]; exact heq⟩

theorem inBounds_length (P : Problem) (schedule : Schedule) (h : inBounds P schedule = true) :
    P.m + 1 ≤ schedule.length := by
  unfold inBounds at h
  simp only [Bool.and_eq_true, decide_eq_true_eq] at h
  exact h.1

theorem evaluate_some (P : Problem) (entry : Schedule × ℚ) (b : Bool) (out : Schedule × ℚ)
    (h : utils.evaluate P entry = some (b, out)) :
    inBounds P entry.1 = true ∧
    ∃ s, utils.whileLoop P entry.1 (utils.init P entry.1).t P.n (utils.evalStart P entry.1) =
        some s ∧
      s.feasibility = b ∧ out.1 = utils.writeBack P entry.1 s.mem ∧
      out.2 = if s.feasibility then s.makespan else DBL_MAX := by
  unfold utils.evaluate at h
  split at h
  · rename_i hin
    split at h
    · exact absurd h (by simp)
    · rename_i s hs
      injection h with h
      injection h with h1 h2
      exact ⟨hin, s, hs, h1, by rw [← h2], by rw [← h2]⟩
  · exact absurd h (by simp)

theorem evaluate_feasible_facts (P : Problem) (entry out : Schedule × ℚ)
    (honce : placesEachSwitchOnce P entry.1)
    (h : utils.evaluate P entry = some (true, out)) :
    ∃ s : utils.EvalState, Slots P entry.1 ∧ BasicInv P entry.1 s ∧
      (P.inverseSets → PrecInv P entry.1 s) ∧
      (∀ l, l < P.m + 1 → s.index l = (teamOf entry.1 l).length) ∧
      out.1 = utils.writeBack P entry.1 s.mem ∧ out.2 = s.makespan := by
  obtain ⟨hin, s, hloop, hf, hout1, hout2⟩ := evaluate_some P entry true out h
  have hs := slots_of_once P entry.1 (inBounds_length P entry.1 hin) honce
  have ht := tinit_of_slots P entry.1 hs
  have hb : BasicInv P entry.1 s :=
    whileLoop_inv P entry.1 _ (BasicInv P entry.1)
      (fun s2 s3 h2 h3 => scan_basic P entry.1 _ ht s2 s3 h2 h3) P.n _ s
      (evalStart_basic P entry.1) hloop
  have hexit := whileLoop_exit P entry.1 _ P.n _ s hloop (by simp [utils.evalStart])
  have hn : P.n ≤ s.n_done := by
    by_contra hlt
    exact hexit ⟨by omega, hf⟩
  refine ⟨s, hs, hb, ?_, all_done P entry.1 hs s hb hn, hout1, ?_⟩
  · intro hinv
    exact (whileLoop_inv P entry.1 _ (fun s2 => BasicInv P entry.1 s2 ∧ PrecInv P entry.1 s2)
      (fun s2 s3 h2 h3 => ⟨scan_basic P entry.1 _ ht s2 s3 h2.1 h3,
        scan_prec P entry.1 _ hs ht hinv s2 s3 h2.1 h2.2 h3⟩) P.n _ s
      ⟨evalStart_basic P entry.1, evalStart_prec P entry.1 hs⟩ hloop).2
  · rw [hout2, hf]
    rfl

/-! ## `utils::evaluate` returns a result on well-formed input -/

theorem foldlM_range_defined {σ : Type} (f : σ → Nat → Option σ) (I : σ → Prop) (k : Nat)
    (s0 : σ) (h0 : I s0) (hstep : ∀ i s, i < k → I s → ∃ s1, f s i = some s1 ∧ I s1) :
    ∃ s1, (List.range k).foldlM f s0 = some s1 ∧ I s1 := by
  induction k with
  | zero => exact ⟨s0, rfl, h0⟩
  | succ k ih =>
    obtain ⟨s1, h1, hI1⟩ := ih (fun i s hi => hstep i s (Nat.lt_succ_of_lt hi))
    obtain ⟨s2, h2, hI2⟩ := hstep k s1 (Nat.lt_succ_self k) hI1
    refine ⟨s2, ?_, hI2⟩
    rw [List.range_succ, List.foldlM_append, h1]
    simp [h2]

theorem maxPredecessors_defined (P : Problem) (t : Nat → Option utils.Ptr) (tj : utils.Ptr) :
    ∀ (preds : List Nat) (mem : utils.Ptr → ℚ), (∀ k ∈ preds, ∃ tk, t k = some tk) →
      ∃ mem1, utils.maxPredecessors P t tj preds mem = some mem1 := by
  intro preds
  induction preds with
  | nil =>
    intro mem _
    exact ⟨mem, rfl⟩
  | cons k ks ih =>
    intro mem h
    obtain ⟨tk, htk⟩ := h k (List.mem_cons_self k ks)
    obtain ⟨mem1, h1⟩ := ih (Function.update mem tj (max (mem tj) (mem tk + P.p k)))
      (fun k1 hk1 => h k1 (List.mem_cons_of_mem k hk1))
    refine ⟨mem1, ?_⟩
    unfold utils.maxPredecessors at h1 ⊢
    rw [List.foldlM_cons]
    simp only [utils.deref, htk, Option.map_some', Option.some_bind, Option.bind_eq_bind]
    exact h1

open Classical in
theorem visit_defined (P : Problem) (schedule : Schedule) (t : Nat → Option utils.Ptr)
    (ht : TInit P schedule t) (s : utils.EvalState) (l : Nat) (hl : l < P.m + 1)
    (hb : BasicInv P schedule s) (hp : PrecInv P schedule s) :
    ∃ s1, utils.visit P schedule t s l = some s1 := by
  unfold utils.visit
  by_cases hlt : s.index l < (teamOf schedule l).length
  · rw [if_pos hlt]
    by_cases hpend : s.pendings (switchAt schedule l (s.index l)) = 0
    · rw [if_pos hpend, ht.slot l (s.index l) hl hlt]
      have hloc : ∃ ti, t (s.location l) = some ti := by
        rw [hb.loc l hl]
        by_cases h0 : s.index l = 0
        · rw [if_pos h0]
          exact ⟨_, ht.zero⟩
        · rw [if_neg h0]
          exact ⟨_, ht.slot l (s.index l - 1) hl (by omega)⟩
      obtain ⟨ti, hti⟩ := hloc
      have hall : ∀ k ∈ P.predecessors (switchAt schedule l (s.index l)),
          ∃ tk, t k = some tk := by
        have h0 := hp.pend l (s.index l) hl hlt
        rw [hpend] at h0
        have h1 : (P.predecessors (switchAt schedule l (s.index l))).countP
            (fun i => decide (¬ processed P schedule s.index i)) = 0 := by
          exact_mod_cast h0.symm
        rw [List.countP_eq_zero] at h1
        intro k hk
        have h2 := h1 k hk
        simp only [decide_eq_true_eq, not_not] at h2
        obtain ⟨l1, idx1, hl1, hidx1, rfl⟩ := h2
        exact ⟨_, ht.slot l1 idx1 hl1 (lt_of_lt_of_le hidx1 (hb.idx_le l1 hl1))⟩
      by_cases hl0 : l ≠ 0
      · simp only [if_pos hl0, utils.deref, hti, Option.map_some']
        obtain ⟨mem1, h1⟩ := maxPredecessors_defined P t (utils.Ptr.slot l (s.index l)) _
          (Function.update s.mem (utils.Ptr.slot l (s.index l))
            (s.mem ti + P.p (s.location l) +
              P.c (s.location l) (switchAt schedule l (s.index l)) l)) hall
        rw [h1]
        exact ⟨_, rfl⟩
      · simp only [if_neg hl0]
        obtain ⟨mem1, h1⟩ := maxPredecessors_defined P t (utils.Ptr.slot l (s.index l)) _
          (Function.update s.mem (utils.Ptr.slot l (s.index l)) 0) hall
        rw [h1]
        exact ⟨_, rfl⟩
    · rw [if_neg hpend]
      exact ⟨s, rfl⟩
  · rw [if_neg hlt]
    exact ⟨s, rfl⟩

theorem whileLoop_defined (P : Problem) (schedule : Schedule) (t : Nat → Option utils.Ptr)
    (hs : Slots P schedule) (ht : TInit P schedule t) (hinv : P.inverseSets) :
    ∀ (fuel : Nat) (s : utils.EvalState), BasicInv P schedule s → PrecInv P schedule s →
      ∃ s1, utils.whileLoop P schedule t fuel s = some s1 := by
  intro fuel
  induction fuel with
  | zero =>
    intro s _ _
    exact ⟨s, rfl⟩
  | succ fuel ih =>
    intro s hb hp
    simp only [utils.whileLoop]
    split
    · obtain ⟨s1, h1, hb1, hp1⟩ := foldlM_range_defined (utils.visit P schedule t)
        (fun s2 => BasicInv P schedule s2 ∧ PrecInv P schedule s2) (P.m + 1)
        { s with feasibility := false }
        ⟨⟨hb.idx_le, hb.loc, hb.done, hb.t0, hb.travel, hb.span⟩, ⟨hp.pend, hp.prec⟩⟩
        (fun l s2 hl h2 => by
          obtain ⟨s3, h3⟩ := visit_defined P schedule t ht s2 l hl h2.1 h2.2
          exact ⟨s3, h3, visit_basic P schedule t ht s2 s3 l hl h2.1 h3,
            visit_prec P schedule t hs ht hinv s2 s3 l hl h2.1 h2.2 h3⟩)
      have hscan : utils.scan P schedule t s = some s1 := h1
      rw [hscan]
      exact ih s1 hb1 hp1
    · exact ⟨s, rfl⟩

theorem evaluate_defined (P : Problem) (entry : Schedule × ℚ) (hinv : P.inverseSets)
    (hin : inBounds P entry.1 = true) (honce : placesEachSwitchOnce P entry.1) :
    ∃ b out, utils.evaluate P entry = some (b, out) := by
  have hs := slots_of_once P entry.1 (inBounds_length P entry.1 hin) honce
  have ht := tinit_of_slots P entry.1 hs
  obtain ⟨s, h⟩ := whileLoop_defined P entry.1 _ hs ht hinv P.n _
    (evalStart_basic P entry.1) (evalStart_prec P entry.1 hs)
  unfold utils.evaluate
  rw [if_pos hin, h]
  exact ⟨_, _, rfl⟩

/-! ## `Problem::evaluate` and the array `t` of `is_feasible` -/

theorem foldl_max_le {α : Type} (g : α → ℚ) (xs : List α) (a x : ℚ) :
    xs.foldl (fun a mv => max a (g mv)) a ≤ x ↔ a ≤ x ∧ ∀ mv ∈ xs, g mv ≤ x := by
  induction xs generalizing a with
  | nil => simp
  | cons y ys ih =>
    rw [List.foldl_cons, ih, max_le_iff]
    simp only [List.mem_cons, forall_eq_or_imp]
    tauto

theorem evaluate_fold_le (P : Problem) (schedule : Schedule) (x : ℚ) :
    (List.range (P.m + 1)).foldl
      (fun makespan l =>
        (teamOf schedule l).foldl (fun makespan mv => max makespan (mv.2 + P.p mv.1.toNat))
          makespan) 0 ≤ x ↔
    0 ≤ x ∧ ∀ l, l < P.m + 1 → ∀ mv ∈ teamOf schedule l, mv.2 + P.p mv.1.toNat ≤ x := by
  refine foldl_range_inv _
    (fun k a => a ≤ x ↔ 0 ≤ x ∧ ∀ l, l < k → ∀ mv ∈ teamOf schedule l, mv.2 + P.p mv.1.toNat ≤ x)
    (P.m + 1) 0 ?_ ?_
  · simp
  · intro k a _ ha
    show (teamOf schedule k).foldl (fun makespan mv => max makespan (mv.2 + P.p mv.1.toNat)) a ≤ x ↔ _
    rw [foldl_max_le (fun mv : Maneuver => mv.2 + P.p mv.1.toNat), ha]
    constructor
    · rintro ⟨⟨h0, h1⟩, h2⟩
      refine ⟨h0, fun l hl => ?_⟩
      rcases Nat.lt_succ_iff_lt_or_eq.mp hl with h3 | h3
      · exact h1 l h3
      · rw [h3]
        exact h2
    · rintro ⟨h0, h1⟩
      exact ⟨⟨h0, fun l hl => h1 l (Nat.lt_succ_of_lt hl)⟩, h1 k (Nat.lt_succ_self k)⟩

theorem moments_eq_nestUpdate (P : Problem) (schedule : Schedule) :
    P.moments schedule =
      nestUpdate (P.m + 1) (fun l => (teamOf schedule l).length) (switchAt schedule)
        (momentAt schedule) (fun _ => 0) := by
  unfold Problem.moments nestUpdate
  congr 1
  funext t l
  rw [foldl_eq_foldl_range _ ((0, 0) : Maneuver)]
  rfl

theorem moments_slot (P : Problem) (schedule : Schedule) (hs : Slots P schedule) (l idx : Nat)
    (hl : l < P.m + 1) (hidx : idx < (teamOf schedule l).length) :
    P.moments schedule (switchAt schedule l idx) = momentAt schedule l idx := by
  rw [moments_eq_nestUpdate]
  exact (nestUpdate_spec (P.m + 1) (fun l => (teamOf schedule l).length) (switchAt schedule)
    (momentAt schedule) (fun _ => 0) hs.inj).1 l idx hl hidx

theorem teamOf_writeBack_ids (P : Problem) (schedule : Schedule) (mem : utils.Ptr → ℚ)
    (l : Nat) :
    (teamOf (utils.writeBack P schedule mem) l).map Prod.fst =
      (teamOf schedule l).map Prod.fst := by
  have h := congrArg (fun L => L.getD l []) (writeBack_ids P schedule mem)
  simp only [List.getD_eq_getElem?_getD, List.getElem?_map] at h
  unfold teamOf
  simp only [List.getD_eq_getElem?_getD]
  cases h1 : (utils.writeBack P schedule mem)[l]? <;> cases h2 : schedule[l]? <;>
    simp [h1, h2] at h ⊢
  · exact h
  · exact h
  · exact h

theorem all_fst {β : Type} (f : β → Bool) (xs ys : List (β × ℚ))
    (h : xs.map Prod.fst = ys.map Prod.fst) :
    xs.all (fun mv => f mv.1) = ys.all (fun mv => f mv.1) := by
  have h1 : ∀ zs : List (β × ℚ), zs.all (fun mv => f mv.1) = (zs.map Prod.fst).all f := by
    intro zs
    induction zs with
    | nil => rfl
    | cons z zs ih => simp [ih]
  rw [h1, h1, h]

theorem inBounds_writeBack (P : Problem) (schedule : Schedule) (mem : utils.Ptr → ℚ) :
    inBounds P (utils.writeBack P schedule mem) = inBounds P schedule := by
  unfold inBounds
  rw [writeBack_length]
  congr 2
  funext l
  exact all_fst (fun x => decide (0 ≤ x) && decide (x ≤ (P.n : Int))) _ _
    (teamOf_writeBack_ids P schedule mem l)

theorem forall_mem_teamOf (schedule : Schedule) (l : Nat) (q : Maneuver → Prop) :
    (∀ mv ∈ teamOf schedule l, q mv) ↔
      ∀ idx, idx < (teamOf schedule l).length → q (maneuverAt schedule l idx) := by
  constructor
  · intro h idx hidx
    rw [maneuverAt_eq_getElem schedule l idx hidx]
    exact h _ (List.getElem_mem hidx)
  · intro h mv hmv
    obtain ⟨idx, hidx, rfl⟩ := List.getElem_of_mem hmv
    rw [← maneuverAt_eq_getElem schedule l idx hidx]
    exact h idx hidx

theorem exRemote_inverseSets : exRemote.inverseSets := by
  refine ⟨?_, ?_, ?_⟩
  · intro j
    show (if j = 2 then [1] else []).Nodup
    split <;> simp
  · intro i
    show (if i = 1 then [2] else []).Nodup
    split <;> simp
  · intro i j
    show i ∈ (if j = 2 then [1] else []) ↔ j ∈ (if i = 1 then [2] else [])
    by_cases hj : j = 2 <;> by_cases hi : i = 1 <;> simp [hi, hj]

theorem exRemote_p_nonneg : ∀ i, 0 ≤ exRemote.p i := by
  intro i
  show (0 : ℚ) ≤ if i = 1 then 5 else 0
  split <;> norm_num

theorem exTravel_p_nonneg : ∀ i, 0 ≤ exTravel.p i := by
  intro i
  show (0 : ℚ) ≤ if i = 1 then 1 else if i = 2 then 10 else 0
  split_ifs <;> norm_num

/-! ## The checks of `is_feasible` -/

theorem foldlM_flatMap_option {α β σ : Type} (f : σ → β → Option σ) (g : α → List β)
    (ls : List α) (a : σ) :
    (ls.flatMap g).foldlM f a = ls.foldlM (fun a l => (g l).foldlM f a) a := by
  induction ls generalizing a with
  | nil => rfl
  | cons l ls ih =>
    rw [List.flatMap_cons, List.foldlM_append, List.foldlM_cons]
    cases (g l).foldlM f a with
    | none => rfl
    | some a1 => exact ih a1

theorem flatMap_range_teamOf (schedule : Schedule) (k : Nat) (hk : k ≤ schedule.length) :
    (List.range k).flatMap (teamOf schedule) = (schedule.take k).flatten := by
  induction k with
  | zero => simp
  | succ k ih =>
    have hk1 : k < schedule.length := hk
    rw [List.range_succ, List.flatMap_append, ih (Nat.le_of_lt hk1), List.take_succ,
      List.flatten_append]
    simp [teamOf, List.getD_eq_getElem?_getD, List.getElem?_eq_getElem hk1]

theorem checkStep_spec (n : Nat) (xs : List Maneuver) (a0 : Nat → Nat) :
    ((xs.foldlM
        (fun assignment mv =>
          if mv.1 < 1 ∨ mv.1 > (n : Int) then none
          else some (Function.update assignment mv.1.toNat (assignment mv.1.toNat + 1)))
        a0 = none) ↔ ∃ x ∈ xs.map Prod.fst, x < 1 ∨ (n : Int) < x) ∧
    (∀ a, xs.foldlM
        (fun assignment mv =>
          if mv.1 < 1 ∨ mv.1 > (n : Int) then none
          else some (Function.update assignment mv.1.toNat (assignment mv.1.toNat + 1)))
        a0 = some a →
      ∀ k, a k = a0 k + ((xs.map Prod.fst).map Int.toNat).count k) := by
  induction xs generalizing a0 with
  | nil =>
    constructor
    · simp
    · intro a h k
      simp at h
      subst h
      simp
  | cons mv xs ih =>
    rw [List.foldlM_cons]
    by_cases hbad : mv.1 < 1 ∨ mv.1 > (n : Int)
    · rw [if_pos hbad]
      constructor
      · simp only [Option.none_bind, Option.bind_eq_bind, true_iff]
        exact ⟨mv.1, by simp, hbad⟩
      · intro a h
        simp at h
    · rw [if_neg hbad]
      simp only [Option.some_bind, Option.bind_eq_bind]
      obtain ⟨ih1, ih2⟩ := ih (Function.update a0 mv.1.toNat (a0 mv.1.toNat + 1))
      constructor
      · rw [ih1]
        simp only [List.map_cons, List.mem_cons, exists_eq_or_imp]
        constructor
        · exact Or.inr
        · rintro (h | h)
          · exact absurd h hbad
          · exact h
      · intro a h k
        rw [ih2 a h k]
        simp only [List.map_cons, List.count_cons]
        by_cases hk : k = mv.1.toNat
        · subst hk
          simp
          ring
        · have hk2 : ¬ mv.1.toNat = k := fun h => hk h.symm
          simp [Function.update_noteq hk, hk2]

theorem count_toNat (ids : List Int) (k : Nat) (hk : 1 ≤ k) :
    (ids.map Int.toNat).count k = ids.count (k : Int) := by
  induction ids with
  | nil => rfl
  | cons x xs ih =>
    simp only [List.map_cons, List.count_cons, ih]
    congr 1
    by_cases hx : x = (k : Int)
    · subst hx
      simp
    · have : ¬ x.toNat = k := by
        intro h
        apply hx
        omega
      simp [hx, this]

theorem checkIds_eq (P : Problem) (schedule : Schedule) (hlen : P.m + 1 ≤ schedule.length) :
    checkIds P schedule =
      ((schedule.take (P.m + 1)).flatten).foldlM
        (fun assignment mv =>
          if mv.1 < 1 ∨ mv.1 > (P.n : Int) then none
          else some (Function.update assignment mv.1.toNat (assignment mv.1.toNat + 1)))
        (fun _ => 0) := by
  unfold checkIds
  rw [← flatMap_range_teamOf schedule (P.m + 1) hlen, foldlM_flatMap_option]

theorem checkIds_none_iff (P : Problem) (schedule : Schedule)
    (hlen : P.m + 1 ≤ schedule.length) :
    checkIds P schedule = none ↔ violates P schedule Violation.switchIds := by
  rw [checkIds_eq P schedule hlen]
  exact (checkStep_spec P.n _ _).1

theorem checkIds_some (P : Problem) (schedule : Schedule) (hlen : P.m + 1 ≤ schedule.length)
    (a : Nat → Nat) (h : checkIds P schedule = some a) (k : Nat) (hk : 1 ≤ k) :
    a k = (switchIds P schedule).count (k : Int) := by
  rw [checkIds_eq P schedule hlen] at h
  rw [(checkStep_spec P.n _ _).2 a h k, count_toNat _ k hk]
  simp [switchIds]

theorem assignment_iff (P : Problem) (schedule : Schedule) (hlen : P.m + 1 ≤ schedule.length)
    (a : Nat → Nat) (h : checkIds P schedule = some a) :
    (List.range' 1 P.n).any (fun i => decide (a i ≠ 1)) = true ↔
      violates P schedule Violation.assignment := by
  simp only [List.any_eq_true, List.mem_range'_1, decide_eq_true_eq, violates]
  constructor
  · rintro ⟨i, ⟨h1, h2⟩, h3⟩
    exact ⟨i, h1, by omega, by rwa [← checkIds_some P schedule hlen a h i h1]⟩
  · rintro ⟨i, h1, h2, h3⟩
    exact ⟨i, ⟨h1, by omega⟩, by rwa [checkIds_some P schedule hlen a h i h1]⟩

theorem remote_iff (P : Problem) (schedule : Schedule) :
    (teamOf schedule 0).any (fun mv => decide (P.technology mv.1.toNat ≠ Technology.REMOTE)) =
      true ↔ violates P schedule Violation.remote := by
  simp only [List.any_eq_true, decide_eq_true_eq, violates]

theorem manual_iff (P : Problem) (schedule : Schedule) :
    (List.range' 1 P.m).any (fun l => (teamOf schedule l).any
      (fun mv => decide (P.technology mv.1.toNat ≠ Technology.MANUAL))) = true ↔
      violates P schedule Violation.manual := by
  simp only [List.any_eq_true, List.mem_range'_1, decide_eq_true_eq, violates]
  constructor
  · rintro ⟨l, ⟨h1, h2⟩, h3⟩
    exact ⟨l, h1, by omega, h3⟩
  · rintro ⟨l, h1, h2, h3⟩
    exact ⟨l, ⟨h1, by omega⟩, h3⟩

theorem precedence_iff (P : Problem) (schedule : Schedule) :
    precedenceViolated P schedule = true ↔ violates P schedule Violation.precedence := by
  simp only [precedenceViolated, List.any_eq_true, List.mem_range'_1, decide_eq_true_eq,
    violates]
  constructor
  · rintro ⟨j, ⟨h1, h2⟩, h3⟩
    exact ⟨j, h1, by omega, h3⟩
  · rintro ⟨j, h1, h2, h3⟩
    exact ⟨j, ⟨h1, by omega⟩, h3⟩

theorem sequence_iff (P : Problem) (schedule : Schedule) :
    sequenceViolated P schedule = true ↔ violates P schedule Violation.sequence := by
  simp only [sequenceViolated, List.any_eq_true, List.mem_range, List.mem_range'_1,
    Bool.and_eq_true, decide_eq_true_eq, violates]
  constructor
  · rintro ⟨l, h1, h2, idx, ⟨h3, h4⟩, h5⟩
    exact ⟨l, by omega, idx, by omega, by omega, h5⟩
  · rintro ⟨l, h1, idx, h2, h3, h4⟩
    exact ⟨l, by omega, by omega, idx, ⟨by omega, by omega⟩, h4⟩

theorem travel_iff (P : Problem) (schedule : Schedule) :
    travelViolated P schedule = true ↔ violates P schedule Violation.travel := by
  simp only [travelViolated, List.any_eq_true, List.mem_range'_1, Bool.and_eq_true,
    Bool.or_eq_true, Bool.not_eq_true', List.isEmpty_eq_false_iff_exists_mem,
    decide_eq_true_eq, violates]
  constructor
  · rintro ⟨l, ⟨h1, h2⟩, hne, h3⟩
    have hpos : 0 < (teamOf schedule l).length := by
      obtain ⟨x, hx⟩ := hne
      exact List.length_pos_of_mem hx
    refine ⟨l, h1, by omega, ?_⟩
    rcases h3 with h3 | ⟨_, idx, ⟨h4, h5⟩, h6⟩
    · exact Or.inl ⟨hpos, h3⟩
    · exact Or.inr ⟨idx, by omega, by omega, h6⟩
  · rintro ⟨l, h1, h2, h3⟩
    rcases h3 with ⟨hpos, h3⟩ | ⟨idx, h4, h5, h6⟩
    · exact ⟨l, ⟨h1, by omega⟩, List.exists_mem_of_length_pos hpos, Or.inl h3⟩
    · exact ⟨l, ⟨h1, by omega⟩, List.exists_mem_of_length_pos (by omega),
        Or.inr ⟨by omega, idx, ⟨by omega, by omega⟩, h6⟩⟩

theorem ite_bool_prop {α : Type} (b : Bool) (q : Prop) [Decidable q] (h : b = true ↔ q)
    (x y : α) : (if b = true then x else y) = (if q then x else y) := by
  by_cases hq : q
  · rw [if_pos hq, if_pos (h.mpr hq)]
  · rw [if_neg hq, if_neg (fun hb => hq (h.mp hb))]

open Classical in
theorem is_feasible_eq (P : Problem) (schedule : Schedule) (msg : Option String) :
    P.is_feasible schedule msg =
      if violates P schedule Violation.teamCount then reject msg Violation.teamCount.message
      else if violates P schedule Violation.switchIds then
        reject msg Violation.switchIds.message
      else if violates P schedule Violation.assignment then
        reject msg Violation.assignment.message
      else if violates P schedule Violation.remote then reject msg Violation.remote.message
      else if violates P schedule Violation.manual then reject msg Violation.manual.message
      else if violates P schedule Violation.precedence then
        reject msg Violation.precedence.message
      else if violates P schedule Violation.sequence then
        reject msg Violation.sequence.message
      else if violates P schedule Violation.travel then reject msg Violation.travel.message
      else
        match msg with
        | none => none
        | some _ => some (true, some "Feasible solution.") := by
  unfold Problem.is_feasible
  by_cases h1 : schedule.length ≠ P.m + 1
  · rw [if_pos h1, if_pos (show violates P schedule Violation.teamCount from h1)]
    rfl
  · rw [if_neg h1, if_neg (show ¬ violates P schedule Violation.teamCount from h1)]
    have hlen : P.m + 1 ≤ schedule.length := by omega
    cases hc : checkIds P schedule with
    | none =>
      rw [if_pos ((checkIds_none_iff P schedule hlen).mp hc)]
      rfl
    | some a =>
      have h2 : ¬ violates P schedule Violation.switchIds := by
        intro h
        rw [(checkIds_none_iff P schedule hlen).mpr h] at hc
        cases hc
      rw [if_neg h2]
      show (if _ then _ else _) = _
      rw [ite_bool_prop _ _ (assignment_iff P schedule hlen a hc)]
      congr 1
      rw [ite_bool_prop _ _ (remote_iff P schedule)]
      congr 1
      rw [ite_bool_prop _ _ (manual_iff P schedule)]
      congr 1
      rw [ite_bool_prop _ _ (precedence_iff P schedule)]
      congr 1
      rw [ite_bool_prop _ _ (sequence_iff P schedule)]
      congr 1
      rw [ite_bool_prop _ _ (travel_iff P schedule)]
      rfl

theorem is_feasible_true (P : Problem) (schedule : Schedule) (msg r : Option String)
    (h : P.is_feasible schedule msg = some (true, r)) (v : Violation) :
    ¬ violates P schedule v := by
  rw [is_feasible_eq] at h
  intro hv
  have hrej : ∀ text, reject msg text ≠ some (true, r) := by
    intro text hr
    unfold reject at hr
    injection hr with hr
    injection hr with hr _
    cases hr
  split_ifs at h with h1 h2 h3 h4 h5 h6 h7 h8
  all_goals first
    | exact hrej _ h
    | (cases v <;> contradiction)

theorem once_of_not_violates (P : Problem) (schedule : Schedule)
    (h2 : ¬ violates P schedule Violation.switchIds)
    (h3 : ¬ violates P schedule Violation.assignment) : placesEachSwitchOnce P schedule := by
  unfold placesEachSwitchOnce
  rw [List.perm_iff_count]
  intro x
  simp only [violates, not_exists, not_and, not_not, not_or, not_lt] at h2 h3
  have hnd : ((List.range' 1 P.n).map Int.ofNat).Nodup :=
    (List.nodup_range' 1 P.n).map (fun a b hab => by simpa using hab)
  by_cases hx : 1 ≤ x ∧ x ≤ (P.n : Int)
  · obtain ⟨k, rfl⟩ : ∃ k : Nat, x = (k : Int) := ⟨x.toNat, by omega⟩
    rw [h3 k (by omega) (by omega)]
    symm
    apply List.count_eq_one_of_mem hnd
    rw [List.mem_map]
    exact ⟨k, List.mem_range'_1.mpr ⟨by omega, by omega⟩, rfl⟩
  · have e1 : (switchIds P schedule).count x = 0 := by
      rw [List.count_eq_zero]
      intro hmem
      exact hx (h2 x hmem)
    have e2 : ((List.range' 1 P.n).map Int.ofNat).count x = 0 := by
      rw [List.count_eq_zero, List.mem_map]
      rintro ⟨k, hk, rfl⟩
      rw [List.mem_range'_1] at hk
      apply hx
      constructor
      · show (1 : Int) ≤ (k : Int)
        omega
      · show (k : Int) ≤ (P.n : Int)
        omega
    rw [e1, e2]

theorem not_violates_of_once (P : Problem) (schedule : Schedule)
    (h : placesEachSwitchOnce P schedule) :
    ¬ violates P schedule Violation.switchIds ∧ ¬ violates P schedule Violation.assignment := by
  unfold placesEachSwitchOnce at h
  have hnd : ((List.range' 1 P.n).map Int.ofNat).Nodup :=
    (List.nodup_range' 1 P.n).map (fun a b hab => by simpa using hab)
  constructor
  · rintro ⟨x, hx, hbad⟩
    rw [h.mem_iff, List.mem_map] at hx
    obtain ⟨k, hk, rfl⟩ := hx
    rw [List.mem_range'_1] at hk
    have h1 : (1 : Int) ≤ (k : Int) := by omega
    have h2 : (k : Int) ≤ (P.n : Int) := by omega
    rcases hbad with hb | hb
    · exact absurd (show (Int.ofNat k) < 1 from hb) (by show ¬ ((k : Int) < 1); omega)
    · exact absurd (show (P.n : Int) < Int.ofNat k from hb)
        (by show ¬ ((P.n : Int) < (k : Int)); omega)
  · rintro ⟨i, h1, h2, h3⟩
    apply h3
    rw [h.count_eq]
    apply List.count_eq_one_of_mem hnd
    rw [List.mem_map]
    exact ⟨i, List.mem_range'_1.mpr ⟨h1, by omega⟩, rfl⟩

/-! ## Timing facts of a schedule marked feasible -/

theorem precedence_facts (P : Problem) (entry out : Schedule × ℚ)
    (hinv : P.inverseSets) (honce : placesEachSwitchOnce P entry.1)
    (h : utils.evaluate P entry = some (true, out)) :
    ∀ j, 1 ≤ j → j ≤ P.n → ∀ i ∈ P.predecessors j,
      P.moments out.1 i + P.p i ≤ P.moments out.1 j := by
  obtain ⟨s, hs, hb, hprec, hall, hout1, _⟩ := evaluate_feasible_facts P entry out honce h
  have hp := hprec hinv
  have hs1 := slots_writeBack P entry.1 s.mem hs
  rw [hout1]
  intro j hj1 hj2 i hi
  obtain ⟨l, idx, hl, hidx, rfl⟩ := hs.surj j hj1 hj2
  obtain ⟨l1, idx1, hl1, hidx1, rfl, hle⟩ := hp.prec l idx hl (by rw [hall l hl]; exact hidx) i hi
  rw [hall l1 hl1] at hidx1
  have e1 := moments_slot P _ hs1 l idx hl (by rw [teamOf_writeBack_length]; exact hidx)
  have e2 := moments_slot P _ hs1 l1 idx1 hl1 (by rw [teamOf_writeBack_length]; exact hidx1)
  rw [switchAt_writeBack, momentAt_writeBack P entry.1 s.mem _ _ hl hidx] at e1
  rw [switchAt_writeBack, momentAt_writeBack P entry.1 s.mem _ _ hl1 hidx1] at e2
  rw [e1, e2]
  exact hle

theorem travel_facts (P : Problem) (entry out : Schedule × ℚ)
    (honce : placesEachSwitchOnce P entry.1)
    (h : utils.evaluate P entry = some (true, out)) :
    ∀ l, 1 ≤ l → l ≤ P.m → ∀ idx, idx < (teamOf out.1 l).length →
      (idx = 0 → 0 + P.p 0 + P.c 0 (switchAt out.1 l 0) l ≤ momentAt out.1 l 0) ∧
      (0 < idx →
        momentAt out.1 l (idx - 1) + P.p (switchAt out.1 l (idx - 1)) +
          P.c (switchAt out.1 l (idx - 1)) (switchAt out.1 l idx) l ≤ momentAt out.1 l idx) := by
  obtain ⟨s, hs, hb, _, hall, hout1, _⟩ := evaluate_feasible_facts P entry out honce h
  rw [hout1]
  intro l hl1 hl2 idx hidx
  rw [teamOf_writeBack_length] at hidx
  have hl : l < P.m + 1 := by omega
  have ht := hb.travel l idx hl1 hl (by rw [hall l hl]; exact hidx)
  simp only [switchAt_writeBack]
  constructor
  · intro h0
    subst h0
    rw [momentAt_writeBack P entry.1 s.mem l 0 hl hidx]
    simpa using ht
  · intro h0
    rw [momentAt_writeBack P entry.1 s.mem l idx hl hidx,
      momentAt_writeBack P entry.1 s.mem l (idx - 1) hl (by omega)]
    rw [if_neg (by omega)] at ht
    exact ht

theorem switchIds_eq (P : Problem) (schedule : Schedule) :
    switchIds P schedule = ((schedule.map (List.map Prod.fst)).take (P.m + 1)).flatten := by
  unfold switchIds
  rw [List.map_flatten, List.map_take]

theorem exChain_inverseSets : exChain.inverseSets := by
  refine ⟨?_, ?_, ?_⟩
  · intro j
    show (if j = 2 then [1] else []).Nodup
    split <;> simp
  · intro i
    show (if i = 1 then [2] else []).Nodup
    split <;> simp
  · intro i j
    show i ∈ (if j = 2 then [1] else []) ↔ j ∈ (if i = 1 then [2] else [])
    by_cases hj : j = 2 <;> by_cases hi : i = 1 <;> simp [hi, hj]

theorem exChain_p_nonneg : ∀ i, 0 ≤ exChain.p i := by
  intro i
  show (0 : ℚ) ≤ if i = 1 then 5 else 0
  split <;> norm_num

/-! ## Claims on `utils::evaluate` against `Problem` -/

/-- C2. For a schedule whose team lists `0..m` hold each switch `1..n` exactly once and that
`utils::evaluate` marks feasible, `Problem::evaluate` applied to the schedule with the
fixed moments returns exactly the makespan that `utils::evaluate` stored in the entry. -/
theorem evaluate_makespan_agrees (P : Problem) (entry out : Schedule × ℚ)
    (honce : placesEachSwitchOnce P entry.1)
    (h : utils.evaluate P entry = some (true, out)) :
    P.evaluate out.1 = some out.2 := by
  obtain ⟨s, hs, hb, _, hall, hout1, hout2⟩ := evaluate_feasible_facts P entry out honce h
  have hin := (evaluate_some P entry true out h).1
  unfold Problem.evaluate
  rw [hout1, inBounds_writeBack, if_pos hin, hout2]
  congr 1
  have key : ∀ x : ℚ,
      (0 ≤ x ∧ ∀ l, l < P.m + 1 → ∀ mv ∈ teamOf (utils.writeBack P entry.1 s.mem) l,
        mv.2 + P.p mv.1.toNat ≤ x) ↔
      (0 ≤ x ∧ ∀ l idx, l < P.m + 1 → idx < s.index l →
        s.mem (utils.Ptr.slot l idx) + P.p (switchAt entry.1 l idx) ≤ x) := by
    intro x
    constructor
    · rintro ⟨h0, h1⟩
      refine ⟨h0, fun l idx hl hidx => ?_⟩
      rw [hall l hl] at hidx
      have := (forall_mem_teamOf _ l (fun mv => mv.2 + P.p mv.1.toNat ≤ x)).mp (h1 l hl) idx
        (by rw [teamOf_writeBack_length]; exact hidx)
      rw [maneuverAt_writeBack P entry.1 s.mem l idx hl hidx] at this
      exact this
    · rintro ⟨h0, h1⟩
      refine ⟨h0, fun l hl => ?_⟩
      rw [forall_mem_teamOf _ l (fun mv => mv.2 + P.p mv.1.toNat ≤ x)]
      intro idx hidx
      rw [teamOf_writeBack_length] at hidx
      rw [maneuverAt_writeBack P entry.1 s.mem l idx hl hidx]
      exact h1 l idx hl (by rw [hall l hl]; exact hidx)
  apply le_antisymm
  · rw [evaluate_fold_le, key, ← hb.span]
  · rw [hb.span, ← key, ← evaluate_fold_le]

theorem evaluate_makespan_agrees_witness :
    exTravel.evaluate [[], [(1, 0), (2, 1)]] = some 11 :=
  evaluate_makespan_agrees exTravel ([[], [(1, 7), (2, 3)]], 99) ([[], [(1, 0), (2, 1)]], 11)
    (by decide!) (by decide!)

/-- Moments of the physical teams. For an instance with non-negative durations and travel
costs and a schedule holding each switch `1..n` exactly once that `utils::evaluate` marks
feasible, within every physical team `1..m` the fixed moments are non-decreasing by list
position. -/
theorem evaluate_moments_sorted (P : Problem) (entry out : Schedule × ℚ)
    (hp : ∀ i, 0 ≤ P.p i) (hc : ∀ i j l, 0 ≤ P.c i j l)
    (honce : placesEachSwitchOnce P entry.1)
    (h : utils.evaluate P entry = some (true, out)) :
    ∀ l, 1 ≤ l → l ≤ P.m → ∀ idx, 0 < idx → idx < (teamOf out.1 l).length →
      momentAt out.1 l (idx - 1) ≤ momentAt out.1 l idx := by
  intro l hl1 hl2 idx h0 hidx
  have ht := (travel_facts P entry out honce h l hl1 hl2 idx hidx).2 h0
  have h1 := hp (switchAt out.1 l (idx - 1))
  have h2 := hc (switchAt out.1 l (idx - 1)) (switchAt out.1 l idx) l
  linarith

theorem evaluate_moments_sorted_witness :
    momentAt [[], [(1, 0), (2, 1)]] 1 (1 - 1) ≤ momentAt [[], [(1, 0), (2, 1)]] 1 1 :=
  evaluate_moments_sorted exTravel ([[], [(1, 7), (2, 3)]], 99) ([[], [(1, 0), (2, 1)]], 11)
    exTravel_p_nonneg (fun _ _ _ => le_refl _) (by decide!) (by decide!) 1 (le_refl 1)
    (le_refl 1) 1 Nat.one_pos (by decide)

/-- C4 fails on the code, on team 0. On `exRemote`, durations and travel costs are
non-negative, the schedule holds each switch once and `utils::evaluate` marks it feasible,
yet the second moment of team 0 is below the first: the evaluator starts a maneuver of
team 0 at `0.0`, not at the finish time of the maneuver before it (utils.cpp 76-80). The
sequence loop of `is_feasible`, which runs over the teams `0..m`, rejects these moments. -/
theorem evaluate_team0_not_sorted :
    (∀ i, 0 ≤ exRemote.p i) ∧ (∀ i j l, 0 ≤ exRemote.c i j l) ∧
    placesEachSwitchOnce exRemote [[(2, 0), (3, 0)], [(1, 0)]] ∧
    utils.evaluate exRemote ([[(2, 0), (3, 0)], [(1, 0)]], 0) =
      some (true, ([[(2, 5), (3, 0)], [(1, 0)]], 5)) ∧
    momentAt [[(2, 5), (3, 0)], [(1, 0)]] 0 1 < momentAt [[(2, 5), (3, 0)], [(1, 0)]] 0 0 ∧
    sequenceViolated exRemote [[(2, 5), (3, 0)], [(1, 0)]] = true :=
  ⟨exRemote_p_nonneg, fun _ _ _ => le_refl _, by decide!, by decide!, by decide!, by decide!⟩

/-- C1 fails on the code. On `exTravel` (team 0 empty, team 1 performs switch 1 of
duration 1 and then switch 2 of duration 10) every hypothesis of the claim holds and
`utils::evaluate` marks the schedule feasible with the moments 0 and 1, yet `is_feasible`
rejects the evaluated schedule: its travel test adds the duration of the later maneuver
and finds `1 + 1e-5 < 0 + 10 + 0`. On `exRemote` the hypotheses hold as well and
`is_feasible` rejects the evaluated schedule in its sequence test, since team 0 gets the
moments 5 and 0 in list order. -/
theorem evaluate_feasible_rejected :
    ((∀ i, 0 ≤ exTravel.p i) ∧ (∀ i j l, 0 ≤ exTravel.c i j l) ∧
      ([[], [(1, 0), (2, 0)]] : Schedule).length = exTravel.m + 1 ∧
      placesEachSwitchOnce exTravel [[], [(1, 0), (2, 0)]] ∧
      (∀ mv ∈ teamOf [[], [(1, 0), (2, 0)]] 0,
        exTravel.technology mv.1.toNat = Technology.REMOTE) ∧
      (∀ mv ∈ teamOf [[], [(1, 0), (2, 0)]] 1,
        exTravel.technology mv.1.toNat = Technology.MANUAL) ∧
      utils.evaluate exTravel ([[], [(1, 0), (2, 0)]], 0) =
        some (true, ([[], [(1, 0), (2, 1)]], 11)) ∧
      exTravel.is_feasible [[], [(1, 0), (2, 1)]] (some "") =
        some (false, some "Moments not consistent to travel times.")) ∧
    (∀ i, 0 ≤ exRemote.p i) ∧ (∀ i j l, 0 ≤ exRemote.c i j l) ∧
    ([[(2, 0), (3, 0)], [(1, 0)]] : Schedule).length = exRemote.m + 1 ∧
    placesEachSwitchOnce exRemote [[(2, 0), (3, 0)], [(1, 0)]] ∧
    (∀ mv ∈ teamOf [[(2, 0), (3, 0)], [(1, 0)]] 0,
      exRemote.technology mv.1.toNat = Technology.REMOTE) ∧
    (∀ mv ∈ teamOf [[(2, 0), (3, 0)], [(1, 0)]] 1,
      exRemote.technology mv.1.toNat = Technology.MANUAL) ∧
    utils.evaluate exRemote ([[(2, 0), (3, 0)], [(1, 0)]], 0) =
      some (true, ([[(2, 5), (3, 0)], [(1, 0)]], 5)) ∧
    exRemote.is_feasible [[(2, 5), (3, 0)], [(1, 0)]] (some "") =
      some (false, some "Moments not consistent to the sequence.") :=
  ⟨⟨exTravel_p_nonneg, fun _ _ _ => le_refl _, by decide, by decide!, by decide!, by decide!,
      by decide!, by decide!⟩,
    exRemote_p_nonneg, fun _ _ _ => le_refl _, by decide, by decide!, by decide!, by decide!,
    by decide!, by decide!⟩

/-- Where the verifier accepts the output of the evaluator. For an instance with
non-negative durations and travel costs and mutually inverse precedence sets, and a
schedule of `m+1` team lists that places each switch `1..n` exactly once, REMOTE switches
on team 0 and MANUAL switches on teams `1..m`: if `utils::evaluate` marks the schedule
feasible, the moments it fixed on team 0 are non-decreasing by list position, and no
maneuver of a physical team lasts longer than the maneuver before it, then `is_feasible`
on the evaluated schedule returns true. The last two conditions keep the schedule away
from the sequence test on team 0 and from the travel test that adds the later duration. -/
theorem evaluate_feasible_verified (P : Problem) (entry out : Schedule × ℚ) (msg : String)
    (hp : ∀ i, 0 ≤ P.p i) (hc : ∀ i j l, 0 ≤ P.c i j l) (hinv : P.inverseSets)
    (hlen : entry.1.length = P.m + 1) (honce : placesEachSwitchOnce P entry.1)
    (hremote : ∀ mv ∈ teamOf entry.1 0, P.technology mv.1.toNat = Technology.REMOTE)
    (hmanual : ∀ l, 1 ≤ l → l ≤ P.m →
      ∀ mv ∈ teamOf entry.1 l, P.technology mv.1.toNat = Technology.MANUAL)
    (h : utils.evaluate P entry = some (true, out))
    (hteam0 : ∀ idx, 0 < idx → idx < (teamOf out.1 0).length →
      momentAt out.1 0 (idx - 1) ≤ momentAt out.1 0 idx)
    (hdur : ∀ l, 1 ≤ l → l ≤ P.m → ∀ idx, 0 < idx → idx < (teamOf entry.1 l).length →
      P.p (switchAt entry.1 l idx) ≤ P.p (switchAt entry.1 l (idx - 1))) :
    P.is_feasible out.1 (some msg) = some (true, some "Feasible solution.") := by
  have hprec := precedence_facts P entry out hinv honce h
  have htravel := travel_facts P entry out honce h
  obtain ⟨_, s, _, _, hout1, _⟩ := evaluate_some P entry true out h
  have hids : switchIds P out.1 = switchIds P entry.1 := by
    rw [switchIds_eq, switchIds_eq, hout1, writeBack_ids]
  have hteam : ∀ l, (teamOf out.1 l).map Prod.fst = (teamOf entry.1 l).map Prod.fst := by
    intro l
    rw [hout1]
    exact teamOf_writeBack_ids P entry.1 s.mem l
  have hsw : ∀ l idx, switchAt out.1 l idx = switchAt entry.1 l idx := by
    intro l idx
    rw [hout1]
    exact switchAt_writeBack P entry.1 s.mem l idx
  have hlength : ∀ l, (teamOf out.1 l).length = (teamOf entry.1 l).length := by
    intro l
    rw [hout1]
    exact teamOf_writeBack_length P entry.1 s.mem l
  have honce1 : placesEachSwitchOnce P out.1 := by
    unfold placesEachSwitchOnce
    rw [hids]
    exact honce
  have heps : (0 : ℚ) < EPS := by
    unfold EPS
    norm_num
  have hfst : ∀ l, ∀ mv ∈ teamOf out.1 l, ∃ mv1 ∈ teamOf entry.1 l, mv1.1 = mv.1 := by
    intro l mv hmv
    have h1 : mv.1 ∈ (teamOf out.1 l).map Prod.fst := List.mem_map_of_mem Prod.fst hmv
    rw [hteam l, List.mem_map] at h1
    exact h1
  have n1 : ¬ violates P out.1 Violation.teamCount := by
    show ¬ (out.1.length ≠ P.m + 1)
    rw [hout1, writeBack_length, hlen]
    exact fun hne => hne rfl
  have n2 := (not_violates_of_once P out.1 honce1).1
  have n3 := (not_violates_of_once P out.1 honce1).2
  have n4 : ¬ violates P out.1 Violation.remote := by
    rintro ⟨mv, hmv, hne⟩
    obtain ⟨mv1, hmv1, heq⟩ := hfst 0 mv hmv
    exact hne (heq ▸ hremote mv1 hmv1)
  have n5 : ¬ violates P out.1 Violation.manual := by
    rintro ⟨l, hl1, hl2, mv, hmv, hne⟩
    obtain ⟨mv1, hmv1, heq⟩ := hfst l mv hmv
    exact hne (heq ▸ hmanual l hl1 hl2 mv1 hmv1)
  have n6 : ¬ violates P out.1 Violation.precedence := by
    rintro ⟨j, hj1, hj2, i, hi, hlt⟩
    have := hprec j hj1 hj2 i hi
    have := hp i
    linarith
  have n7 : ¬ violates P out.1 Violation.sequence := by
    rintro ⟨l, hl, idx, h0, hidx, hlt⟩
    rcases Nat.eq_zero_or_pos l with hl0 | hl0
    · subst hl0
      have := hteam0 idx h0 hidx
      linarith
    · have := (htravel l hl0 hl idx hidx).2 h0
      have := hp (switchAt out.1 l (idx - 1))
      have := hc (switchAt out.1 l (idx - 1)) (switchAt out.1 l idx) l
      linarith
  have n8 : ¬ violates P out.1 Violation.travel := by
    rintro ⟨l, hl1, hl2, ⟨hpos, hlt⟩ | ⟨idx, h0, hidx, hlt⟩⟩
    · have := (htravel l hl1 hl2 0 hpos).1 rfl
      have := hp 0
      linarith
    · have := (htravel l hl1 hl2 idx hidx).2 h0
      have := hdur l hl1 hl2 idx h0 (by rw [← hlength l]; exact hidx)
      rw [← hsw l idx, ← hsw l (idx - 1)] at this
      linarith
  rw [is_feasible_eq, if_neg n1, if_neg n2, if_neg n3, if_neg n4, if_neg n5, if_neg n6,
    if_neg n7, if_neg n8]

theorem evaluate_feasible_verified_witness :
    exChain.is_feasible [[], [(1, 0), (2, 5)]] (some "") =
      some (true, some "Feasible solution.") :=
  evaluate_feasible_verified exChain ([[], [(1, 0), (2, 0)]], 0) ([[], [(1, 0), (2, 5)]], 5) ""
    exChain_p_nonneg (fun _ _ _ => le_refl _) exChain_inverseSets (by decide) (by decide!)
    (by decide!) (fun _ _ _ _ _ => rfl) (by decide!)
    (fun idx _ hidx => absurd hidx (Nat.not_lt_zero idx))
    (fun l h1 h2 idx h3 h4 => by
      have hl : l = 1 := le_antisymm h2 h1
      subst hl
      have hi : idx = 1 := by
        have : idx < 2 := h4
        omega
      subst hi
      decide!)

/-! ## Claims on `Problem::is_feasible` -/

/-- C5 fails on the code. On `exChain` the edge `1 → 2` has `p[1] = 5` and the schedule
gives both maneuvers the moment 0, so `moment(2) + 1e-5 < moment(1) + p[1]`, and the
schedule passes the team-count, assignment and technology checks; `is_feasible` returns
true, because its precedence test compares `t[j] + 1e-5 < t[i]` without `p[i]`. -/
theorem is_feasible_accepts_short_precedence :
    1 ∈ exChain.predecessors 2 ∧
    exChain.moments [[], [(1, 0), (2, 0)]] 2 + EPS <
      exChain.moments [[], [(1, 0), (2, 0)]] 1 + exChain.p 1 ∧
    exChain.is_feasible [[], [(1, 0), (2, 0)]] (some "") =
      some (true, some "Feasible solution.") := by
  decide!

/-- C6 fails on the code. On `exTravel` team 1 performs switch 2 (duration 10) at moment 0
and then switch 1 (duration 1) at moment 1; `is_feasible` returns true although
`moment(b) + 1e-5 < moment(a) + p[a] + c[a][b][l]`, because its travel test adds the
duration of the later maneuver `p[b]`. -/
theorem is_feasible_accepts_short_travel :
    exTravel.is_feasible [[], [(2, 0), (1, 1)]] (some "") =
      some (true, some "Feasible solution.") ∧
    momentAt [[], [(2, 0), (1, 1)]] 1 1 + EPS <
      momentAt [[], [(2, 0), (1, 1)]] 1 0 + exTravel.p (switchAt [[], [(2, 0), (1, 1)]] 1 0) +
        exTravel.c (switchAt [[], [(2, 0), (1, 1)]] 1 0) (switchAt [[], [(2, 0), (1, 1)]] 1 1) 1 := by
  decide!

/-- C7. Whenever `is_feasible` returns true, the schedule has exactly `m+1` team lists,
every switch id `1..n` appears exactly once across them and no other id appears, every
switch on team 0 is REMOTE and every switch on teams `1..m` is MANUAL. -/
theorem is_feasible_assignment (P : Problem) (schedule : Schedule) (msg r : Option String)
    (h : P.is_feasible schedule msg = some (true, r)) :
    schedule.length = P.m + 1 ∧
    (∀ i : Nat, 1 ≤ i → i ≤ P.n → (schedule.flatten.map Prod.fst).count (i : Int) = 1) ∧
    (∀ x ∈ schedule.flatten.map Prod.fst, 1 ≤ x ∧ x ≤ (P.n : Int)) ∧
    (∀ mv ∈ teamOf schedule 0, P.technology mv.1.toNat = Technology.REMOTE) ∧
    (∀ l, 1 ≤ l → l ≤ P.m →
      ∀ mv ∈ teamOf schedule l, P.technology mv.1.toNat = Technology.MANUAL) := by
  have hv := is_feasible_true P schedule msg r h
  have h1 : schedule.length = P.m + 1 := by
    have := hv Violation.teamCount
    simp only [violates, ne_eq, not_not] at this
    exact this
  have hids : switchIds P schedule = schedule.flatten.map Prod.fst := by
    unfold switchIds
    rw [← h1, List.take_length]
  have h2 := hv Violation.switchIds
  have h3 := hv Violation.assignment
  have h4 := hv Violation.remote
  have h5 := hv Violation.manual
  simp only [violates, not_exists, not_and, not_not, not_or, not_lt, hids] at h2 h3 h4 h5
  exact ⟨h1, h3, h2, h4, h5⟩

theorem is_feasible_assignment_witness :
    ([[], [(1, 0), (2, 10)]] : Schedule).length = exTravel.m + 1 ∧
    (∀ i : Nat, 1 ≤ i → i ≤ exTravel.n →
      (([[], [(1, 0), (2, 10)]] : Schedule).flatten.map Prod.fst).count (i : Int) = 1) ∧
    (∀ x ∈ ([[], [(1, 0), (2, 10)]] : Schedule).flatten.map Prod.fst,
      1 ≤ x ∧ x ≤ (exTravel.n : Int)) ∧
    (∀ mv ∈ teamOf [[], [(1, 0), (2, 10)]] 0,
      exTravel.technology mv.1.toNat = Technology.REMOTE) ∧
    (∀ l, 1 ≤ l → l ≤ exTravel.m →
      ∀ mv ∈ teamOf [[], [(1, 0), (2, 10)]] l,
        exTravel.technology mv.1.toNat = Technology.MANUAL) :=
  is_feasible_assignment exTravel [[], [(1, 0), (2, 10)]] (some "")
    (some "Feasible solution.") (by decide!)

theorem getElem?_ids (s1 s2 : Schedule)
    (hids : s1.map (List.map Prod.fst) = s2.map (List.map Prod.fst)) (l : Nat) :
    s1[l]?.map (List.map Prod.fst) = s2[l]?.map (List.map Prod.fst) := by
  have h := congrArg (fun L => L[l]?) hids
  simpa only [List.getElem?_map] using h

theorem teamOf_ids (s1 s2 : Schedule)
    (hids : s1.map (List.map Prod.fst) = s2.map (List.map Prod.fst)) (l : Nat) :
    (teamOf s1 l).map Prod.fst = (teamOf s2 l).map Prod.fst := by
  have h := getElem?_ids s1 s2 hids l
  unfold teamOf
  simp only [List.getD_eq_getElem?_getD]
  cases h1 : s1[l]? <;> cases h2 : s2[l]? <;> simp [h1, h2] at h ⊢
  exact h

theorem teamOf_length_ids (s1 s2 : Schedule)
    (hids : s1.map (List.map Prod.fst) = s2.map (List.map Prod.fst)) (l : Nat) :
    (teamOf s1 l).length = (teamOf s2 l).length := by
  have h := congrArg List.length (teamOf_ids s1 s2 hids l)
  simpa using h

theorem switchAt_ids (s1 s2 : Schedule)
    (hids : s1.map (List.map Prod.fst) = s2.map (List.map Prod.fst)) (l idx : Nat) :
    switchAt s1 l idx = switchAt s2 l idx := by
  have h := congrArg (fun L => L.getD idx 0) (teamOf_ids s1 s2 hids l)
  have e : ∀ team : List Maneuver, (team.map Prod.fst).getD idx 0 = (team.getD idx (0, 0)).1 :=
    fun team => List.getD_map team (0, 0) Prod.fst
  simp only [e] at h
  unfold switchAt maneuverAt
  rw [h]

theorem inBounds_ids (P : Problem) (s1 s2 : Schedule)
    (hids : s1.map (List.map Prod.fst) = s2.map (List.map Prod.fst)) :
    inBounds P s1 = inBounds P s2 := by
  unfold inBounds
  have hlen : s1.length = s2.length := by
    have := congrArg List.length hids
    simpa using this
  rw [hlen]
  congr 2
  funext l
  exact all_fst (fun x => decide (0 ≤ x) && decide (x ≤ (P.n : Int))) _ _
    (teamOf_ids s1 s2 hids l)

theorem visit_ids (P : Problem) (s1 s2 : Schedule) (t : Nat → Option utils.Ptr)
    (hids : s1.map (List.map Prod.fst) = s2.map (List.map Prod.fst)) :
    utils.visit P s1 t = utils.visit P s2 t := by
  funext s l
  unfold utils.visit
  simp only [teamOf_length_ids s1 s2 hids, switchAt_ids s1 s2 hids]

theorem whileLoop_ids (P : Problem) (s1 s2 : Schedule) (t : Nat → Option utils.Ptr)
    (hids : s1.map (List.map Prod.fst) = s2.map (List.map Prod.fst)) (fuel : Nat)
    (s : utils.EvalState) :
    utils.whileLoop P s1 t fuel s = utils.whileLoop P s2 t fuel s := by
  induction fuel generalizing s with
  | zero => rfl
  | succ fuel ih =>
    simp only [utils.whileLoop, utils.scan, visit_ids P s1 s2 t hids]
    split
    · split <;> simp_all
    · rfl

theorem init_ids (P : Problem) (s1 s2 : Schedule)
    (hids : s1.map (List.map Prod.fst) = s2.map (List.map Prod.fst)) :
    (utils.init P s1).t = (utils.init P s2).t ∧
    (utils.init P s1).pendings = (utils.init P s2).pendings ∧
    (utils.init P s1).mem = (utils.init P s2).mem := by
  have hlen : (fun l => (teamOf s1 l).length) = fun l => (teamOf s2 l).length :=
    funext (teamOf_length_ids s1 s2 hids)
  have hsw : switchAt s1 = switchAt s2 :=
    funext (fun l => funext (fun idx => switchAt_ids s1 s2 hids l idx))
  refine ⟨?_, ?_, ?_⟩
  · rw [init_t, init_t, hlen, hsw]
    rfl
  · rw [init_pendings, init_pendings, hlen, hsw]
    rfl
  · rw [init_mem, init_mem, hlen]
    have hspec := fun (f0 : utils.Ptr → ℚ) =>
      nestUpdate_spec (P.m + 1) (fun l => (teamOf s2 l).length) utils.Ptr.slot
        (fun _ _ => DBL_MAX) f0
        (fun l idx l1 idx1 _ _ _ _ h => by
          injection h with h1 h2
          exact ⟨h1, h2⟩)
    funext ptr
    cases ptr with
    | t0 =>
      rw [(hspec _).2 utils.Ptr.t0 (fun l idx _ _ h => by cases h),
        (hspec _).2 utils.Ptr.t0 (fun l idx _ _ h => by cases h)]
      rfl
    | slot l idx =>
      by_cases hv : l < P.m + 1 ∧ idx < (teamOf s2 l).length
      · rw [(hspec _).1 l idx hv.1 hv.2, (hspec _).1 l idx hv.1 hv.2]
      · have hne : ∀ l1 idx1, l1 < P.m + 1 → idx1 < (teamOf s2 l1).length →
            utils.Ptr.slot l1 idx1 ≠ utils.Ptr.slot l idx := by
          intro l1 idx1 h1 h2 heq
          injection heq with e1 e2
          subst e1 e2
          exact hv ⟨h1, h2⟩
        rw [(hspec _).2 _ hne, (hspec _).2 _ hne]
        show (if l ≤ P.m then momentAt s1 l idx else 0) =
          (if l ≤ P.m then momentAt s2 l idx else 0)
        by_cases hl : l ≤ P.m
        · have h2 : ¬ idx < (teamOf s2 l).length := fun h => hv ⟨by omega, h⟩
          have h1 : ¬ idx < (teamOf s1 l).length := by
            rw [teamOf_length_ids s1 s2 hids l]
            exact h2
          rw [if_pos hl, if_pos hl]
          unfold momentAt maneuverAt
          rw [List.getD_eq_default _ _ (by omega), List.getD_eq_default _ _ (by omega)]
        · rw [if_neg hl, if_neg hl]

theorem mapIdx_fst (team1 team2 : List Maneuver) (g : Nat → ℚ)
    (h : team1.map Prod.fst = team2.map Prod.fst) :
    team1.mapIdx (fun idx mv => (mv.1, g idx)) = team2.mapIdx (fun idx mv => (mv.1, g idx)) := by
  apply List.ext_getElem?
  intro i
  have hi := congrArg (fun L => L[i]?) h
  simp only [List.getElem?_map] at hi
  simp only [List.getElem?_mapIdx]
  cases h1 : team1[i]? <;> cases h2 : team2[i]? <;> simp [h1, h2] at hi ⊢
  exact hi

theorem writeBack_getElem? (P : Problem) (schedule : Schedule) (mem : utils.Ptr → ℚ)
    (l : Nat) :
    (utils.writeBack P schedule mem)[l]? =
      schedule[l]?.map (fun team =>
        if l ≤ P.m then team.mapIdx (fun idx mv => (mv.1, mem (utils.Ptr.slot l idx)))
        else team) := by
  unfold utils.writeBack
  rw [List.getElem?_mapIdx]

theorem writeBack_congr (P : Problem) (s1 s2 : Schedule) (mem : utils.Ptr → ℚ)
    (hids : s1.map (List.map Prod.fst) = s2.map (List.map Prod.fst))
    (htail : s1.drop (P.m + 1) = s2.drop (P.m + 1)) :
    utils.writeBack P s1 mem = utils.writeBack P s2 mem := by
  apply List.ext_getElem?
  intro l
  rw [writeBack_getElem?, writeBack_getElem?]
  by_cases hl : l ≤ P.m
  · have h := getElem?_ids s1 s2 hids l
    cases h1 : s1[l]? <;> cases h2 : s2[l]? <;> simp [h1, h2, hl] at h ⊢
    exact mapIdx_fst _ _ _ h
  · have h := congrArg (fun L => L[l - (P.m + 1)]?) htail
    simp only [List.getElem?_drop] at h
    rw [show P.m + 1 + (l - (P.m + 1)) = l by omega] at h
    rw [h]

theorem writeBack_drop (P : Problem) (schedule : Schedule) (mem : utils.Ptr → ℚ) :
    (utils.writeBack P schedule mem).drop (P.m + 1) = schedule.drop (P.m + 1) := by
  apply List.ext_getElem?
  intro i
  rw [List.getElem?_drop, List.getElem?_drop, writeBack_getElem?]
  cases schedule[P.m + 1 + i]? with
  | none => rfl
  | some team =>
    have : ¬ P.m + 1 + i ≤ P.m := by omega
    simp [this]

theorem writeBack_take_congr (P : Problem) (s1 s2 : Schedule) (mem : utils.Ptr → ℚ)
    (hids : s1.map (List.map Prod.fst) = s2.map (List.map Prod.fst)) :
    (utils.writeBack P s1 mem).take (P.m + 1) = (utils.writeBack P s2 mem).take (P.m + 1) := by
  apply List.ext_getElem?
  intro l
  rw [List.getElem?_take, List.getElem?_take, writeBack_getElem?, writeBack_getElem?]
  by_cases hl : l < P.m + 1
  · have hl1 : l ≤ P.m := by omega
    have h := getElem?_ids s1 s2 hids l
    cases h1 : s1[l]? <;> cases h2 : s2[l]? <;> simp [h1, h2, hl, hl1] at h ⊢
    exact mapIdx_fst _ _ _ h
  · rw [if_neg hl, if_neg hl]

theorem evaluate_view_congr (P : Problem) (e1 e2 : Schedule × ℚ)
    (hids : e1.1.map (List.map Prod.fst) = e2.1.map (List.map Prod.fst)) :
    (utils.evaluate P e1).map (fun r => (r.1, r.2.1.take (P.m + 1), r.2.2)) =
      (utils.evaluate P e2).map (fun r => (r.1, r.2.1.take (P.m + 1), r.2.2)) := by
  obtain ⟨ht, hp, hm⟩ := init_ids P e1.1 e2.1 hids
  have hstart : utils.evalStart P e1.1 = utils.evalStart P e2.1 := by
    unfold utils.evalStart
    rw [hp, hm]
  unfold utils.evaluate
  rw [inBounds_ids P e1.1 e2.1 hids, ht, hstart, whileLoop_ids P e1.1 e2.1 _ hids]
  split
  · split
    · rfl
    · simp only [Option.map_some', writeBack_take_congr P e1.1 e2.1 _ hids]
  · rfl

theorem evaluate_congr (P : Problem) (e1 e2 : Schedule × ℚ)
    (hids : e1.1.map (List.map Prod.fst) = e2.1.map (List.map Prod.fst))
    (htail : e1.1.drop (P.m + 1) = e2.1.drop (P.m + 1)) :
    utils.evaluate P e1 = utils.evaluate P e2 := by
  obtain ⟨ht, hp, hm⟩ := init_ids P e1.1 e2.1 hids
  have hstart : utils.evalStart P e1.1 = utils.evalStart P e2.1 := by
    unfold utils.evalStart
    rw [hp, hm]
  unfold utils.evaluate
  rw [inBounds_ids P e1.1 e2.1 hids, ht, hstart, whileLoop_ids P e1.1 e2.1 _ hids]
  split
  · split
    · rfl
    · rw [writeBack_congr P e1.1 e2.1 _ hids htail]
  · rfl

/-! ## Claims on the result of `utils::evaluate` -/

/-- C10. The output of `utils::evaluate` (flag, fixed moments, makespan) depends only on
which switch id sits at which position of which team list: two entries with the same ids
at the same positions yield the same flag, the same team lists `0..m` and the same
makespan whatever their input moments and makespan (the whole result is the same when the
lists above team `m`, which the function never addresses, are the same); so evaluating an
evaluated entry again changes nothing. -/
theorem evaluate_ignores_moments (P : Problem) (e1 e2 : Schedule × ℚ)
    (hids : e1.1.map (List.map Prod.fst) = e2.1.map (List.map Prod.fst)) :
    (utils.evaluate P e1).map (fun r => (r.1, r.2.1.take (P.m + 1), r.2.2)) =
      (utils.evaluate P e2).map (fun r => (r.1, r.2.1.take (P.m + 1), r.2.2)) ∧
    (e1.1.drop (P.m + 1) = e2.1.drop (P.m + 1) → utils.evaluate P e1 = utils.evaluate P e2) ∧
    ∀ b out, utils.evaluate P e1 = some (b, out) → utils.evaluate P out = some (b, out) := by
  refine ⟨evaluate_view_congr P e1 e2 hids, evaluate_congr P e1 e2 hids, ?_⟩
  intro b out h
  obtain ⟨_, s, _, _, hout1, _⟩ := evaluate_some P e1 b out h
  rw [← h]
  apply evaluate_congr
  · rw [hout1, writeBack_ids]
  · rw [hout1, writeBack_drop]

theorem evaluate_ignores_moments_witness :
    (utils.evaluate exTravel ([[], [(1, 7), (2, 3)]], 99)).map
        (fun r => (r.1, r.2.1.take (exTravel.m + 1), r.2.2)) =
      (utils.evaluate exTravel ([[], [(1, 0), (2, 1)]], 11)).map
        (fun r => (r.1, r.2.1.take (exTravel.m + 1), r.2.2)) ∧
    ((([[], [(1, 7), (2, 3)]], 99) : Schedule × ℚ).1.drop (exTravel.m + 1) =
        (([[], [(1, 0), (2, 1)]], 11) : Schedule × ℚ).1.drop (exTravel.m + 1) →
      utils.evaluate exTravel ([[], [(1, 7), (2, 3)]], 99) =
        utils.evaluate exTravel ([[], [(1, 0), (2, 1)]], 11)) ∧
    ∀ b out, utils.evaluate exTravel ([[], [(1, 7), (2, 3)]], 99) = some (b, out) →
      utils.evaluate exTravel out = some (b, out) :=
  evaluate_ignores_moments exTravel ([[], [(1, 7), (2, 3)]], 99) ([[], [(1, 0), (2, 1)]], 11)
    (by decide)

/-! ## Schedules after `erase` and `insert` -/

theorem teamOf_set_self (schedule : Schedule) (l : Nat) (team : List Maneuver)
    (h : l < schedule.length) : teamOf (schedule.set l team) l = team := by
  unfold teamOf
  simp [List.getD_eq_getElem?_getD, List.getElem?_set, h]

theorem teamOf_set_ne (schedule : Schedule) (l l1 : Nat) (team : List Maneuver)
    (h : l1 ≠ l) : teamOf (schedule.set l team) l1 = teamOf schedule l1 := by
  unfold teamOf
  have h1 : ¬ l = l1 := fun e => h e.symm
  simp [List.getD_eq_getElem?_getD, List.getElem?_set, h1]

theorem foldlM_congr_option {α σ : Type} (f g : σ → α → Option σ) (xs : List α)
    (h : ∀ a x, x ∈ xs → f a x = g a x) (a : σ) : xs.foldlM f a = xs.foldlM g a := by
  induction xs generalizing a with
  | nil => rfl
  | cons x xs ih =>
    rw [List.foldlM_cons, List.foldlM_cons, h a x (List.mem_cons_self x xs)]
    cases g a x with
    | none => rfl
    | some a1 => exact ih (fun a2 y hy => h a2 y (List.mem_cons_of_mem x hy)) a1

theorem foldlM_filter_option {α σ : Type} (f : σ → α → Option σ) (q : α → Bool) (xs : List α)
    (a : σ) :
    (xs.filter q).foldlM f a = xs.foldlM (fun a x => if q x = true then f a x else some a) a := by
  induction xs generalizing a with
  | nil => rfl
  | cons x xs ih =>
    rw [List.foldlM_cons]
    by_cases hq : q x = true
    · rw [List.filter_cons_of_pos hq, List.foldlM_cons, if_pos hq]
      cases f a x with
      | none => rfl
      | some a1 => exact ih a1
    · rw [List.filter_cons_of_neg hq, if_neg hq]
      exact ih a

theorem foldlM_map_option {α β σ : Type} (f : σ → β → Option σ) (g : α → β) (xs : List α)
    (a : σ) : (xs.map g).foldlM f a = xs.foldlM (fun a x => f a (g x)) a := by
  induction xs generalizing a with
  | nil => rfl
  | cons x xs ih =>
    rw [List.map_cons, List.foldlM_cons, List.foldlM_cons]
    cases f a (g x) with
    | none => rfl
    | some a1 => exact ih a1

theorem shift_best_improvement_eq (P : Problem) (entry : Schedule × ℚ) :
    Shift.best_improvement P entry =
      if P.m + 1 ≤ entry.1.length then
        ((Shift.movements P entry).map (Shift.move entry.1)).foldlM (keepBetter P) entry
      else none := by
  unfold Shift.best_improvement
  split
  · rename_i hlen
    unfold Shift.movements
    rw [foldlM_map_option, foldlM_flatMap_option]
    apply foldlM_congr_option
    intro best l hl
    rw [foldlM_flatMap_option]
    apply foldlM_congr_option
    intro best1 idx_origin hio
    rw [foldlM_map_option, foldlM_filter_option]
    have hl1 : l < entry.1.length := by
      have := List.mem_range.mp hl
      omega
    have hio1 : idx_origin < (teamOf entry.1 l).length := List.mem_range.mp hio
    have hlen1 : (teamOf (eraseAt entry.1 l idx_origin) l).length + 1 =
        (teamOf entry.1 l).length - 1 + 1 := by
      unfold eraseAt
      rw [teamOf_set_self _ _ _ hl1, List.length_eraseIdx, if_pos hio1]
    rw [hlen1]
    apply foldlM_congr_option
    intro best2 idx_target _
    simp only [decide_eq_true_eq, Shift.move]
  · rfl

theorem reassignement_best_improvement_eq (P : Problem) (entry : Schedule × ℚ) :
    Reassignement.best_improvement P entry =
      if P.m = 0 ∨ P.m + 1 ≤ entry.1.length then
        ((Reassignement.movements P entry).map (Reassignement.move entry.1)).foldlM
          (keepBetter P) entry
      else none := by
  unfold Reassignement.best_improvement
  split
  · unfold Reassignement.movements
    rw [foldlM_map_option, foldlM_flatMap_option]
    apply foldlM_congr_option
    intro best l_origin _
    rw [foldlM_flatMap_option]
    apply foldlM_congr_option
    intro best1 idx_origin _
    rw [foldlM_flatMap_option, foldlM_filter_option]
    apply foldlM_congr_option
    intro best2 l_target _
    by_cases hne : l_target ≠ l_origin
    · rw [if_pos hne, if_pos (by simpa using hne), foldlM_map_option]
      unfold eraseAt
      rw [teamOf_set_ne _ _ _ _ hne]
      rfl
    · rw [if_neg hne, if_neg (by simpa using hne)]
  · rfl

theorem swap_best_improvement_eq (P : Problem) (entry : Schedule × ℚ) :
    Swap.best_improvement P entry =
      if P.m = 0 ∨ P.m + 1 ≤ entry.1.length then
        ((Swap.movements P entry).map (Swap.move entry.1)).foldlM (keepBetter P) entry
      else none := by
  unfold Swap.best_improvement
  split
  · unfold Swap.movements
    rw [foldlM_map_option, foldlM_flatMap_option, foldlM_filter_option]
    apply foldlM_congr_option
    intro best l1 _
    by_cases h1 : (teamOf entry.1 l1).length > 0
    · rw [if_pos h1, if_pos (by simpa using h1), foldlM_flatMap_option, foldlM_filter_option]
      apply foldlM_congr_option
      intro best1 l2 _
      by_cases h2 : (teamOf entry.1 l2).length > 0
      · rw [if_pos h2, if_pos (by simpa using h2), foldlM_flatMap_option]
        apply foldlM_congr_option
        intro best2 idx1 _
        rw [foldlM_flatMap_option]
        apply foldlM_congr_option
        intro best3 idx2 _
        rw [foldlM_flatMap_option]
        apply foldlM_congr_option
        intro best4 target1 _
        rw [foldlM_map_option]
      · rw [if_neg h2, if_neg (by simpa using h2)]
    · rw [if_neg h1, if_neg (by simpa using h1)]
  · rfl

/-! ## The acceptance loops of the neighborhoods -/

theorem keepBetter_fold_spec (P : Problem) (cands : List Schedule) :
    ∀ best r : Schedule × ℚ, cands.foldlM (keepBetter P) best = some r →
      (r = best ∨ ∃ cand ∈ cands, utils.evaluate P (cand, 0) = some (true, r) ∧ r.2 < best.2) ∧
      r.2 ≤ best.2 ∧
      ∀ cand ∈ cands, ∀ out, utils.evaluate P (cand, 0) = some (true, out) → r.2 ≤ out.2 := by
  induction cands with
  | nil =>
    intro best r h
    simp at h
    subst h
    exact ⟨Or.inl rfl, le_refl _, fun c hc => absurd hc (List.not_mem_nil c)⟩
  | cons c cs ih =>
    intro best r h
    rw [List.foldlM_cons] at h
    unfold keepBetter at h
    cases hev : utils.evaluate P (c, 0) with
    | none => simp [hev] at h
    | some res =>
      obtain ⟨is_feasible, neighbor⟩ := res
      simp only [hev] at h
      by_cases hacc : is_feasible = true ∧ neighbor.2 < best.2
      · rw [if_pos hacc] at h
        simp only [Option.some_bind, Option.bind_eq_bind] at h
        obtain ⟨h1, h2, h3⟩ := ih neighbor r h
        obtain ⟨hf, hlt⟩ := hacc
        subst hf
        refine ⟨Or.inr ?_, le_trans h2 (le_of_lt hlt), ?_⟩
        · rcases h1 with rfl | ⟨c1, hc1, he1, hl1⟩
          · exact ⟨c, List.mem_cons_self c cs, hev, hlt⟩
          · exact ⟨c1, List.mem_cons_of_mem c hc1, he1, lt_trans hl1 hlt⟩
        · intro c1 hc1 out hout
          rcases List.mem_cons.mp hc1 with rfl | hmem
          · rw [hev] at hout
            injection hout with hout
            injection hout with _ hout
            rw [← hout]
            exact h2
          · exact h3 c1 hmem out hout
      · rw [if_neg hacc] at h
        simp only [Option.some_bind, Option.bind_eq_bind] at h
        obtain ⟨h1, h2, h3⟩ := ih best r h
        refine ⟨?_, h2, ?_⟩
        · rcases h1 with rfl | ⟨c1, hc1, he1, hl1⟩
          · exact Or.inl rfl
          · exact Or.inr ⟨c1, List.mem_cons_of_mem c hc1, he1, hl1⟩
        · intro c1 hc1 out hout
          rcases List.mem_cons.mp hc1 with rfl | hmem
          · rw [hev] at hout
            injection hout with hout
            injection hout with hf hout
            subst hf hout
            have : ¬ neighbor.2 < best.2 := fun hlt => hacc ⟨rfl, hlt⟩
            exact le_trans h2 (not_lt.mp this)
          · exact h3 c1 hmem out hout

theorem bestOf_of_fold (P : Problem) (space : Schedule → Prop) (cands : List Schedule)
    (hspace : ∀ cand, cand ∈ cands ↔ space cand) (entry r : Schedule × ℚ)
    (h : cands.foldlM (keepBetter P) entry = some r) : bestOf P space entry r := by
  obtain ⟨h1, h2, h3⟩ := keepBetter_fold_spec P cands entry r h
  constructor
  · intro hnone
    rcases h1 with rfl | ⟨c, hc, he, hl⟩
    · rfl
    · exact absurd ⟨r, he, hl⟩ (hnone c ((hspace c).mp hc))
  · rintro ⟨c0, hc0, out0, he0, hl0⟩
    have hr : r.2 < entry.2 := lt_of_le_of_lt (h3 c0 ((hspace c0).mpr hc0) out0 he0) hl0
    refine ⟨?_, fun c out hc he => h3 c ((hspace c).mpr hc) out he⟩
    rcases h1 with rfl | ⟨c, hc, he, _⟩
    · exact absurd hr (lt_irrefl _)
    · exact ⟨c, (hspace c).mp hc, he⟩

/-! ## The movements span the move spaces -/

theorem shift_mem_movements (P : Problem) (entry : Schedule × ℚ) (l io it : Nat) :
    (l, io, it) ∈ Shift.movements P entry ↔
      l < P.m + 1 ∧ io < (teamOf entry.1 l).length ∧ it < (teamOf entry.1 l).length ∧ it ≠ io := by
  unfold Shift.movements
  simp only [List.mem_flatMap, List.mem_range, List.mem_map, List.mem_filter, decide_eq_true_eq,
    Prod.mk.injEq]
  constructor
  · rintro ⟨l1, hl1, io1, hio1, it1, ⟨hit1, hne⟩, rfl, rfl, rfl⟩
    exact ⟨hl1, hio1, by omega, hne⟩
  · rintro ⟨hl, hio, hit, hne⟩
    exact ⟨l, hl, io, hio, it, ⟨by omega, hne⟩, rfl, rfl, rfl⟩

theorem shift_move_eq (schedule : Schedule) (l io it : Nat) (hl : l < schedule.length) :
    Shift.move schedule (l, io, it) =
      schedule.set l
        (((teamOf schedule l).eraseIdx io).insertIdx it (maneuverAt schedule l io)) := by
  unfold Shift.move insertAt eraseAt
  simp only []
  rw [teamOf_set_self _ _ _ hl, List.set_set]

theorem shift_space (P : Problem) (entry : Schedule × ℚ) (hlen : P.m + 1 ≤ entry.1.length)
    (cand : Schedule) :
    cand ∈ (Shift.movements P entry).map (Shift.move entry.1) ↔
      Shift.neighbor P entry.1 cand := by
  rw [List.mem_map]
  unfold Shift.neighbor
  constructor
  · rintro ⟨⟨l, io, it⟩, hmem, rfl⟩
    obtain ⟨hl, hio, hit, hne⟩ := (shift_mem_movements P entry l io it).mp hmem
    exact ⟨l, io, it, by omega, hio, hit, hne, shift_move_eq entry.1 l io it (by omega)⟩
  · rintro ⟨l, io, it, hl, hio, hit, hne, rfl⟩
    exact ⟨(l, io, it), (shift_mem_movements P entry l io it).mpr ⟨by omega, hio, hit, hne⟩,
      shift_move_eq entry.1 l io it (by omega)⟩

theorem reassignement_mem_movements (P : Problem) (entry : Schedule × ℚ) (lo io lt it : Nat) :
    (lo, io, lt, it) ∈ Reassignement.movements P entry ↔
      1 ≤ lo ∧ lo ≤ P.m ∧ 1 ≤ lt ∧ lt ≤ P.m ∧ lt ≠ lo ∧ io < (teamOf entry.1 lo).length ∧
        it ≤ (teamOf entry.1 lt).length := by
  unfold Reassignement.movements
  simp only [List.mem_flatMap, List.mem_range, List.mem_range'_1, List.mem_map, List.mem_filter,
    decide_eq_true_eq, Prod.mk.injEq]
  constructor
  · rintro ⟨lo1, ⟨h1, h2⟩, io1, hio1, lt1, ⟨⟨h3, h4⟩, hne⟩, it1, hit1, rfl, rfl, rfl, rfl⟩
    exact ⟨h1, by omega, h3, by omega, hne, hio1, by omega⟩
  · rintro ⟨h1, h2, h3, h4, hne, hio, hit⟩
    exact ⟨lo, ⟨h1, by omega⟩, io, hio, lt, ⟨⟨h3, by omega⟩, hne⟩, it, by omega, rfl, rfl, rfl,
      rfl⟩

theorem reassignement_move_eq (schedule : Schedule) (lo io lt it : Nat) (hne : lt ≠ lo) :
    Reassignement.move schedule (lo, io, lt, it) =
      (schedule.set lo ((teamOf schedule lo).eraseIdx io)).set lt
        ((teamOf schedule lt).insertIdx it (maneuverAt schedule lo io)) := by
  unfold Reassignement.move insertAt eraseAt
  simp only []
  rw [teamOf_set_ne _ _ _ _ hne]

theorem reassignement_space (P : Problem) (entry : Schedule × ℚ) (cand : Schedule) :
    cand ∈ (Reassignement.movements P entry).map (Reassignement.move entry.1) ↔
      Reassignement.neighbor P entry.1 cand := by
  rw [List.mem_map]
  unfold Reassignement.neighbor
  constructor
  · rintro ⟨⟨lo, io, lt, it⟩, hmem, rfl⟩
    obtain ⟨h1, h2, h3, h4, hne, hio, hit⟩ :=
      (reassignement_mem_movements P entry lo io lt it).mp hmem
    exact ⟨lo, io, lt, it, h1, h2, h3, h4, hne, hio, hit,
      reassignement_move_eq entry.1 lo io lt it hne⟩
  · rintro ⟨lo, io, lt, it, h1, h2, h3, h4, hne, hio, hit, rfl⟩
    exact ⟨(lo, io, lt, it),
      (reassignement_mem_movements P entry lo io lt it).mpr ⟨h1, h2, h3, h4, hne, hio, hit⟩,
      reassignement_move_eq entry.1 lo io lt it hne⟩

theorem swap_mem_movements (P : Problem) (entry : Schedule × ℚ)
    (l1 l2 idx1 idx2 target1 target2 : Nat) :
    (l1, l2, idx1, idx2, target1, target2) ∈ Swap.movements P entry ↔
      1 ≤ l1 ∧ l1 < l2 ∧ l2 ≤ P.m ∧ idx1 < (teamOf entry.1 l1).length ∧
        idx2 < (teamOf entry.1 l2).length ∧ target1 < (teamOf entry.1 l2).length ∧
        target2 < (teamOf entry.1 l1).length := by
  unfold Swap.movements
  simp only [List.mem_flatMap, List.mem_range, List.mem_range'_1, List.mem_map, List.mem_filter,
    decide_eq_true_eq, Prod.mk.injEq]
  constructor
  · rintro ⟨a, ⟨⟨h1, h2⟩, h3⟩, b, ⟨⟨h4, h5⟩, h6⟩, i1, hi1, i2, hi2, t1, ht1, t2, ht2,
      rfl, rfl, rfl, rfl, rfl, rfl⟩
    exact ⟨h1, by omega, by omega, hi1, hi2, by omega, by omega⟩
  · rintro ⟨h1, h2, h3, hi1, hi2, ht1, ht2⟩
    exact ⟨l1, ⟨⟨h1, by omega⟩, by omega⟩, l2, ⟨⟨by omega, by omega⟩, by omega⟩, idx1, hi1,
      idx2, hi2, target1, by omega, target2, by omega, rfl, rfl, rfl, rfl, rfl, rfl⟩

theorem maneuverAt_set_ne (schedule : Schedule) (l l1 idx : Nat) (team : List Maneuver)
    (h : l1 ≠ l) : maneuverAt (schedule.set l team) l1 idx = maneuverAt schedule l1 idx := by
  unfold maneuverAt
  rw [teamOf_set_ne _ _ _ _ h]

theorem swap_move_eq (schedule : Schedule) (l1 l2 idx1 idx2 target1 target2 : Nat)
    (hne : l2 ≠ l1) (h1 : l1 < schedule.length) (h2 : l2 < schedule.length) :
    Swap.move schedule (l1, l2, idx1, idx2, target1, target2) =
      (schedule.set l1
          (((teamOf schedule l1).eraseIdx idx1).insertIdx target2
            (maneuverAt schedule l2 idx2))).set
        l2 (((teamOf schedule l2).eraseIdx idx2).insertIdx target1 (maneuverAt schedule l1 idx1)) := by
  unfold Swap.move insertAt eraseAt
  simp only []
  have hne1 : l1 ≠ l2 := fun e => hne e.symm
  rw [maneuverAt_set_ne _ _ _ _ _ hne, teamOf_set_ne _ _ _ _ hne,
    teamOf_set_self _ _ _ (by simpa using h2), List.set_set,
    teamOf_set_ne _ _ _ _ hne1, teamOf_set_self _ _ _ h1,
    List.set_comm _ _ _ hne, List.set_set]

theorem swap_space (P : Problem) (entry : Schedule × ℚ)
    (hlen : P.m = 0 ∨ P.m + 1 ≤ entry.1.length) (cand : Schedule) :
    cand ∈ (Swap.movements P entry).map (Swap.move entry.1) ↔ Swap.neighbor P entry.1 cand := by
  rw [List.mem_map]
  unfold Swap.neighbor
  constructor
  · rintro ⟨⟨l1, l2, i1, i2, t1, t2⟩, hmem, rfl⟩
    obtain ⟨h1, h2, h3, hi1, hi2, ht1, ht2⟩ :=
      (swap_mem_movements P entry l1 l2 i1 i2 t1 t2).mp hmem
    exact ⟨l1, l2, i1, i2, t1, t2, h1, h2, h3, hi1, hi2, ht1, ht2,
      swap_move_eq entry.1 l1 l2 i1 i2 t1 t2 (by omega) (by omega) (by omega)⟩
  · rintro ⟨l1, l2, i1, i2, t1, t2, h1, h2, h3, hi1, hi2, ht1, ht2, rfl⟩
    exact ⟨(l1, l2, i1, i2, t1, t2),
      (swap_mem_movements P entry l1 l2 i1 i2 t1 t2).mpr ⟨h1, h2, h3, hi1, hi2, ht1, ht2⟩,
      swap_move_eq entry.1 l1 l2 i1 i2 t1 t2 (by omega) (by omega) (by omega)⟩

/-! ## The loops over the shuffled movements -/

theorem not_improving_of_eval (P : Problem) (entry : Schedule × ℚ) (cand : Schedule) (b : Bool)
    (nb : Schedule × ℚ) (he : utils.evaluate P (cand, 0) = some (b, nb))
    (h : ¬ (b = true ∧ nb.2 < entry.2)) : ¬ improving P entry cand := by
  rintro ⟨out, ho, hl⟩
  rw [he] at ho
  injection ho with ho
  injection ho with h1 h2
  subst h1 h2
  exact h ⟨rfl, hl⟩

theorem firstImprovementLoop_spec {α : Type} (P : Problem) (entry : Schedule × ℚ)
    (move : α → Schedule) (mvs : List α) (r : Schedule × ℚ)
    (h : firstImprovementLoop P entry move mvs = some r) :
    firstImproving P entry (mvs.map move) r := by
  induction mvs with
  | nil =>
    simp only [firstImprovementLoop, Option.some.injEq] at h
    exact Or.inr ⟨by simp, h.symm⟩
  | cons mv rest ih =>
    unfold firstImprovementLoop at h
    split at h
    · exact absurd h (by simp)
    · rename_i b nb he
      split at h
      · rename_i hc
        injection h with h
        subst h
        exact Or.inl ⟨[], move mv, rest.map move, by simp, by simp, by rw [he, hc.1], hc.2⟩
      · rename_i hc
        have hn := not_improving_of_eval P entry (move mv) b nb he hc
        rcases ih h with ⟨pre, cand, post, hs, hpre, hev, hl⟩ | ⟨hall, hr⟩
        · refine Or.inl ⟨move mv :: pre, cand, post, by simp [hs], ?_, hev, hl⟩
          intro c hcm
          rcases List.mem_cons.mp hcm with rfl | hcm
          · exact hn
          · exact hpre c hcm
        · refine Or.inr ⟨?_, hr⟩
          intro c hcm
          simp only [List.map_cons, List.mem_cons] at hcm
          rcases hcm with rfl | hcm
          · exact hn
          · exact hall c hcm

theorem firstImproving_entry_iff (P : Problem) (entry : Schedule × ℚ) (cands : List Schedule)
    (r : Schedule × ℚ) (h : firstImproving P entry cands r) :
    r = entry ↔ ∀ c ∈ cands, ¬ improving P entry c := by
  rcases h with ⟨pre, cand, post, hs, _, hev, hl⟩ | ⟨hall, hr⟩
  · constructor
    · intro hr
      rw [hr] at hl
      exact absurd hl (lt_irrefl _)
    · intro hall
      exact absurd ⟨r, hev, hl⟩ (hall cand (by simp [hs]))
  · exact ⟨fun _ => hall, fun _ => hr⟩

theorem firstImprovementLoop_defined {α : Type} (P : Problem) (entry : Schedule × ℚ)
    (move : α → Schedule) (mvs : List α)
    (h : ∀ mv ∈ mvs, ∃ b out, utils.evaluate P (move mv, 0) = some (b, out)) :
    ∃ r, firstImprovementLoop P entry move mvs = some r := by
  induction mvs with
  | nil => exact ⟨entry, rfl⟩
  | cons mv rest ih =>
    obtain ⟨b, out, he⟩ := h mv (by simp)
    unfold firstImprovementLoop
    rw [he]
    simp only []
    split
    · exact ⟨_, rfl⟩
    · exact ih (fun mv1 h1 => h mv1 (List.mem_cons_of_mem _ h1))

theorem not_feasible_of_eval (P : Problem) (cand : Schedule) (b : Bool) (nb : Schedule × ℚ)
    (he : utils.evaluate P (cand, 0) = some (b, nb)) (h : ¬ b = true) :
    ¬ feasibleNeighbor P cand := by
  rintro ⟨out, ho⟩
  rw [he] at ho
  injection ho with ho
  injection ho with h1 h2
  exact h h1

theorem shakeLoop_feasible {α : Type} (P : Problem) (entry : Schedule × ℚ)
    (move : α → Schedule) (mvs : List α) (r : Schedule × ℚ)
    (h : shakeLoop P entry true move mvs = some r) :
    firstFeasible P entry (mvs.map move) r := by
  induction mvs with
  | nil =>
    simp only [shakeLoop, Option.some.injEq] at h
    exact Or.inr ⟨by simp, h.symm⟩
  | cons mv rest ih =>
    unfold shakeLoop at h
    split at h
    · exact absurd h (by simp)
    · rename_i b nb he
      split at h
      · rename_i hc
        injection h with h
        subst h
        have hb : b = true := by simpa using hc
        exact Or.inl ⟨[], move mv, rest.map move, by simp, by simp, by rw [he, hb]⟩
      · rename_i hc
        have hb : ¬ b = true := fun e => hc (Or.inl e)
        have hn := not_feasible_of_eval P (move mv) b nb he hb
        rcases ih h with ⟨pre, cand, post, hs, hpre, hev⟩ | ⟨hall, hr⟩
        · refine Or.inl ⟨move mv :: pre, cand, post, by simp [hs], ?_, hev⟩
          intro c hcm
          rcases List.mem_cons.mp hcm with rfl | hcm
          · exact hn
          · exact hpre c hcm
        · refine Or.inr ⟨?_, hr⟩
          intro c hcm
          simp only [List.map_cons, List.mem_cons] at hcm
          rcases hcm with rfl | hcm
          · exact hn
          · exact hall c hcm

theorem evaluate_infeasible_span (P : Problem) (entry out : Schedule × ℚ)
    (h : utils.evaluate P entry = some (false, out)) : out.2 = DBL_MAX := by
  obtain ⟨_, s, _, hf, _, h2⟩ := evaluate_some P entry false out h
  rw [h2, hf]
  simp

theorem shakeLoop_any {α : Type} (P : Problem) (entry : Schedule × ℚ)
    (move : α → Schedule) (mvs : List α) (r : Schedule × ℚ)
    (h : shakeLoop P entry false move mvs = some r) :
    veryFirst P entry (mvs.map move) r := by
  cases mvs with
  | nil =>
    simp only [shakeLoop, Option.some.injEq] at h
    exact h.symm
  | cons mv rest =>
    unfold shakeLoop at h
    split at h
    · exact absurd h (by simp)
    · rename_i b nb he
      simp only [or_true, if_true, Option.some.injEq] at h
      subst h
      refine ⟨b, he, ?_⟩
      intro hb
      subst hb
      exact evaluate_infeasible_span P _ _ he

theorem shakeLoop_defined {α : Type} (P : Problem) (entry : Schedule × ℚ)
    (feasible_only : Bool) (move : α → Schedule) (mvs : List α)
    (h : ∀ mv ∈ mvs, ∃ b out, utils.evaluate P (move mv, 0) = some (b, out)) :
    ∃ r, shakeLoop P entry feasible_only move mvs = some r := by
  induction mvs with
  | nil => exact ⟨entry, rfl⟩
  | cons mv rest ih =>
    obtain ⟨b, out, he⟩ := h mv (by simp)
    unfold shakeLoop
    rw [he]
    simp only []
    split
    · exact ⟨_, rfl⟩
    · exact ih (fun mv1 h1 => h mv1 (List.mem_cons_of_mem _ h1))

theorem keepBetter_fold_defined (P : Problem) (cands : List Schedule)
    (h : ∀ cand ∈ cands, ∃ b out, utils.evaluate P (cand, 0) = some (b, out)) :
    ∀ best, ∃ r, cands.foldlM (keepBetter P) best = some r := by
  induction cands with
  | nil => exact fun best => ⟨best, rfl⟩
  | cons c rest ih =>
    intro best
    obtain ⟨b, out, he⟩ := h c (by simp)
    rw [List.foldlM_cons]
    unfold keepBetter
    rw [he]
    simp only []
    split
    · exact ih (fun c1 h1 => h c1 (List.mem_cons_of_mem _ h1)) _
    · exact ih (fun c1 h1 => h c1 (List.mem_cons_of_mem _ h1)) _

/-- Either loop returns the entry or the evaluation of one of the candidates. -/
theorem firstImproving_cases (P : Problem) (entry : Schedule × ℚ) (cands : List Schedule)
    (r : Schedule × ℚ) (h : firstImproving P entry cands r) :
    r = entry ∨ ∃ cand ∈ cands, ∃ b, utils.evaluate P (cand, 0) = some (b, r) := by
  rcases h with ⟨pre, cand, post, hs, _, hev, _⟩ | ⟨_, hr⟩
  · exact Or.inr ⟨cand, by simp [hs], true, hev⟩
  · exact Or.inl hr

theorem shakeLoop_cases {α : Type} (P : Problem) (entry : Schedule × ℚ)
    (feasible_only : Bool) (move : α → Schedule) (mvs : List α) (r : Schedule × ℚ)
    (h : shakeLoop P entry feasible_only move mvs = some r) :
    r = entry ∨ ∃ mv ∈ mvs, ∃ b, utils.evaluate P (move mv, 0) = some (b, r) := by
  induction mvs with
  | nil =>
    simp only [shakeLoop, Option.some.injEq] at h
    exact Or.inl h.symm
  | cons mv rest ih =>
    unfold shakeLoop at h
    split at h
    · exact absurd h (by simp)
    · rename_i b nb he
      split at h
      · injection h with h
        subst h
        exact Or.inr ⟨mv, by simp, b, he⟩
      · rcases ih h with hr | ⟨mv1, hm, b1, he1⟩
        · exact Or.inl hr
        · exact Or.inr ⟨mv1, List.mem_cons_of_mem _ hm, b1, he1⟩

/-! ## Moves keep the schedule well formed -/

theorem sum_range_update (h1 h2 : Nat → Nat) (k l : Nat) (hl : l < k)
    (hne : ∀ i, i ≠ l → h2 i = h1 i) :
    ((List.range k).map h2).sum + h1 l = ((List.range k).map h1).sum + h2 l := by
  induction k with
  | zero => omega
  | succ k ih =>
    rw [List.sum_range_succ, List.sum_range_succ]
    by_cases hk : l = k
    · subst hk
      have e : (List.range l).map h2 = (List.range l).map h1 := by
        apply List.map_congr_left
        intro i hi
        exact hne i (by have := List.mem_range.mp hi; omega)
      rw [e]
      omega
    · have := ih (by omega)
      have := hne k (fun e => hk e.symm)
      omega

theorem switchIds_flatMap (P : Problem) (schedule : Schedule)
    (hlen : P.m + 1 ≤ schedule.length) :
    switchIds P schedule =
      (List.range (P.m + 1)).flatMap (fun l => (teamOf schedule l).map Prod.fst) := by
  unfold switchIds
  rw [← flatMap_range_teamOf schedule (P.m + 1) hlen, List.map_flatMap]

theorem count_switchIds_set (P : Problem) (schedule : Schedule) (l : Nat)
    (team : List Maneuver) (hl : l ≤ P.m) (hlen : P.m + 1 ≤ schedule.length) (a : Int) :
    (switchIds P (schedule.set l team)).count a + ((teamOf schedule l).map Prod.fst).count a =
      (switchIds P schedule).count a + (team.map Prod.fst).count a := by
  rw [switchIds_flatMap P schedule hlen,
    switchIds_flatMap P (schedule.set l team) (by simpa using hlen), List.count_flatMap,
    List.count_flatMap]
  have h := sum_range_update
    (fun i => ((teamOf schedule i).map Prod.fst).count a)
    (fun i => ((teamOf (schedule.set l team) i).map Prod.fst).count a) (P.m + 1) l (by omega)
    (by
      intro i hi
      show ((teamOf (schedule.set l team) i).map Prod.fst).count a = _
      rw [teamOf_set_ne _ _ _ _ hi])
  simp only [teamOf_set_self schedule l team (by omega)] at h
  exact h

theorem perm_getD_eraseIdx {β : Type} (d : β) (xs : List β) :
    ∀ i, i < xs.length → xs.Perm (xs.getD i d :: xs.eraseIdx i) := by
  induction xs with
  | nil => intro i hi; exact absurd hi (by simp)
  | cons x xs ih =>
    intro i hi
    cases i with
    | zero => simp
    | succ i =>
      simp only [List.getD_cons_succ, List.eraseIdx_cons_succ]
      exact ((ih i (by simpa using hi)).cons x).trans (List.Perm.swap _ _ _)

theorem count_ids_erase (team : List Maneuver) (i : Nat) (h : i < team.length) (a : Int) :
    (team.map Prod.fst).count a =
      ((team.eraseIdx i).map Prod.fst).count a + [(team.getD i (0, 0)).1].count a := by
  have hp := ((perm_getD_eraseIdx (0, 0) team i h).map Prod.fst).count_eq a
  rw [hp, List.map_cons, List.count_cons, List.count_cons, List.count_nil]
  omega

theorem count_ids_insert (team : List Maneuver) (i : Nat) (h : i ≤ team.length) (x : Maneuver)
    (a : Int) :
    ((team.insertIdx i x).map Prod.fst).count a =
      (team.map Prod.fst).count a + [x.1].count a := by
  have hp := ((List.perm_insertIdx x team h).map Prod.fst).count_eq a
  rw [hp, List.map_cons, List.count_cons, List.count_cons, List.count_nil]
  omega

theorem length_erase_insert (team : List Maneuver) (i j : Nat) (x : Maneuver)
    (hi : i < team.length) (hj : j < team.length) :
    ((team.eraseIdx i).insertIdx j x).length = team.length := by
  have h1 : (team.eraseIdx i).length = team.length - 1 := by
    rw [List.length_eraseIdx, if_pos hi]
  rw [List.length_insertIdx _ _ (by omega), h1]
  omega

theorem teamOf_length_pos (schedule : Schedule) (l idx : Nat)
    (h : idx < (teamOf schedule l).length) : l < schedule.length := by
  by_contra hl
  have e : teamOf schedule l = [] := by
    unfold teamOf
    simp [List.getD_eq_getElem?_getD, List.getElem?_eq_none (Nat.le_of_not_lt hl)]
  rw [e] at h
  exact absurd h (by simp)

theorem wellFormed_of_count (P : Problem) (schedule cand : Schedule)
    (hw : wellFormed P schedule) (hlen : cand.length = schedule.length)
    (hc : ∀ a, (switchIds P cand).count a = (switchIds P schedule).count a) :
    wellFormed P cand := by
  refine ⟨by rw [hlen]; exact hw.1, ?_⟩
  unfold placesEachSwitchOnce
  exact (List.perm_iff_count.mpr hc).trans hw.2

theorem shift_wellFormed (P : Problem) (schedule cand : Schedule)
    (hw : wellFormed P schedule) (h : Shift.neighbor P schedule cand) : wellFormed P cand := by
  obtain ⟨l, io, it, hl, hio, hit, _, rfl⟩ := h
  apply wellFormed_of_count P schedule _ hw (by simp)
  intro a
  have h1 := count_switchIds_set P schedule l
    (((teamOf schedule l).eraseIdx io).insertIdx it (maneuverAt schedule l io)) hl hw.1 a
  have h2 := count_ids_erase (teamOf schedule l) io hio a
  have h3 := count_ids_insert ((teamOf schedule l).eraseIdx io) it
    (by rw [List.length_eraseIdx, if_pos hio]; omega) (maneuverAt schedule l io) a
  unfold maneuverAt at h1 h3 ⊢
  omega

theorem reassignement_wellFormed (P : Problem) (schedule cand : Schedule)
    (hw : wellFormed P schedule) (h : Reassignement.neighbor P schedule cand) :
    wellFormed P cand := by
  obtain ⟨lo, io, lt, it, _, hlo, _, hlt, hne, hio, hit, rfl⟩ := h
  apply wellFormed_of_count P schedule _ hw (by simp)
  intro a
  have h0 := count_switchIds_set P schedule lo ((teamOf schedule lo).eraseIdx io) hlo hw.1 a
  have h1 := count_switchIds_set P (schedule.set lo ((teamOf schedule lo).eraseIdx io)) lt
    ((teamOf schedule lt).insertIdx it (maneuverAt schedule lo io)) hlt
    (by simpa using hw.1) a
  rw [teamOf_set_ne _ _ _ _ hne] at h1
  have h2 := count_ids_erase (teamOf schedule lo) io hio a
  have h3 := count_ids_insert (teamOf schedule lt) it hit (maneuverAt schedule lo io) a
  unfold maneuverAt at h1 h3 ⊢
  omega

theorem swap_wellFormed (P : Problem) (schedule cand : Schedule)
    (hw : wellFormed P schedule) (h : Swap.neighbor P schedule cand) : wellFormed P cand := by
  obtain ⟨l1, l2, i1, i2, t1, t2, _, hlt, hl2, hi1, hi2, ht1, ht2, rfl⟩ := h
  apply wellFormed_of_count P schedule _ hw (by simp)
  intro a
  have hne : l2 ≠ l1 := by omega
  have h0 := count_switchIds_set P schedule l1
    (((teamOf schedule l1).eraseIdx i1).insertIdx t2 (maneuverAt schedule l2 i2))
    (by omega) hw.1 a
  have h1 := count_switchIds_set P
    (schedule.set l1
      (((teamOf schedule l1).eraseIdx i1).insertIdx t2 (maneuverAt schedule l2 i2))) l2
    (((teamOf schedule l2).eraseIdx i2).insertIdx t1 (maneuverAt schedule l1 i1)) hl2
    (by simpa using hw.1) a
  rw [teamOf_set_ne _ _ _ _ hne] at h1
  have h2 := count_ids_erase (teamOf schedule l1) i1 hi1 a
  have h3 := count_ids_erase (teamOf schedule l2) i2 hi2 a
  have h4 := count_ids_insert ((teamOf schedule l1).eraseIdx i1) t2
    (by rw [List.length_eraseIdx, if_pos hi1]; omega) (maneuverAt schedule l2 i2) a
  have h5 := count_ids_insert ((teamOf schedule l2).eraseIdx i2) t1
    (by rw [List.length_eraseIdx, if_pos hi2]; omega) (maneuverAt schedule l1 i1) a
  unfold maneuverAt at h0 h1 h4 h5 ⊢
  omega

theorem neighbor_wellFormed (P : Problem) (neighborhood : Neighborhood)
    (schedule cand : Schedule) (hw : wellFormed P schedule)
    (h : neighborhood.neighbor P schedule cand) : wellFormed P cand := by
  cases neighborhood with
  | Shift => exact shift_wellFormed P schedule cand hw h
  | Reassignement => exact reassignement_wellFormed P schedule cand hw h
  | Swap => exact swap_wellFormed P schedule cand hw h

theorem inBounds_of_wellFormed (P : Problem) (schedule : Schedule)
    (hw : wellFormed P schedule) : inBounds P schedule = true := by
  have hs := slots_of_once P schedule hw.1 hw.2
  unfold inBounds
  simp only [Bool.and_eq_true, decide_eq_true_eq, List.all_eq_true, List.mem_range]
  refine ⟨hw.1, ?_⟩
  intro l hl
  rw [forall_mem_teamOf schedule l
    (fun mv => 0 ≤ mv.1 ∧ mv.1 ≤ (P.n : Int))]
  intro idx hidx
  have hb := hs.bounds l idx hl hidx
  unfold switchAt at hb
  omega

theorem evaluate_wellFormed_defined (P : Problem) (hinv : P.inverseSets) (cand : Schedule)
    (hw : wellFormed P cand) : ∃ b out, utils.evaluate P (cand, 0) = some (b, out) :=
  evaluate_defined P (cand, 0) hinv (inBounds_of_wellFormed P cand hw) hw.2

theorem evaluate_ids (P : Problem) (entry : Schedule × ℚ) (b : Bool) (out : Schedule × ℚ)
    (h : utils.evaluate P entry = some (b, out)) : ids out.1 = ids entry.1 := by
  obtain ⟨_, s, _, _, h1, _⟩ := evaluate_some P entry b out h
  unfold ids
  rw [h1, writeBack_ids]

theorem wellFormed_ids (P : Problem) (s1 s2 : Schedule) (h : ids s1 = ids s2)
    (hw : wellFormed P s2) : wellFormed P s1 := by
  unfold ids at h
  have hlen : s1.length = s2.length := by
    have := congrArg List.length h
    simpa using this
  refine ⟨by rw [hlen]; exact hw.1, ?_⟩
  unfold placesEachSwitchOnce
  rw [switchIds_eq, h, ← switchIds_eq]
  exact hw.2

theorem evaluate_wellFormed (P : Problem) (entry : Schedule × ℚ) (b : Bool)
    (out : Schedule × ℚ) (hw : wellFormed P entry.1)
    (h : utils.evaluate P entry = some (b, out)) : wellFormed P out.1 :=
  wellFormed_ids P out.1 entry.1 (evaluate_ids P entry b out h) hw

theorem evaluate_nonneg (P : Problem) (entry out : Schedule × ℚ)
    (honce : placesEachSwitchOnce P entry.1)
    (h : utils.evaluate P entry = some (true, out)) : 0 ≤ out.2 := by
  obtain ⟨s, _, hb, _, _, _, h2⟩ := evaluate_feasible_facts P entry out honce h
  rw [h2]
  exact ((hb.span s.makespan).mp (le_refl _)).1

/-! ## The three neighborhoods -/

theorem shift_bestOf (P : Problem) (entry r : Schedule × ℚ)
    (h : Shift.best_improvement P entry = some r) :
    bestOf P (Shift.neighbor P entry.1) entry r := by
  rw [shift_best_improvement_eq] at h
  split at h
  · rename_i hlen
    exact bestOf_of_fold P _ _ (shift_space P entry hlen) entry r h
  · exact absurd h (by simp)

theorem reassignement_bestOf (P : Problem) (entry r : Schedule × ℚ)
    (h : Reassignement.best_improvement P entry = some r) :
    bestOf P (Reassignement.neighbor P entry.1) entry r := by
  rw [reassignement_best_improvement_eq] at h
  split at h
  · exact bestOf_of_fold P _ _ (reassignement_space P entry) entry r h
  · exact absurd h (by simp)

theorem swap_bestOf (P : Problem) (entry r : Schedule × ℚ)
    (h : Swap.best_improvement P entry = some r) :
    bestOf P (Swap.neighbor P entry.1) entry r := by
  rw [swap_best_improvement_eq] at h
  split at h
  · rename_i hlen
    exact bestOf_of_fold P _ _ (swap_space P entry hlen) entry r h
  · exact absurd h (by simp)

theorem best_improvement_bestOf (P : Problem) (neighborhood : Neighborhood)
    (entry r : Schedule × ℚ) (h : neighborhood.best_improvement P entry = some r) :
    bestOf P (neighborhood.neighbor P entry.1) entry r := by
  cases neighborhood with
  | Shift => exact shift_bestOf P entry r h
  | Reassignement => exact reassignement_bestOf P entry r h
  | Swap => exact swap_bestOf P entry r h

theorem shift_candidates_defined (P : Problem) (hinv : P.inverseSets) (entry : Schedule × ℚ)
    (hw : wellFormed P entry.1) :
    ∀ mv ∈ Shift.movements P entry,
      ∃ b out, utils.evaluate P (Shift.move entry.1 mv, 0) = some (b, out) := by
  intro mv hmv
  exact evaluate_wellFormed_defined P hinv _
    (shift_wellFormed P entry.1 _ hw
      ((shift_space P entry hw.1 _).mp (List.mem_map_of_mem _ hmv)))

theorem reassignement_candidates_defined (P : Problem) (hinv : P.inverseSets)
    (entry : Schedule × ℚ) (hw : wellFormed P entry.1) :
    ∀ mv ∈ Reassignement.movements P entry,
      ∃ b out, utils.evaluate P (Reassignement.move entry.1 mv, 0) = some (b, out) := by
  intro mv hmv
  exact evaluate_wellFormed_defined P hinv _
    (reassignement_wellFormed P entry.1 _ hw
      ((reassignement_space P entry _).mp (List.mem_map_of_mem _ hmv)))

theorem swap_candidates_defined (P : Problem) (hinv : P.inverseSets) (entry : Schedule × ℚ)
    (hw : wellFormed P entry.1) :
    ∀ mv ∈ Swap.movements P entry,
      ∃ b out, utils.evaluate P (Swap.move entry.1 mv, 0) = some (b, out) := by
  intro mv hmv
  exact evaluate_wellFormed_defined P hinv _
    (swap_wellFormed P entry.1 _ hw
      ((swap_space P entry (Or.inr hw.1) _).mp (List.mem_map_of_mem _ hmv)))

theorem forall_mem_map_iff {α β : Type} (f : α → β) (xs : List α) (q : β → Prop) :
    (∀ c ∈ xs.map f, q c) ↔ ∀ x ∈ xs, q (f x) := by
  simp

theorem best_improvement_defined (P : Problem) (hinv : P.inverseSets)
    (neighborhood : Neighborhood) (entry : Schedule × ℚ) (hw : wellFormed P entry.1) :
    ∃ r, neighborhood.best_improvement P entry = some r := by
  cases neighborhood with
  | Shift =>
    show ∃ r, Shift.best_improvement P entry = some r
    rw [shift_best_improvement_eq, if_pos hw.1]
    exact keepBetter_fold_defined P _
      ((forall_mem_map_iff _ _ _).mpr (shift_candidates_defined P hinv entry hw)) entry
  | Reassignement =>
    show ∃ r, Reassignement.best_improvement P entry = some r
    rw [reassignement_best_improvement_eq, if_pos (Or.inr hw.1)]
    exact keepBetter_fold_defined P _
      ((forall_mem_map_iff _ _ _).mpr (reassignement_candidates_defined P hinv entry hw)) entry
  | Swap =>
    show ∃ r, Swap.best_improvement P entry = some r
    rw [swap_best_improvement_eq, if_pos (Or.inr hw.1)]
    exact keepBetter_fold_defined P _
      ((forall_mem_map_iff _ _ _).mpr (swap_candidates_defined P hinv entry hw)) entry

/-- A best-improvement scan returns the entry or a feasible evaluated neighbor strictly
below it. -/
theorem bestOf_cases (P : Problem) (space : Schedule → Prop) (entry r : Schedule × ℚ)
    (h : bestOf P space entry r) :
    r = entry ∨
      ∃ cand, space cand ∧ utils.evaluate P (cand, 0) = some (true, r) ∧ r.2 < entry.2 := by
  by_cases hex : ∃ cand, space cand ∧ improving P entry cand
  · obtain ⟨⟨cand, hc, he⟩, hmin⟩ := h.2 hex
    obtain ⟨c0, hc0, out0, he0, hl0⟩ := hex
    exact Or.inr ⟨cand, hc, he, lt_of_le_of_lt (hmin c0 out0 hc0 he0) hl0⟩
  · exact Or.inl (h.1 (fun cand hc hi => hex ⟨cand, hc, hi⟩))

theorem best_improvement_step (P : Problem) (neighborhood : Neighborhood)
    (entry r : Schedule × ℚ) (hw : wellFormed P entry.1)
    (h : neighborhood.best_improvement P entry = some r) :
    wellFormed P r.1 ∧ (r = entry ∨ (0 ≤ r.2 ∧ r.2 < entry.2)) := by
  rcases bestOf_cases P _ entry r (best_improvement_bestOf P neighborhood entry r h) with
    rfl | ⟨cand, hc, he, hl⟩
  · exact ⟨hw, Or.inl rfl⟩
  · have hwc := neighbor_wellFormed P neighborhood entry.1 cand hw hc
    exact ⟨evaluate_wellFormed P (cand, 0) true r hwc he,
      Or.inr ⟨evaluate_nonneg P (cand, 0) r hwc.2 he, hl⟩⟩

/-! ## A move changes the switch ids of a well-formed schedule -/

theorem getD_insertIdx_self {β : Type} (d x : β) (xs : List β) (i : Nat) (h : i ≤ xs.length) :
    (xs.insertIdx i x).getD i d = x := by
  have hlt : i < (xs.insertIdx i x).length := by
    rw [List.length_insertIdx _ _ h]
    omega
  rw [List.getD_eq_getElem _ _ hlt, List.getElem_insertIdx_self _ _ _ h]

theorem shift_ids_ne (P : Problem) (schedule cand : Schedule) (hw : wellFormed P schedule)
    (h : Shift.neighbor P schedule cand) : ids cand ≠ ids schedule := by
  obtain ⟨l, io, it, hl, hio, hit, hne, rfl⟩ := h
  intro hids
  have hs := slots_of_once P schedule hw.1 hw.2
  have h1 := switchAt_ids _ _ hids l it
  have h2 : switchAt (schedule.set l (((teamOf schedule l).eraseIdx io).insertIdx it
      (maneuverAt schedule l io))) l it = switchAt schedule l io := by
    unfold switchAt
    congr 2
    show maneuverAt _ l it = _
    unfold maneuverAt
    rw [teamOf_set_self _ _ _ (by have := hw.1; omega)]
    exact getD_insertIdx_self _ _ _ _ (by rw [List.length_eraseIdx, if_pos hio]; omega)
  rw [h2] at h1
  exact hne (hs.inj l io l it (by omega) hio (by omega) hit h1).2.symm

theorem reassignement_ids_ne (P : Problem) (schedule cand : Schedule)
    (h : Reassignement.neighbor P schedule cand) : ids cand ≠ ids schedule := by
  obtain ⟨lo, io, lt, it, _, _, _, _, hne, hio, _, rfl⟩ := h
  intro hids
  have h1 := teamOf_length_ids _ _ hids lo
  rw [teamOf_set_ne _ _ _ _ (fun e => hne e.symm),
    teamOf_set_self _ _ _ (teamOf_length_pos schedule lo io hio), List.length_eraseIdx,
    if_pos hio] at h1
  omega

theorem swap_ids_ne (P : Problem) (schedule cand : Schedule) (hw : wellFormed P schedule)
    (h : Swap.neighbor P schedule cand) : ids cand ≠ ids schedule := by
  obtain ⟨l1, l2, i1, i2, t1, t2, _, hlt, hl2, hi1, hi2, ht1, _, rfl⟩ := h
  intro hids
  have hs := slots_of_once P schedule hw.1 hw.2
  have h1 := switchAt_ids _ _ hids l2 t1
  have h2 : switchAt ((schedule.set l1 (((teamOf schedule l1).eraseIdx i1).insertIdx t2
      (maneuverAt schedule l2 i2))).set l2 (((teamOf schedule l2).eraseIdx i2).insertIdx t1
      (maneuverAt schedule l1 i1))) l2 t1 = switchAt schedule l1 i1 := by
    unfold switchAt
    congr 2
    show maneuverAt _ l2 t1 = _
    unfold maneuverAt
    rw [teamOf_set_self _ _ _ (by have := hw.1; simp; omega)]
    exact getD_insertIdx_self _ _ _ _ (by rw [List.length_eraseIdx, if_pos hi2]; omega)
  rw [h2] at h1
  have := (hs.inj l1 i1 l2 t1 (by omega) hi1 (by omega) ht1 h1).1
  omega

theorem neighbor_ids_ne (P : Problem) (neighborhood : Neighborhood) (schedule cand : Schedule)
    (hw : wellFormed P schedule) (h : neighborhood.neighbor P schedule cand) :
    ids cand ≠ ids schedule := by
  cases neighborhood with
  | Shift => exact shift_ids_ne P schedule cand hw h
  | Reassignement => exact reassignement_ids_ne P schedule cand h
  | Swap => exact swap_ids_ne P schedule cand hw h

/-! ## The shuffled loops on a move space -/

theorem mem_shuffled {α : Type} (move : α → Schedule) (mvs shuffled : List α)
    (hperm : shuffled.Perm mvs) (space : Schedule → Prop)
    (hspace : ∀ cand, cand ∈ mvs.map move ↔ space cand) (cand : Schedule) :
    cand ∈ shuffled.map move ↔ space cand := by
  rw [← hspace cand]
  exact (hperm.map move).mem_iff

theorem first_improvement_spec {α : Type} (P : Problem) (entry : Schedule × ℚ)
    (move : α → Schedule) (mvs shuffled : List α) (hperm : shuffled.Perm mvs)
    (space : Schedule → Prop) (hspace : ∀ cand, cand ∈ mvs.map move ↔ space cand)
    (r : Schedule × ℚ) (h : firstImprovementLoop P entry move shuffled = some r) :
    firstImproving P entry (shuffled.map move) r ∧
      (r = entry ↔ ∀ cand, space cand → ¬ improving P entry cand) := by
  have h1 := firstImprovementLoop_spec P entry move shuffled r h
  refine ⟨h1, ?_⟩
  rw [firstImproving_entry_iff P entry _ r h1]
  constructor
  · intro hall cand hc
    exact hall cand ((mem_shuffled move mvs shuffled hperm space hspace cand).mpr hc)
  · intro hall cand hc
    exact hall cand ((mem_shuffled move mvs shuffled hperm space hspace cand).mp hc)

theorem shake_spec {α : Type} (P : Problem) (entry : Schedule × ℚ)
    (move : α → Schedule) (mvs shuffled : List α) (hperm : shuffled.Perm mvs)
    (space : Schedule → Prop) (hspace : ∀ cand, cand ∈ mvs.map move ↔ space cand)
    (feasible_only : Bool) (r : Schedule × ℚ)
    (h : shakeLoop P entry feasible_only move shuffled = some r) :
    (feasible_only = true → firstFeasible P entry (shuffled.map move) r ∧
      ((∀ cand, space cand → ¬ feasibleNeighbor P cand) → r = entry)) ∧
    (feasible_only = false → veryFirst P entry (shuffled.map move) r ∧
      ((∀ cand, ¬ space cand) → r = entry) ∧
      ((∀ cand, space cand → ids cand ≠ ids entry.1) → r = entry → ∀ cand, ¬ space cand)) := by
  constructor
  · intro hf
    subst hf
    have h1 := shakeLoop_feasible P entry move shuffled r h
    refine ⟨h1, ?_⟩
    intro hnone
    rcases h1 with ⟨pre, cand, post, hs, _, hev⟩ | ⟨_, hr⟩
    · exact absurd ⟨r, hev⟩
        (hnone cand ((mem_shuffled move mvs shuffled hperm space hspace cand).mp
          (by simp [hs])))
    · exact hr
  · intro hf
    subst hf
    have h1 := shakeLoop_any P entry move shuffled r h
    refine ⟨h1, ?_, ?_⟩
    · intro hempty
      cases hsh : shuffled.map move with
      | nil =>
        rw [hsh] at h1
        exact h1
      | cons c rest =>
        exact absurd ((mem_shuffled move mvs shuffled hperm space hspace c).mp
          (by simp [hsh])) (hempty c)
    · intro hne hr
      cases hsh : shuffled.map move with
      | nil =>
        intro cand hc
        have := (mem_shuffled move mvs shuffled hperm space hspace cand).mpr hc
        rw [hsh] at this
        exact absurd this (by simp)
      | cons c rest =>
        rw [hsh] at h1
        obtain ⟨b, he, _⟩ := h1
        have hc := (mem_shuffled move mvs shuffled hperm space hspace c).mp (by simp [hsh])
        have hi := evaluate_ids P (c, 0) b r he
        rw [hr] at hi
        exact absurd hi.symm (hne c hc)

/-! ## Local search -/

theorem is_lower_iff (a b : ℚ) : utils.is_lower a b = true ↔ a + utils.THRESHOLD ≤ b := by
  unfold utils.is_lower utils.compare
  rw [decide_eq_true_eq]
  have hT : (0 : ℚ) < utils.THRESHOLD := by unfold utils.THRESHOLD; norm_num
  by_cases h1 : |a - b| < utils.THRESHOLD
  · rw [if_pos h1]
    have := (abs_lt.mp h1).1
    constructor
    · intro h
      exact absurd h (by decide)
    · intro h
      linarith
  · rw [if_neg h1]
    by_cases h2 : a < b
    · rw [if_pos h2]
      have h3 : utils.THRESHOLD ≤ |a - b| := le_of_not_lt h1
      rw [abs_of_neg (by linarith)] at h3
      constructor
      · intro _
        linarith
      · intro _
        rfl
    · rw [if_neg h2]
      constructor
      · intro h
        exact absurd h (by decide)
      · intro h
        linarith

theorem is_lower_false_iff (a b : ℚ) :
    utils.is_lower a b = false ↔ b < a + utils.THRESHOLD := by
  rw [← not_le, ← is_lower_iff]
  simp

theorem rounds_succ_le (a b : ℚ) (ha : 0 ≤ a) (h : a + utils.THRESHOLD ≤ b) :
    rounds a + 1 ≤ rounds b := by
  have hT : (0 : ℚ) < utils.THRESHOLD := by unfold utils.THRESHOLD; norm_num
  unfold rounds
  rw [← Nat.floor_add_one (div_nonneg ha (le_of_lt hT))]
  apply Nat.floor_mono
  rw [div_add_one (ne_of_gt hT)]
  exact div_le_div_of_nonneg_right h (le_of_lt hT)

theorem descend_stop (step : Schedule × ℚ → Option (Schedule × ℚ)) :
    ∀ fuel entry r, LocalSearch.descend step fuel entry = some r →
      r.2 ≤ entry.2 ∧ ∃ neighbor, step r = some neighbor ∧
        utils.is_lower neighbor.2 r.2 = false := by
  intro fuel
  induction fuel with
  | zero =>
    intro entry r h
    exact absurd h (by simp [LocalSearch.descend])
  | succ fuel ih =>
    intro entry r h
    unfold LocalSearch.descend at h
    split at h
    · exact absurd h (by simp)
    · rename_i neighbor hs
      split at h
      · rename_i hl
        obtain ⟨h1, h2⟩ := ih neighbor r h
        have hT : (0 : ℚ) < utils.THRESHOLD := by unfold utils.THRESHOLD; norm_num
        have := (is_lower_iff _ _).mp hl
        exact ⟨by linarith, h2⟩
      · rename_i hl
        injection h with h
        subst h
        exact ⟨le_refl _, neighbor, hs, by simpa using hl⟩

theorem lower_step (P : Problem) (neighborhood : Neighborhood) (incumbent neighbor : Schedule × ℚ)
    (hw : wellFormed P incumbent.1)
    (hs : neighborhood.best_improvement P incumbent = some neighbor)
    (hl : utils.is_lower neighbor.2 incumbent.2 = true) :
    wellFormed P neighbor.1 ∧ rounds neighbor.2 + 1 ≤ rounds incumbent.2 := by
  obtain ⟨h1, h2⟩ := best_improvement_step P neighborhood incumbent neighbor hw hs
  have hlt := (is_lower_iff _ _).mp hl
  have hT : (0 : ℚ) < utils.THRESHOLD := by unfold utils.THRESHOLD; norm_num
  refine ⟨h1, ?_⟩
  rcases h2 with rfl | ⟨h0, _⟩
  · linarith
  · exact rounds_succ_le _ _ h0 hlt

theorem descend_defined (P : Problem) (hinv : P.inverseSets) (neighborhood : Neighborhood) :
    ∀ fuel incumbent, wellFormed P incumbent.1 → rounds incumbent.2 < fuel →
      ∃ r, LocalSearch.descend (neighborhood.best_improvement P) fuel incumbent = some r := by
  intro fuel
  induction fuel with
  | zero =>
    intro incumbent _ h
    exact absurd h (by omega)
  | succ fuel ih =>
    intro incumbent hw hf
    obtain ⟨neighbor, hs⟩ := best_improvement_defined P hinv neighborhood incumbent hw
    unfold LocalSearch.descend
    rw [hs]
    simp only []
    split
    · rename_i hl
      obtain ⟨h1, h2⟩ := lower_step P neighborhood incumbent neighbor hw hs hl
      exact ih neighbor h1 (by omega)
    · exact ⟨_, rfl⟩

theorem vndLoop_stop (steps : List (Schedule × ℚ → Option (Schedule × ℚ))) :
    ∀ fuel rest incumbent r,
      (∀ step ∈ steps, step ∈ rest ∨
        ∃ neighbor, step incumbent = some neighbor ∧
          utils.is_lower neighbor.2 incumbent.2 = false) →
      LocalSearch.vndLoop steps fuel rest incumbent = some r →
      ∀ step ∈ steps, ∃ neighbor, step r = some neighbor ∧
        utils.is_lower neighbor.2 r.2 = false := by
  intro fuel
  induction fuel with
  | zero =>
    intro rest incumbent r hinv h
    cases rest with
    | nil =>
      simp only [LocalSearch.vndLoop, Option.some.injEq] at h
      subst h
      intro step hstep
      rcases hinv step hstep with hm | hn
      · exact absurd hm (by simp)
      · exact hn
    | cons st rest => exact absurd h (by simp [LocalSearch.vndLoop])
  | succ fuel ih =>
    intro rest incumbent r hinv h
    cases rest with
    | nil =>
      simp only [LocalSearch.vndLoop, Option.some.injEq] at h
      subst h
      intro step hstep
      rcases hinv step hstep with hm | hn
      · exact absurd hm (by simp)
      · exact hn
    | cons st rest =>
      simp only [LocalSearch.vndLoop] at h
      split at h
      · exact absurd h (by simp)
      · rename_i neighbor hs
        split at h
        · exact ih steps neighbor r (fun step hstep => Or.inl hstep) h
        · rename_i hl
          apply ih rest incumbent r _ h
          intro step hstep
          rcases hinv step hstep with hm | hn
          · rcases List.mem_cons.mp hm with rfl | hm
            · exact Or.inr ⟨neighbor, hs, by simpa using hl⟩
            · exact Or.inl hm
          · exact Or.inr hn

theorem vndLoop_defined (P : Problem) (hinv : P.inverseSets)
    (steps : List (Schedule × ℚ → Option (Schedule × ℚ))) :
    ∀ fuel rest incumbent, wellFormed P incumbent.1 →
      (∀ step ∈ rest, ∃ neighborhood : Neighborhood, step = neighborhood.best_improvement P) →
      (∀ step ∈ steps, ∃ neighborhood : Neighborhood, step = neighborhood.best_improvement P) →
      rest.length ≤ steps.length →
      rounds incumbent.2 * (steps.length + 1) + rest.length ≤ fuel →
      ∃ r, LocalSearch.vndLoop steps fuel rest incumbent = some r := by
  intro fuel
  induction fuel with
  | zero =>
    intro rest incumbent _ _ _ _ hf
    cases rest with
    | nil => exact ⟨incumbent, by simp [LocalSearch.vndLoop]⟩
    | cons st rest => simp at hf
  | succ fuel ih =>
    intro rest incumbent hw hrest hsteps hlen hf
    cases rest with
    | nil => exact ⟨incumbent, by simp [LocalSearch.vndLoop]⟩
    | cons st rest =>
      obtain ⟨neighborhood, rfl⟩ := hrest st (by simp)
      obtain ⟨neighbor, hs⟩ := best_improvement_defined P hinv neighborhood incumbent hw
      simp only [LocalSearch.vndLoop, hs]
      simp only [List.length_cons] at hf hlen
      split
      · rename_i hl
        obtain ⟨h1, h2⟩ := lower_step P neighborhood incumbent neighbor hw hs hl
        apply ih steps neighbor h1 hsteps hsteps (le_refl _)
        have h3 := Nat.mul_le_mul_right (steps.length + 1) h2
        rw [Nat.add_mul, Nat.one_mul] at h3
        omega
      · exact ih rest incumbent hw (fun step hm => hrest step (List.mem_cons_of_mem _ hm))
          hsteps (by omega) (by omega)

/-! ## Facts on the concrete instances -/

theorem exTravel_inverseSets : exTravel.inverseSets :=
  ⟨fun _ => List.nodup_nil, fun _ => List.nodup_nil,
    fun _ _ => ⟨fun h => absurd h (List.not_mem_nil _), fun h => absurd h (List.not_mem_nil _)⟩⟩

theorem exNear_inverseSets : exNear.inverseSets :=
  ⟨fun _ => List.nodup_nil, fun _ => List.nodup_nil,
    fun _ _ => ⟨fun h => absurd h (List.not_mem_nil _), fun h => absurd h (List.not_mem_nil _)⟩⟩

theorem exTwoTeams_inverseSets : exTwoTeams.inverseSets :=
  ⟨fun _ => List.nodup_nil, fun _ => List.nodup_nil,
    fun _ _ => ⟨fun h => absurd h (List.not_mem_nil _), fun h => absurd h (List.not_mem_nil _)⟩⟩

/-! ## Frame of the evaluator and of the moves -/

theorem maneuverAt_fst_ids (s1 s2 : Schedule) (hids : ids s1 = ids s2) (l idx : Nat) :
    (maneuverAt s1 l idx).1 = (maneuverAt s2 l idx).1 := by
  have h := congrArg (fun L => L.getD idx 0) (teamOf_ids s1 s2 hids l)
  have e : ∀ team : List Maneuver, (team.map Prod.fst).getD idx 0 = (team.getD idx (0, 0)).1 :=
    fun team => List.getD_map team (0, 0) Prod.fst
  simp only [e] at h
  exact h

theorem swap_sizes (P : Problem) (schedule cand : Schedule)
    (h : Swap.neighbor P schedule cand) (l : Nat) :
    (teamOf cand l).length = (teamOf schedule l).length := by
  obtain ⟨l1, l2, i1, i2, t1, t2, _, hlt, _, hi1, hi2, ht1, ht2, rfl⟩ := h
  have h1 := teamOf_length_pos schedule l1 i1 hi1
  have h2 := teamOf_length_pos schedule l2 i2 hi2
  by_cases e2 : l = l2
  · subst e2
    rw [teamOf_set_self _ _ _ (by simpa using h2)]
    exact length_erase_insert _ _ _ _ hi2 ht1
  · rw [teamOf_set_ne _ _ _ _ e2]
    by_cases e1 : l = l1
    · subst e1
      rw [teamOf_set_self _ _ _ h1]
      exact length_erase_insert _ _ _ _ hi1 ht2
    · rw [teamOf_set_ne _ _ _ _ e1]

theorem reassignement_frame (P : Problem) (entry r : Schedule × ℚ)
    (h : r = entry ∨ ∃ cand, Reassignement.neighbor P entry.1 cand ∧
      ∃ b, utils.evaluate P (cand, 0) = some (b, r)) :
    Reassignement.movesAtMostOne P entry r := by
  rcases h with rfl | ⟨cand, hc, b, he⟩
  · exact ⟨rfl, Or.inl rfl⟩
  · have hi : ids r.1 = ids cand := evaluate_ids P (cand, 0) b r he
    refine ⟨?_, Or.inr ⟨cand, hc, hi⟩⟩
    rw [teamOf_ids r.1 cand hi 0]
    obtain ⟨lo, io, lt, it, h1, _, h2, _, _, _, _, rfl⟩ := hc
    rw [teamOf_set_ne _ _ _ _ (by omega), teamOf_set_ne _ _ _ _ (by omega)]

/-! ## Claims on the evaluator frame and on the neighborhoods -/

/-- C11. The function `utils::evaluate` never changes team membership or order: whatever
flag it returns, the entry after the call has as many team lists as before, every list has
the length it had and every position holds the switch id it held; the moments and the
makespan are all it writes. -/
theorem evaluate_keeps_membership (P : Problem) (entry : Schedule × ℚ) (b : Bool)
    (out : Schedule × ℚ) (h : utils.evaluate P entry = some (b, out)) :
    out.1.length = entry.1.length ∧
    (∀ l, (teamOf out.1 l).length = (teamOf entry.1 l).length) ∧
    (∀ l idx, (maneuverAt out.1 l idx).1 = (maneuverAt entry.1 l idx).1) ∧
    ids out.1 = ids entry.1 := by
  have hi := evaluate_ids P entry b out h
  refine ⟨?_, fun l => teamOf_length_ids _ _ hi l, fun l idx => maneuverAt_fst_ids _ _ hi l idx,
    hi⟩
  have := congrArg List.length hi
  simpa [ids] using this

theorem evaluate_keeps_membership_witness :
    (([[], [(2, DBL_MAX), (1, DBL_MAX)]], DBL_MAX) : Schedule × ℚ).1.length =
        (([[], [(2, 0), (1, 0)]], 0) : Schedule × ℚ).1.length ∧
    (∀ l, (teamOf (([[], [(2, DBL_MAX), (1, DBL_MAX)]], DBL_MAX) : Schedule × ℚ).1 l).length =
        (teamOf (([[], [(2, 0), (1, 0)]], 0) : Schedule × ℚ).1 l).length) ∧
    (∀ l idx,
      (maneuverAt (([[], [(2, DBL_MAX), (1, DBL_MAX)]], DBL_MAX) : Schedule × ℚ).1 l idx).1 =
        (maneuverAt (([[], [(2, 0), (1, 0)]], 0) : Schedule × ℚ).1 l idx).1) ∧
    ids (([[], [(2, DBL_MAX), (1, DBL_MAX)]], DBL_MAX) : Schedule × ℚ).1 =
      ids (([[], [(2, 0), (1, 0)]], 0) : Schedule × ℚ).1 :=
  evaluate_keeps_membership exChain ([[], [(2, 0), (1, 0)]], 0) false
    ([[], [(2, DBL_MAX), (1, DBL_MAX)]], DBL_MAX) (by decide!)

/-- C12. The function `Shift::best_improvement` scans exactly the schedules obtained by
removing one maneuver of a team `l` in `0..m` and putting it back at a different position
of the same list. It returns a result on every well-formed entry; the result is the entry
unchanged when no such schedule is marked feasible with a makespan strictly below the
recorded one, and otherwise the evaluation of one of them that is feasible and whose
makespan is least among the feasible ones. -/
theorem shift_best_improvement_best (P : Problem) (entry : Schedule × ℚ) :
    (P.inverseSets → wellFormed P entry.1 → ∃ r, Shift.best_improvement P entry = some r) ∧
    ∀ r, Shift.best_improvement P entry = some r →
      bestOf P (Shift.neighbor P entry.1) entry r :=
  ⟨fun hinv hw => best_improvement_defined P hinv Neighborhood.Shift entry hw,
    fun r h => shift_bestOf P entry r h⟩

theorem shift_best_improvement_best_witness :
    (∃ r, Shift.best_improvement exTravel ([[], [(1, 0), (2, 1)]], 12) = some r) ∧
    bestOf exTravel
      (Shift.neighbor exTravel (([[], [(1, 0), (2, 1)]], 12) : Schedule × ℚ).1)
      ([[], [(1, 0), (2, 1)]], 12) ([[], [(2, 0), (1, 10)]], 11) :=
  ⟨(shift_best_improvement_best exTravel ([[], [(1, 0), (2, 1)]], 12)).1 exTravel_inverseSets
      ⟨by decide, by decide⟩,
    (shift_best_improvement_best exTravel ([[], [(1, 0), (2, 1)]], 12)).2
      ([[], [(2, 0), (1, 10)]], 11) (by decide!)⟩

/-- C13. The function `Reassignement::best_improvement` scans exactly the schedules
obtained by removing one maneuver from a team `l_origin` in `1..m` and inserting it at a
position `0..|list|` of a different team `l_target` in `1..m`. It returns a result on
every well-formed entry; the result is the entry unchanged when no such schedule is marked
feasible with a makespan strictly below the recorded one, and otherwise the evaluation of
one of them that is feasible and whose makespan is least among the feasible ones. -/
theorem reassignement_best_improvement_best (P : Problem) (entry : Schedule × ℚ) :
    (P.inverseSets → wellFormed P entry.1 →
      ∃ r, Reassignement.best_improvement P entry = some r) ∧
    ∀ r, Reassignement.best_improvement P entry = some r →
      bestOf P (Reassignement.neighbor P entry.1) entry r :=
  ⟨fun hinv hw => best_improvement_defined P hinv Neighborhood.Reassignement entry hw,
    fun r h => reassignement_bestOf P entry r h⟩

theorem reassignement_best_improvement_best_witness :
    (∃ r, Reassignement.best_improvement exTwoTeams ([[], [(1, 6)], [(2, 6)]], 7) = some r) ∧
    bestOf exTwoTeams
      (Reassignement.neighbor exTwoTeams (([[], [(1, 6)], [(2, 6)]], 7) : Schedule × ℚ).1)
      ([[], [(1, 6)], [(2, 6)]], 7) ([[], [], [(1, 1), (2, 2)]], 3) :=
  ⟨(reassignement_best_improvement_best exTwoTeams ([[], [(1, 6)], [(2, 6)]], 7)).1
      exTwoTeams_inverseSets ⟨by decide, by decide⟩,
    (reassignement_best_improvement_best exTwoTeams ([[], [(1, 6)], [(2, 6)]], 7)).2
      ([[], [], [(1, 1), (2, 2)]], 3) (by decide!)⟩

/-- C14. The function `Swap::best_improvement` scans exactly the schedules obtained by
choosing physical teams `l1 < l2`, removing one maneuver from each and inserting the one
of `l1` at a position of the remaining list of `l2` and the one of `l2` at a position of
the remaining list of `l1`; every team keeps its size. It returns a result on every
well-formed entry; the result is the entry unchanged when no such schedule is marked
feasible with a makespan strictly below the recorded one, and otherwise the evaluation of
one of them that is feasible and whose makespan is least among the feasible ones. -/
theorem swap_best_improvement_best (P : Problem) (entry : Schedule × ℚ) :
    (P.inverseSets → wellFormed P entry.1 → ∃ r, Swap.best_improvement P entry = some r) ∧
    (∀ r, Swap.best_improvement P entry = some r →
      bestOf P (Swap.neighbor P entry.1) entry r) ∧
    ∀ cand, Swap.neighbor P entry.1 cand →
      ∀ l, (teamOf cand l).length = (teamOf entry.1 l).length :=
  ⟨fun hinv hw => best_improvement_defined P hinv Neighborhood.Swap entry hw,
    fun r h => swap_bestOf P entry r h, fun cand h l => swap_sizes P entry.1 cand h l⟩

theorem swap_best_improvement_best_witness :
    (∃ r, Swap.best_improvement exTwoTeams ([[], [(1, 6)], [(2, 6)]], 7) = some r) ∧
    bestOf exTwoTeams
      (Swap.neighbor exTwoTeams (([[], [(1, 6)], [(2, 6)]], 7) : Schedule × ℚ).1)
      ([[], [(1, 6)], [(2, 6)]], 7) ([[], [(2, 1)], [(1, 1)]], 2) :=
  ⟨(swap_best_improvement_best exTwoTeams ([[], [(1, 6)], [(2, 6)]], 7)).1
      exTwoTeams_inverseSets ⟨by decide, by decide⟩,
    (swap_best_improvement_best exTwoTeams ([[], [(1, 6)], [(2, 6)]], 7)).2.1
      ([[], [(2, 1)], [(1, 1)]], 2) (by decide!)⟩

/-- C15. The Reassignment neighborhood never uses team 0: the schedule returned by
`Reassignement::best_improvement`, by `first_improvement` under any shuffle and by `shake`
under any flag and shuffle has on team 0 the switch ids of the entry in the same order, and
its assignment is that of the entry or that of the entry with one maneuver moved between
two distinct teams of `1..m`. -/
theorem reassignement_never_uses_team0 (P : Problem) (entry : Schedule × ℚ) :
    (∀ r, Reassignement.best_improvement P entry = some r →
      Reassignement.movesAtMostOne P entry r) ∧
    (∀ generator : List (Nat × Nat × Nat × Nat) → List (Nat × Nat × Nat × Nat),
      (∀ xs, (generator xs).Perm xs) →
      ∀ r, Reassignement.first_improvement P entry generator = some r →
        Reassignement.movesAtMostOne P entry r) ∧
    (∀ (feasible_only : Bool)
      (generator : List (Nat × Nat × Nat × Nat) → List (Nat × Nat × Nat × Nat)),
      (∀ xs, (generator xs).Perm xs) →
      ∀ r, Reassignement.shake P entry feasible_only generator = some r →
        Reassignement.movesAtMostOne P entry r) := by
  refine ⟨?_, ?_, ?_⟩
  · intro r h
    apply reassignement_frame
    rcases bestOf_cases P _ entry r (reassignement_bestOf P entry r h) with
      hr | ⟨cand, hc, he, _⟩
    · exact Or.inl hr
    · exact Or.inr ⟨cand, hc, true, he⟩
  · intro generator hperm r h
    apply reassignement_frame
    unfold Reassignement.first_improvement at h
    split at h
    · rcases firstImproving_cases P entry _ r (firstImprovementLoop_spec P entry _ _ r h) with
        hr | ⟨cand, hc, b, he⟩
      · exact Or.inl hr
      · exact Or.inr ⟨cand,
          (mem_shuffled _ _ _ (hperm _) _ (reassignement_space P entry) cand).mp hc, b, he⟩
    · exact absurd h (by simp)
  · intro feasible_only generator hperm r h
    apply reassignement_frame
    unfold Reassignement.shake at h
    split at h
    · rcases shakeLoop_cases P entry feasible_only _ _ r h with hr | ⟨mv, hm, b, he⟩
      · exact Or.inl hr
      · exact Or.inr ⟨_,
          (mem_shuffled _ _ _ (hperm _) _ (reassignement_space P entry) _).mp
            (List.mem_map_of_mem _ hm), b, he⟩
    · exact absurd h (by simp)

theorem reassignement_never_uses_team0_witness :
    Reassignement.movesAtMostOne exTwoTeams ([[], [(1, 6)], [(2, 6)]], 7)
      ([[], [(1, 6), (2, 7)], []], 8) :=
  (reassignement_never_uses_team0 exTwoTeams ([[], [(1, 6)], [(2, 6)]], 7)).2.2 false
    List.reverse (fun xs => List.reverse_perm xs) ([[], [(1, 6), (2, 7)], []], 8) (by decide!)

/-! ## Claims on the shuffled loops -/

theorem first_improvement_of {α : Type} (P : Problem) (entry : Schedule × ℚ)
    (move : α → Schedule) (mvs shuffled : List α) (hperm : shuffled.Perm mvs)
    (space : Schedule → Prop) (hspace : ∀ cand, cand ∈ mvs.map move ↔ space cand)
    (r : Schedule × ℚ) (h : firstImprovementLoop P entry move shuffled = some r) :
    firstImprovementOf P space entry (shuffled.map move) r :=
  ⟨mem_shuffled move mvs shuffled hperm space hspace,
    first_improvement_spec P entry move mvs shuffled hperm space hspace r h⟩

theorem shake_of {α : Type} (P : Problem) (entry : Schedule × ℚ)
    (move : α → Schedule) (mvs shuffled : List α) (hperm : shuffled.Perm mvs)
    (space : Schedule → Prop) (hspace : ∀ cand, cand ∈ mvs.map move ↔ space cand)
    (hne : wellFormed P entry.1 → ∀ cand, space cand → ids cand ≠ ids entry.1)
    (feasible_only : Bool) (r : Schedule × ℚ)
    (h : shakeLoop P entry feasible_only move shuffled = some r) :
    shakeOf P space entry feasible_only (shuffled.map move) r := by
  obtain ⟨h1, h2⟩ := shake_spec P entry move mvs shuffled hperm space hspace feasible_only r h
  refine ⟨mem_shuffled move mvs shuffled hperm space hspace, h1, ?_⟩
  intro hf
  obtain ⟨h3, h4, h5⟩ := h2 hf
  exact ⟨h3, h4, fun hw => h5 (hne hw)⟩

theorem shuffled_defined {α : Type} (P : Problem) (move : α → Schedule) (mvs shuffled : List α)
    (hperm : shuffled.Perm mvs)
    (h : ∀ mv ∈ mvs, ∃ b out, utils.evaluate P (move mv, 0) = some (b, out)) :
    ∀ mv ∈ shuffled, ∃ b out, utils.evaluate P (move mv, 0) = some (b, out) :=
  fun mv hm => h mv (hperm.mem_iff.mp hm)

/-- C16. For Shift, Reassignement and Swap and every shuffle of the move list,
`first_improvement` returns a result on every well-formed entry; the result is the
evaluation of the first candidate, in shuffled order, that is marked feasible with a
makespan strictly below the recorded one, and it is the entry unchanged exactly when no
move of the whole move space yields such a candidate. -/
theorem first_improvement_takes_first (P : Problem) (entry : Schedule × ℚ) :
    (∀ generator : List (Nat × Nat × Nat) → List (Nat × Nat × Nat),
      (∀ xs, (generator xs).Perm xs) →
      (P.inverseSets → wellFormed P entry.1 →
        ∃ r, Shift.first_improvement P entry generator = some r) ∧
      ∀ r, Shift.first_improvement P entry generator = some r →
        firstImprovementOf P (Shift.neighbor P entry.1) entry
          ((generator (Shift.movements P entry)).map (Shift.move entry.1)) r) ∧
    (∀ generator : List (Nat × Nat × Nat × Nat) → List (Nat × Nat × Nat × Nat),
      (∀ xs, (generator xs).Perm xs) →
      (P.inverseSets → wellFormed P entry.1 →
        ∃ r, Reassignement.first_improvement P entry generator = some r) ∧
      ∀ r, Reassignement.first_improvement P entry generator = some r →
        firstImprovementOf P (Reassignement.neighbor P entry.1) entry
          ((generator (Reassignement.movements P entry)).map (Reassignement.move entry.1)) r) ∧
    (∀ generator : List (Nat × Nat × Nat × Nat × Nat × Nat) →
        List (Nat × Nat × Nat × Nat × Nat × Nat),
      (∀ xs, (generator xs).Perm xs) →
      (P.inverseSets → wellFormed P entry.1 →
        ∃ r, Swap.first_improvement P entry generator = some r) ∧
      ∀ r, Swap.first_improvement P entry generator = some r →
        firstImprovementOf P (Swap.neighbor P entry.1) entry
          ((generator (Swap.movements P entry)).map (Swap.move entry.1)) r) := by
  refine ⟨?_, ?_, ?_⟩
  · intro generator hperm
    constructor
    · intro hinv hw
      unfold Shift.first_improvement
      rw [if_pos hw.1]
      exact firstImprovementLoop_defined P entry _ _
        (shuffled_defined P _ _ _ (hperm _) (shift_candidates_defined P hinv entry hw))
    · intro r h
      unfold Shift.first_improvement at h
      split at h
      · rename_i hlen
        exact first_improvement_of P entry _ _ _ (hperm _) _ (shift_space P entry hlen) r h
      · exact absurd h (by simp)
  · intro generator hperm
    constructor
    · intro hinv hw
      unfold Reassignement.first_improvement
      rw [if_pos (Or.inr hw.1)]
      exact firstImprovementLoop_defined P entry _ _
        (shuffled_defined P _ _ _ (hperm _) (reassignement_candidates_defined P hinv entry hw))
    · intro r h
      unfold Reassignement.first_improvement at h
      split at h
      · exact first_improvement_of P entry _ _ _ (hperm _) _ (reassignement_space P entry) r h
      · exact absurd h (by simp)
  · intro generator hperm
    constructor
    · intro hinv hw
      unfold Swap.first_improvement
      rw [if_pos (Or.inr hw.1)]
      exact firstImprovementLoop_defined P entry _ _
        (shuffled_defined P _ _ _ (hperm _) (swap_candidates_defined P hinv entry hw))
    · intro r h
      unfold Swap.first_improvement at h
      split at h
      · rename_i hlen
        exact first_improvement_of P entry _ _ _ (hperm _) _ (swap_space P entry hlen) r h
      · exact absurd h (by simp)

theorem first_improvement_takes_first_witness :
    (∃ r, Reassignement.first_improvement exTwoTeams ([[], [(1, 6)], [(2, 6)]], 7)
      List.reverse = some r) ∧
    firstImprovementOf exTwoTeams
      (Reassignement.neighbor exTwoTeams (([[], [(1, 6)], [(2, 6)]], 7) : Schedule × ℚ).1)
      ([[], [(1, 6)], [(2, 6)]], 7)
      ((List.reverse (Reassignement.movements exTwoTeams ([[], [(1, 6)], [(2, 6)]], 7))).map
        (Reassignement.move (([[], [(1, 6)], [(2, 6)]], 7) : Schedule × ℚ).1))
      ([[], [(2, 1), (1, 2)], []], 3) :=
  ⟨((first_improvement_takes_first exTwoTeams ([[], [(1, 6)], [(2, 6)]], 7)).2.1 List.reverse
      (fun xs => List.reverse_perm xs)).1 exTwoTeams_inverseSets ⟨by decide, by decide⟩,
    ((first_improvement_takes_first exTwoTeams ([[], [(1, 6)], [(2, 6)]], 7)).2.1 List.reverse
      (fun xs => List.reverse_perm xs)).2 ([[], [(2, 1), (1, 2)], []], 3) (by decide!)⟩

/-- C17 fails on an entry that holds a switch twice. On `exChain` with the team list
`[1, 1, 2]` the move list of Shift has six moves, and `shake` with `feasible_only = false`
returns a value equal to the entry although the move space is not empty: the first move
exchanges the two maneuvers of switch 1, and the evaluation of that candidate is the
entry. -/
theorem shake_returns_entry_with_moves :
    Shift.movements exChain ([[], [(1, DBL_MAX), (1, 5), (2, DBL_MAX)]], 10) =
      [(1, 0, 1), (1, 0, 2), (1, 1, 0), (1, 1, 2), (1, 2, 0), (1, 2, 1)] ∧
    (∃ cand, Shift.neighbor exChain [[], [(1, DBL_MAX), (1, 5), (2, DBL_MAX)]] cand) ∧
    Shift.shake exChain ([[], [(1, DBL_MAX), (1, 5), (2, DBL_MAX)]], 10) false id =
      some ([[], [(1, DBL_MAX), (1, 5), (2, DBL_MAX)]], 10) :=
  ⟨by decide!,
    ⟨_, 1, 0, 1, by decide, by decide!, by decide!, by decide, rfl⟩,
    by decide!⟩

/-- C17, as amended. For Shift, Reassignement and Swap, every instance, every entry and
every shuffle of the move list: whenever `shake` returns, with `feasible_only = true` the
result is the evaluation of the first candidate, in shuffled order, that is marked
feasible, and the entry unchanged when no move is feasible; with `feasible_only = false`
it is the evaluation of the very first candidate, feasible or not (its makespan is
`DBL_MAX` when it is not), the entry is returned when the move space is empty, and an
entry with the team lists `0..m` that holds each switch `1..n` exactly once is returned
unchanged only then. On such an entry of an instance with mutually inverse precedence sets `shake`
returns. -/
theorem shake_takes_first (P : Problem) (entry : Schedule × ℚ) (feasible_only : Bool) :
    (∀ generator : List (Nat × Nat × Nat) → List (Nat × Nat × Nat),
      (∀ xs, (generator xs).Perm xs) →
      (P.inverseSets → wellFormed P entry.1 →
        ∃ r, Shift.shake P entry feasible_only generator = some r) ∧
      ∀ r, Shift.shake P entry feasible_only generator = some r →
        shakeOf P (Shift.neighbor P entry.1) entry feasible_only
          ((generator (Shift.movements P entry)).map (Shift.move entry.1)) r) ∧
    (∀ generator : List (Nat × Nat × Nat × Nat) → List (Nat × Nat × Nat × Nat),
      (∀ xs, (generator xs).Perm xs) →
      (P.inverseSets → wellFormed P entry.1 →
        ∃ r, Reassignement.shake P entry feasible_only generator = some r) ∧
      ∀ r, Reassignement.shake P entry feasible_only generator = some r →
        shakeOf P (Reassignement.neighbor P entry.1) entry feasible_only
          ((generator (Reassignement.movements P entry)).map (Reassignement.move entry.1)) r) ∧
    (∀ generator : List (Nat × Nat × Nat × Nat × Nat × Nat) →
        List (Nat × Nat × Nat × Nat × Nat × Nat),
      (∀ xs, (generator xs).Perm xs) →
      (P.inverseSets → wellFormed P entry.1 →
        ∃ r, Swap.shake P entry feasible_only generator = some r) ∧
      ∀ r, Swap.shake P entry feasible_only generator = some r →
        shakeOf P (Swap.neighbor P entry.1) entry feasible_only
          ((generator (Swap.movements P entry)).map (Swap.move entry.1)) r) := by
  refine ⟨?_, ?_, ?_⟩
  · intro generator hperm
    constructor
    · intro hinv hw
      unfold Shift.shake
      rw [if_pos hw.1]
      exact shakeLoop_defined P entry feasible_only _ _
        (shuffled_defined P _ _ _ (hperm _) (shift_candidates_defined P hinv entry hw))
    · intro r h
      unfold Shift.shake at h
      split at h
      · rename_i hlen
        exact shake_of P entry _ _ _ (hperm _) _ (shift_space P entry hlen)
          (fun hw cand hc => shift_ids_ne P entry.1 cand hw hc) feasible_only r h
      · exact absurd h (by simp)
  · intro generator hperm
    constructor
    · intro hinv hw
      unfold Reassignement.shake
      rw [if_pos (Or.inr hw.1)]
      exact shakeLoop_defined P entry feasible_only _ _
        (shuffled_defined P _ _ _ (hperm _) (reassignement_candidates_defined P hinv entry hw))
    · intro r h
      unfold Reassignement.shake at h
      split at h
      · exact shake_of P entry _ _ _ (hperm _) _ (reassignement_space P entry)
          (fun _ cand hc => reassignement_ids_ne P entry.1 cand hc) feasible_only r h
      · exact absurd h (by simp)
  · intro generator hperm
    constructor
    · intro hinv hw
      unfold Swap.shake
      rw [if_pos (Or.inr hw.1)]
      exact shakeLoop_defined P entry feasible_only _ _
        (shuffled_defined P _ _ _ (hperm _) (swap_candidates_defined P hinv entry hw))
    · intro r h
      unfold Swap.shake at h
      split at h
      · rename_i hlen
        exact shake_of P entry _ _ _ (hperm _) _ (swap_space P entry hlen)
          (fun hw cand hc => swap_ids_ne P entry.1 cand hw hc) feasible_only r h
      · exact absurd h (by simp)

theorem shake_takes_first_witness :
    (∃ r, Shift.shake exChain ([[], [(1, 0), (2, 5)]], 5) false List.reverse = some r) ∧
    shakeOf exChain (Shift.neighbor exChain (([[], [(1, 0), (2, 5)]], 5) : Schedule × ℚ).1)
      ([[], [(1, 0), (2, 5)]], 5) false
      ((List.reverse (Shift.movements exChain ([[], [(1, 0), (2, 5)]], 5))).map
        (Shift.move (([[], [(1, 0), (2, 5)]], 5) : Schedule × ℚ).1))
      ([[], [(2, DBL_MAX), (1, DBL_MAX)]], DBL_MAX) :=
  ⟨((shake_takes_first exChain ([[], [(1, 0), (2, 5)]], 5) false).1 List.reverse
      (fun xs => List.reverse_perm xs)).1 exChain_inverseSets ⟨by decide, by decide⟩,
    ((shake_takes_first exChain ([[], [(1, 0), (2, 5)]], 5) false).1 List.reverse
      (fun xs => List.reverse_perm xs)).2 ([[], [(2, DBL_MAX), (1, DBL_MAX)]], DBL_MAX)
      (by decide!)⟩

/-! ## Claims on the local search -/

/-- C19, as written, fails: on `exNear` the search with the Shift neighborhood returns the
evaluated entry with makespan 2 at its first round, for any number of passes, although
the Shift move that puts switch 1 behind switch 2 yields a schedule marked feasible with
the strictly smaller makespan 1.999999. -/
theorem local_search_leaves_improving_move :
    utils.evaluate exNear ([[], [(1, 1), (2, 2)]], 0) =
      some (true, ([[], [(1, 1), (2, 2)]], 2)) ∧
    (∀ fuel, LocalSearch.best_improvement exNear ([[], [(1, 1), (2, 2)]], 2)
      Neighborhood.Shift (fuel + 1) = some ([[], [(1, 1), (2, 2)]], 2)) ∧
    Neighborhood.Shift.neighbor exNear [[], [(1, 1), (2, 2)]] [[], [(2, 2), (1, 1)]] ∧
    utils.evaluate exNear ([[], [(2, 2), (1, 1)]], 0) =
      some (true, ([[], [(2, 1), (1, 1999999 / 1000000)]], 1999999 / 1000000)) ∧
    (1999999 / 1000000 : ℚ) < 2 := by
  refine ⟨by decide!, ?_, ⟨1, 0, 1, by decide, by decide, by decide, by decide, by decide⟩,
    by decide!, by norm_num⟩
  intro fuel
  have hs : Neighborhood.Shift.best_improvement exNear ([[], [(1, 1), (2, 2)]], 2) =
      some ([[], [(2, 1), (1, 1999999 / 1000000)]], 1999999 / 1000000) := by decide!
  have hl : utils.is_lower (1999999 / 1000000 : ℚ) 2 = false := by decide!
  unfold LocalSearch.best_improvement LocalSearch.descend
  rw [hs]
  simp only [hl, Bool.false_eq_true, if_false]

/-- C19, amended. The result of `LocalSearch::best_improvement` admits no single move of
the neighborhood whose schedule is marked feasible with a makespan lower than the result's
by the tolerance `1e-5` or more (`utils::is_lower` is false on every feasible neighbor);
on a well-formed entry `rounds entry.2 + 1` passes of the loop are enough for it to
return. -/
theorem local_search_result_within_tolerance (P : Problem) (neighborhood : Neighborhood)
    (entry : Schedule × ℚ) :
    (∀ fuel r, LocalSearch.best_improvement P entry neighborhood fuel = some r →
      ∀ cand, neighborhood.neighbor P r.1 cand →
      ∀ out, utils.evaluate P (cand, 0) = some (true, out) →
        utils.is_lower out.2 r.2 = false ∧ r.2 < out.2 + utils.THRESHOLD) ∧
    (P.inverseSets → wellFormed P entry.1 →
      ∃ r, LocalSearch.best_improvement P entry neighborhood (rounds entry.2 + 1) =
        some r) := by
  constructor
  · intro fuel r h cand hc out he
    obtain ⟨_, neighbor, hs, hl⟩ := descend_stop _ fuel entry r h
    have hb := best_improvement_bestOf P neighborhood r neighbor hs
    have hlt := (is_lower_false_iff _ _).mp hl
    have hgoal : r.2 < out.2 + utils.THRESHOLD := by
      have hT : (0 : ℚ) < utils.THRESHOLD := by unfold utils.THRESHOLD; norm_num
      by_cases hlow : out.2 < r.2
      · have := (hb.2 ⟨cand, hc, out, he, hlow⟩).2 cand out hc he
        linarith
      · linarith [le_of_not_lt hlow]
    exact ⟨(is_lower_false_iff _ _).mpr hgoal, hgoal⟩
  · intro hinv hw
    exact descend_defined P hinv neighborhood _ entry hw (Nat.lt_succ_self _)

theorem local_search_result_within_tolerance_witness :
    utils.is_lower
        (([[], [(2, 1), (1, 1999999 / 1000000)]], 1999999 / 1000000) : Schedule × ℚ).2
        (([[], [(1, 1), (2, 2)]], 2) : Schedule × ℚ).2 = false ∧
      (([[], [(1, 1), (2, 2)]], 2) : Schedule × ℚ).2 <
        (([[], [(2, 1), (1, 1999999 / 1000000)]], 1999999 / 1000000) : Schedule × ℚ).2 +
          utils.THRESHOLD :=
  (local_search_result_within_tolerance exNear Neighborhood.Shift
      ([[], [(1, 1), (2, 2)]], 2)).1 1 ([[], [(1, 1), (2, 2)]], 2) (by decide!)
    [[], [(2, 2), (1, 1)]] ⟨1, 0, 1, by decide, by decide, by decide, by decide, by decide⟩
    ([[], [(2, 1), (1, 1999999 / 1000000)]], 1999999 / 1000000) (by decide!)

/-- C20. The result `r` of `LocalSearch::best_improvement_vnd` is returned only once
every neighborhood of the list fails on it: for each neighborhood of the list, its
`best_improvement` from `r` is defined and `utils::is_lower` is false on its makespan and
that of `r`; on a well-formed entry `rounds entry.2 * (k + 1) + k` passes of the loop, `k`
the length of the list, are enough for the search to return. -/
theorem vnd_every_neighborhood_fails (P : Problem) (entry : Schedule × ℚ)
    (neighborhoods : List Neighborhood) :
    (∀ fuel r, LocalSearch.best_improvement_vnd P entry neighborhoods fuel = some r →
      ∀ neighborhood ∈ neighborhoods,
        ∃ neighbor, neighborhood.best_improvement P r = some neighbor ∧
          utils.is_lower neighbor.2 r.2 = false) ∧
    (P.inverseSets → wellFormed P entry.1 →
      ∃ r, LocalSearch.best_improvement_vnd P entry neighborhoods
        (rounds entry.2 * (neighborhoods.length + 1) + neighborhoods.length) = some r) := by
  constructor
  · intro fuel r h neighborhood hmem
    unfold LocalSearch.best_improvement_vnd at h
    exact vndLoop_stop _ fuel _ entry r (fun step hstep => Or.inl hstep) h
      (neighborhood.best_improvement P)
      (List.mem_map.mpr ⟨neighborhood, hmem, rfl⟩)
  · intro hinv hw
    unfold LocalSearch.best_improvement_vnd
    have hsteps : ∀ step ∈ neighborhoods.map
        (fun neighborhood : Neighborhood => neighborhood.best_improvement P),
        ∃ neighborhood : Neighborhood, step = neighborhood.best_improvement P := by
      intro step hstep
      obtain ⟨neighborhood, _, rfl⟩ := List.mem_map.mp hstep
      exact ⟨neighborhood, rfl⟩
    exact vndLoop_defined P hinv _ _ _ entry hw hsteps hsteps (le_refl _)
      (by simp)

theorem vnd_every_neighborhood_fails_witness :
    ∃ neighbor,
      Neighborhood.Swap.best_improvement exTwoTeams ([[], [(2, 1)], [(1, 1)]], 2) =
        some neighbor ∧
      utils.is_lower neighbor.2 (([[], [(2, 1)], [(1, 1)]], 2) : Schedule × ℚ).2 = false :=
  (vnd_every_neighborhood_fails exTwoTeams ([[], [(1, 6)], [(2, 6)]], 7)
      [Neighborhood.Shift, Neighborhood.Reassignement, Neighborhood.Swap]).1 10
    ([[], [(2, 1)], [(1, 1)]], 2) (by decide!) Neighborhood.Swap (by decide)

/-! ## Tolerance comparison -/

theorem compare_cases (a b : ℚ) :
    (utils.compare a b = 0 ∧ |a - b| < utils.THRESHOLD) ∨
    (utils.compare a b = -1 ∧ a < b ∧ utils.THRESHOLD ≤ |a - b|) ∨
    (utils.compare a b = 1 ∧ b ≤ a ∧ utils.THRESHOLD ≤ |a - b|) := by
  unfold utils.compare
  by_cases h1 : |a - b| < utils.THRESHOLD
  · exact Or.inl ⟨by rw [if_pos h1], h1⟩
  · rw [if_neg h1]
    by_cases h2 : a < b
    · exact Or.inr (Or.inl ⟨by rw [if_pos h2], h2, le_of_not_lt h1⟩)
    · exact Or.inr (Or.inr ⟨by rw [if_neg h2], le_of_not_lt h2, le_of_not_lt h1⟩)

theorem threshold_pos : (0 : ℚ) < utils.THRESHOLD := by
  unfold utils.THRESHOLD
  norm_num

theorem compare_zero_iff (a b : ℚ) : utils.compare a b = 0 ↔ |a - b| < utils.THRESHOLD := by
  rcases compare_cases a b with ⟨h, h1⟩ | ⟨h, _, h2⟩ | ⟨h, _, h2⟩
  · simp [h, h1]
  · rw [h]
    exact ⟨fun e => absurd e (by decide), fun e => absurd e (not_lt.mpr h2)⟩
  · rw [h]
    exact ⟨fun e => absurd e (by decide), fun e => absurd e (not_lt.mpr h2)⟩

theorem compare_neg_iff (a b : ℚ) :
    utils.compare a b = -1 ↔ a < b ∧ utils.THRESHOLD ≤ |a - b| := by
  rcases compare_cases a b with ⟨h, h1⟩ | ⟨h, h1, h2⟩ | ⟨h, h1, h2⟩
  · rw [h]
    exact ⟨fun e => absurd e (by decide), fun e => absurd h1 (not_lt.mpr e.2)⟩
  · simp [h, h1, h2]
  · rw [h]
    exact ⟨fun e => absurd e (by decide), fun e => absurd e.1 (not_lt.mpr h1)⟩

theorem compare_pos_iff (a b : ℚ) :
    utils.compare a b = 1 ↔ b < a ∧ utils.THRESHOLD ≤ |a - b| := by
  have hT := threshold_pos
  rcases compare_cases a b with ⟨h, h1⟩ | ⟨h, h1, h2⟩ | ⟨h, h1, h2⟩
  · rw [h]
    exact ⟨fun e => absurd e (by decide), fun e => absurd h1 (not_lt.mpr e.2)⟩
  · rw [h]
    exact ⟨fun e => absurd e (by decide), fun e => absurd e.1 (not_lt.mpr (le_of_lt h1))⟩
  · have hne : a ≠ b := by
      intro e
      rw [e, sub_self, abs_zero] at h2
      exact absurd hT (not_lt.mpr h2)
    simp [h, h2, lt_of_le_of_ne h1 (Ne.symm hne)]

/-- Tolerance comparison in exact arithmetic, with the threshold `1/100000`:
`utils.compare a b` is 0 exactly when `|a - b| < 1/100000`, -1 exactly when `a < b` and
`|a - b| ≥ 1/100000`, and 1 exactly when `a > b` and `|a - b| ≥ 1/100000`; `is_equal`,
`is_lower` and `is_greater` hold exactly in these three cases, so exactly one of them
holds; `is_lower_equal` is the negation of `is_greater` and `is_greater_equal` the negation
of `is_lower`. -/
theorem compare_exact (a b : ℚ) :
    utils.THRESHOLD = 1 / 100000 ∧
    (utils.compare a b = 0 ↔ |a - b| < utils.THRESHOLD) ∧
    (utils.compare a b = -1 ↔ a < b ∧ utils.THRESHOLD ≤ |a - b|) ∧
    (utils.compare a b = 1 ↔ b < a ∧ utils.THRESHOLD ≤ |a - b|) ∧
    (utils.is_equal a b = true ↔ |a - b| < utils.THRESHOLD) ∧
    (utils.is_lower a b = true ↔ a < b ∧ utils.THRESHOLD ≤ |a - b|) ∧
    (utils.is_greater a b = true ↔ b < a ∧ utils.THRESHOLD ≤ |a - b|) ∧
    ((utils.is_equal a b = true ∧ utils.is_lower a b = false ∧
        utils.is_greater a b = false) ∨
      (utils.is_equal a b = false ∧ utils.is_lower a b = true ∧
        utils.is_greater a b = false) ∨
      (utils.is_equal a b = false ∧ utils.is_lower a b = false ∧
        utils.is_greater a b = true)) ∧
    utils.is_lower_equal a b = !utils.is_greater a b ∧
    utils.is_greater_equal a b = !utils.is_lower a b := by
  refine ⟨rfl, compare_zero_iff a b, compare_neg_iff a b, compare_pos_iff a b, ?_, ?_, ?_, ?_,
    ?_, ?_⟩
  · unfold utils.is_equal
    rw [decide_eq_true_eq]
    exact compare_zero_iff a b
  · unfold utils.is_lower
    rw [decide_eq_true_eq]
    exact compare_neg_iff a b
  · unfold utils.is_greater
    rw [decide_eq_true_eq]
    exact compare_pos_iff a b
  · unfold utils.is_equal utils.is_lower utils.is_greater
    rcases compare_cases a b with ⟨h, _⟩ | ⟨h, _⟩ | ⟨h, _⟩ <;> rw [h] <;> decide
  · unfold utils.is_lower_equal utils.is_greater
    rcases compare_cases a b with ⟨h, _⟩ | ⟨h, _⟩ | ⟨h, _⟩ <;> rw [h] <;> decide
  · unfold utils.is_greater_equal utils.is_lower
    rcases compare_cases a b with ⟨h, _⟩ | ⟨h, _⟩ | ⟨h, _⟩ <;> rw [h] <;> decide

/-! ## The passes of the main loop of `utils::evaluate` -/

theorem passes_stop (P : Problem) (schedule : Schedule) (t : Nat → Option utils.Ptr)
    (fuel : Nat) (s : utils.EvalState) (h : ¬ (s.n_done < P.n ∧ s.feasibility = true)) :
    utils.passes P schedule t fuel s = some 0 := by
  cases fuel with
  | zero => simp only [utils.passes, if_neg h]
  | succ fuel => simp only [utils.passes, if_neg h]

theorem passes_bound (P : Problem) (schedule : Schedule) (t : Nat → Option utils.Ptr) :
    ∀ (fuel : Nat) (s : utils.EvalState) (k : Nat),
      utils.passes P schedule t fuel s = some k → k ≤ P.n - s.n_done := by
  intro fuel
  induction fuel with
  | zero =>
    intro s k h
    simp only [utils.passes] at h
    split at h
    · exact absurd h (by simp)
    · injection h with h
      omega
  | succ fuel ih =>
    intro s k h
    simp only [utils.passes] at h
    split at h
    · rename_i hc
      split at h
      · exact absurd h (by simp)
      · rename_i s1 hs
        cases hk : utils.passes P schedule t fuel s1 with
        | none =>
          rw [hk] at h
          exact absurd h (by simp)
        | some k1 =>
          rw [hk] at h
          simp only [Option.map_some', Option.some.injEq] at h
          by_cases hc1 : s1.n_done < P.n ∧ s1.feasibility = true
          · have hp := scan_progress P schedule t s s1 hs hc1.2
            have := ih s1 k1 hk
            omega
          · rw [passes_stop P schedule t fuel s1 hc1] at hk
            injection hk with hk
            omega
    · injection h with h
      omega

theorem passes_defined (P : Problem) (schedule : Schedule) (t : Nat → Option utils.Ptr) :
    ∀ (fuel : Nat) (s s1 : utils.EvalState), utils.whileLoop P schedule t fuel s = some s1 →
      P.n ≤ s.n_done + fuel → ∃ k, utils.passes P schedule t fuel s = some k := by
  intro fuel
  induction fuel with
  | zero =>
    intro s s1 _ hf
    exact ⟨0, passes_stop P schedule t 0 s (by omega)⟩
  | succ fuel ih =>
    intro s s1 h hf
    simp only [utils.whileLoop] at h
    simp only [utils.passes]
    split at h
    · rename_i hc
      rw [if_pos hc]
      split at h
      · exact absurd h (by simp)
      · rename_i s2 hs
        by_cases hc2 : s2.n_done < P.n ∧ s2.feasibility = true
        · have hp := scan_progress P schedule t s s2 hs hc2.2
          obtain ⟨k, hk⟩ := ih s2 s1 h (by omega)
          exact ⟨k + 1, by simp only [hk]; rfl⟩
        · exact ⟨0 + 1, by simp only [passes_stop P schedule t fuel s2 hc2]; rfl⟩
    · rename_i hc
      rw [if_neg hc]
      exact ⟨0, rfl⟩

theorem whileLoop_fuel (P : Problem) (schedule : Schedule) (t : Nat → Option utils.Ptr) :
    ∀ (fuel : Nat) (s : utils.EvalState), P.n ≤ s.n_done + fuel →
      ∀ extra, utils.whileLoop P schedule t (fuel + extra) s =
        utils.whileLoop P schedule t fuel s := by
  intro fuel
  induction fuel with
  | zero =>
    intro s hf extra
    rw [whileLoop_stop P schedule t _ s (by omega), whileLoop_stop P schedule t _ s (by omega)]
  | succ fuel ih =>
    intro s hf extra
    rw [show fuel + 1 + extra = (fuel + extra) + 1 from by omega]
    simp only [utils.whileLoop]
    split
    · split
      · rfl
      · rename_i s1 hs
        by_cases hc1 : s1.n_done < P.n ∧ s1.feasibility = true
        · have hp := scan_progress P schedule t s s1 hs hc1.2
          exact ih s1 (by omega) extra
        · rw [whileLoop_stop P schedule t _ s1 hc1, whileLoop_stop P schedule t _ s1 hc1]
    · rfl

/-- C30. The function `utils::evaluate` terminates: the `n` passes the model allows are
never exceeded (more passes give the same result, and after them the loop condition is
false); every pass that leaves the flag set fixes at least one more maneuver; the loop
makes at most `n` passes, each a scan of the `m+1` cursors, hence at most `n * (m+1)`
cursor inspections; and on every entry with in-range ids that places each switch once
the call returns. -/
theorem evaluate_terminates (P : Problem) (entry : Schedule × ℚ) :
    (∀ fuel, P.n ≤ fuel →
      utils.whileLoop P entry.1 (utils.init P entry.1).t fuel (utils.evalStart P entry.1) =
        utils.whileLoop P entry.1 (utils.init P entry.1).t P.n (utils.evalStart P entry.1)) ∧
    (∀ s1,
      utils.whileLoop P entry.1 (utils.init P entry.1).t P.n (utils.evalStart P entry.1) =
        some s1 →
      ¬ (s1.n_done < P.n ∧ s1.feasibility = true) ∧
      ∃ k, utils.passes P entry.1 (utils.init P entry.1).t P.n (utils.evalStart P entry.1) =
          some k ∧ k ≤ P.n ∧ k * (List.range (P.m + 1)).length ≤ P.n * (P.m + 1)) ∧
    (∀ s s1, utils.scan P entry.1 (utils.init P entry.1).t s = some s1 →
      s1.feasibility = true → s.n_done + 1 ≤ s1.n_done) ∧
    (P.inverseSets → inBounds P entry.1 = true → placesEachSwitchOnce P entry.1 →
      ∃ b out, utils.evaluate P entry = some (b, out)) := by
  refine ⟨?_, ?_, ?_, ?_⟩
  · intro fuel hf
    have h := whileLoop_fuel P entry.1 (utils.init P entry.1).t P.n (utils.evalStart P entry.1)
      (by omega) (fuel - P.n)
    rw [show P.n + (fuel - P.n) = fuel from by omega] at h
    exact h
  · intro s1 h
    refine ⟨whileLoop_exit P entry.1 _ P.n _ s1 h (by omega), ?_⟩
    obtain ⟨k, hk⟩ := passes_defined P entry.1 _ P.n _ s1 h (by omega)
    have hb := passes_bound P entry.1 _ P.n _ k hk
    have hk1 : k ≤ P.n := by omega
    refine ⟨k, hk, hk1, ?_⟩
    rw [List.length_range]
    exact Nat.mul_le_mul_right _ hk1
  · intro s s1 h hf
    exact scan_progress P entry.1 _ s s1 h hf
  · intro hinv hin honce
    exact evaluate_defined P entry hinv hin honce

theorem evaluate_terminates_witness :
    ∃ b out, utils.evaluate exChain ([[], [(2, 0), (1, 0)]], 0) = some (b, out) :=
  (evaluate_terminates exChain ([[], [(2, 0), (1, 0)]], 0)).2.2.2 exChain_inverseSets
    (by decide) (by decide)

/-! ## Further invariants of the main loop of `utils::evaluate` -/

theorem scan_inv (P : Problem) (schedule : Schedule) (t : Nat → Option utils.Ptr)
    (I : utils.EvalState → Prop)
    (hflag : ∀ s, I s → I { s with feasibility := false })
    (hvisit : ∀ l s s1, l < P.m + 1 → I s → utils.visit P schedule t s l = some s1 → I s1)
    (s s1 : utils.EvalState) (hI : I s) (h : utils.scan P schedule t s = some s1) : I s1 :=
  foldlM_range_inv (utils.visit P schedule t) (fun _ s2 => I s2) (P.m + 1)
    { s with feasibility := false } (hflag s hI)
    (fun l s2 s3 hl h2 h3 => hvisit l s2 s3 hl h2 h3) s1 h

theorem whileLoop_inv_cond (P : Problem) (schedule : Schedule) (t : Nat → Option utils.Ptr)
    (I : utils.EvalState → Prop)
    (hI : ∀ s s1, I s → s.n_done < P.n → s.feasibility = true →
      utils.scan P schedule t s = some s1 → I s1) :
    ∀ (fuel : Nat) (s s1 : utils.EvalState), I s →
      utils.whileLoop P schedule t fuel s = some s1 → I s1 := by
  intro fuel
  induction fuel with
  | zero =>
    intro s s1 h0 h
    simp only [utils.whileLoop, Option.some.injEq] at h
    subst h
    exact h0
  | succ fuel ih =>
    intro s s1 h0 h
    simp only [utils.whileLoop] at h
    split at h
    · rename_i hc
      split at h
      · exact absurd h (by simp)
      · rename_i s2 hs
        exact ih s2 s1 (hI s s2 h0 hc.1 hc.2 hs) h
    · injection h with h
      subst h
      exact h0

/-- The cursor of team `l` is ready: it points at a maneuver with no pending predecessor. -/
theorem visit_ready (P : Problem) (schedule : Schedule) (t : Nat → Option utils.Ptr)
    (s s1 : utils.EvalState) (l : Nat) (h : utils.visit P schedule t s l = some s1)
    (h1 : s.index l < (teamOf schedule l).length)
    (h2 : s.pendings (switchAt schedule l (s.index l)) = 0) : s1.feasibility = true := by
  unfold utils.visit at h
  rw [if_pos h1, if_pos h2] at h
  split at h
  · exact absurd h (by simp)
  · split at h
    · exact absurd h (by simp)
    · split at h
      · exact absurd h (by simp)
      · injection h with h
        subst h
        rfl

theorem visit_idle (P : Problem) (schedule : Schedule) (t : Nat → Option utils.Ptr)
    (s s1 : utils.EvalState) (l : Nat) (h : utils.visit P schedule t s l = some s1)
    (hf : s1.feasibility = false) :
    s1 = s ∧ ¬ (s.index l < (teamOf schedule l).length ∧
      s.pendings (switchAt schedule l (s.index l)) = 0) := by
  have hn : ¬ (s.index l < (teamOf schedule l).length ∧
      s.pendings (switchAt schedule l (s.index l)) = 0) := by
    rintro ⟨h1, h2⟩
    rw [visit_ready P schedule t s s1 l h h1 h2] at hf
    exact absurd hf (by simp)
  refine ⟨?_, hn⟩
  unfold utils.visit at h
  split at h
  · rename_i h1
    split at h
    · rename_i h2
      exact absurd ⟨h1, h2⟩ hn
    · injection h with h
      exact h.symm
  · injection h with h
    exact h.symm

theorem scan_stuck (P : Problem) (schedule : Schedule) (t : Nat → Option utils.Ptr)
    (s s1 : utils.EvalState) (h : utils.scan P schedule t s = some s1)
    (hf : s1.feasibility = false) :
    s1 = { s with feasibility := false } ∧
    ∀ l, l < P.m + 1 → ¬ (s.index l < (teamOf schedule l).length ∧
      s.pendings (switchAt schedule l (s.index l)) = 0) := by
  have hJ := foldlM_range_inv (utils.visit P schedule t)
    (fun k s2 => s2.feasibility = false →
      s2 = { s with feasibility := false } ∧
      ∀ l, l < k → ¬ (s.index l < (teamOf schedule l).length ∧
        s.pendings (switchAt schedule l (s.index l)) = 0))
    (P.m + 1) { s with feasibility := false }
    (fun _ => ⟨rfl, fun l hl => absurd hl (Nat.not_lt_zero l)⟩)
    (by
      intro k s2 s3 _ h2 h3 hf3
      obtain ⟨he, hn⟩ := visit_idle P schedule t s2 s3 k h3 hf3
      subst he
      obtain ⟨h4, h5⟩ := h2 hf3
      refine ⟨h4, ?_⟩
      intro l hl
      rcases Nat.lt_succ_iff_lt_or_eq.mp hl with hlt | rfl
      · exact h5 l hlt
      · rw [h4] at hn
        exact hn)
    s1 h
  exact hJ hf

theorem maxPredecessors_le (P : Problem) (t : Nat → Option utils.Ptr) (tj : utils.Ptr)
    (x : ℚ) :
    ∀ (preds : List Nat) (mem mem1 : utils.Ptr → ℚ),
      utils.maxPredecessors P t tj preds mem = some mem1 → mem tj ≤ x →
      (∀ k ∈ preds, ∀ tk, t k = some tk → tk ≠ tj ∧ mem tk + P.p k ≤ x) → mem1 tj ≤ x := by
  intro preds
  induction preds with
  | nil =>
    intro mem mem1 h hx _
    simp [utils.maxPredecessors] at h
    subst h
    exact hx
  | cons k ks ih =>
    intro mem mem1 h hx hk
    unfold utils.maxPredecessors at h
    rw [List.foldlM_cons] at h
    cases htk : t k with
    | none => simp [utils.deref, htk] at h
    | some tk =>
      simp only [utils.deref, htk, Option.map_some', Option.some_bind, Option.bind_eq_bind] at h
      obtain ⟨hne, hle⟩ := hk k (List.mem_cons_self _ _) tk htk
      apply ih _ mem1 h
      · rw [Function.update_same]
        exact max_le hx hle
      · intro k1 hk1 tk1 htk1
        obtain ⟨hne1, hle1⟩ := hk k1 (List.mem_cons_of_mem _ hk1) tk1 htk1
        exact ⟨hne1, by rw [Function.update_noteq hne1]; exact hle1⟩

open Classical in
theorem pend_zero_processed (P : Problem) (schedule : Schedule) (s : utils.EvalState)
    (hp : PrecInv P schedule s) (l idx : Nat) (hl : l < P.m + 1)
    (hidx : idx < (teamOf schedule l).length)
    (h0 : s.pendings (switchAt schedule l idx) = 0) :
    ∀ i ∈ P.predecessors (switchAt schedule l idx), processed P schedule s.index i := by
  have h := hp.pend l idx hl hidx
  rw [h0] at h
  have hc : (P.predecessors (switchAt schedule l idx)).countP
      (fun i => decide (¬ processed P schedule s.index i)) = 0 := by
    exact_mod_cast h.symm
  intro i hi
  have := List.countP_eq_zero.mp hc i hi
  simpa using this

open Classical in
theorem pend_ne_zero_unprocessed (P : Problem) (schedule : Schedule) (s : utils.EvalState)
    (hp : PrecInv P schedule s) (l idx : Nat) (hl : l < P.m + 1)
    (hidx : idx < (teamOf schedule l).length)
    (h0 : s.pendings (switchAt schedule l idx) ≠ 0) :
    ∃ i ∈ P.predecessors (switchAt schedule l idx), ¬ processed P schedule s.index i := by
  have h := hp.pend l idx hl hidx
  by_contra hno
  apply h0
  rw [h]
  have hc : (P.predecessors (switchAt schedule l idx)).countP
      (fun i => decide (¬ processed P schedule s.index i)) = 0 := by
    rw [List.countP_eq_zero]
    intro i hi
    have : processed P schedule s.index i := by
      by_contra hn
      exact hno ⟨i, hi, hn⟩
    simpa using this
  rw [hc]
  rfl

/-! ## The evaluator fixes the earliest moments -/

theorem visit_earliest (P : Problem) (schedule : Schedule) (t : Nat → Option utils.Ptr)
    (ht : TInit P schedule t) (hp0 : P.p 0 = 0)
    (τ : Nat → Nat → ℚ) (hτ : admissible P schedule τ)
    (s s1 : utils.EvalState) (l : Nat) (hl : l < P.m + 1)
    (hb : BasicInv P schedule s) (hp : PrecInv P schedule s) (he : earliest P τ s)
    (h : utils.visit P schedule t s l = some s1) : earliest P τ s1 := by
  rcases visit_cases P schedule t s s1 l h with rfl | ⟨hidx, hpend, tj, v, mem, htj, hv1, hv0,
    hmax, rfl⟩
  · exact he
  · have htj1 : tj = utils.Ptr.slot l (s.index l) := by
      have := ht.slot l (s.index l) hl hidx
      rw [htj] at this
      injection this
    subst htj1
    obtain ⟨hm1, _, _⟩ := maxPredecessors_spec P t _ _ _ mem hmax
    intro l1 idx1 hl1 hidx1
    rcases (lt_update_index s.index l l1 idx1).mp hidx1 with hlt | ⟨rfl, rfl⟩
    · have hne : utils.Ptr.slot l1 idx1 ≠ utils.Ptr.slot l (s.index l) := by
        intro e
        injection e with e1 e2
        subst e1 e2
        exact absurd hlt (lt_irrefl _)
      show mem (utils.Ptr.slot l1 idx1) ≤ τ l1 idx1
      rw [hm1 _ hne, Function.update_noteq hne]
      exact he l1 idx1 hl1 hlt
    · show mem (utils.Ptr.slot l1 (s.index l1)) ≤ τ l1 (s.index l1)
      apply maxPredecessors_le P t _ (τ l1 (s.index l1)) _ _ mem hmax
      · rw [Function.update_same]
        by_cases hl0 : l1 = 0
        · rw [hv0 hl0]
          exact hτ.nonneg l1 (s.index l1) (by omega) hidx
        · obtain ⟨ti, hti, hv⟩ := hv1 hl0
          rw [hv]
          have hloc := hb.loc l1 hl
          by_cases hi0 : s.index l1 = 0
          · rw [if_pos hi0] at hloc
            rw [hloc, ht.zero] at hti
            injection hti with hti
            subst hti
            rw [hloc, hb.t0, hp0, hi0]
            have := hτ.first l1 (by omega) (by omega) (by omega)
            linarith
          · rw [if_neg hi0] at hloc
            have hprev : s.index l1 - 1 < (teamOf schedule l1).length := by omega
            rw [hloc, ht.slot l1 (s.index l1 - 1) hl hprev] at hti
            injection hti with hti
            subst hti
            rw [hloc]
            have h1 := he l1 (s.index l1 - 1) hl (by omega)
            have h2 := hτ.next l1 (s.index l1 - 1) (by omega) (by omega) (by omega)
            rw [show s.index l1 - 1 + 1 = s.index l1 from by omega] at h2
            linarith
      · intro k hk tk htk
        obtain ⟨l2, idx2, hl2, hidx2, hsw⟩ :=
          pend_zero_processed P schedule s hp l1 (s.index l1) hl hidx hpend k hk
        have hlen2 := lt_of_lt_of_le hidx2 (hb.idx_le l2 hl2)
        subst hsw
        rw [ht.slot l2 idx2 hl2 hlen2] at htk
        injection htk with htk
        subst htk
        have hne : utils.Ptr.slot l2 idx2 ≠ utils.Ptr.slot l1 (s.index l1) := by
          intro e
          injection e with e1 e2
          subst e1 e2
          exact absurd hidx2 (lt_irrefl _)
        refine ⟨hne, ?_⟩
        rw [Function.update_noteq hne]
        have h1 := he l2 idx2 hl2 hidx2
        have h2 := hτ.precedence l1 (s.index l1) l2 idx2 (by omega) hidx (by omega) hlen2 hk
        linarith

/-- The state in which the main loop of `utils::evaluate` ends on a schedule that places
each switch once, with the invariants of the loop. -/
theorem evaluate_final (P : Problem) (entry : Schedule × ℚ) (b : Bool) (out : Schedule × ℚ)
    (hinv : P.inverseSets) (honce : placesEachSwitchOnce P entry.1)
    (h : utils.evaluate P entry = some (b, out)) :
    ∃ s, utils.whileLoop P entry.1 (utils.init P entry.1).t P.n (utils.evalStart P entry.1) =
        some s ∧
      Slots P entry.1 ∧ TInit P entry.1 (utils.init P entry.1).t ∧
      BasicInv P entry.1 s ∧ PrecInv P entry.1 s ∧
      ¬ (s.n_done < P.n ∧ s.feasibility = true) ∧
      s.feasibility = b ∧ out.1 = utils.writeBack P entry.1 s.mem ∧
      out.2 = if s.feasibility then s.makespan else DBL_MAX := by
  obtain ⟨hin, s, hloop, hf, hout1, hout2⟩ := evaluate_some P entry b out h
  have hs := slots_of_once P entry.1 (inBounds_length P entry.1 hin) honce
  have ht := tinit_of_slots P entry.1 hs
  have hbp : BasicInv P entry.1 s ∧ PrecInv P entry.1 s :=
    whileLoop_inv P entry.1 _ (fun s2 => BasicInv P entry.1 s2 ∧ PrecInv P entry.1 s2)
      (fun s2 s3 h2 h3 => ⟨scan_basic P entry.1 _ ht s2 s3 h2.1 h3,
        scan_prec P entry.1 _ hs ht hinv s2 s3 h2.1 h2.2 h3⟩) P.n _ s
      ⟨evalStart_basic P entry.1, evalStart_prec P entry.1 hs⟩ hloop
  exact ⟨s, hloop, hs, ht, hbp.1, hbp.2,
    whileLoop_exit P entry.1 _ P.n _ s hloop (by simp [utils.evalStart]), hf, hout1, hout2⟩

theorem whileLoop_earliest (P : Problem) (schedule : Schedule) (hs : Slots P schedule)
    (hinv : P.inverseSets) (hp0 : P.p 0 = 0) (τ : Nat → Nat → ℚ)
    (hτ : admissible P schedule τ) (fuel : Nat) (s : utils.EvalState)
    (h : utils.whileLoop P schedule (utils.init P schedule).t fuel
      (utils.evalStart P schedule) = some s) : earliest P τ s := by
  have ht := tinit_of_slots P schedule hs
  have hI := whileLoop_inv P schedule _
    (fun s2 => (BasicInv P schedule s2 ∧ PrecInv P schedule s2) ∧ earliest P τ s2)
    (fun s2 s3 h2 h3 =>
      scan_inv P schedule _
        (fun s4 => (BasicInv P schedule s4 ∧ PrecInv P schedule s4) ∧ earliest P τ s4)
        (fun s4 h4 => ⟨⟨⟨h4.1.1.idx_le, h4.1.1.loc, h4.1.1.done, h4.1.1.t0, h4.1.1.travel,
          h4.1.1.span⟩, ⟨h4.1.2.pend, h4.1.2.prec⟩⟩, h4.2⟩)
        (fun l s4 s5 hl h4 h5 =>
          ⟨⟨visit_basic P schedule _ ht s4 s5 l hl h4.1.1 h5,
            visit_prec P schedule _ hs ht hinv s4 s5 l hl h4.1.1 h4.1.2 h5⟩,
            visit_earliest P schedule _ ht hp0 τ hτ s4 s5 l hl h4.1.1 h4.1.2 h4.2 h5⟩)
        s2 s3 h2 h3)
    fuel _ s
    ⟨⟨evalStart_basic P schedule, evalStart_prec P schedule hs⟩,
      fun l idx _ hidx => absurd hidx (by simp [utils.evalStart])⟩ h
  exact hI.2

/-- Core of the earliest-start property: the moments and the makespan that a feasible
evaluation fixes are at most those of any admissible assignment of moments. -/
theorem evaluate_earliest (P : Problem) (entry out : Schedule × ℚ) (hp0 : P.p 0 = 0)
    (hinv : P.inverseSets) (honce : placesEachSwitchOnce P entry.1)
    (h : utils.evaluate P entry = some (true, out)) (τ : Nat → Nat → ℚ)
    (hτ : admissible P entry.1 τ) :
    (∀ l idx, l ≤ P.m → idx < (teamOf entry.1 l).length → momentAt out.1 l idx ≤ τ l idx) ∧
    ∀ x, 0 ≤ x →
      (∀ l idx, l ≤ P.m → idx < (teamOf entry.1 l).length →
        τ l idx + P.p (switchAt entry.1 l idx) ≤ x) → out.2 ≤ x := by
  obtain ⟨s, hloop, hs, ht, hb, hp, hexit, hf, hout1, hout2⟩ :=
    evaluate_final P entry true out hinv honce h
  have he := whileLoop_earliest P entry.1 hs hinv hp0 τ hτ P.n s hloop
  have hn : P.n ≤ s.n_done := by
    by_contra hlt
    exact hexit ⟨by omega, hf⟩
  have hall := all_done P entry.1 hs s hb hn
  constructor
  · intro l idx hl hidx
    rw [hout1, momentAt_writeBack P entry.1 s.mem l idx (by omega) hidx]
    exact he l idx (by omega) (by rw [hall l (by omega)]; exact hidx)
  · intro x hx hall2
    rw [hout2, hf, if_pos rfl]
    apply (hb.span x).mpr
    refine ⟨hx, ?_⟩
    intro l idx hl hidx
    have hidx1 : idx < (teamOf entry.1 l).length := by rw [← hall l hl]; exact hidx
    have h1 := he l idx hl hidx
    have h2 := hall2 l idx (by omega) hidx1
    linarith

/-! ## Feasibility of the evaluator and cycles of the order graph -/

theorem processed_closed (P : Problem) (schedule : Schedule) (hs : Slots P schedule)
    (s : utils.EvalState) (hb : BasicInv P schedule s) (hp : PrecInv P schedule s)
    (a b : Nat) (hab : follows P schedule a b) (hpb : processed P schedule s.index b) :
    processed P schedule s.index a := by
  obtain ⟨l1, idx1, hl1, hidx1, hsw⟩ := hpb
  rcases hab with ⟨_, _, hmem⟩ | ⟨l, idx, hl, hidx, ha, hb1⟩
  · subst hsw
    obtain ⟨l2, idx2, hl2, hidx2, hsw2, _⟩ := hp.prec l1 idx1 hl1 hidx1 a hmem
    exact ⟨l2, idx2, hl2, hidx2, hsw2⟩
  · have hlen1 := lt_of_lt_of_le hidx1 (hb.idx_le l1 hl1)
    obtain ⟨e1, e2⟩ := hs.inj l1 idx1 l (idx + 1) hl1 hlen1 (by omega) hidx (by rw [hsw, hb1])
    subst e1 e2
    exact ⟨l1, idx, hl1, by omega, ha⟩

theorem transGen_avoid {α : Type} (R R1 : α → α → Prop) (j : α) (hout : ∀ c, ¬ R1 j c)
    (hsub : ∀ a b, R1 a b → b ≠ j → R a b) :
    ∀ a b, Relation.TransGen R1 a b → a ≠ j ∧ (b ≠ j → Relation.TransGen R a b) := by
  intro a b h
  induction h with
  | single hab =>
    rename_i b
    refine ⟨?_, fun hb => Relation.TransGen.single (hsub a b hab hb)⟩
    intro e
    subst e
    exact hout _ hab
  | tail hac hcb ih =>
    rename_i c b
    have hc : c ≠ j := by
      intro e
      subst e
      exact hout _ hcb
    exact ⟨ih.1, fun hb => Relation.TransGen.tail (ih.2 hc) (hsub c b hcb hb)⟩

theorem visit_acyclicOn (P : Problem) (schedule : Schedule) (t : Nat → Option utils.Ptr)
    (hs : Slots P schedule) (s s1 : utils.EvalState) (l : Nat) (hl : l < P.m + 1)
    (hb : BasicInv P schedule s) (hp : PrecInv P schedule s)
    (ha : acyclicOn P schedule s.index)
    (h : utils.visit P schedule t s l = some s1) : acyclicOn P schedule s1.index := by
  rcases visit_cases P schedule t s s1 l h with rfl | ⟨hidx, hpend, tj, v, mem, _, _, _, _, rfl⟩
  · exact ha
  · intro x hx
    have hnot := not_processed_cursor P schedule hs s hb l hl hidx
    have hout : ∀ c, ¬ (follows P schedule (switchAt schedule l (s.index l)) c ∧
        processed P schedule (Function.update s.index l (s.index l + 1))
          (switchAt schedule l (s.index l)) ∧
        processed P schedule (Function.update s.index l (s.index l + 1)) c) := by
      rintro c ⟨hf, _, hc⟩
      rcases (processed_update P schedule s.index l hl c).mp hc with hc1 | hc1
      · exact hnot (processed_closed P schedule hs s hb hp _ c hf hc1)
      · subst hc1
        rcases hf with ⟨_, _, hmem⟩ | ⟨l2, idx2, hl2, hidx2, h1, h2⟩
        · exact hnot (pend_zero_processed P schedule s hp l (s.index l) hl hidx hpend _ hmem)
        · have := (hs.inj l2 idx2 l2 (idx2 + 1) (by omega) (by omega) (by omega) hidx2
            (by rw [h1, h2])).2
          omega
    have hsub : ∀ a b,
        (follows P schedule a b ∧
          processed P schedule (Function.update s.index l (s.index l + 1)) a ∧
          processed P schedule (Function.update s.index l (s.index l + 1)) b) →
        b ≠ switchAt schedule l (s.index l) →
        (follows P schedule a b ∧ processed P schedule s.index a ∧
          processed P schedule s.index b) := by
      rintro a b ⟨hf, _, hpb⟩ hne
      rcases (processed_update P schedule s.index l hl b).mp hpb with hb1 | hb1
      · exact ⟨hf, processed_closed P schedule hs s hb hp a b hf hb1, hb1⟩
      · exact absurd hb1 hne
    obtain ⟨hx1, hx2⟩ := transGen_avoid _ _ (switchAt schedule l (s.index l)) hout hsub x x hx
    exact ha x (hx2 hx1)

theorem whileLoop_acyclicOn (P : Problem) (schedule : Schedule) (hs : Slots P schedule)
    (hinv : P.inverseSets) (fuel : Nat) (s : utils.EvalState)
    (h : utils.whileLoop P schedule (utils.init P schedule).t fuel
      (utils.evalStart P schedule) = some s) : acyclicOn P schedule s.index := by
  have ht := tinit_of_slots P schedule hs
  have hI := whileLoop_inv P schedule _
    (fun s2 => (BasicInv P schedule s2 ∧ PrecInv P schedule s2) ∧
      acyclicOn P schedule s2.index)
    (fun s2 s3 h2 h3 =>
      scan_inv P schedule _
        (fun s4 => (BasicInv P schedule s4 ∧ PrecInv P schedule s4) ∧
          acyclicOn P schedule s4.index)
        (fun s4 h4 => ⟨⟨⟨h4.1.1.idx_le, h4.1.1.loc, h4.1.1.done, h4.1.1.t0, h4.1.1.travel,
          h4.1.1.span⟩, ⟨h4.1.2.pend, h4.1.2.prec⟩⟩, h4.2⟩)
        (fun l s4 s5 hl h4 h5 =>
          ⟨⟨visit_basic P schedule _ ht s4 s5 l hl h4.1.1 h5,
            visit_prec P schedule _ hs ht hinv s4 s5 l hl h4.1.1 h4.1.2 h5⟩,
            visit_acyclicOn P schedule _ hs s4 s5 l hl h4.1.1 h4.1.2 h4.2 h5⟩)
        s2 s3 h2 h3)
    fuel _ s
    ⟨⟨evalStart_basic P schedule, evalStart_prec P schedule hs⟩, by
      intro v hv
      have : ∀ a b, Relation.TransGen
          (fun a b => follows P schedule a b ∧
            processed P schedule (utils.evalStart P schedule).index a ∧
            processed P schedule (utils.evalStart P schedule).index b) a b → False := by
        intro a b hab
        induction hab with
        | single h1 =>
          obtain ⟨_, ⟨l, idx, _, hidx, _⟩, _⟩ := h1
          exact absurd hidx (by simp [utils.evalStart])
        | tail _ _ ih => exact ih
      exact this v v hv⟩ h
  exact hI.2

/-- A schedule that the evaluator marks feasible has an order graph without cycle. -/
theorem feasible_acyclic (P : Problem) (entry out : Schedule × ℚ) (hinv : P.inverseSets)
    (honce : placesEachSwitchOnce P entry.1)
    (h : utils.evaluate P entry = some (true, out)) : acyclic P entry.1 := by
  obtain ⟨s, hloop, hs, ht, hb, hp, hexit, hf, _, _⟩ :=
    evaluate_final P entry true out hinv honce h
  have ha := whileLoop_acyclicOn P entry.1 hs hinv P.n s hloop
  have hn : P.n ≤ s.n_done := by
    by_contra hlt
    exact hexit ⟨by omega, hf⟩
  have hall := all_done P entry.1 hs s hb hn
  intro v hv
  apply ha v
  refine Relation.TransGen.mono ?_ hv
  intro a b hab
  have hpb : processed P entry.1 s.index b := by
    rcases hab with ⟨h1, h2, _⟩ | ⟨l, idx, hl, hidx, _, hb1⟩
    · obtain ⟨l, idx, hl, hidx, hsw⟩ := hs.surj b h1 h2
      exact ⟨l, idx, hl, by rw [hall l hl]; exact hidx, hsw⟩
    · exact ⟨l, idx + 1, by omega, by rw [hall l (by omega)]; exact hidx, hb1⟩
  exact ⟨hab, processed_closed P entry.1 hs s hb hp a b hab hpb, hpb⟩

theorem whileLoop_stuck (P : Problem) (schedule : Schedule) (t : Nat → Option utils.Ptr)
    (fuel : Nat) (s0 s : utils.EvalState) (h0 : s0.feasibility = true)
    (h : utils.whileLoop P schedule t fuel s0 = some s) (hf : s.feasibility = false) :
    s.n_done < P.n ∧
    ∀ l, l < P.m + 1 → ¬ (s.index l < (teamOf schedule l).length ∧
      s.pendings (switchAt schedule l (s.index l)) = 0) := by
  have hK := whileLoop_inv_cond P schedule t
    (fun s2 => s2.feasibility = false → s2.n_done < P.n ∧
      ∀ l, l < P.m + 1 → ¬ (s2.index l < (teamOf schedule l).length ∧
        s2.pendings (switchAt schedule l (s2.index l)) = 0))
    (by
      intro s2 s3 _ hn _ hscan hf3
      obtain ⟨he, hst⟩ := scan_stuck P schedule t s2 s3 hscan hf3
      subst he
      exact ⟨hn, hst⟩)
    fuel s0 s
    (by
      intro hf0
      rw [h0] at hf0
      exact absurd hf0 (by simp))
    h
  exact hK hf

theorem exists_open_team (P : Problem) (schedule : Schedule) (hs : Slots P schedule)
    (s : utils.EvalState) (hb : BasicInv P schedule s) (hn : s.n_done < P.n) :
    ∃ l, l < P.m + 1 ∧ s.index l < (teamOf schedule l).length := by
  by_contra hno
  have hall : ∀ l ∈ Finset.range (P.m + 1), s.index l = (teamOf schedule l).length := by
    intro l hl
    have hl1 := Finset.mem_range.mp hl
    have h1 := hb.idx_le l hl1
    by_contra hne
    exact hno ⟨l, hl1, by omega⟩
  have h1 := hb.done
  rw [Finset.sum_congr rfl hall, hs.total] at h1
  omega

/-- A schedule whose order graph has no cycle is marked feasible by the evaluator. -/
theorem acyclic_feasible (P : Problem) (entry : Schedule × ℚ) (b : Bool) (out : Schedule × ℚ)
    (hinv : P.inverseSets)
    (hrange : ∀ j, 1 ≤ j → j ≤ P.n → ∀ i ∈ P.predecessors j, 1 ≤ i ∧ i ≤ P.n)
    (honce : placesEachSwitchOnce P entry.1) (hac : acyclic P entry.1)
    (h : utils.evaluate P entry = some (b, out)) : b = true := by
  obtain ⟨s, hloop, hs, ht, hb, hp, _, hf, _, _⟩ := evaluate_final P entry b out hinv honce h
  by_contra hbf
  have hsf : s.feasibility = false := by
    rw [hf]
    simpa using hbf
  obtain ⟨hn, hstuck⟩ := whileLoop_stuck P entry.1 _ P.n _ s (by simp [utils.evalStart])
    hloop hsf
  obtain ⟨l0, hl0, hidx0⟩ := exists_open_team P entry.1 hs s hb hn
  have hwf : WellFounded (fun a b : Fin (P.n + 1) =>
      Relation.TransGen (follows P entry.1) a.val b.val) := by
    haveI : IsTrans (Fin (P.n + 1))
        (fun a b => Relation.TransGen (follows P entry.1) a.val b.val) :=
      ⟨fun _ _ _ h1 h2 => Relation.TransGen.trans h1 h2⟩
    haveI : IsIrrefl (Fin (P.n + 1))
        (fun a b => Relation.TransGen (follows P entry.1) a.val b.val) :=
      ⟨fun a h1 => hac a.val h1⟩
    exact Finite.wellFounded_of_trans_of_irrefl _
  have hne : {a : Fin (P.n + 1) | 1 ≤ a.val ∧
      ¬ processed P entry.1 s.index a.val}.Nonempty := by
    have hb0 := hs.bounds l0 (s.index l0) hl0 hidx0
    exact ⟨⟨switchAt entry.1 l0 (s.index l0), by omega⟩, hb0.2.1,
      not_processed_cursor P entry.1 hs s hb l0 hl0 hidx0⟩
  obtain ⟨a, ⟨ha1, hanp⟩, hmin⟩ := hwf.has_min _ hne
  obtain ⟨l, idx, hl, hidx, hsw⟩ := hs.surj a.val ha1 (by omega)
  have hge : s.index l ≤ idx := by
    by_contra hlt
    exact hanp ⟨l, idx, hl, by omega, hsw⟩
  rcases Nat.lt_or_eq_of_le hge with hgt | heq
  · have hb1 := hs.bounds l (idx - 1) hl (by omega)
    have hnp : ¬ processed P entry.1 s.index (switchAt entry.1 l (idx - 1)) := by
      rintro ⟨l1, idx1, hl1, hidx1, hsw1⟩
      have hlen1 := lt_of_lt_of_le hidx1 (hb.idx_le l1 hl1)
      obtain ⟨e1, e2⟩ := hs.inj l1 idx1 l (idx - 1) hl1 hlen1 hl (by omega) hsw1
      subst e1 e2
      omega
    apply hmin ⟨switchAt entry.1 l (idx - 1), by omega⟩ ⟨hb1.2.1, hnp⟩
    apply Relation.TransGen.single
    exact Or.inr ⟨l, idx - 1, by omega, by omega, rfl, by
      rw [show idx - 1 + 1 = idx from by omega]
      exact hsw⟩
  · subst heq
    have hpend : s.pendings (switchAt entry.1 l (s.index l)) ≠ 0 :=
      fun e => hstuck l hl ⟨hidx, e⟩
    obtain ⟨i, hi, hinp⟩ :=
      pend_ne_zero_unprocessed P entry.1 s hp l (s.index l) hl hidx hpend
    rw [hsw] at hi
    have hir := hrange a.val ha1 (by omega) i hi
    apply hmin ⟨i, by omega⟩ ⟨hir.1, hinp⟩
    apply Relation.TransGen.single
    exact Or.inl ⟨ha1, by omega, hi⟩

/-- C28. Exact characterisation of evaluator feasibility: on an instance whose predecessor
and successor sets are inverse to each other and hold switches of `1..n`, and on a
schedule of `m+1` team lists that places each switch `1..n` once, `utils::evaluate`
returns, and it returns true if and only if the graph of the direct precedence edges and
of the edges from each maneuver to the next maneuver of its team list (teams `0..m`) has
no cycle. -/
theorem evaluate_feasible_iff_acyclic (P : Problem) (entry : Schedule × ℚ)
    (hinv : P.inverseSets)
    (hrange : ∀ j, 1 ≤ j → j ≤ P.n → ∀ i ∈ P.predecessors j, 1 ≤ i ∧ i ≤ P.n)
    (hw : wellFormed P entry.1) :
    (∃ b out, utils.evaluate P entry = some (b, out)) ∧
    ((∃ out, utils.evaluate P entry = some (true, out)) ↔ acyclic P entry.1) := by
  have hdef := evaluate_defined P entry hinv (inBounds_of_wellFormed P entry.1 hw) hw.2
  refine ⟨hdef, ?_, ?_⟩
  · rintro ⟨out, h⟩
    exact feasible_acyclic P entry out hinv hw.2 h
  · intro hac
    obtain ⟨b, out, h⟩ := hdef
    have hb := acyclic_feasible P entry b out hinv hrange hw.2 hac h
    subst hb
    exact ⟨out, h⟩

theorem exChain_range :
    ∀ j, 1 ≤ j → j ≤ exChain.n → ∀ i ∈ exChain.predecessors j, 1 ≤ i ∧ i ≤ exChain.n := by
  intro j _ _ i hi
  have h : i ∈ (if j = 2 then [1] else []) := hi
  split at h
  · simp only [List.mem_singleton] at h
    subst h
    exact ⟨le_refl _, by decide⟩
  · exact absurd h (List.not_mem_nil _)

theorem evaluate_feasible_iff_acyclic_witness :
    (∃ b out, utils.evaluate exChain ([[], [(2, 0), (1, 0)]], 0) = some (b, out)) ∧
    ((∃ out, utils.evaluate exChain ([[], [(2, 0), (1, 0)]], 0) = some (true, out)) ↔
      acyclic exChain (([[], [(2, 0), (1, 0)]], 0) : Schedule × ℚ).1) :=
  evaluate_feasible_iff_acyclic exChain ([[], [(2, 0), (1, 0)]], 0) exChain_inverseSets
    exChain_range ⟨by decide, by decide⟩

theorem elapsed_succ (P : Problem) (team : List Maneuver) (idx : Nat)
    (h : idx < team.length) :
    elapsed P team (idx + 1) = elapsed P team idx + P.p (team.getD idx (0, 0)).1.toNat := by
  unfold elapsed
  rw [List.take_succ, List.map_append, List.sum_append, List.getElem?_eq_getElem h,
    List.getD_eq_getElem _ _ h]
  simp

theorem elapsed_le (P : Problem) (hpp : ∀ i, 0 ≤ P.p i) (team : List Maneuver) (idx : Nat) :
    elapsed P team idx ≤ elapsed P team team.length := by
  unfold elapsed
  rw [List.take_length]
  have h := List.sum_take_add_sum_drop (team.map (fun mv => P.p mv.1.toNat)) idx
  rw [← List.map_take, ← List.map_drop] at h
  have h0 : 0 ≤ ((team.drop idx).map (fun mv => P.p mv.1.toNat)).sum := by
    apply List.sum_nonneg
    intro x hx
    obtain ⟨mv, _, rfl⟩ := List.mem_map.mp hx
    exact hpp _
  linarith

theorem elapsed_total (P : Problem) (team : List Maneuver)
    (hteam : (team.map Prod.fst).Perm ((List.range' 1 P.n).map Int.ofNat)) :
    elapsed P team team.length = ((List.range' 1 P.n).map P.p).sum := by
  unfold elapsed
  rw [List.take_length]
  have h := (hteam.map (fun x : Int => P.p x.toNat)).sum_eq
  simp only [List.map_map] at h
  rw [show (fun mv : Maneuver => P.p mv.1.toNat) = (fun x : Int => P.p x.toNat) ∘ Prod.fst
    from rfl, h]
  congr 1

theorem single_team_path (P : Problem) (team : List Maneuver) (hm : P.m = 1)
    (hpred : ∀ j, P.predecessors j = []) (hs : Slots P [[], team]) (a b : Nat)
    (h : Relation.TransGen (follows P [[], team]) a b) :
    ∃ i j, i < j ∧ j < team.length ∧ switchAt [[], team] 1 i = a ∧
      switchAt [[], team] 1 j = b := by
  have hedge : ∀ a b, follows P [[], team] a b →
      ∃ i, i + 1 < team.length ∧ switchAt [[], team] 1 i = a ∧
        switchAt [[], team] 1 (i + 1) = b := by
    rintro a b (⟨_, _, hmem⟩ | ⟨l, idx, hl, hidx, h1, h2⟩)
    · rw [hpred] at hmem
      exact absurd hmem (List.not_mem_nil _)
    · have hl1 : l = 0 ∨ l = 1 := by omega
      rcases hl1 with rfl | rfl
      · exact absurd hidx (by simp [teamOf])
      · exact ⟨idx, hidx, h1, h2⟩
  induction h with
  | single hab =>
    obtain ⟨i, hi, h1, h2⟩ := hedge _ _ hab
    exact ⟨i, i + 1, by omega, hi, h1, h2⟩
  | tail _ hcb ih =>
    obtain ⟨i, j, hij, hj, h1, h2⟩ := ih
    obtain ⟨k, hk, h3, h4⟩ := hedge _ _ hcb
    have hlen : (teamOf [[], team] 1).length = team.length := rfl
    obtain ⟨_, e⟩ := hs.inj 1 k 1 j (by omega) (by omega) (by omega) (by omega)
      (by rw [h3, h2])
    subst e
    exact ⟨i, k + 1, by omega, hk, h1, h4⟩

/-- One team in exact arithmetic: on an instance with `m = 1`, no precedence and zero
travel costs (durations not negative, `p[0] = 0`), for every ordering `team` of the `n`
switches on team 1 with team 0 empty, the evaluator with exact sums marks the schedule
feasible with a makespan equal to the sum of all durations. The technology of the switches
is not read by the evaluator. -/
theorem serial_team_exact (P : Problem) (team : List Maneuver) (makespan : ℚ)
    (hm : P.m = 1) (hp0 : P.p 0 = 0) (hpp : ∀ i, 0 ≤ P.p i)
    (hpred : ∀ j, P.predecessors j = []) (hsucc : ∀ i, P.successors i = [])
    (hc : ∀ i j l, P.c i j l = 0)
    (hteam : (team.map Prod.fst).Perm ((List.range' 1 P.n).map Int.ofNat)) :
    ∃ out, utils.evaluate P ([[], team], makespan) = some (true, out) ∧
      out.2 = ((List.range' 1 P.n).map P.p).sum := by
  have hinv : P.inverseSets :=
    ⟨fun j => by rw [hpred]; exact List.nodup_nil, fun i => by rw [hsucc]; exact List.nodup_nil,
      fun i j => by rw [hpred, hsucc]; simp⟩
  have hw : wellFormed P [[], team] := by
    refine ⟨by rw [hm]; rfl, ?_⟩
    unfold placesEachSwitchOnce switchIds
    rw [hm]
    simpa using hteam
  have hs : Slots P [[], team] := slots_of_once P _ hw.1 hw.2
  have hlen : (teamOf [[], team] 1).length = team.length := rfl
  have hac : acyclic P [[], team] := by
    intro v hv
    obtain ⟨i, j, hij, hj, h1, h2⟩ := single_team_path P team hm hpred hs v v hv
    obtain ⟨_, e⟩ := hs.inj 1 i 1 j (by omega) (by omega) (by omega) (by omega)
      (by rw [h1, h2])
    omega
  obtain ⟨b, out, h⟩ := evaluate_defined P ([[], team], makespan) hinv
    (inBounds_of_wellFormed P _ hw) hw.2
  have hb := acyclic_feasible P _ b out hinv
    (fun j _ _ i hi => by rw [hpred] at hi; exact absurd hi (List.not_mem_nil _)) hw.2 hac h
  subst hb
  refine ⟨out, h, ?_⟩
  rw [← elapsed_total P team hteam]
  have hsw : ∀ idx, switchAt [[], team] 1 idx = (team.getD idx (0, 0)).1.toNat :=
    fun idx => rfl
  apply le_antisymm
  · -- upper bound: the prefix sums are admissible moments
    have hτ : admissible P [[], team] (fun _ idx => elapsed P team idx) := by
      refine ⟨?_, ?_, ?_, ?_⟩
      · intro l idx _ _
        unfold elapsed
        apply List.sum_nonneg
        intro x hx
        obtain ⟨mv, _, rfl⟩ := List.mem_map.mp hx
        exact hpp _
      · intro l idx l1 idx1 _ _ _ _ hmem
        rw [hpred] at hmem
        exact absurd hmem (List.not_mem_nil _)
      · intro l _ _ _
        rw [hc]
        simp [elapsed]
      · intro l idx h1 h2 hidx
        have hl : l = 1 := by omega
        subst hl
        rw [hc, elapsed_succ P team idx (by omega)]
        show elapsed P team idx + P.p (switchAt [[], team] 1 idx) + 0 ≤ _
        rw [hsw]
        linarith
    apply (evaluate_earliest P _ out hp0 hinv hw.2 h _ hτ).2
    · unfold elapsed
      apply List.sum_nonneg
      intro x hx
      obtain ⟨mv, _, rfl⟩ := List.mem_map.mp hx
      exact hpp _
    · intro l idx hl hidx
      have hl1 : l = 0 ∨ l = 1 := by omega
      rcases hl1 with rfl | rfl
      · exact absurd hidx (by simp [teamOf])
      · show elapsed P team idx + P.p (switchAt [[], team] 1 idx) ≤ _
        rw [hsw, ← elapsed_succ P team idx hidx]
        exact elapsed_le P hpp team (idx + 1)
  · -- lower bound: the moments of team 1 are at least the prefix sums
    obtain ⟨s, _, _, _, hbi, _, hexit, hf, _, hout2⟩ :=
      evaluate_final P _ true out hinv hw.2 h
    have hn : P.n ≤ s.n_done := by
      by_contra hlt
      exact hexit ⟨by omega, hf⟩
    have hall := all_done P _ hs s hbi hn 1 (by omega)
    rw [hlen] at hall
    have hsp := (hbi.span out.2).mp (by rw [hout2, hf, if_pos rfl])
    have hlow : ∀ idx, idx < team.length →
        elapsed P team idx ≤ s.mem (utils.Ptr.slot 1 idx) := by
      intro idx
      induction idx with
      | zero =>
        intro h0
        have := hbi.travel 1 0 (le_refl _) (by omega) (by rw [hall]; exact h0)
        rw [if_pos rfl, hp0, hc] at this
        simp only [elapsed, List.take_zero, List.map_nil, List.sum_nil]
        linarith
      | succ idx ih =>
        intro h1
        have := hbi.travel 1 (idx + 1) (le_refl _) (by omega) (by rw [hall]; exact h1)
        rw [if_neg (by omega), hc] at this
        simp only [Nat.add_sub_cancel] at this
        rw [elapsed_succ P team idx (by omega), ← hsw]
        have := ih (by omega)
        linarith
    rcases Nat.eq_zero_or_pos team.length with h0 | hpos
    · rw [h0]
      simp only [elapsed, List.take_zero, List.map_nil, List.sum_nil]
      exact hsp.1
    · have h1 := hsp.2 1 (team.length - 1) (by omega) (by rw [hall]; omega)
      have h2 := hlow (team.length - 1) (by omega)
      have h3 := elapsed_succ P team (team.length - 1) (by omega)
      rw [show team.length - 1 + 1 = team.length from by omega, ← hsw] at h3
      rw [h3]
      linarith

theorem exSerial_p_nonneg : ∀ i, 0 ≤ exSerial.p i := by
  intro i
  show (0 : ℚ) ≤ if i = 1 then 2 else if i = 2 then 3 else if i = 3 then 1 else 0
  split_ifs <;> norm_num

theorem serial_team_exact_witness :
    ((List.range' 1 exSerial.n).map exSerial.p).sum = 6 ∧
    (∃ out, utils.evaluate exSerial ([[], [(1, 0), (2, 0), (3, 0)]], 0) = some (true, out) ∧
      out.2 = ((List.range' 1 exSerial.n).map exSerial.p).sum) ∧
    (∃ out, utils.evaluate exSerial ([[], [(1, 0), (3, 0), (2, 0)]], 0) = some (true, out) ∧
      out.2 = ((List.range' 1 exSerial.n).map exSerial.p).sum) ∧
    (∃ out, utils.evaluate exSerial ([[], [(2, 0), (1, 0), (3, 0)]], 0) = some (true, out) ∧
      out.2 = ((List.range' 1 exSerial.n).map exSerial.p).sum) ∧
    (∃ out, utils.evaluate exSerial ([[], [(2, 0), (3, 0), (1, 0)]], 0) = some (true, out) ∧
      out.2 = ((List.range' 1 exSerial.n).map exSerial.p).sum) ∧
    (∃ out, utils.evaluate exSerial ([[], [(3, 0), (1, 0), (2, 0)]], 0) = some (true, out) ∧
      out.2 = ((List.range' 1 exSerial.n).map exSerial.p).sum) ∧
    (∃ out, utils.evaluate exSerial ([[], [(3, 0), (2, 0), (1, 0)]], 0) = some (true, out) ∧
      out.2 = ((List.range' 1 exSerial.n).map exSerial.p).sum) :=
  ⟨by decide!,
    serial_team_exact exSerial [(1, 0), (2, 0), (3, 0)] 0 rfl rfl exSerial_p_nonneg
      (fun _ => rfl) (fun _ => rfl) (fun _ _ _ => rfl) (by decide),
    serial_team_exact exSerial [(1, 0), (3, 0), (2, 0)] 0 rfl rfl exSerial_p_nonneg
      (fun _ => rfl) (fun _ => rfl) (fun _ _ _ => rfl) (by decide),
    serial_team_exact exSerial [(2, 0), (1, 0), (3, 0)] 0 rfl rfl exSerial_p_nonneg
      (fun _ => rfl) (fun _ => rfl) (fun _ _ _ => rfl) (by decide),
    serial_team_exact exSerial [(2, 0), (3, 0), (1, 0)] 0 rfl rfl exSerial_p_nonneg
      (fun _ => rfl) (fun _ => rfl) (fun _ _ _ => rfl) (by decide),
    serial_team_exact exSerial [(3, 0), (1, 0), (2, 0)] 0 rfl rfl exSerial_p_nonneg
      (fun _ => rfl) (fun _ => rfl) (fun _ _ _ => rfl) (by decide),
    serial_team_exact exSerial [(3, 0), (2, 0), (1, 0)] 0 rfl rfl exSerial_p_nonneg
      (fun _ => rfl) (fun _ => rfl) (fun _ _ _ => rfl) (by decide)⟩

/-! ## The precedence matrix is the transitive closure -/

theorem mem_setInsert (k x : Nat) (pending : List Nat) :
    x ∈ setInsert k pending ↔ x = k ∨ x ∈ pending := by
  unfold setInsert
  split
  · rename_i h
    constructor
    · exact fun hx => Or.inr hx
    · rintro (rfl | hx)
      · exact h
      · exact hx
  · rw [List.mem_orderedInsert]

theorem nodup_setInsert (k : Nat) (pending : List Nat) (h : pending.Nodup) :
    (setInsert k pending).Nodup := by
  unfold setInsert
  split
  · exact h
  · rename_i hk
    exact (List.perm_orderedInsert _ k pending).nodup_iff.mpr (List.nodup_cons.mpr ⟨hk, h⟩)

theorem mem_foldl_setInsert (q : Nat → Bool) (ks : List Nat) :
    ∀ (rest : List Nat) (x : Nat),
      x ∈ ks.foldl (fun pending k => if q k = false then setInsert k pending else pending)
        rest ↔ x ∈ rest ∨ (x ∈ ks ∧ q x = false) := by
  induction ks with
  | nil => intro rest x; simp
  | cons k ks ih =>
    intro rest x
    rw [List.foldl_cons, ih]
    by_cases hq : q k = false
    · rw [if_pos hq, mem_setInsert]
      constructor
      · rintro ((rfl | h) | ⟨h1, h2⟩)
        · exact Or.inr ⟨List.mem_cons_self _ _, hq⟩
        · exact Or.inl h
        · exact Or.inr ⟨List.mem_cons_of_mem _ h1, h2⟩
      · rintro (h | ⟨h1, h2⟩)
        · exact Or.inl (Or.inr h)
        · rcases List.mem_cons.mp h1 with rfl | h1
          · exact Or.inl (Or.inl rfl)
          · exact Or.inr ⟨h1, h2⟩
    · rw [if_neg hq]
      constructor
      · rintro (h | ⟨h1, h2⟩)
        · exact Or.inl h
        · exact Or.inr ⟨List.mem_cons_of_mem _ h1, h2⟩
      · rintro (h | ⟨h1, h2⟩)
        · exact Or.inl h
        · rcases List.mem_cons.mp h1 with rfl | h1
          · exact absurd h2 hq
          · exact Or.inr ⟨h1, h2⟩

theorem nodup_foldl_setInsert (q : Nat → Bool) (ks : List Nat) :
    ∀ rest : List Nat, rest.Nodup →
      (ks.foldl (fun pending k => if q k = false then setInsert k pending else pending)
        rest).Nodup := by
  induction ks with
  | nil => intro rest h; exact h
  | cons k ks ih =>
    intro rest h
    rw [List.foldl_cons]
    apply ih
    split
    · exact nodup_setInsert k rest h
    · exact h

theorem closureStep_inv (predecessors : Nat → List Nat) (j : Nat) (M0 : Nat → Nat → Bool)
    (s : ClosureState) (i : Nat) (rest : List Nat) (hpend : s.pending = i :: rest)
    (h : ClosureInv predecessors j M0 s) :
    ClosureInv predecessors j M0 (closureStep predecessors j s i rest) := by
  have hnd := h.nodup
  rw [hpend] at hnd
  obtain ⟨hi_rest, hnd_rest⟩ := List.nodup_cons.mp hnd
  have hi := h.pend i (by rw [hpend]; exact List.mem_cons_self _ _)
  have hproc : ∀ x, Function.update s.processed i true x = true ↔
      x = i ∨ s.processed x = true := by
    intro x
    by_cases hx : x = i
    · subst hx
      simp
    · rw [Function.update_noteq hx]
      simp [hx]
  have hmem : ∀ x, x ∈ (closureStep predecessors j s i rest).pending ↔
      x ∈ rest ∨ (x ∈ predecessors i ∧ Function.update s.processed i true x = false) :=
    fun x => mem_foldl_setInsert _ _ rest x
  refine ⟨nodup_foldl_setInsert _ _ rest hnd_rest, ?_, ?_, ?_, ?_, ?_, ?_⟩
  · intro x hx
    rcases (hproc x).mp hx with rfl | hx1
    · exact hi.1
    · exact h.sound x hx1
  · intro x hx
    rcases (hmem x).mp hx with h1 | ⟨h1, h2⟩
    · have hx1 := h.pend x (by rw [hpend]; exact List.mem_cons_of_mem _ h1)
      refine ⟨hx1.1, ?_⟩
      have hne : x ≠ i := fun e => hi_rest (e ▸ h1)
      show Function.update s.processed i true x = false
      rw [Function.update_noteq hne]
      exact hx1.2
    · exact ⟨Relation.TransGen.head h1 hi.1, h2⟩
  · intro x hx
    rcases h.start x hx with h1 | h1
    · exact Or.inl ((hproc x).mpr (Or.inr h1))
    · rw [hpend] at h1
      rcases List.mem_cons.mp h1 with rfl | h1
      · exact Or.inl ((hproc _).mpr (Or.inl rfl))
      · exact Or.inr ((hmem x).mpr (Or.inl h1))
  · intro x hx k hk
    by_cases hpk : Function.update s.processed i true k = true
    · exact Or.inl hpk
    · have hpk1 : Function.update s.processed i true k = false := by simpa using hpk
      rcases (hproc x).mp hx with rfl | hx1
      · exact Or.inr ((hmem k).mpr (Or.inr ⟨hk, hpk1⟩))
      · rcases h.closed x hx1 k hk with h1 | h1
        · exact absurd ((hproc k).mpr (Or.inr h1)) hpk
        · rw [hpend] at h1
          rcases List.mem_cons.mp h1 with rfl | h1
          · exact absurd ((hproc _).mpr (Or.inl rfl)) hpk
          · exact Or.inr ((hmem k).mpr (Or.inl h1))
  · intro x
    show Function.update s.precedence_matrix i
        (Function.update (s.precedence_matrix i) j true) x j =
      Function.update s.processed i true x
    by_cases hx : x = i
    · subst hx
      simp
    · rw [Function.update_noteq hx, Function.update_noteq hx]
      exact h.column x
  · intro x j1 hj1
    show Function.update s.precedence_matrix i
        (Function.update (s.precedence_matrix i) j true) x j1 = M0 x j1
    by_cases hx : x = i
    · subst hx
      rw [Function.update_same, Function.update_noteq hj1]
      exact h.others x j1 hj1
    · rw [Function.update_noteq hx]
      exact h.others x j1 hj1

theorem closureLoop_inv (predecessors : Nat → List Nat) (j : Nat) (M0 : Nat → Nat → Bool) :
    ∀ (fuel : Nat) (s s1 : ClosureState), ClosureInv predecessors j M0 s →
      closureLoop predecessors j fuel s = some s1 →
      ClosureInv predecessors j M0 s1 ∧ s1.pending = [] := by
  intro fuel
  induction fuel with
  | zero =>
    intro s s1 hI h
    unfold closureLoop at h
    split at h
    · rename_i he
      injection h with h
      subst h
      exact ⟨hI, he⟩
    · exact absurd h (by simp)
  | succ fuel ih =>
    intro s s1 hI h
    unfold closureLoop at h
    split at h
    · rename_i he
      injection h with h
      subst h
      exact ⟨hI, he⟩
    · rename_i i rest he
      exact ih _ s1 (closureStep_inv predecessors j M0 s i rest he hI) h

theorem closureLoop_defined (n : Nat) (predecessors : Nat → List Nat) (j : Nat)
    (M0 : Nat → Nat → Bool)
    (hin : ∀ i, precedes predecessors i j → 1 ≤ i ∧ i ≤ n) :
    ∀ (fuel : Nat) (s : ClosureState), ClosureInv predecessors j M0 s →
      (List.range' 1 n).countP (fun i => !s.processed i) ≤ fuel →
      ∃ s1, closureLoop predecessors j fuel s = some s1 := by
  intro fuel
  induction fuel with
  | zero =>
    intro s hI hf
    unfold closureLoop
    split
    · exact ⟨s, rfl⟩
    · rename_i i rest he
      exfalso
      have hi := hI.pend i (by rw [he]; exact List.mem_cons_self _ _)
      have hr := hin i hi.1
      have hpos : 0 < (List.range' 1 n).countP (fun i => !s.processed i) := by
        apply List.countP_pos_iff.mpr
        exact ⟨i, by rw [List.mem_range'_1]; omega, by simp [hi.2]⟩
      omega
  | succ fuel ih =>
    intro s hI hf
    unfold closureLoop
    split
    · exact ⟨s, rfl⟩
    · rename_i i rest he
      have hi := hI.pend i (by rw [he]; exact List.mem_cons_self _ _)
      have hr := hin i hi.1
      apply ih _ (closureStep_inv predecessors j M0 s i rest he hI)
      have hc := countP_remove (List.range' 1 n) (List.nodup_range' 1 n)
        (fun x => !s.processed x)
        (fun x => !(closureStep predecessors j s i rest).processed x) i (by simp [hi.2])
        (by
          intro x
          show (!Function.update s.processed i true x) = _
          by_cases hx : x = i
          · subst hx
            simp
          · rw [Function.update_noteq hx]
            simp [hx])
      rw [if_pos (by rw [List.mem_range'_1]; omega)] at hc
      omega

theorem precedes_range (n : Nat) (predecessors : Nat → List Nat)
    (hrange : ∀ j, 1 ≤ j → j ≤ n → ∀ i ∈ predecessors j, 1 ≤ i ∧ i ≤ n) (j : Nat)
    (hj1 : 1 ≤ j) (hj2 : j ≤ n) (i : Nat) (h : precedes predecessors i j) :
    1 ≤ i ∧ i ≤ n := by
  unfold precedes at h
  induction h using Relation.TransGen.head_induction_on with
  | base hab => exact hrange j hj1 hj2 _ hab
  | ih hab _ ih => exact hrange _ ih.1 ih.2 _ hab

theorem closureColumn_spec (n : Nat) (predecessors : Nat → List Nat)
    (hrange : ∀ j, 1 ≤ j → j ≤ n → ∀ i ∈ predecessors j, 1 ≤ i ∧ i ≤ n)
    (M0 : Nat → Nat → Bool) (j : Nat) (hj1 : 1 ≤ j) (hj2 : j ≤ n)
    (h0 : ∀ i, M0 i j = false) :
    ∃ M, closureColumn n predecessors M0 j = some M ∧
      (∀ i, M i j = true ↔ precedes predecessors i j) ∧
      ∀ i j1, j1 ≠ j → M i j1 = M0 i j1 := by
  have hstart : ClosureInv predecessors j M0
      { pending := (predecessors j).foldl (fun pending i => setInsert i pending) []
        processed := fun _ => false
        precedence_matrix := M0 } := by
    have hmem : ∀ x, x ∈ (predecessors j).foldl (fun pending i => setInsert i pending) [] ↔
        x ∈ predecessors j := by
      intro x
      have := mem_foldl_setInsert (fun _ => false) (predecessors j) [] x
      simpa using this
    have hnd : ((predecessors j).foldl (fun pending i => setInsert i pending) []).Nodup := by
      have := nodup_foldl_setInsert (fun _ => false) (predecessors j) [] List.nodup_nil
      simpa using this
    refine ⟨hnd, ?_, ?_, ?_, ?_, ?_, ?_⟩
    · intro i hi
      exact absurd hi (by simp)
    · intro i hi
      exact ⟨Relation.TransGen.single ((hmem i).mp hi), rfl⟩
    · intro i hi
      exact Or.inr ((hmem i).mpr hi)
    · intro i hi
      exact absurd hi (by simp)
    · intro i
      exact h0 i
    · intro i j1 _
      rfl
  obtain ⟨s1, hs1⟩ := closureLoop_defined n predecessors j M0
    (precedes_range n predecessors hrange j hj1 hj2) n _ hstart
    (le_trans (List.countP_le_length _) (by simp))
  obtain ⟨hI, hempty⟩ := closureLoop_inv predecessors j M0 n _ s1 hstart hs1
  refine ⟨s1.precedence_matrix, by unfold closureColumn; rw [hs1]; rfl, ?_, hI.others⟩
  intro i
  rw [hI.column i]
  constructor
  · exact hI.sound i
  · intro hp
    unfold precedes at hp
    induction hp using Relation.TransGen.head_induction_on with
    | base hab =>
      rcases hI.start _ hab with h1 | h1
      · exact h1
      · rw [hempty] at h1
        exact absurd h1 (List.not_mem_nil _)
    | ih hab _ ih =>
      rcases hI.closed _ ih _ hab with h1 | h1
      · exact h1
      · rw [hempty] at h1
        exact absurd h1 (List.not_mem_nil _)

/-- C27. The precedence matrix that the constructor of `Problem` computes is the transitive
closure of the direct precedence relation: for predecessor sets over the switches `1..n`,
cyclic or not, the computation ends (within `n` passes of the inner loop for each column)
and `precedence_matrix[i][j]` is true if and only if there is a chain
`i = v0, v1, ..., vk = j`, `k ≥ 1`, in which each switch is a direct predecessor of the
next. -/
theorem precedence_matrix_closure (P : Problem)
    (hrange : ∀ j, 1 ≤ j → j ≤ P.n → ∀ i ∈ P.predecessors j, 1 ≤ i ∧ i ≤ P.n) :
    ∃ M, precedenceMatrix P.n P.predecessors = some M ∧
      ∀ i j, 1 ≤ j → j ≤ P.n → (M i j = true ↔ precedes P.predecessors i j) := by
  unfold precedenceMatrix
  rw [List.range'_eq_map_range, foldlM_map_option]
  have key : ∀ k, k ≤ P.n →
      ∃ M, (List.range k).foldlM
          (fun M x => closureColumn P.n P.predecessors M (1 + x)) (fun _ _ => false) = some M ∧
        (∀ i j, 1 ≤ j → j ≤ k → (M i j = true ↔ precedes P.predecessors i j)) ∧
        ∀ i j, k < j → M i j = false := by
    intro k
    induction k with
    | zero =>
      intro _
      exact ⟨fun _ _ => false, rfl, fun i j h1 h2 => absurd h1 (by omega), fun _ _ _ => rfl⟩
    | succ k ih =>
      intro hk
      obtain ⟨M, hM, h1, h2⟩ := ih (by omega)
      obtain ⟨M1, hM1, h3, h4⟩ := closureColumn_spec P.n P.predecessors hrange M (1 + k)
        (by omega) (by omega) (fun i => h2 i (1 + k) (by omega))
      refine ⟨M1, ?_, ?_, ?_⟩
      · rw [List.range_succ, List.foldlM_append, hM]
        simp only [List.foldlM_cons, List.foldlM_nil, Option.some_bind, Option.bind_eq_bind]
        rw [hM1]
        rfl
      · intro i j hj1 hj2
        by_cases hj : j = 1 + k
        · subst hj
          exact h3 i
        · rw [h4 i j hj]
          exact h1 i j hj1 (by omega)
      · intro i j hj
        rw [h4 i j (by omega)]
        exact h2 i j (by omega)
  obtain ⟨M, hM, h1, _⟩ := key P.n (le_refl _)
  exact ⟨M, hM, h1⟩

theorem exCycle_range :
    ∀ j, 1 ≤ j → j ≤ exCycle.n → ∀ i ∈ exCycle.predecessors j, 1 ≤ i ∧ i ≤ exCycle.n := by
  intro j _ _ i hi
  have h : i ∈ (if j = 1 then [2] else if j = 2 then [1] else []) := hi
  split at h
  · simp only [List.mem_singleton] at h
    subst h
    exact ⟨by decide, le_refl _⟩
  · split at h
    · simp only [List.mem_singleton] at h
      subst h
      exact ⟨le_refl _, by decide⟩
    · exact absurd h (List.not_mem_nil _)

theorem precedence_matrix_closure_witness :
    ∃ M, precedenceMatrix exCycle.n exCycle.predecessors = some M ∧
      ∀ i j, 1 ≤ j → j ≤ exCycle.n →
        (M i j = true ↔ precedes exCycle.predecessors i j) :=
  precedence_matrix_closure exCycle exCycle_range

/-! ## The main loop of `ILS::solve` -/

theorem iterate_spec {γ : Type} (R : Generator γ) (P : Problem) (s s1 : ILS.State γ)
    (h : ILS.iterate R P s = some s1) :
    s1.iteration = s.iteration + 1 ∧
    ((s1.incumbent = s.incumbent ∧ s1.perturbation_passes = s.perturbation_passes + 1 ∧
        s1.iteration_last_improvement = s.iteration_last_improvement) ∨
      (s1.incumbent.2 + utils.THRESHOLD ≤ s.incumbent.2 ∧ s1.perturbation_passes = 1 ∧
        s1.iteration_last_improvement = s1.iteration)) := by
  unfold ILS.iterate at h
  cases hpass : ILS.pass R P s with
  | none =>
    rw [hpass] at h
    exact absurd h (by simp)
  | some out =>
    rw [hpass] at h
    simp only [Option.map_some', Option.some.injEq] at h
    subst h
    unfold ILS.pass at hpass
    split at hpass
    · exact absurd hpass (by simp)
    · split at hpass
      · exact absurd hpass (by simp)
      · split at hpass
        · exact absurd hpass (by simp)
        · split at hpass
          · rename_i hl
            injection hpass with hpass
            subst hpass
            exact ⟨rfl, Or.inr ⟨(is_lower_iff _ _).mp hl, rfl, rfl⟩⟩
          · injection hpass with hpass
            subst hpass
            exact ⟨rfl, Or.inl ⟨rfl, rfl, rfl⟩⟩

theorem states_chain {γ : Type} (R : Generator γ) (P : Problem) (settings : Settings)
    (timer : Nat → Int) (I : ILS.State γ → Prop)
    (hI : ∀ a b, I a → ILS.continues settings timer a → ILS.iterate R P a = some b → I b) :
    ∀ fuel (s : ILS.State γ) tr, I s → ILS.states R P settings timer fuel s = some tr →
      tr.head? = some s ∧
      tr.Chain' (fun a b => I a ∧ ILS.continues settings timer a ∧
        ILS.iterate R P a = some b) ∧
      ILS.loop R P settings timer fuel s = tr.getLast? ∧
      ∀ last, tr.getLast? = some last →
        I last ∧ ¬ ILS.continues settings timer last ∧
        last.iteration + 1 = s.iteration + tr.length := by
  intro fuel
  induction fuel with
  | zero =>
    intro s tr h0 h
    unfold ILS.states at h
    unfold ILS.loop
    split at h
    · exact absurd h (by simp)
    · rename_i hc
      rw [if_neg hc]
      injection h with h
      subst h
      refine ⟨rfl, List.chain'_singleton _, rfl, ?_⟩
      intro last hl
      simp only [List.getLast?_singleton, Option.some.injEq] at hl
      subst hl
      exact ⟨h0, hc, rfl⟩
  | succ fuel ih =>
    intro s tr h0 h
    unfold ILS.states at h
    unfold ILS.loop
    split at h
    · rename_i hc
      rw [if_pos hc]
      simp only [] at h ⊢
      cases hit : ILS.iterate R P s with
      | none =>
        rw [hit] at h
        exact absurd h (by simp)
      | some s1 =>
        rw [hit] at h
        simp only [] at h ⊢
        cases hrest : ILS.states R P settings timer fuel s1 with
        | none =>
          rw [hrest] at h
          exact absurd h (by simp)
        | some rest =>
          rw [hrest] at h
          simp only [Option.map_some', Option.some.injEq] at h
          subst h
          obtain ⟨h1, h2, h3, h4⟩ := ih s1 rest (hI s s1 h0 hc hit) hrest
          have hit1 := (iterate_spec R P s s1 hit).1
          cases rest with
          | nil => exact absurd h1 (by simp)
          | cons x xs =>
            simp only [List.head?_cons, Option.some.injEq] at h1
            subst h1
            refine ⟨rfl, List.Chain'.cons ⟨h0, hc, hit⟩ h2, ?_, ?_⟩
            · rw [h3]
              simp [List.getLast?_cons_cons]
            · intro last hl
              have hl1 : (x :: xs).getLast? = some last := by
                rw [← hl]
                simp [List.getLast?_cons_cons]
              obtain ⟨h5, h6, h7⟩ := h4 last hl1
              refine ⟨h5, h6, ?_⟩
              simp only [List.length_cons] at h7 ⊢
              omega
    · rename_i hc
      rw [if_neg hc]
      injection h with h
      subst h
      refine ⟨rfl, List.chain'_singleton _, rfl, ?_⟩
      intro last hl
      simp only [List.getLast?_singleton, Option.some.injEq] at hl
      subst hl
      exact ⟨h0, hc, rfl⟩

theorem states_of_loop {γ : Type} (R : Generator γ) (P : Problem) (settings : Settings)
    (timer : Nat → Int) :
    ∀ fuel (s r : ILS.State γ), ILS.loop R P settings timer fuel s = some r →
      ∃ tr, ILS.states R P settings timer fuel s = some tr := by
  intro fuel
  induction fuel with
  | zero =>
    intro s r h
    unfold ILS.loop at h
    unfold ILS.states
    split at h
    · exact absurd h (by simp)
    · rename_i hc
      rw [if_neg hc]
      exact ⟨_, rfl⟩
  | succ fuel ih =>
    intro s r h
    unfold ILS.loop at h
    unfold ILS.states
    split at h
    · rename_i hc
      rw [if_pos hc]
      simp only [] at h ⊢
      cases hit : ILS.iterate R P s with
      | none =>
        rw [hit] at h
        exact absurd h (by simp)
      | some s1 =>
        rw [hit] at h
        simp only [] at h ⊢
        obtain ⟨tr, htr⟩ := ih s1 r h
        exact ⟨s :: tr, by rw [htr]; rfl⟩
    · rename_i hc
      rw [if_neg hc]
      exact ⟨_, rfl⟩

theorem loop_inv {γ : Type} (R : Generator γ) (P : Problem) (settings : Settings)
    (timer : Nat → Int) (I : ILS.State γ → Prop)
    (hI : ∀ a b, I a → ILS.continues settings timer a → ILS.iterate R P a = some b → I b) :
    ∀ fuel (s r : ILS.State γ), I s → ILS.loop R P settings timer fuel s = some r → I r := by
  intro fuel
  induction fuel with
  | zero =>
    intro s r h0 h
    unfold ILS.loop at h
    split at h
    · exact absurd h (by simp)
    · injection h with h
      subst h
      exact h0
  | succ fuel ih =>
    intro s r h0 h
    unfold ILS.loop at h
    split at h
    · rename_i hc
      simp only [] at h
      cases hit : ILS.iterate R P s with
      | none =>
        rw [hit] at h
        exact absurd h (by simp)
      | some s1 =>
        rw [hit] at h
        exact ih s1 r (hI s s1 h0 hc hit) h
    · injection h with h
      subst h
      exact h0

theorem loop_timer_congr {γ : Type} (R : Generator γ) (P : Problem) (settings : Settings)
    (timer1 timer2 : Nat → Int)
    (h : ∀ k, ((timer1 k : Int) : ℚ) < settings.time_limit ↔
      ((timer2 k : Int) : ℚ) < settings.time_limit) :
    ∀ fuel (s : ILS.State γ),
      ILS.loop R P settings timer1 fuel s = ILS.loop R P settings timer2 fuel s := by
  have hc : ∀ s : ILS.State γ,
      ILS.continues settings timer1 s ↔ ILS.continues settings timer2 s := by
    intro s
    unfold ILS.continues
    rw [h s.iteration]
  intro fuel
  induction fuel with
  | zero =>
    intro s
    unfold ILS.loop
    by_cases h1 : ILS.continues settings timer1 s
    · rw [if_pos h1, if_pos ((hc s).mp h1)]
    · rw [if_neg h1, if_neg (fun h2 => h1 ((hc s).mpr h2))]
  | succ fuel ih =>
    intro s
    unfold ILS.loop
    by_cases h1 : ILS.continues settings timer1 s
    · rw [if_pos h1, if_pos ((hc s).mp h1)]
      simp only []
      cases ILS.iterate R P s with
      | none => rfl
      | some s1 => exact ih s1
    · rw [if_neg h1, if_neg (fun h2 => h1 ((hc s).mpr h2))]

/-! ## Undoing a removal (`ILS::perturb`) -/

theorem map_fst_eraseIdx (team : List Maneuver) :
    ∀ i, (team.eraseIdx i).map Prod.fst = (team.map Prod.fst).eraseIdx i := by
  induction team with
  | nil => intro i; rfl
  | cons x xs ih =>
    intro i
    cases i with
    | zero => rfl
    | succ i => simp only [List.eraseIdx_cons_succ, List.map_cons, ih i]

theorem map_fst_insertIdx (x : Maneuver) (team : List Maneuver) :
    ∀ i, (team.insertIdx i x).map Prod.fst = (team.map Prod.fst).insertIdx i x.1 := by
  induction team with
  | nil =>
    intro i
    cases i with
    | zero => rfl
    | succ i => rfl
  | cons y ys ih =>
    intro i
    cases i with
    | zero => rfl
    | succ i => simp only [List.insertIdx_succ_cons, List.map_cons, ih i]

theorem ids_set (s1 s2 : Schedule) (h : ids s1 = ids s2) (l : Nat) (t1 t2 : List Maneuver)
    (ht : t1.map Prod.fst = t2.map Prod.fst) : ids (s1.set l t1) = ids (s2.set l t2) := by
  unfold ids at h ⊢
  rw [List.map_set, List.map_set, h, ht]

theorem ids_eraseAt (s1 s2 : Schedule) (h : ids s1 = ids s2) (l i : Nat) :
    ids (eraseAt s1 l i) = ids (eraseAt s2 l i) := by
  unfold eraseAt
  apply ids_set s1 s2 h
  rw [map_fst_eraseIdx, map_fst_eraseIdx, teamOf_ids s1 s2 h l]

theorem ids_insertAt (s1 s2 : Schedule) (h : ids s1 = ids s2) (l i : Nat) (x y : Maneuver)
    (hx : x.1 = y.1) : ids (insertAt s1 l i x) = ids (insertAt s2 l i y) := by
  unfold insertAt
  apply ids_set s1 s2 h
  rw [map_fst_insertIdx, map_fst_insertIdx, teamOf_ids s1 s2 h l, hx]

theorem drop_eraseAt (P : Problem) (s : Schedule) (l i : Nat) (hl : l ≤ P.m) :
    (eraseAt s l i).drop (P.m + 1) = s.drop (P.m + 1) := by
  unfold eraseAt
  exact List.drop_set_of_lt _ _ (by omega)

theorem drop_insertAt (P : Problem) (s : Schedule) (l i : Nat) (x : Maneuver) (hl : l ≤ P.m) :
    (insertAt s l i x).drop (P.m + 1) = s.drop (P.m + 1) := by
  unfold insertAt
  exact List.drop_set_of_lt _ _ (by omega)

theorem set_teamOf (s : Schedule) (l : Nat) : s.set l (teamOf s l) = s := by
  apply List.ext_getElem?
  intro k
  rw [List.getElem?_set]
  split
  · rename_i hk
    subst hk
    split
    · rename_i hl
      unfold teamOf
      rw [List.getD_eq_getElem _ _ hl, List.getElem?_eq_getElem hl]
    · rename_i hl
      rw [List.getElem?_eq_none (Nat.le_of_not_lt hl)]
  · rfl

theorem eraseAt_insertAt (s : Schedule) (l i : Nat) (x : Maneuver) :
    eraseAt (insertAt s l i x) l i = s := by
  unfold eraseAt insertAt
  by_cases hl : l < s.length
  · rw [teamOf_set_self _ _ _ hl, List.eraseIdx_insertIdx, List.set_set, set_teamOf]
  · rw [List.set_eq_of_length_le (Nat.le_of_not_lt hl), List.set_eq_of_length_le (Nat.le_of_not_lt hl)]

theorem insertIdx_eraseIdx_getD (d : Maneuver) (team : List Maneuver) :
    ∀ i, i < team.length → (team.eraseIdx i).insertIdx i (team.getD i d) = team := by
  induction team with
  | nil => intro i h; exact absurd h (by simp)
  | cons x xs ih =>
    intro i h
    cases i with
    | zero => rfl
    | succ i =>
      simp only [List.eraseIdx_cons_succ, List.insertIdx_succ_cons, List.getD_cons_succ]
      rw [ih i (by simpa using h)]

theorem insertAt_eraseAt (s : Schedule) (l i : Nat) (h : i < (teamOf s l).length) :
    insertAt (eraseAt s l i) l i (maneuverAt s l i) = s := by
  have hl := teamOf_length_pos s l i h
  unfold insertAt eraseAt maneuverAt
  rw [teamOf_set_self _ _ _ hl, insertIdx_eraseIdx_getD _ _ i h, List.set_set, set_teamOf]

theorem evaluate_drop (P : Problem) (entry : Schedule × ℚ) (b : Bool) (out : Schedule × ℚ)
    (h : utils.evaluate P entry = some (b, out)) :
    out.1.drop (P.m + 1) = entry.1.drop (P.m + 1) := by
  obtain ⟨_, s, _, _, h1, _⟩ := evaluate_some P entry b out h
  rw [h1, writeBack_drop]

theorem relocated_wellFormed (P : Problem) (s : Schedule) (lo io lt k : Nat)
    (hw : wellFormed P s) (hlo : lo ≤ P.m) (hlt : lt ≤ P.m) (hio : io < (teamOf s lo).length)
    (hk : k ≤ (teamOf (eraseAt s lo io) lt).length) :
    wellFormed P (insertAt (eraseAt s lo io) lt k (maneuverAt s lo io)) := by
  apply wellFormed_of_count P s _ hw (by simp [insertAt, eraseAt])
  intro a
  have h0 := count_switchIds_set P s lo ((teamOf s lo).eraseIdx io) hlo hw.1 a
  have h1 := count_switchIds_set P (eraseAt s lo io) lt
    ((teamOf (eraseAt s lo io) lt).insertIdx k (maneuverAt s lo io)) hlt
    (by simpa [eraseAt] using hw.1) a
  have h2 := count_ids_erase (teamOf s lo) io hio a
  have h3 := count_ids_insert (teamOf (eraseAt s lo io) lt) k hk (maneuverAt s lo io) a
  unfold insertAt
  unfold eraseAt at h1 h3 ⊢
  unfold maneuverAt at h1 h3 ⊢
  omega

theorem evaluate_flag_congr (P : Problem) (e1 e2 : Schedule × ℚ) (h : ids e1.1 = ids e2.1) :
    (utils.evaluate P e1).map Prod.fst = (utils.evaluate P e2).map Prod.fst := by
  have h1 := evaluate_view_congr P e1 e2 h
  have h2 := congrArg (Option.map (fun r : Bool × List (List Maneuver) × ℚ => r.1)) h1
  simpa [Option.map_map, Function.comp_def] using h2

theorem tryPositions_spec (P : Problem) (hinv : P.inverseSets) (base : Schedule)
    (l_target : Nat) (operation : Maneuver) (hlt : l_target ≤ P.m)
    (hwb : ∀ k, k ≤ (teamOf base l_target).length →
      wellFormed P (insertAt base l_target k operation)) :
    ∀ (indexes : List Nat) (cur : Schedule × ℚ), ids cur.1 = ids base →
      cur.1.drop (P.m + 1) = base.drop (P.m + 1) →
      (∀ k ∈ indexes, k ≤ (teamOf base l_target).length) →
      ∃ success moved, ILS.tryPositions P l_target operation cur indexes =
          some (success, moved) ∧
        (success = false → ids moved.1 = ids base ∧
          moved.1.drop (P.m + 1) = base.drop (P.m + 1) ∧
          ∀ k ∈ indexes, ∀ μ, (utils.evaluate P (insertAt base l_target k operation, μ)).map
            Prod.fst = some false) ∧
        (success = true → ∃ k ∈ indexes, ∃ μ,
          utils.evaluate P (insertAt base l_target k operation, μ) = some (true, moved)) := by
  intro indexes
  induction indexes with
  | nil =>
    intro cur hids hdrop _
    exact ⟨false, cur, rfl, fun _ => ⟨hids, hdrop, fun k hk => absurd hk (List.not_mem_nil _)⟩,
      fun h => absurd h (by simp)⟩
  | cons k rest ih =>
    intro cur hids hdrop hidx
    have hk := hidx k (List.mem_cons_self _ _)
    have hlen := teamOf_length_ids cur.1 base hids l_target
    have hids1 : ids (insertAt cur.1 l_target k operation) =
        ids (insertAt base l_target k operation) :=
      ids_insertAt cur.1 base hids l_target k operation operation rfl
    have hdrop1 : (insertAt cur.1 l_target k operation).drop (P.m + 1) =
        (insertAt base l_target k operation).drop (P.m + 1) := by
      rw [drop_insertAt P _ _ _ _ hlt, drop_insertAt P _ _ _ _ hlt, hdrop]
    have hcongr : ∀ μ, utils.evaluate P (insertAt cur.1 l_target k operation, cur.2) =
        utils.evaluate P (insertAt base l_target k operation, μ) := fun μ =>
      evaluate_congr P (insertAt cur.1 l_target k operation, cur.2)
        (insertAt base l_target k operation, μ) hids1 hdrop1
    have hw1 := hwb k hk
    obtain ⟨b, evaluated, he⟩ := evaluate_defined P
      (insertAt base l_target k operation, cur.2) hinv
      (inBounds_of_wellFormed P _ hw1) hw1.2
    have he1 : utils.evaluate P (insertAt cur.1 l_target k operation, cur.2) =
        some (b, evaluated) := by rw [hcongr cur.2, he]
    unfold ILS.tryPositions
    rw [if_pos (by rw [hlen]; exact hk), he1]
    simp only []
    cases b with
    | true =>
      refine ⟨true, evaluated, by simp, fun h => absurd h (by simp), fun _ => ?_⟩
      exact ⟨k, List.mem_cons_self _ _, cur.2, he⟩
    | false =>
      have hide := evaluate_ids P _ false evaluated he
      have hdre := evaluate_drop P _ false evaluated he
      simp only [] at hide hdre
      have hids2 : ids (eraseAt evaluated.1 l_target k) = ids base := by
        rw [ids_eraseAt evaluated.1 (insertAt base l_target k operation) hide,
          eraseAt_insertAt]
      have hdrop2 : (eraseAt evaluated.1 l_target k).drop (P.m + 1) = base.drop (P.m + 1) := by
        rw [drop_eraseAt P _ _ _ hlt, hdre, drop_insertAt P _ _ _ _ hlt]
      obtain ⟨success, moved, h1, h2, h3⟩ :=
        ih (eraseAt evaluated.1 l_target k, evaluated.2) hids2 hdrop2
          (fun j hj => hidx j (List.mem_cons_of_mem _ hj))
      refine ⟨success, moved, by simpa using h1, ?_, ?_⟩
      · intro hs
        obtain ⟨h4, h5, h6⟩ := h2 hs
        refine ⟨h4, h5, ?_⟩
        intro j hj μ
        rcases List.mem_cons.mp hj with rfl | hj
        · rw [← hcongr μ, he1]
          rfl
        · exact h6 j hj μ
      · intro hs
        obtain ⟨j, hj, μ, h4⟩ := h3 hs
        exact ⟨j, List.mem_cons_of_mem _ hj, μ, h4⟩

theorem relocate_spec (P : Problem) (hinv : P.inverseSets) (perturbed : Schedule × ℚ)
    (l_origin idx_origin l_target : Nat) (indexes : List Nat)
    (hw : wellFormed P perturbed.1) (hlo : l_origin ≤ P.m) (hlt : l_target ≤ P.m)
    (hio : idx_origin < (teamOf perturbed.1 l_origin).length)
    (hidx : ∀ k ∈ indexes,
      k ≤ (teamOf (eraseAt perturbed.1 l_origin idx_origin) l_target).length) :
    ∃ out, ILS.relocate P perturbed l_origin idx_origin l_target indexes = some out ∧
      wellFormed P out.1 ∧
      ((∃ b, utils.evaluate P perturbed = some (b, out)) ∧
          (∀ k ∈ indexes, ∀ μ,
            (utils.evaluate P (insertAt (eraseAt perturbed.1 l_origin idx_origin) l_target k
              (maneuverAt perturbed.1 l_origin idx_origin), μ)).map Prod.fst = some false) ∨
        ∃ k ∈ indexes, ∃ μ,
          utils.evaluate P (insertAt (eraseAt perturbed.1 l_origin idx_origin) l_target k
            (maneuverAt perturbed.1 l_origin idx_origin), μ) = some (true, out)) := by
  have hwb := fun k hk =>
    relocated_wellFormed P perturbed.1 l_origin idx_origin l_target k hw hlo hlt hio hk
  obtain ⟨success, moved, h1, h2, h3⟩ :=
    tryPositions_spec P hinv (eraseAt perturbed.1 l_origin idx_origin) l_target
      (maneuverAt perturbed.1 l_origin idx_origin) hlt hwb indexes
      (eraseAt perturbed.1 l_origin idx_origin, perturbed.2) rfl rfl hidx
  unfold ILS.relocate
  rw [h1]
  simp only []
  cases success with
  | true =>
    obtain ⟨k, hk, μ, h4⟩ := h3 rfl
    refine ⟨moved, by simp, ?_, Or.inr ⟨k, hk, μ, h4⟩⟩
    exact evaluate_wellFormed P _ true moved (hwb k (hidx k hk)) h4
  | false =>
    obtain ⟨h4, h5, h6⟩ := h2 rfl
    have hids : ids (insertAt moved.1 l_origin idx_origin
        (maneuverAt perturbed.1 l_origin idx_origin)) = ids perturbed.1 := by
      rw [ids_insertAt moved.1 (eraseAt perturbed.1 l_origin idx_origin) h4 l_origin
        idx_origin _ _ rfl, insertAt_eraseAt _ _ _ hio]
    have hdrop : (insertAt moved.1 l_origin idx_origin
        (maneuverAt perturbed.1 l_origin idx_origin)).drop (P.m + 1) =
        perturbed.1.drop (P.m + 1) := by
      rw [drop_insertAt P _ _ _ _ hlo, h5, drop_eraseAt P _ _ _ hlo]
    have hcongr := evaluate_congr P
      (insertAt moved.1 l_origin idx_origin (maneuverAt perturbed.1 l_origin idx_origin),
        moved.2) perturbed hids hdrop
    obtain ⟨b, out, he⟩ := evaluate_defined P perturbed hinv
      (inBounds_of_wellFormed P _ hw) hw.2
    rw [hcongr, he]
    refine ⟨out, by simp, evaluate_wellFormed P perturbed b out hw he, Or.inl ⟨⟨b, rfl⟩, h6⟩⟩

/-! ## `ILS::solve` returns a result -/

theorem vndLoop_wellFormed (P : Problem)
    (steps : List (Schedule × ℚ → Option (Schedule × ℚ)))
    (hsteps : ∀ step ∈ steps, ∃ neighborhood : Neighborhood,
      step = neighborhood.best_improvement P) :
    ∀ fuel rest incumbent r, wellFormed P incumbent.1 →
      (∀ step ∈ rest, ∃ neighborhood : Neighborhood, step = neighborhood.best_improvement P) →
      LocalSearch.vndLoop steps fuel rest incumbent = some r → wellFormed P r.1 := by
  intro fuel
  induction fuel with
  | zero =>
    intro rest incumbent r hw _ h
    cases rest with
    | nil =>
      simp only [LocalSearch.vndLoop, Option.some.injEq] at h
      subst h
      exact hw
    | cons st rest => exact absurd h (by simp [LocalSearch.vndLoop])
  | succ fuel ih =>
    intro rest incumbent r hw hrest h
    cases rest with
    | nil =>
      simp only [LocalSearch.vndLoop, Option.some.injEq] at h
      subst h
      exact hw
    | cons st rest =>
      obtain ⟨neighborhood, rfl⟩ := hrest _ (List.mem_cons_self _ _)
      simp only [LocalSearch.vndLoop] at h
      split at h
      · exact absurd h (by simp)
      · rename_i neighbor hs
        split at h
        · exact ih _ neighbor r (best_improvement_step P neighborhood incumbent neighbor hw hs).1
            hsteps h
        · exact ih _ incumbent r hw (fun step hstep => hrest step (List.mem_cons_of_mem _ hstep)) h

theorem vnd_defined (P : Problem) (hinv : P.inverseSets) (entry : Schedule × ℚ)
    (hw : wellFormed P entry.1) :
    ∃ r, LocalSearch.vnd P entry = some r ∧ wellFormed P r.1 := by
  have hsteps : ∀ step ∈ [Neighborhood.Shift, Neighborhood.Reassignement,
      Neighborhood.Swap].map (fun neighborhood : Neighborhood => neighborhood.best_improvement P),
      ∃ neighborhood : Neighborhood, step = neighborhood.best_improvement P := by
    intro step hstep
    obtain ⟨neighborhood, _, rfl⟩ := List.mem_map.mp hstep
    exact ⟨neighborhood, rfl⟩
  obtain ⟨r, hr⟩ := vndLoop_defined P hinv _ (rounds entry.2 * 4 + 3) _ entry hw hsteps hsteps
    (le_refl _) (by simp)
  exact ⟨r, hr, vndLoop_wellFormed P _ hsteps _ _ entry r hw hsteps hr⟩

theorem chainStep_defined {γ : Type} (R : Generator γ) (hR : R.lawful) (P : Problem)
    (hinv : P.inverseSets) (chain : List Nat) (state : (Schedule × ℚ) × γ) (idx : Nat)
    (hw : wellFormed P state.1.1) (ho : chain.getD idx 0 ≤ P.m)
    (ht : chain.getD ((idx + 1) % chain.length) 0 ≤ P.m) :
    ∃ out, ILS.chainStep R P chain state idx = some out ∧ wellFormed P out.1.1 := by
  unfold ILS.chainStep
  simp only []
  rw [if_pos (by have := hw.1; omega)]
  by_cases hne : (teamOf state.1.1 (chain.getD idx 0)).length ≠ 0
  · rw [if_pos hne, if_pos (by have := hw.1; omega)]
    have hio : (R.draw state.2).1 % (teamOf state.1.1 (chain.getD idx 0)).length <
        (teamOf state.1.1 (chain.getD idx 0)).length := Nat.mod_lt _ (Nat.pos_of_ne_zero hne)
    obtain ⟨out, h1, h2, _⟩ := relocate_spec P hinv state.1 (chain.getD idx 0)
      ((R.draw state.2).1 % (teamOf state.1.1 (chain.getD idx 0)).length)
      (chain.getD ((idx + 1) % chain.length) 0)
      (R.shuffle (R.draw state.2).2 (List.range ((teamOf (eraseAt state.1.1 (chain.getD idx 0)
        ((R.draw state.2).1 % (teamOf state.1.1 (chain.getD idx 0)).length))
        (chain.getD ((idx + 1) % chain.length) 0)).length + 1))).1 hw ho ht hio
      (by
        intro k hk
        have := ((hR _ _).mem_iff).mp hk
        rw [List.mem_range] at this
        omega)
    rw [h1]
    exact ⟨_, rfl, h2⟩
  · rw [if_neg hne]
    exact ⟨state, rfl, hw⟩

theorem perturb_defined {γ : Type} (R : Generator γ) (hR : R.lawful) (P : Problem)
    (hinv : P.inverseSets) (entry : Schedule × ℚ) (generator : γ)
    (hw : wellFormed P entry.1) :
    ∃ out, ILS.perturb R P entry generator = some out ∧ wellFormed P out.1.1 := by
  unfold ILS.perturb
  simp only []
  have hmem : ∀ i, i < (R.shuffle generator (List.range' 1 P.m)).1.length →
      (R.shuffle generator (List.range' 1 P.m)).1.getD i 0 ≤ P.m := by
    intro i hi
    have h1 : (R.shuffle generator (List.range' 1 P.m)).1.getD i 0 ∈
        (R.shuffle generator (List.range' 1 P.m)).1 := by
      rw [List.getD_eq_getElem _ _ hi]
      exact List.getElem_mem _
    have h2 := ((hR _ _).mem_iff).mp h1
    rw [List.mem_range'_1] at h2
    omega
  exact foldlM_range_defined (ILS.chainStep R P (R.shuffle generator (List.range' 1 P.m)).1)
    (fun state : (Schedule × ℚ) × γ => wellFormed P state.1.1) _
    (entry, (R.shuffle generator (List.range' 1 P.m)).2) hw
    (fun i s hi hs => chainStep_defined R hR P hinv _ s i hs (hmem i hi)
      (hmem _ (Nat.mod_lt _ (by omega))))

theorem perturbAgain_defined {γ : Type} (R : Generator γ) (hR : R.lawful) (P : Problem)
    (hinv : P.inverseSets) :
    ∀ count (state : ((Schedule × ℚ) × γ) × Nat), wellFormed P state.1.1.1 →
      ∃ out, ILS.perturbAgain R P count state = some out ∧ wellFormed P out.1.1.1 := by
  intro count
  induction count with
  | zero =>
    intro state hw
    exact ⟨state, rfl, hw⟩
  | succ count ih =>
    intro state hw
    obtain ⟨s1, h1, hw1⟩ := perturb_defined R hR P hinv state.1.1 state.1.2 hw
    obtain ⟨out, h2, hw2⟩ := ih (s1, state.2 + 1) hw1
    refine ⟨out, ?_, hw2⟩
    unfold ILS.perturbAgain
    rw [h1]
    exact h2

/-- The loop after the first call of `ILS::perturb` adds one call per pass. -/
theorem perturbAgain_calls {γ : Type} (R : Generator γ) (P : Problem) :
    ∀ count (state out : ((Schedule × ℚ) × γ) × Nat),
      ILS.perturbAgain R P count state = some out → out.2 = state.2 + count := by
  intro count
  induction count with
  | zero =>
    intro state out h
    unfold ILS.perturbAgain at h
    injection h with h
    rw [← h]
    rfl
  | succ count ih =>
    intro state out h
    unfold ILS.perturbAgain at h
    split at h
    · exact absurd h (by simp)
    · have := ih _ out h
      rw [this]
      simp only []
      omega

/-- The body of the main loop calls `ILS::perturb` as many times as `perturbation_passes`
says when it is at least 1. -/
theorem pass_calls {γ : Type} (R : Generator γ) (P : Problem) (s s1 : ILS.State γ)
    (calls : Nat) (h : ILS.pass R P s = some (s1, calls)) :
    calls = 1 + (s.perturbation_passes - 1) := by
  unfold ILS.pass at h
  split at h
  · exact absurd h (by simp)
  · split at h
    · exact absurd h (by simp)
    · rename_i perturbed hagain
      have hc := perturbAgain_calls R P _ _ _ hagain
      split at h
      · exact absurd h (by simp)
      · split at h
        · injection h with h
          injection h with _ h
          rw [← h, hc]
        · injection h with h
          injection h with _ h
          rw [← h, hc]

theorem iterate_pass {γ : Type} (R : Generator γ) (P : Problem) (s s1 : ILS.State γ)
    (h : ILS.iterate R P s = some s1) : ∃ calls, ILS.pass R P s = some (s1, calls) := by
  unfold ILS.iterate at h
  cases hpass : ILS.pass R P s with
  | none =>
    rw [hpass] at h
    exact absurd h (by simp)
  | some out =>
    rw [hpass] at h
    simp only [Option.map_some', Option.some.injEq] at h
    subst h
    exact ⟨out.2, rfl⟩

theorem iterate_defined {γ : Type} (R : Generator γ) (hR : R.lawful) (P : Problem)
    (hinv : P.inverseSets) (s : ILS.State γ) (hw : wellFormed P s.incumbent.1) :
    ∃ s1, ILS.iterate R P s = some s1 ∧ wellFormed P s1.incumbent.1 := by
  obtain ⟨first, h1, hw1⟩ := perturb_defined R hR P hinv s.incumbent s.generator hw
  obtain ⟨perturbed, h2, hw2⟩ :=
    perturbAgain_defined R hR P hinv (s.perturbation_passes - 1) (first, 1) hw1
  obtain ⟨trial, h3, hw3⟩ := vnd_defined P hinv perturbed.1.1 hw2
  unfold ILS.iterate ILS.pass
  rw [h1]
  simp only []
  rw [h2]
  simp only []
  rw [h3]
  simp only []
  split
  · exact ⟨_, rfl, hw3⟩
  · exact ⟨_, rfl, hw⟩

theorem loop_defined {γ : Type} (R : Generator γ) (hR : R.lawful) (P : Problem)
    (hinv : P.inverseSets) (settings : Settings) (timer : Nat → Int) :
    ∀ fuel (s : ILS.State γ), wellFormed P s.incumbent.1 →
      settings.iterations_limit ≤ ((s.iteration + fuel : Nat) : Int) →
      ∃ r, ILS.loop R P settings timer fuel s = some r := by
  intro fuel
  induction fuel with
  | zero =>
    intro s _ hf
    unfold ILS.loop
    by_cases hc : ILS.continues settings timer s
    · have := hc.1
      simp only [Nat.add_zero] at hf
      omega
    · rw [if_neg hc]
      exact ⟨s, rfl⟩
  | succ fuel ih =>
    intro s hw hf
    unfold ILS.loop
    by_cases hc : ILS.continues settings timer s
    · rw [if_pos hc]
      obtain ⟨s1, h1, hw1⟩ := iterate_defined R hR P hinv s hw
      have hit := (iterate_spec R P s s1 h1).1
      simp only [h1]
      apply ih s1 hw1
      rw [hit]
      have e : s.iteration + 1 + fuel = s.iteration + (fuel + 1) := by omega
      rw [e]
      exact hf
    · rw [if_neg hc]
      exact ⟨s, rfl⟩

theorem solve_defined {γ : Type} (R : Generator γ) (hR : R.lawful) (P : Problem)
    (hinv : P.inverseSets) (settings : Settings) (start : Schedule × ℚ)
    (hw : wellFormed P start.1) (timer : Nat → Int) (fuel : Nat)
    (hf : settings.iterations_limit ≤ (fuel : Int)) :
    ∃ r, ILS.solve R P settings start timer fuel = some r := by
  obtain ⟨r0, h0, hw0⟩ := vnd_defined P hinv start hw
  unfold ILS.solve ILS.initial
  rw [h0]
  simp only [Option.map_some']
  exact loop_defined R hR P hinv settings timer fuel _ hw0 (by simpa using hf)

/-! ## Claims on `ILS` -/

theorem exRotate_inverseSets : exRotate.inverseSets :=
  ⟨fun _ => List.nodup_nil, fun _ => List.nodup_nil,
    fun _ _ => ⟨fun h => absurd h (List.not_mem_nil _), fun h => absurd h (List.not_mem_nil _)⟩⟩

theorem exCrossed_inverseSets : exCrossed.inverseSets := by
  refine ⟨?_, ?_, ?_⟩
  · intro j
    show (if j = 2 then [1] else []).Nodup
    split <;> simp
  · intro i
    show (if i = 1 then [2] else []).Nodup
    split <;> simp
  · intro i j
    show i ∈ (if j = 2 then [1] else []) ↔ j ∈ (if i = 1 then [2] else [])
    by_cases hj : j = 2 <;> by_cases hi : i = 1 <;> simp [hi, hj]

theorem reversing_lawful : reversing.lawful := fun _ xs => List.reverse_perm xs

theorem solve_trace {γ : Type} (R : Generator γ) (P : Problem) (settings : Settings)
    (start : Schedule × ℚ) (timer : Nat → Int) (fuel : Nat) (r : ILS.State γ)
    (I : ILS.State γ → Prop)
    (hI : ∀ a b, I a → ILS.continues settings timer a → ILS.iterate R P a = some b → I b)
    (h0 : ∀ s0, ILS.initial R P settings start = some s0 → I s0)
    (h : ILS.solve R P settings start timer fuel = some r) :
    ∃ s0 tr, ILS.initial R P settings start = some s0 ∧
      LocalSearch.vnd P start = some s0.incumbent ∧ s0.iteration = 0 ∧
      s0.perturbation_passes = 1 ∧
      ILS.states R P settings timer fuel s0 = some tr ∧ tr.head? = some s0 ∧
      tr.getLast? = some r ∧ tr.length = r.iteration + 1 ∧ I r ∧
      tr.Chain' (fun a b => I a ∧ ILS.continues settings timer a ∧
        ILS.iterate R P a = some b) := by
  unfold ILS.solve at h
  cases hs : ILS.initial R P settings start with
  | none =>
    rw [hs] at h
    exact absurd h (by simp)
  | some s0 =>
    rw [hs] at h
    simp only [] at h
    have hv : LocalSearch.vnd P start = some s0.incumbent ∧ s0.iteration = 0 ∧
        s0.perturbation_passes = 1 := by
      unfold ILS.initial at hs
      cases hvnd : LocalSearch.vnd P start with
      | none =>
        rw [hvnd] at hs
        exact absurd hs (by simp)
      | some incumbent =>
        rw [hvnd] at hs
        simp only [Option.map_some', Option.some.injEq] at hs
        subst hs
        exact ⟨rfl, rfl, rfl⟩
    obtain ⟨tr, htr⟩ := states_of_loop R P settings timer fuel s0 r h
    obtain ⟨h1, h2, h3, h4⟩ := states_chain R P settings timer I hI fuel s0 tr (h0 s0 hs) htr
    have hlast : tr.getLast? = some r := by rw [← h3, h]
    obtain ⟨h5, _, h7⟩ := h4 r hlast
    refine ⟨s0, tr, rfl, hv.1, hv.2.1, hv.2.2, htr, h1, hlast, ?_, h5, h2⟩
    have := hv.2.1
    omega

/-- C22. `ILS::solve` respects its limits: with an iterations limit that is not negative,
the iteration counter of the result (the reported `Iterations`), which counts the
iterations performed, is at most the limit; every iteration that runs starts below the
limit, and the number of calls of `ILS::perturb` that the body of the loop makes in it
(`ILS.pass` counts them where it makes them) is at least 1 and at most
`perturbation_passes_limit`; with an iterations limit of 0 or a passes limit below 1 no
iteration runs and the result is the VND optimum of the start solution. On a well-formed
start the run returns once the loop is given as many passes as the iterations limit. -/
theorem ils_respects_limits {γ : Type} (R : Generator γ) (P : Problem)
    (settings : Settings) (start : Schedule × ℚ) (timer : Nat → Int) (fuel : Nat) :
    (∀ r, ILS.solve R P settings start timer fuel = some r →
      (0 ≤ settings.iterations_limit → (r.iteration : Int) ≤ settings.iterations_limit) ∧
      (∃ s0 tr, ILS.initial R P settings start = some s0 ∧
        ILS.states R P settings timer fuel s0 = some tr ∧ tr.head? = some s0 ∧
        tr.getLast? = some r ∧ tr.length = r.iteration + 1 ∧
        tr.Chain' (fun a b => (a.iteration : Int) < settings.iterations_limit ∧
          ∃ calls, ILS.pass R P a = some (b, calls) ∧
            1 ≤ calls ∧ (calls : Int) ≤ settings.perturbation_passes_limit)) ∧
      (settings.iterations_limit = 0 ∨ settings.perturbation_passes_limit < 1 →
        r.iteration = 0 ∧ ILS.initial R P settings start = some r ∧
        LocalSearch.vnd P start = some r.incumbent)) ∧
    (R.lawful → P.inverseSets → wellFormed P start.1 →
      settings.iterations_limit ≤ (fuel : Int) →
      ∃ r, ILS.solve R P settings start timer fuel = some r) := by
  refine ⟨?_, fun hR hinv hw hf => solve_defined R hR P hinv settings start hw timer fuel hf⟩
  intro r h
  obtain ⟨s0, tr, h1, h2, h3, h4, h5, h6, h7, h8, h9, h10⟩ :=
    solve_trace R P settings start timer fuel r
      (fun s => 1 ≤ s.perturbation_passes ∧
        (0 ≤ settings.iterations_limit → (s.iteration : Int) ≤ settings.iterations_limit))
      (fun a b _ hc hab => by
        obtain ⟨hit, hcases⟩ := iterate_spec R P a b hab
        have := hc.1
        refine ⟨?_, fun _ => by rw [hit]; push_cast; omega⟩
        rcases hcases with ⟨_, hp, _⟩ | ⟨_, hp, _⟩ <;> omega)
      (fun s0 hs0 => by
        unfold ILS.initial at hs0
        cases hvnd : LocalSearch.vnd P start with
        | none =>
          rw [hvnd] at hs0
          exact absurd hs0 (by simp)
        | some incumbent =>
          rw [hvnd] at hs0
          simp only [Option.map_some', Option.some.injEq] at hs0
          subst hs0
          exact ⟨le_refl _, fun h0 => by simpa using h0⟩)
      h
  refine ⟨h9.2, ⟨s0, tr, h1, h5, h6, h7, h8, ?_⟩, ?_⟩
  · refine List.Chain'.imp ?_ h10
    intro a b hab
    obtain ⟨⟨hp, _⟩, hc, hit⟩ := hab
    obtain ⟨calls, hpass⟩ := iterate_pass R P a b hit
    have hch : calls = a.perturbation_passes := by
      rw [pass_calls R P a b calls hpass]
      omega
    refine ⟨hc.1, calls, hpass, by rw [hch]; exact hp, by rw [hch]; exact hc.2.2⟩
  · intro hlim
    have hnc : ¬ ILS.continues settings timer s0 := by
      intro hc
      have ha := hc.1
      have hb := hc.2.2
      rw [h3] at ha
      rw [h4] at hb
      simp only [Nat.cast_zero, Nat.cast_one] at ha hb
      rcases hlim with hlim | hlim <;> omega
    have hr : r = s0 := by
      unfold ILS.solve at h
      rw [h1] at h
      simp only [] at h
      unfold ILS.loop at h
      rw [if_neg hnc] at h
      injection h with h
      exact h.symm
    rw [hr]
    exact ⟨h3, h1, h2⟩

theorem ils_respects_limits_witness :
    (∀ r, ILS.solve reversing exRotate exSettings exStart (fun _ => 0) 1 = some r →
      (r.iteration : Int) ≤ exSettings.iterations_limit) ∧
    (∃ r, ILS.solve reversing exRotate exSettings exStart (fun _ => 0) 1 = some r) ∧
    ((ILS.initial reversing exRotate exSettings exStart).bind
      (ILS.pass reversing exRotate)).map Prod.snd = some 1 :=
  ⟨fun r h =>
    ((ils_respects_limits reversing exRotate exSettings exStart (fun _ => 0) 1).1 r h).1
      (by decide),
   (ils_respects_limits reversing exRotate exSettings exStart (fun _ => 0) 1).2
    reversing_lawful exRotate_inverseSets ⟨by decide, by decide⟩ (by decide),
   by decide!⟩

/-- C23. In a step of the chain of `ILS::perturb` on a well-formed entry, when
`utils::evaluate` marks no insertion position of the target list as feasible, the step
returns and the removal is undone exactly: every team list has the same switch ids in
the same order as before the step, also when origin and target are the same team, and
the entry is the one `utils::evaluate` computes for the entry before the step, whose
schedule has these ids. -/
theorem perturb_undoes_removal {γ : Type} (R : Generator γ) (hR : R.lawful) (P : Problem)
    (hinv : P.inverseSets) (chain : List Nat) (entry : Schedule × ℚ) (generator : γ)
    (idx l_origin l_target idx_origin : Nat) (hw : wellFormed P entry.1)
    (horigin : l_origin = chain.getD idx 0)
    (htarget : l_target = chain.getD ((idx + 1) % chain.length) 0)
    (hlo : l_origin ≤ P.m) (hlt : l_target ≤ P.m)
    (hne : (teamOf entry.1 l_origin).length ≠ 0)
    (hdrawn : idx_origin = (R.draw generator).1 % (teamOf entry.1 l_origin).length)
    (hnone : ∀ idx_target,
      idx_target ≤ (teamOf (eraseAt entry.1 l_origin idx_origin) l_target).length →
      (utils.evaluate P (insertAt (eraseAt entry.1 l_origin idx_origin) l_target idx_target
        (maneuverAt entry.1 l_origin idx_origin), entry.2)).map Prod.fst ≠ some true) :
    ∃ out g, ILS.chainStep R P chain (entry, generator) idx = some (out, g) ∧
      ids out.1 = ids entry.1 ∧ ∃ b, utils.evaluate P entry = some (b, out) := by
  have hio : idx_origin < (teamOf entry.1 l_origin).length := by
    rw [hdrawn]
    exact Nat.mod_lt _ (Nat.pos_of_ne_zero hne)
  have hperm := hR (R.draw generator).2
    (List.range ((teamOf (eraseAt entry.1 l_origin idx_origin) l_target).length + 1))
  have hidx : ∀ k ∈ (R.shuffle (R.draw generator).2
      (List.range ((teamOf (eraseAt entry.1 l_origin idx_origin) l_target).length + 1))).1,
      k ≤ (teamOf (eraseAt entry.1 l_origin idx_origin) l_target).length := by
    intro k hk
    have := (hperm.mem_iff).mp hk
    rw [List.mem_range] at this
    omega
  obtain ⟨out, h1, _, h2⟩ := relocate_spec P hinv entry l_origin idx_origin l_target _ hw hlo
    hlt hio hidx
  have hstep : ILS.chainStep R P chain (entry, generator) idx =
      some (out, (R.shuffle (R.draw generator).2 (List.range
        ((teamOf (eraseAt entry.1 l_origin idx_origin) l_target).length + 1))).2) := by
    unfold ILS.chainStep
    simp only []
    rw [← horigin, ← htarget, ← hdrawn, if_pos (by have := hw.1; omega), if_pos hne,
      if_pos (by have := hw.1; omega), h1]
    rfl
  rcases h2 with ⟨⟨b, hb⟩, _⟩ | ⟨k, hk, μ, hfeas⟩
  · exact ⟨out, _, hstep, evaluate_ids P entry b out hb, b, hb⟩
  · exfalso
    apply hnone k (hidx k hk)
    rw [evaluate_flag_congr P
      (insertAt (eraseAt entry.1 l_origin idx_origin) l_target k
        (maneuverAt entry.1 l_origin idx_origin), entry.2)
      (insertAt (eraseAt entry.1 l_origin idx_origin) l_target k
        (maneuverAt entry.1 l_origin idx_origin), μ) rfl, hfeas]
    rfl

theorem perturb_undoes_removal_witness :
    (∃ out g, ILS.chainStep reversing exCrossed [2, 1]
        (([[], [(3, 0)], [(2, 0), (1, 0)]], 0), ()) 1 = some (out, g) ∧
      ids out.1 = ids (([[], [(3, 0)], [(2, 0), (1, 0)]], 0) : Schedule × ℚ).1 ∧
      ∃ b, utils.evaluate exCrossed ([[], [(3, 0)], [(2, 0), (1, 0)]], 0) = some (b, out)) ∧
    ∃ out g, ILS.chainStep reversing exRemote [1]
        (([[], [(3, 0), (2, 0), (1, 0)]], 0), ()) 0 = some (out, g) ∧
      ids out.1 = ids (([[], [(3, 0), (2, 0), (1, 0)]], 0) : Schedule × ℚ).1 ∧
      ∃ b, utils.evaluate exRemote ([[], [(3, 0), (2, 0), (1, 0)]], 0) = some (b, out) :=
  ⟨perturb_undoes_removal reversing reversing_lawful exCrossed exCrossed_inverseSets [2, 1]
      ([[], [(3, 0)], [(2, 0), (1, 0)]], 0) () 1 1 2 0 ⟨by decide, by decide⟩ rfl rfl
      (by decide) (by decide) (by decide) rfl (by decide!),
    perturb_undoes_removal reversing reversing_lawful exRemote exRemote_inverseSets [1]
      ([[], [(3, 0), (2, 0), (1, 0)]], 0) () 0 1 1 0 ⟨by decide, by decide⟩ rfl rfl
      (by decide) (by decide) (by decide) rfl (by decide!)⟩

/-! ## Further claims on the comparison, the verifier and the search drivers -/

/-- C39. On rational numbers `utils::is_lower` is a strict partial order: it is
irreflexive, `is_lower(a, b)` gives `is_greater(b, a)` and excludes `is_lower(b, a)`, and
it is transitive; the tolerance equality `utils::is_equal` is not transitive. -/
theorem is_lower_strict_order :
    (∀ a, utils.is_lower a a = false) ∧
    (∀ a b, utils.is_lower a b = true →
      utils.is_greater b a = true ∧ utils.is_lower b a = false) ∧
    (∀ a b c, utils.is_lower a b = true → utils.is_lower b c = true →
      utils.is_lower a c = true) ∧
    ∃ a b c, utils.is_equal a b = true ∧ utils.is_equal b c = true ∧
      utils.is_equal a c = false := by
  have hT := threshold_pos
  refine ⟨?_, ?_, ?_, ?_⟩
  · intro a
    rw [is_lower_false_iff]
    linarith
  · intro a b h
    have h1 := (is_lower_iff a b).mp h
    refine ⟨?_, ?_⟩
    · unfold utils.is_greater
      rw [decide_eq_true_eq, compare_pos_iff]
      refine ⟨by linarith, ?_⟩
      rw [abs_of_nonneg (by linarith)]
      linarith
    · rw [is_lower_false_iff]
      linarith
  · intro a b c h1 h2
    have h3 := (is_lower_iff a b).mp h1
    have h4 := (is_lower_iff b c).mp h2
    rw [is_lower_iff]
    linarith
  · exact ⟨0, 6 / 1000000, 12 / 1000000, by decide!, by decide!, by decide!⟩

theorem is_lower_strict_order_witness :
    utils.is_greater 1 0 = true ∧ utils.is_lower 1 0 = false :=
  is_lower_strict_order.2.1 0 1 (by decide!)

/-- C38 fails on the code. `Problem::is_feasible` never returns true when it is called
without a receiver: on the schedule of `exTravel` below every check passes, and the last
statement `*msg = "Feasible solution."` writes through the null pointer, so the call has no
defined result, while the same call with a receiver returns true. -/
theorem is_feasible_needs_receiver :
    (∀ (P : Problem) (schedule : Schedule) (r : Option String),
      P.is_feasible schedule none ≠ some (true, r)) ∧
    exTravel.is_feasible [[], [(1, 0), (2, 10)]] none = none ∧
    exTravel.is_feasible [[], [(1, 0), (2, 10)]] (some "") =
      some (true, some "Feasible solution.") := by
  refine ⟨?_, by decide!, by decide!⟩
  intro P schedule r h
  rw [is_feasible_eq] at h
  have hrej : ∀ text, reject none text ≠ some (true, r) := by
    intro text hr
    unfold reject at hr
    injection hr with hr
    injection hr with hr _
    cases hr
  split_ifs at h with h1 h2 h3 h4 h5 h6 h7 h8
  all_goals exact hrej _ h

theorem vndLoop_single (step : Schedule × ℚ → Option (Schedule × ℚ)) :
    ∀ fuel entry, LocalSearch.vndLoop [step] fuel [step] entry =
      LocalSearch.descend step fuel entry := by
  intro fuel
  induction fuel with
  | zero =>
    intro entry
    rfl
  | succ fuel ih =>
    intro entry
    unfold LocalSearch.vndLoop LocalSearch.descend
    cases step entry with
    | none => rfl
    | some neighbor =>
      simp only []
      split
      · exact ih neighbor
      · cases fuel <;> rfl

/-- C36. For every instance, entry, neighborhood and number of passes,
`LocalSearch::best_improvement` with the neighborhood and
`LocalSearch::best_improvement_vnd` with the one-element list of it have the same result,
which is defined on a well-formed entry after `rounds entry.2 + 1` passes; and
`best_improvement_vnd` with the empty list returns the entry unchanged. -/
theorem single_neighborhood_is_vnd (P : Problem) (entry : Schedule × ℚ)
    (neighborhood : Neighborhood) :
    (∀ fuel, LocalSearch.best_improvement P entry neighborhood fuel =
      LocalSearch.best_improvement_vnd P entry [neighborhood] fuel) ∧
    (∀ fuel, LocalSearch.best_improvement_vnd P entry [] fuel = some entry) ∧
    (P.inverseSets → wellFormed P entry.1 →
      ∃ r, LocalSearch.best_improvement P entry neighborhood (rounds entry.2 + 1) = some r ∧
        LocalSearch.best_improvement_vnd P entry [neighborhood] (rounds entry.2 + 1) =
          some r) := by
  have h1 : ∀ fuel, LocalSearch.best_improvement P entry neighborhood fuel =
      LocalSearch.best_improvement_vnd P entry [neighborhood] fuel := by
    intro fuel
    unfold LocalSearch.best_improvement LocalSearch.best_improvement_vnd
    exact (vndLoop_single _ fuel entry).symm
  refine ⟨h1, ?_, ?_⟩
  · intro fuel
    unfold LocalSearch.best_improvement_vnd
    cases fuel <;> rfl
  · intro hinv hw
    obtain ⟨r, hr⟩ := descend_defined P hinv neighborhood _ entry hw (Nat.lt_succ_self _)
    refine ⟨r, hr, ?_⟩
    rw [← h1]
    exact hr

theorem single_neighborhood_is_vnd_witness :
    ∃ r, LocalSearch.best_improvement exTwoTeams ([[], [(1, 6)], [(2, 6)]], 7)
          Neighborhood.Swap (rounds (7 : ℚ) + 1) = some r ∧
      LocalSearch.best_improvement_vnd exTwoTeams ([[], [(1, 6)], [(2, 6)]], 7)
          [Neighborhood.Swap] (rounds (7 : ℚ) + 1) = some r :=
  (single_neighborhood_is_vnd exTwoTeams ([[], [(1, 6)], [(2, 6)]], 7)
    Neighborhood.Swap).2.2 exTwoTeams_inverseSets ⟨by decide, by decide⟩

theorem chain_all {α : Type} (I : α → Prop) (rel : α → α → Prop) :
    ∀ tr : List α, tr.Chain' (fun a b => I a ∧ rel a b) →
      (∀ last, tr.getLast? = some last → I last) → ∀ a ∈ tr, I a := by
  intro tr
  induction tr with
  | nil => intro _ _ a ha; exact absurd ha (List.not_mem_nil _)
  | cons x xs ih =>
    intro hc hl a ha
    cases xs with
    | nil =>
      simp only [List.mem_singleton] at ha
      subst ha
      exact hl a rfl
    | cons y ys =>
      rw [List.chain'_cons] at hc
      rcases List.mem_cons.mp ha with rfl | ha
      · exact hc.1.1
      · exact ih hc.2 (fun last h => hl last (by rw [List.getLast?_cons_cons]; exact h)) a ha

/-- C37. At every test of the main loop of `ILS::solve`,
`perturbation_passes = 1 + (iteration - iteration_last_improvement)` and
`iteration_last_improvement ≤ iteration`; so in the result the reported `Iterations`
minus `Iteration of last improvement` is at most `max(perturbation_passes_limit, 0)`,
with equality when the loop ends with `perturbation_passes` above a limit that is at
least 1. On a well-formed start the run returns once the loop is given as many passes as
the iterations limit. -/
theorem ils_escalation {γ : Type} (R : Generator γ) (P : Problem)
    (settings : Settings) (start : Schedule × ℚ) (timer : Nat → Int) (fuel : Nat) :
    (∀ r, ILS.solve R P settings start timer fuel = some r →
      (∃ s0 tr, ILS.initial R P settings start = some s0 ∧
        ILS.states R P settings timer fuel s0 = some tr ∧ tr.getLast? = some r ∧
        ∀ s ∈ tr,
          s.perturbation_passes = 1 + (s.iteration - s.iteration_last_improvement) ∧
          s.iteration_last_improvement ≤ s.iteration) ∧
      (r.iteration : Int) - (r.iteration_last_improvement : Int) ≤
        max settings.perturbation_passes_limit 0 ∧
      (¬ (r.perturbation_passes : Int) ≤ settings.perturbation_passes_limit →
        1 ≤ settings.perturbation_passes_limit →
        (r.iteration : Int) - (r.iteration_last_improvement : Int) =
          settings.perturbation_passes_limit)) ∧
    (R.lawful → P.inverseSets → wellFormed P start.1 →
      settings.iterations_limit ≤ (fuel : Int) →
      ∃ r, ILS.solve R P settings start timer fuel = some r) := by
  refine ⟨?_, fun hR hinv hw hf => solve_defined R hR P hinv settings start hw timer fuel hf⟩
  intro r h
  obtain ⟨s0, tr, h1, _, h3, h4, h5, _, h7, _, h9, h10⟩ :=
    solve_trace R P settings start timer fuel r
      (fun s => s.perturbation_passes = 1 + (s.iteration - s.iteration_last_improvement) ∧
        s.iteration_last_improvement ≤ s.iteration ∧
        (s.perturbation_passes : Int) ≤ max settings.perturbation_passes_limit 0 + 1)
      (fun a b ha hc hab => by
        obtain ⟨hit, hcases⟩ := iterate_spec R P a b hab
        obtain ⟨ha1, ha2, _⟩ := ha
        have hp := hc.2.2
        have hm := le_max_left settings.perturbation_passes_limit 0
        have hz := le_max_right settings.perturbation_passes_limit 0
        rcases hcases with ⟨_, hp1, hl1⟩ | ⟨_, hp1, hl1⟩
        · refine ⟨by omega, by omega, ?_⟩
          rw [hp1]
          push_cast
          omega
        · refine ⟨by omega, by omega, ?_⟩
          rw [hp1]
          push_cast
          omega)
      (fun s0 hs0 => by
        unfold ILS.initial at hs0
        cases hvnd : LocalSearch.vnd P start with
        | none =>
          rw [hvnd] at hs0
          exact absurd hs0 (by simp)
        | some incumbent =>
          rw [hvnd] at hs0
          simp only [Option.map_some', Option.some.injEq] at hs0
          subst hs0
          have hz := le_max_right settings.perturbation_passes_limit 0
          refine ⟨rfl, le_refl _, ?_⟩
          show ((1 : Nat) : Int) ≤ max settings.perturbation_passes_limit 0 + 1
          push_cast
          omega)
      h
  have hall := chain_all _ _ tr h10 (fun last hl => by
    rw [h7] at hl
    injection hl with hl
    rw [← hl]
    exact h9)
  obtain ⟨h11, h12, h13⟩ := h9
  refine ⟨⟨s0, tr, h1, h5, h7, fun s hs => ⟨(hall s hs).1, (hall s hs).2.1⟩⟩, ?_, ?_⟩
  · omega
  · intro hover hlim
    have hm : max settings.perturbation_passes_limit 0 = settings.perturbation_passes_limit :=
      max_eq_left (by omega)
    rw [hm] at h13
    omega

theorem ils_escalation_witness :
    ILS.solve reversing exRotate
        { exSettings with iterations_limit := 4, perturbation_passes_limit := 2 } exStart
        (fun _ => 0) 4 =
      some { incumbent := ([[], [(1, 0)], [(2, 0)], [(3, 0)]], 1), iteration := 3,
             perturbation_passes := 3, iteration_last_improvement := 1, generator := () } ∧
    ((3 : Nat) : Int) - ((1 : Nat) : Int) = 2 :=
  ⟨by decide!,
    ((ils_escalation reversing exRotate
      { exSettings with iterations_limit := 4, perturbation_passes_limit := 2 } exStart
      (fun _ => 0) 4).1
      { incumbent := ([[], [(1, 0)], [(2, 0)], [(3, 0)]], 1), iteration := 3,
        perturbation_passes := 3, iteration_last_improvement := 1, generator := () }
      (by decide!)).2.2 (by decide) (by decide)⟩

/-! ## Best and first improvement stop on the same entries -/

theorem keepBetter_fold_evaluated (P : Problem) (cands : List Schedule) :
    ∀ best r : Schedule × ℚ, cands.foldlM (keepBetter P) best = some r →
      ∀ cand ∈ cands, ∃ b out, utils.evaluate P (cand, 0) = some (b, out) := by
  induction cands with
  | nil => intro _ _ _ c hc; exact absurd hc (List.not_mem_nil c)
  | cons c cs ih =>
    intro best r h cand hcand
    rw [List.foldlM_cons] at h
    cases hk : keepBetter P best c with
    | none =>
      rw [hk] at h
      exact absurd h (by simp)
    | some best1 =>
      rw [hk] at h
      rcases List.mem_cons.mp hcand with rfl | hmem
      · unfold keepBetter at hk
        cases he : utils.evaluate P (cand, 0) with
        | none =>
          rw [he] at hk
          exact absurd hk (by simp)
        | some res => exact ⟨res.1, res.2, rfl⟩
      · exact ih best1 r h cand hmem

theorem firstImprovementLoop_evaluated {α : Type} (P : Problem) (entry : Schedule × ℚ)
    (move : α → Schedule) (mvs : List α) (r : Schedule × ℚ)
    (h : firstImprovementLoop P entry move mvs = some r)
    (hnone : ∀ mv ∈ mvs, ¬ improving P entry (move mv)) :
    ∀ mv ∈ mvs, ∃ b out, utils.evaluate P (move mv, 0) = some (b, out) := by
  induction mvs with
  | nil => intro mv hmv; exact absurd hmv (List.not_mem_nil mv)
  | cons mv rest ih =>
    intro mv1 hmv1
    unfold firstImprovementLoop at h
    split at h
    · exact absurd h (by simp)
    · rename_i b nb he
      rcases List.mem_cons.mp hmv1 with rfl | hmem
      · exact ⟨b, nb, he⟩
      · split at h
        · rename_i hc
          exact absurd ⟨nb, by rw [he, hc.1], hc.2⟩ (hnone mv (List.mem_cons_self _ _))
        · exact ih h (fun mv2 h2 => hnone mv2 (List.mem_cons_of_mem _ h2)) mv1 hmem

theorem scans_agree {α : Type} (P : Problem) (entry : Schedule × ℚ) (move : α → Schedule)
    (mvs shuffled : List α) (hperm : shuffled.Perm mvs) :
    (mvs.map move).foldlM (keepBetter P) entry = some entry ↔
      firstImprovementLoop P entry move shuffled = some entry := by
  constructor
  · intro h
    have hev := keepBetter_fold_evaluated P _ entry entry h
    obtain ⟨_, _, hmin⟩ := keepBetter_fold_spec P _ entry entry h
    have hnone : ∀ c ∈ shuffled.map move, ¬ improving P entry c := by
      rintro c hc ⟨out, ho, hl⟩
      have hc1 : c ∈ mvs.map move := ((hperm.map move).mem_iff).mp hc
      exact absurd hl (not_lt.mpr (hmin c hc1 out ho))
    obtain ⟨r, hr⟩ := firstImprovementLoop_defined P entry move shuffled
      (fun mv hmv => hev (move mv) (List.mem_map_of_mem _ (hperm.mem_iff.mp hmv)))
    have hspec := firstImprovementLoop_spec P entry move shuffled r hr
    rw [hr, (firstImproving_entry_iff P entry _ r hspec).mpr hnone]
  · intro h
    have hspec := firstImprovementLoop_spec P entry move shuffled entry h
    have hnone := (firstImproving_entry_iff P entry _ entry hspec).mp rfl
    have hev := firstImprovementLoop_evaluated P entry move shuffled entry h
      (fun mv hmv => hnone (move mv) (List.mem_map_of_mem _ hmv))
    obtain ⟨r, hr⟩ := keepBetter_fold_defined P (mvs.map move)
      (by
        intro cand hc
        obtain ⟨mv, hmv, rfl⟩ := List.mem_map.mp hc
        exact hev mv (hperm.mem_iff.mpr hmv))
      entry
    obtain ⟨h1, _, _⟩ := keepBetter_fold_spec P _ entry r hr
    rcases h1 with rfl | ⟨c, hc, he, hl⟩
    · exact hr
    · exact absurd ⟨r, he, hl⟩
        (hnone c (((hperm.map move).mem_iff).mpr hc))

/-- C35. For each of Shift, Reassignement and Swap, every instance, every entry and every
shuffle of the move list, `best_improvement` returns the entry unchanged if and only if
`first_improvement` returns the entry unchanged; so the latter holds for every shuffle
as soon as it holds for one. -/
theorem best_and_first_stop_together (P : Problem) (entry : Schedule × ℚ) :
    (∀ generator : List (Nat × Nat × Nat) → List (Nat × Nat × Nat),
      (∀ xs, (generator xs).Perm xs) →
      (Shift.best_improvement P entry = some entry ↔
        Shift.first_improvement P entry generator = some entry)) ∧
    (∀ generator : List (Nat × Nat × Nat × Nat) → List (Nat × Nat × Nat × Nat),
      (∀ xs, (generator xs).Perm xs) →
      (Reassignement.best_improvement P entry = some entry ↔
        Reassignement.first_improvement P entry generator = some entry)) ∧
    (∀ generator : List (Nat × Nat × Nat × Nat × Nat × Nat) →
        List (Nat × Nat × Nat × Nat × Nat × Nat),
      (∀ xs, (generator xs).Perm xs) →
      (Swap.best_improvement P entry = some entry ↔
        Swap.first_improvement P entry generator = some entry)) := by
  refine ⟨?_, ?_, ?_⟩
  · intro generator hgen
    rw [shift_best_improvement_eq]
    unfold Shift.first_improvement
    split
    · exact scans_agree P entry _ _ _ (hgen _)
    · exact Iff.rfl
  · intro generator hgen
    rw [reassignement_best_improvement_eq]
    unfold Reassignement.first_improvement
    split
    · exact scans_agree P entry _ _ _ (hgen _)
    · exact Iff.rfl
  · intro generator hgen
    rw [swap_best_improvement_eq]
    unfold Swap.first_improvement
    split
    · exact scans_agree P entry _ _ _ (hgen _)
    · exact Iff.rfl

theorem best_and_first_stop_together_witness :
    Swap.first_improvement exTwoTeams ([[], [(2, 1)], [(1, 1)]], 2) List.reverse =
      some ([[], [(2, 1)], [(1, 1)]], 2) :=
  ((best_and_first_stop_together exTwoTeams ([[], [(2, 1)], [(1, 1)]], 2)).2.2 List.reverse
    (fun xs => List.reverse_perm xs)).mp (by decide!)

/-! ## The order of team 0 does not change the moments -/

theorem visit_remote_nonneg (P : Problem) (schedule : Schedule) (t : Nat → Option utils.Ptr)
    (ht : TInit P schedule t)
    (s s1 : utils.EvalState) (l : Nat) (hl : l < P.m + 1)
    (hn : ∀ idx, idx < s.index 0 → 0 ≤ s.mem (utils.Ptr.slot 0 idx))
    (h : utils.visit P schedule t s l = some s1) :
    ∀ idx, idx < s1.index 0 → 0 ≤ s1.mem (utils.Ptr.slot 0 idx) := by
  rcases visit_cases P schedule t s s1 l h with rfl | ⟨hidx, _, tj, v, mem, htj, hv1, hv0,
    hmax, rfl⟩
  · exact hn
  · have htj1 : tj = utils.Ptr.slot l (s.index l) := by
      have := ht.slot l (s.index l) hl hidx
      rw [htj] at this
      injection this
    subst htj1
    obtain ⟨hm1, hm2, _⟩ := maxPredecessors_spec P t _ _ _ mem hmax
    intro idx1 hidx1
    rcases (lt_update_index s.index l 0 idx1).mp hidx1 with hlt | ⟨hl0, rfl⟩
    · have hne : utils.Ptr.slot 0 idx1 ≠ utils.Ptr.slot l (s.index l) := by
        intro e
        injection e with e1 e2
        subst e1 e2
        exact absurd hlt (lt_irrefl _)
      show 0 ≤ mem (utils.Ptr.slot 0 idx1)
      rw [hm1 _ hne, Function.update_noteq hne]
      exact hn idx1 hlt
    · subst hl0
      show 0 ≤ mem (utils.Ptr.slot 0 (s.index 0))
      refine le_trans ?_ hm2
      rw [Function.update_same, hv0 rfl]

theorem visit_least (P : Problem) (schedule : Schedule) (t : Nat → Option utils.Ptr)
    (ht : TInit P schedule t) (hp0 : P.p 0 = 0)
    (τ : Nat → Nat → ℚ) (hτ : lowerBounds P schedule τ)
    (s s1 : utils.EvalState) (l : Nat) (hl : l < P.m + 1)
    (hb : BasicInv P schedule s) (hp : PrecInv P schedule s) (he : earliest P τ s)
    (h : utils.visit P schedule t s l = some s1) : earliest P τ s1 := by
  rcases visit_cases P schedule t s s1 l h with rfl | ⟨hidx, hpend, tj, v, mem, htj, hv1, hv0,
    hmax, rfl⟩
  · exact he
  · have htj1 : tj = utils.Ptr.slot l (s.index l) := by
      have := ht.slot l (s.index l) hl hidx
      rw [htj] at this
      injection this
    subst htj1
    obtain ⟨hm1, _, _⟩ := maxPredecessors_spec P t _ _ _ mem hmax
    intro l1 idx1 hl1 hidx1
    rcases (lt_update_index s.index l l1 idx1).mp hidx1 with hlt | ⟨rfl, rfl⟩
    · have hne : utils.Ptr.slot l1 idx1 ≠ utils.Ptr.slot l (s.index l) := by
        intro e
        injection e with e1 e2
        subst e1 e2
        exact absurd hlt (lt_irrefl _)
      show mem (utils.Ptr.slot l1 idx1) ≤ τ l1 idx1
      rw [hm1 _ hne, Function.update_noteq hne]
      exact he l1 idx1 hl1 hlt
    · show mem (utils.Ptr.slot l1 (s.index l1)) ≤ τ l1 (s.index l1)
      apply maxPredecessors_le P t _ (τ l1 (s.index l1)) _ _ mem hmax
      · rw [Function.update_same]
        by_cases hl0 : l1 = 0
        · rw [hv0 hl0]
          subst hl0
          exact hτ.remote (s.index 0) hidx
        · obtain ⟨ti, hti, hv⟩ := hv1 hl0
          rw [hv]
          have hloc := hb.loc l1 hl
          by_cases hi0 : s.index l1 = 0
          · rw [if_pos hi0] at hloc
            rw [hloc, ht.zero] at hti
            injection hti with hti
            subst hti
            rw [hloc, hb.t0, hp0, hi0]
            have := hτ.first l1 (by omega) (by omega) (by omega)
            linarith
          · rw [if_neg hi0] at hloc
            have hprev : s.index l1 - 1 < (teamOf schedule l1).length := by omega
            rw [hloc, ht.slot l1 (s.index l1 - 1) hl hprev] at hti
            injection hti with hti
            subst hti
            rw [hloc]
            have h1 := he l1 (s.index l1 - 1) hl (by omega)
            have h2 := hτ.next l1 (s.index l1 - 1) (by omega) (by omega) (by omega)
            rw [show s.index l1 - 1 + 1 = s.index l1 from by omega] at h2
            linarith
      · intro k hk tk htk
        obtain ⟨l2, idx2, hl2, hidx2, hsw⟩ :=
          pend_zero_processed P schedule s hp l1 (s.index l1) hl hidx hpend k hk
        have hlen2 := lt_of_lt_of_le hidx2 (hb.idx_le l2 hl2)
        subst hsw
        rw [ht.slot l2 idx2 hl2 hlen2] at htk
        injection htk with htk
        subst htk
        have hne : utils.Ptr.slot l2 idx2 ≠ utils.Ptr.slot l1 (s.index l1) := by
          intro e
          injection e with e1 e2
          subst e1 e2
          exact absurd hidx2 (lt_irrefl _)
        refine ⟨hne, ?_⟩
        rw [Function.update_noteq hne]
        have h1 := he l2 idx2 hl2 hidx2
        have h2 := hτ.precedence l1 (s.index l1) l2 idx2 (by omega) hidx (by omega) hlen2 hk
        linarith

/-- The moments and the makespan that a feasible evaluation fixes are at most those of
any moments that respect the lower bounds of the evaluator, and its own moments respect
them. -/
theorem evaluate_least (P : Problem) (entry out : Schedule × ℚ) (hp0 : P.p 0 = 0)
    (hinv : P.inverseSets) (honce : placesEachSwitchOnce P entry.1)
    (h : utils.evaluate P entry = some (true, out)) :
    lowerBounds P entry.1 (momentAt out.1) ∧
    (∀ l idx, l ≤ P.m → idx < (teamOf entry.1 l).length →
      momentAt out.1 l idx + P.p (switchAt entry.1 l idx) ≤ out.2) ∧
    ∀ τ, lowerBounds P entry.1 τ →
      (∀ l idx, l ≤ P.m → idx < (teamOf entry.1 l).length → momentAt out.1 l idx ≤ τ l idx) ∧
      ∀ x, 0 ≤ x →
        (∀ l idx, l ≤ P.m → idx < (teamOf entry.1 l).length →
          τ l idx + P.p (switchAt entry.1 l idx) ≤ x) → out.2 ≤ x := by
  obtain ⟨s, hloop, hs, ht, hb, hp, hexit, hf, hout1, hout2⟩ :=
    evaluate_final P entry true out hinv honce h
  have hn : P.n ≤ s.n_done := by
    by_contra hlt
    exact hexit ⟨by omega, hf⟩
  have hall := all_done P entry.1 hs s hb hn
  have hmom : ∀ l idx, l ≤ P.m → idx < (teamOf entry.1 l).length →
      momentAt out.1 l idx = s.mem (utils.Ptr.slot l idx) := by
    intro l idx hl hidx
    rw [hout1, momentAt_writeBack P entry.1 s.mem l idx (by omega) hidx]
  have hnn := whileLoop_inv P entry.1 _
    (fun s2 => ∀ idx, idx < s2.index 0 → 0 ≤ s2.mem (utils.Ptr.slot 0 idx))
    (fun s2 s3 h2 h3 =>
      scan_inv P entry.1 _
        (fun s4 => ∀ idx, idx < s4.index 0 → 0 ≤ s4.mem (utils.Ptr.slot 0 idx))
        (fun s4 h4 => h4)
        (fun l s4 s5 hl h4 h5 => visit_remote_nonneg P entry.1 _ ht s4 s5 l hl h4 h5)
        s2 s3 h2 h3)
    P.n _ s (fun idx hidx => absurd hidx (by simp [utils.evalStart])) hloop
  refine ⟨⟨?_, ?_, ?_, ?_⟩, ?_, ?_⟩
  · intro idx hidx
    rw [hmom 0 idx (by omega) hidx]
    exact hnn idx (by rw [hall 0 (by omega)]; exact hidx)
  · intro l idx l1 idx1 hl hidx hl1 hidx1 hmem
    rw [hmom l idx hl hidx, hmom l1 idx1 hl1 hidx1]
    obtain ⟨l2, idx2, hl2, hidx2, hsw, hle⟩ :=
      hp.prec l idx (by omega) (by rw [hall l (by omega)]; exact hidx) _ hmem
    have hlen2 := lt_of_lt_of_le hidx2 (hb.idx_le l2 hl2)
    obtain ⟨e1, e2⟩ := hs.inj l2 idx2 l1 idx1 hl2 hlen2 (by omega) hidx1 hsw
    subst e1 e2
    exact hle
  · intro l h1 hl hlen
    rw [hmom l 0 hl hlen]
    have := hb.travel l 0 h1 (by omega) (by rw [hall l (by omega)]; exact hlen)
    rw [if_pos rfl, hp0] at this
    linarith
  · intro l idx h1 hl hidx
    rw [hmom l idx hl (by omega), hmom l (idx + 1) hl hidx]
    have := hb.travel l (idx + 1) h1 (by omega) (by rw [hall l (by omega)]; exact hidx)
    rw [if_neg (by omega)] at this
    simpa using this
  · intro l idx hl hidx
    rw [hmom l idx hl hidx, hout2, hf, if_pos rfl]
    exact ((hb.span s.makespan).mp (le_refl _)).2 l idx (by omega)
      (by rw [hall l (by omega)]; exact hidx)
  · intro τ hτ
    have he : earliest P τ s := by
      have hI := whileLoop_inv P entry.1 _
        (fun s2 => (BasicInv P entry.1 s2 ∧ PrecInv P entry.1 s2) ∧ earliest P τ s2)
        (fun s2 s3 h2 h3 =>
          scan_inv P entry.1 _
            (fun s4 => (BasicInv P entry.1 s4 ∧ PrecInv P entry.1 s4) ∧ earliest P τ s4)
            (fun s4 h4 => ⟨⟨⟨h4.1.1.idx_le, h4.1.1.loc, h4.1.1.done, h4.1.1.t0,
              h4.1.1.travel, h4.1.1.span⟩, ⟨h4.1.2.pend, h4.1.2.prec⟩⟩, h4.2⟩)
            (fun l s4 s5 hl h4 h5 =>
              ⟨⟨visit_basic P entry.1 _ ht s4 s5 l hl h4.1.1 h5,
                visit_prec P entry.1 _ hs ht hinv s4 s5 l hl h4.1.1 h4.1.2 h5⟩,
                visit_least P entry.1 _ ht hp0 τ hτ s4 s5 l hl h4.1.1 h4.1.2 h4.2 h5⟩)
            s2 s3 h2 h3)
        P.n _ s
        ⟨⟨evalStart_basic P entry.1, evalStart_prec P entry.1 hs⟩,
          fun l idx _ hidx => absurd hidx (by simp [utils.evalStart])⟩ hloop
      exact hI.2
    constructor
    · intro l idx hl hidx
      rw [hmom l idx hl hidx]
      exact he l idx (by omega) (by rw [hall l (by omega)]; exact hidx)
    · intro x hx hall2
      rw [hout2, hf, if_pos rfl]
      apply (hb.span x).mpr
      refine ⟨hx, ?_⟩
      intro l idx hl hidx
      have hidx1 : idx < (teamOf entry.1 l).length := by rw [← hall l hl]; exact hidx
      have h1 := he l idx hl hidx
      have h2 := hall2 l idx (by omega) hidx1
      linarith

theorem moments_at (P : Problem) (entry out : Schedule × ℚ) (b : Bool)
    (hw : wellFormed P entry.1) (h : utils.evaluate P entry = some (b, out)) (l idx : Nat)
    (hl : l ≤ P.m) (hidx : idx < (teamOf entry.1 l).length) :
    P.moments out.1 (switchAt entry.1 l idx) = momentAt out.1 l idx := by
  have hwo := evaluate_wellFormed P entry b out hw h
  have hso := slots_of_once P out.1 hwo.1 hwo.2
  have hids := evaluate_ids P entry b out h
  unfold ids at hids
  rw [← switchAt_ids out.1 entry.1 hids l idx]
  exact moments_slot P out.1 hso l idx (by omega)
    (by rw [teamOf_length_ids out.1 entry.1 hids l]; exact hidx)

theorem switchAt_of_mem (schedule : Schedule) (l : Nat) (x : Int)
    (h : x ∈ (teamOf schedule l).map Prod.fst) :
    ∃ idx, idx < (teamOf schedule l).length ∧ (maneuverAt schedule l idx).1 = x := by
  obtain ⟨mv, hmv, rfl⟩ := List.mem_map.mp h
  obtain ⟨i, hi, rfl⟩ := List.getElem_of_mem hmv
  refine ⟨i, hi, ?_⟩
  unfold maneuverAt
  rw [List.getD_eq_getElem _ _ hi]

theorem mem_of_switchAt (schedule : Schedule) (l idx : Nat)
    (h : idx < (teamOf schedule l).length) :
    (maneuverAt schedule l idx).1 ∈ (teamOf schedule l).map Prod.fst := by
  unfold maneuverAt
  rw [List.getD_eq_getElem _ _ h]
  exact List.mem_map_of_mem _ (List.getElem_mem _)

theorem switchAt_of_team_ids (s1 s2 : Schedule) (l idx : Nat)
    (h : (teamOf s1 l).map Prod.fst = (teamOf s2 l).map Prod.fst) :
    switchAt s1 l idx = switchAt s2 l idx := by
  have h1 := congrArg (fun L => L.getD idx 0) h
  have e : ∀ team : List Maneuver, (team.map Prod.fst).getD idx 0 = (team.getD idx (0, 0)).1 :=
    fun team => List.getD_map team (0, 0) Prod.fst
  simp only [e] at h1
  unfold switchAt maneuverAt
  rw [h1]

theorem crews_moments_le (P : Problem) (hp0 : P.p 0 = 0) (hinv : P.inverseSets)
    (e1 e2 o1 o2 : Schedule × ℚ) (hw1 : wellFormed P e1.1) (hw2 : wellFormed P e2.1)
    (hcrews : ∀ l, 1 ≤ l → l ≤ P.m →
      (teamOf e1.1 l).map Prod.fst = (teamOf e2.1 l).map Prod.fst)
    (h0 : ((teamOf e1.1 0).map Prod.fst).Perm ((teamOf e2.1 0).map Prod.fst))
    (h1 : utils.evaluate P e1 = some (true, o1))
    (h2 : utils.evaluate P e2 = some (true, o2)) :
    (∀ j, 1 ≤ j → j ≤ P.n → P.moments o1.1 j ≤ P.moments o2.1 j) ∧ o1.2 ≤ o2.2 := by
  have hs1 := slots_of_once P e1.1 hw1.1 hw1.2
  have hs2 := slots_of_once P e2.1 hw2.1 hw2.2
  obtain ⟨hb2, hspan2, _⟩ := evaluate_least P e2 o2 hp0 hinv hw2.2 h2
  obtain ⟨_, _, hleast1⟩ := evaluate_least P e1 o1 hp0 hinv hw1.2 h1
  have hlen : ∀ l, 1 ≤ l → l ≤ P.m → (teamOf e1.1 l).length = (teamOf e2.1 l).length := by
    intro l hl1 hl2
    have := congrArg List.length (hcrews l hl1 hl2)
    simpa using this
  have hτ : lowerBounds P e1.1 (fun l idx => P.moments o2.1 (switchAt e1.1 l idx)) := by
    refine ⟨?_, ?_, ?_, ?_⟩
    · intro idx hidx
      obtain ⟨idx1, hidx1, he⟩ := switchAt_of_mem e2.1 0 _
        ((h0.mem_iff).mp (mem_of_switchAt e1.1 0 idx hidx))
      have hsw : switchAt e1.1 0 idx = switchAt e2.1 0 idx1 := by
        unfold switchAt
        rw [he]
      show 0 ≤ P.moments o2.1 (switchAt e1.1 0 idx)
      rw [hsw, moments_at P e2 o2 true hw2 h2 0 idx1 (by omega) hidx1]
      exact hb2.remote idx1 hidx1
    · intro l idx l1 idx1 hl hidx _ _ hmem
      have hb := hs1.bounds l idx (by omega) hidx
      exact precedence_facts P e2 o2 hinv hw2.2 h2 _ hb.2.1 hb.2.2 _ hmem
    · intro l hl1 hl2 hpos
      show P.c 0 (switchAt e1.1 l 0) l ≤ P.moments o2.1 (switchAt e1.1 l 0)
      rw [switchAt_of_team_ids e1.1 e2.1 l 0 (hcrews l hl1 hl2),
        moments_at P e2 o2 true hw2 h2 l 0 hl2 (by rw [← hlen l hl1 hl2]; exact hpos)]
      exact hb2.first l hl1 hl2 (by rw [← hlen l hl1 hl2]; exact hpos)
    · intro l idx hl1 hl2 hidx
      show P.moments o2.1 (switchAt e1.1 l idx) + P.p (switchAt e1.1 l idx) +
          P.c (switchAt e1.1 l idx) (switchAt e1.1 l (idx + 1)) l ≤
        P.moments o2.1 (switchAt e1.1 l (idx + 1))
      have hidx2 : idx + 1 < (teamOf e2.1 l).length := by rw [← hlen l hl1 hl2]; exact hidx
      rw [switchAt_of_team_ids e1.1 e2.1 l idx (hcrews l hl1 hl2),
        switchAt_of_team_ids e1.1 e2.1 l (idx + 1) (hcrews l hl1 hl2),
        moments_at P e2 o2 true hw2 h2 l idx hl2 (by omega),
        moments_at P e2 o2 true hw2 h2 l (idx + 1) hl2 hidx2]
      exact hb2.next l idx hl1 hl2 hidx2
  obtain ⟨hle, hspan⟩ := hleast1 _ hτ
  constructor
  · intro j hj1 hj2
    obtain ⟨l, idx, hl, hidx, rfl⟩ := hs1.surj j hj1 hj2
    rw [moments_at P e1 o1 true hw1 h1 l idx (by omega) hidx]
    exact hle l idx (by omega) hidx
  · apply hspan o2.2 (evaluate_nonneg P e2 o2 hw2.2 h2)
    intro l idx hl hidx
    have hb := hs1.bounds l idx (by omega) hidx
    obtain ⟨l1, idx1, hl1, hidx1, hsw⟩ := hs2.surj _ hb.2.1 hb.2.2
    show P.moments o2.1 (switchAt e1.1 l idx) + P.p (switchAt e1.1 l idx) ≤ o2.2
    rw [← hsw, moments_at P e2 o2 true hw2 h2 l1 idx1 (by omega) hidx1]
    exact hspan2 l1 idx1 (by omega) hidx1

/-- C31. The order of team 0 does not change the timing. Take an instance whose
predecessor and successor sets are inverse to each other, with `p[0] = 0`, and an entry
that places each switch once and is marked feasible. Every other such entry with the same
switch ids on each team `1..m`, position by position, and the same switch ids on team 0
in any order gets the same moment for every switch and the same makespan; so a neighbor
by a Shift move inside team 0 that is marked feasible has the makespan of the entry, not
a lower one. -/
theorem team0_order_is_free (P : Problem) (hp0 : P.p 0 = 0) (hinv : P.inverseSets)
    (e1 o1 : Schedule × ℚ) (hw1 : wellFormed P e1.1)
    (h1 : utils.evaluate P e1 = some (true, o1)) :
    (∀ e2 o2 : Schedule × ℚ, wellFormed P e2.1 →
      (∀ l, 1 ≤ l → l ≤ P.m → (teamOf e1.1 l).map Prod.fst = (teamOf e2.1 l).map Prod.fst) →
      ((teamOf e1.1 0).map Prod.fst).Perm ((teamOf e2.1 0).map Prod.fst) →
      utils.evaluate P e2 = some (true, o2) →
      (∀ j, 1 ≤ j → j ≤ P.n → P.moments o1.1 j = P.moments o2.1 j) ∧ o1.2 = o2.2) ∧
    (∀ idx_origin idx_target out, idx_origin < (teamOf e1.1 0).length →
      idx_target < (teamOf e1.1 0).length → idx_target ≠ idx_origin →
      utils.evaluate P
        (e1.1.set 0 (((teamOf e1.1 0).eraseIdx idx_origin).insertIdx idx_target
          (maneuverAt e1.1 0 idx_origin)), 0) = some (true, out) →
      out.2 = o1.2 ∧ ¬ out.2 < o1.2) := by
  have key : ∀ e2 o2 : Schedule × ℚ, wellFormed P e2.1 →
      (∀ l, 1 ≤ l → l ≤ P.m → (teamOf e1.1 l).map Prod.fst = (teamOf e2.1 l).map Prod.fst) →
      ((teamOf e1.1 0).map Prod.fst).Perm ((teamOf e2.1 0).map Prod.fst) →
      utils.evaluate P e2 = some (true, o2) →
      (∀ j, 1 ≤ j → j ≤ P.n → P.moments o1.1 j = P.moments o2.1 j) ∧ o1.2 = o2.2 := by
    intro e2 o2 hw2 hcrews h0 h2
    obtain ⟨ha, hb⟩ := crews_moments_le P hp0 hinv e1 e2 o1 o2 hw1 hw2 hcrews h0 h1 h2
    obtain ⟨hc, hd⟩ := crews_moments_le P hp0 hinv e2 e1 o2 o1 hw2 hw1
      (fun l hl1 hl2 => (hcrews l hl1 hl2).symm) h0.symm h2 h1
    exact ⟨fun j hj1 hj2 => le_antisymm (ha j hj1 hj2) (hc j hj1 hj2), le_antisymm hb hd⟩
  refine ⟨key, ?_⟩
  intro idx_origin idx_target out hio hit hne hout
  have hlen0 : 0 < e1.1.length := by have := hw1.1; omega
  have hwc : wellFormed P (e1.1.set 0 (((teamOf e1.1 0).eraseIdx idx_origin).insertIdx
      idx_target (maneuverAt e1.1 0 idx_origin))) :=
    shift_wellFormed P e1.1 _ hw1 ⟨0, idx_origin, idx_target, by omega, hio, hit, hne, rfl⟩
  have hperm : ((teamOf e1.1 0).map Prod.fst).Perm
      ((teamOf (e1.1.set 0 (((teamOf e1.1 0).eraseIdx idx_origin).insertIdx idx_target
        (maneuverAt e1.1 0 idx_origin))) 0).map Prod.fst) := by
    rw [teamOf_set_self _ _ _ hlen0]
    apply List.Perm.map
    have hp1 := perm_getD_eraseIdx (0, 0) (teamOf e1.1 0) idx_origin hio
    have hp2 := List.perm_insertIdx (maneuverAt e1.1 0 idx_origin)
      ((teamOf e1.1 0).eraseIdx idx_origin)
      (show idx_target ≤ ((teamOf e1.1 0).eraseIdx idx_origin).length by
        rw [List.length_eraseIdx, if_pos hio]; omega)
    unfold maneuverAt at hp2 ⊢
    exact hp1.trans hp2.symm
  obtain ⟨_, hm⟩ := key (_, 0) out hwc
    (fun l hl1 _ => by rw [teamOf_set_ne _ _ _ _ (by omega)]) hperm hout
  exact ⟨hm.symm, by rw [hm]; exact lt_irrefl _⟩

theorem team0_order_is_free_witness :
    (∀ j, 1 ≤ j → j ≤ exRemote.n →
      exRemote.moments (([[(2, 5), (3, 0)], [(1, 0)]], 5) : Schedule × ℚ).1 j =
        exRemote.moments (([[(3, 0), (2, 5)], [(1, 0)]], 5) : Schedule × ℚ).1 j) ∧
    (([[(2, 5), (3, 0)], [(1, 0)]], 5) : Schedule × ℚ).2 =
      (([[(3, 0), (2, 5)], [(1, 0)]], 5) : Schedule × ℚ).2 :=
  (team0_order_is_free exRemote rfl exRemote_inverseSets ([[(2, 0), (3, 0)], [(1, 0)]], 0)
    ([[(2, 5), (3, 0)], [(1, 0)]], 5) ⟨by decide, by decide⟩ (by decide!)).1
    ([[(3, 0), (2, 0)], [(1, 0)]], 0) ([[(3, 0), (2, 5)], [(1, 0)]], 5)
    ⟨by decide, by decide⟩ (by decide) (by decide) (by decide!)

/-! ## Moves keep the assignment of the switches to team 0 and to the physical teams -/

theorem keeps_refl (P : Problem) (schedule : Schedule) : keepsAssignment P schedule schedule :=
  ⟨rfl, List.Perm.refl _, List.Perm.refl _⟩

theorem keeps_trans (P : Problem) (a b c : Schedule) (h1 : keepsAssignment P a b)
    (h2 : keepsAssignment P b c) : keepsAssignment P a c :=
  ⟨h2.teams.trans h1.teams, h2.remote.trans h1.remote, h2.crews.trans h1.crews⟩

theorem crewIds_ids (P : Problem) (s1 s2 : Schedule) (h : ids s1 = ids s2) :
    crewIds P s1 = crewIds P s2 := by
  unfold crewIds
  unfold ids at h
  congr 1
  funext l
  exact teamOf_ids s1 s2 h l

theorem keeps_ids (P : Problem) (schedule r c : Schedule) (hids : ids r = ids c)
    (h : keepsAssignment P schedule c) : keepsAssignment P schedule r := by
  have hlen : r.length = c.length := by
    have := congrArg List.length hids
    unfold ids at this
    simpa using this
  refine ⟨hlen.trans h.teams, ?_, ?_⟩
  · rw [teamOf_ids r c hids 0]
    exact h.remote
  · rw [crewIds_ids P r c hids]
    exact h.crews

theorem switchIds_split (P : Problem) (schedule : Schedule)
    (hlen : P.m + 1 ≤ schedule.length) :
    switchIds P schedule = (teamOf schedule 0).map Prod.fst ++ crewIds P schedule := by
  rw [switchIds_flatMap P schedule hlen, List.range_eq_range', List.range'_succ,
    List.flatMap_cons]
  rfl

theorem keeps_of_counts (P : Problem) (schedule r : Schedule)
    (hlen : P.m + 1 ≤ schedule.length) (hteams : r.length = schedule.length)
    (hall : ∀ a, (switchIds P r).count a = (switchIds P schedule).count a)
    (h0 : ((teamOf r 0).map Prod.fst).Perm ((teamOf schedule 0).map Prod.fst)) :
    keepsAssignment P schedule r := by
  refine ⟨hteams, h0, ?_⟩
  rw [List.perm_iff_count]
  intro a
  have h1 := hall a
  rw [switchIds_split P schedule hlen, switchIds_split P r (by rw [hteams]; exact hlen),
    List.count_append, List.count_append, h0.count_eq a] at h1
  omega

theorem perm_erase_insert (team : List Maneuver) (i j : Nat) (hi : i < team.length)
    (hj : j < team.length) :
    (((team.eraseIdx i).insertIdx j (team.getD i (0, 0))).map Prod.fst).Perm
      (team.map Prod.fst) := by
  apply List.Perm.map
  have hp1 := perm_getD_eraseIdx (0, 0) team i hi
  have hp2 := List.perm_insertIdx (team.getD i (0, 0)) (team.eraseIdx i)
    (show j ≤ (team.eraseIdx i).length by rw [List.length_eraseIdx, if_pos hi]; omega)
  exact hp2.trans hp1.symm

theorem shift_keeps (P : Problem) (schedule cand : Schedule)
    (hlen : P.m + 1 ≤ schedule.length) (h : Shift.neighbor P schedule cand) :
    keepsAssignment P schedule cand := by
  obtain ⟨l, io, it, hl, hio, hit, _, rfl⟩ := h
  apply keeps_of_counts P schedule _ hlen (by simp)
  · intro a
    have h1 := count_switchIds_set P schedule l
      (((teamOf schedule l).eraseIdx io).insertIdx it (maneuverAt schedule l io)) hl hlen a
    have h2 := count_ids_erase (teamOf schedule l) io hio a
    have h3 := count_ids_insert ((teamOf schedule l).eraseIdx io) it
      (by rw [List.length_eraseIdx, if_pos hio]; omega) (maneuverAt schedule l io) a
    unfold maneuverAt at h1 h3 ⊢
    omega
  · by_cases hl0 : l = 0
    · subst hl0
      rw [teamOf_set_self _ _ _ (by omega)]
      unfold maneuverAt
      exact perm_erase_insert _ io it hio hit
    · rw [teamOf_set_ne _ _ _ _ (fun e => hl0 e.symm)]

theorem reassignement_keeps (P : Problem) (schedule cand : Schedule)
    (hlen : P.m + 1 ≤ schedule.length) (h : Reassignement.neighbor P schedule cand) :
    keepsAssignment P schedule cand := by
  obtain ⟨lo, io, lt, it, hlo1, hlo, hlt1, hlt, hne, hio, hit, rfl⟩ := h
  apply keeps_of_counts P schedule _ hlen (by simp)
  · intro a
    have h0 := count_switchIds_set P schedule lo ((teamOf schedule lo).eraseIdx io) hlo hlen a
    have h1 := count_switchIds_set P (schedule.set lo ((teamOf schedule lo).eraseIdx io)) lt
      ((teamOf schedule lt).insertIdx it (maneuverAt schedule lo io)) hlt
      (by simpa using hlen) a
    rw [teamOf_set_ne _ _ _ _ hne] at h1
    have h2 := count_ids_erase (teamOf schedule lo) io hio a
    have h3 := count_ids_insert (teamOf schedule lt) it hit (maneuverAt schedule lo io) a
    unfold maneuverAt at h1 h3 ⊢
    omega
  · rw [teamOf_set_ne _ _ _ _ (by omega), teamOf_set_ne _ _ _ _ (by omega)]

theorem swap_keeps (P : Problem) (schedule cand : Schedule)
    (hlen : P.m + 1 ≤ schedule.length) (h : Swap.neighbor P schedule cand) :
    keepsAssignment P schedule cand := by
  obtain ⟨l1, l2, i1, i2, t1, t2, hl1, hlt, hl2, hi1, hi2, ht1, ht2, rfl⟩ := h
  apply keeps_of_counts P schedule _ hlen (by simp)
  · intro a
    have hne : l2 ≠ l1 := by omega
    have h0 := count_switchIds_set P schedule l1
      (((teamOf schedule l1).eraseIdx i1).insertIdx t2 (maneuverAt schedule l2 i2))
      (by omega) hlen a
    have h1 := count_switchIds_set P
      (schedule.set l1
        (((teamOf schedule l1).eraseIdx i1).insertIdx t2 (maneuverAt schedule l2 i2))) l2
      (((teamOf schedule l2).eraseIdx i2).insertIdx t1 (maneuverAt schedule l1 i1)) hl2
      (by simpa using hlen) a
    rw [teamOf_set_ne _ _ _ _ hne] at h1
    have h2 := count_ids_erase (teamOf schedule l1) i1 hi1 a
    have h3 := count_ids_erase (teamOf schedule l2) i2 hi2 a
    have h4 := count_ids_insert ((teamOf schedule l1).eraseIdx i1) t2
      (by rw [List.length_eraseIdx, if_pos hi1]; omega) (maneuverAt schedule l2 i2) a
    have h5 := count_ids_insert ((teamOf schedule l2).eraseIdx i2) t1
      (by rw [List.length_eraseIdx, if_pos hi2]; omega) (maneuverAt schedule l1 i1) a
    unfold maneuverAt at h0 h1 h4 h5 ⊢
    omega
  · rw [teamOf_set_ne _ _ _ _ (by omega), teamOf_set_ne _ _ _ _ (by omega)]

theorem neighbor_keeps (P : Problem) (neighborhood : Neighborhood)
    (schedule cand : Schedule) (hlen : P.m + 1 ≤ schedule.length)
    (h : neighborhood.neighbor P schedule cand) : keepsAssignment P schedule cand := by
  cases neighborhood with
  | Shift => exact shift_keeps P schedule cand hlen h
  | Reassignement => exact reassignement_keeps P schedule cand hlen h
  | Swap => exact swap_keeps P schedule cand hlen h

theorem relocated_keeps (P : Problem) (s : Schedule) (lo io lt k : Nat)
    (hlen : P.m + 1 ≤ s.length) (hlo1 : 1 ≤ lo) (hlo : lo ≤ P.m) (hlt1 : 1 ≤ lt)
    (hlt : lt ≤ P.m) (hio : io < (teamOf s lo).length)
    (hk : k ≤ (teamOf (eraseAt s lo io) lt).length) :
    keepsAssignment P s (insertAt (eraseAt s lo io) lt k (maneuverAt s lo io)) := by
  apply keeps_of_counts P s _ hlen (by simp [insertAt, eraseAt])
  · intro a
    have h0 := count_switchIds_set P s lo ((teamOf s lo).eraseIdx io) hlo hlen a
    have h1 := count_switchIds_set P (eraseAt s lo io) lt
      ((teamOf (eraseAt s lo io) lt).insertIdx k (maneuverAt s lo io)) hlt
      (by simpa [eraseAt] using hlen) a
    have h2 := count_ids_erase (teamOf s lo) io hio a
    have h3 := count_ids_insert (teamOf (eraseAt s lo io) lt) k hk (maneuverAt s lo io) a
    unfold insertAt
    unfold eraseAt at h1 h3 ⊢
    unfold maneuverAt at h1 h3 ⊢
    omega
  · unfold insertAt eraseAt
    rw [teamOf_set_ne _ _ _ _ (by omega), teamOf_set_ne _ _ _ _ (by omega)]

theorem mem_crewIds (P : Problem) (schedule : Schedule) (x : Int) :
    x ∈ crewIds P schedule ↔
      ∃ l, 1 ≤ l ∧ l ≤ P.m ∧ ∃ mv ∈ teamOf schedule l, mv.1 = x := by
  unfold crewIds
  simp only [List.mem_flatMap, List.mem_range'_1, List.mem_map]
  constructor
  · rintro ⟨l, ⟨h1, h2⟩, mv, hmv, rfl⟩
    exact ⟨l, h1, by omega, mv, hmv, rfl⟩
  · rintro ⟨l, h1, h2, mv, hmv, rfl⟩
    exact ⟨l, ⟨h1, by omega⟩, mv, hmv, rfl⟩

theorem keeps_switchIds (P : Problem) (schedule r : Schedule)
    (hlen : P.m + 1 ≤ schedule.length) (h : keepsAssignment P schedule r) :
    (switchIds P r).Perm (switchIds P schedule) := by
  rw [switchIds_split P schedule hlen, switchIds_split P r (by rw [h.teams]; exact hlen)]
  exact h.remote.append h.crews

theorem keeps_violations (P : Problem) (schedule r : Schedule)
    (hlen : P.m + 1 ≤ schedule.length) (h : keepsAssignment P schedule r) :
    (¬ violates P schedule Violation.teamCount → ¬ violates P r Violation.teamCount) ∧
    (¬ violates P schedule Violation.switchIds → ¬ violates P r Violation.switchIds) ∧
    (¬ violates P schedule Violation.assignment → ¬ violates P r Violation.assignment) ∧
    (¬ violates P schedule Violation.remote → ¬ violates P r Violation.remote) ∧
    (¬ violates P schedule Violation.manual → ¬ violates P r Violation.manual) := by
  have hall := keeps_switchIds P schedule r hlen h
  refine ⟨?_, ?_, ?_, ?_, ?_⟩
  · intro hn hv
    apply hn
    show schedule.length ≠ P.m + 1
    have hv1 : r.length ≠ P.m + 1 := hv
    rw [h.teams] at hv1
    exact hv1
  · rintro hn ⟨x, hx, hb⟩
    exact hn ⟨x, (hall.mem_iff).mp hx, hb⟩
  · rintro hn ⟨i, h1, h2, hc⟩
    exact hn ⟨i, h1, h2, by rw [← hall.count_eq]; exact hc⟩
  · rintro hn ⟨mv, hmv, ht⟩
    have hmem : mv.1 ∈ (teamOf schedule 0).map Prod.fst :=
      (h.remote.mem_iff).mp (List.mem_map_of_mem _ hmv)
    obtain ⟨mv1, hmv1, he⟩ := List.mem_map.mp hmem
    exact hn ⟨mv1, hmv1, by rw [he]; exact ht⟩
  · rintro hn ⟨l, hl1, hl2, mv, hmv, ht⟩
    have hmem : mv.1 ∈ crewIds P schedule :=
      (h.crews.mem_iff).mp ((mem_crewIds P r mv.1).mpr ⟨l, hl1, hl2, mv, hmv, rfl⟩)
    obtain ⟨l1, h1, h2, mv1, hmv1, he⟩ := (mem_crewIds P schedule mv.1).mp hmem
    exact hn ⟨l1, h1, h2, mv1, hmv1, by rw [he]; exact ht⟩

/-! ## What the search operators return -/

theorem filterMap_getElem_range {α : Type} (xs : List α) :
    (List.range xs.length).filterMap (fun i => xs[i]?) = xs := by
  induction xs with
  | nil => rfl
  | cons x xs ih =>
    rw [List.length_cons, List.range_succ_eq_map, List.filterMap_cons]
    simp only [List.getElem?_cons_zero, List.filterMap_map]
    have e : ((fun i => (x :: xs)[i]?) ∘ Nat.succ) = fun i => xs[i]? := by
      funext i
      simp
    rw [e, ih]

theorem permute_perm {γ α : Type} (R : Generator γ) (hR : R.lawful) (generator : γ)
    (movements : List α) : (R.permute generator movements).Perm movements := by
  unfold Generator.permute
  have h := (hR generator (List.range movements.length)).filterMap (fun i => movements[i]?)
  rw [filterMap_getElem_range] at h
  exact h

theorem evaluate_idem (P : Problem) (entry : Schedule × ℚ) (b : Bool) (out : Schedule × ℚ)
    (h : utils.evaluate P entry = some (b, out)) : utils.evaluate P out = some (b, out) := by
  obtain ⟨_, s, _, _, hout1, _⟩ := evaluate_some P entry b out h
  rw [← h]
  apply evaluate_congr
  · rw [hout1, writeBack_ids]
  · rw [hout1, writeBack_drop]

theorem best_improvement_cases (P : Problem) (neighborhood : Neighborhood)
    (entry r : Schedule × ℚ) (h : neighborhood.best_improvement P entry = some r) :
    r = entry ∨ ∃ cand, neighborhood.neighbor P entry.1 cand ∧
      utils.evaluate P (cand, 0) = some (true, r) := by
  rcases bestOf_cases P _ entry r (best_improvement_bestOf P neighborhood entry r h) with
    hr | ⟨cand, hc, he, _⟩
  · exact Or.inl hr
  · exact Or.inr ⟨cand, hc, he⟩

theorem firstImprovementLoop_cases {α : Type} (P : Problem) (entry : Schedule × ℚ)
    (move : α → Schedule) (mvs : List α) (r : Schedule × ℚ)
    (h : firstImprovementLoop P entry move mvs = some r) :
    r = entry ∨ ∃ mv ∈ mvs, utils.evaluate P (move mv, 0) = some (true, r) := by
  rcases firstImprovementLoop_spec P entry move mvs r h with
    ⟨pre, cand, post, hs, _, hev, _⟩ | ⟨_, hr⟩
  · have hmem : cand ∈ mvs.map move := by
      rw [hs]
      simp
    obtain ⟨mv, hmv, rfl⟩ := List.mem_map.mp hmem
    exact Or.inr ⟨mv, hmv, hev⟩
  · exact Or.inl hr

theorem shakeLoop_flag {α : Type} (P : Problem) (entry : Schedule × ℚ)
    (feasible_only : Bool) (move : α → Schedule) (mvs : List α) (r : Schedule × ℚ)
    (h : shakeLoop P entry feasible_only move mvs = some r) :
    r = entry ∨ ∃ mv ∈ mvs, ∃ b, utils.evaluate P (move mv, 0) = some (b, r) ∧
      (feasible_only = true → b = true) := by
  induction mvs with
  | nil =>
    simp only [shakeLoop, Option.some.injEq] at h
    exact Or.inl h.symm
  | cons mv rest ih =>
    unfold shakeLoop at h
    split at h
    · exact absurd h (by simp)
    · rename_i b nb he
      split at h
      · rename_i hc
        injection h with h
        subst h
        refine Or.inr ⟨mv, by simp, b, he, ?_⟩
        intro hf
        rcases hc with hc | hc
        · exact hc
        · rw [hf] at hc
          exact absurd hc (by simp)
      · rcases ih h with hr | ⟨mv1, hm, b1, he1, hb1⟩
        · exact Or.inl hr
        · exact Or.inr ⟨mv1, List.mem_cons_of_mem _ hm, b1, he1, hb1⟩

theorem neighborhood_first_cases {γ : Type} (neighborhood : Neighborhood) (R : Generator γ)
    (hR : R.lawful) (P : Problem) (entry : Schedule × ℚ) (generator : γ)
    (r : (Schedule × ℚ) × γ)
    (h : neighborhood.first_improvement R P entry generator = some r) :
    r.1 = entry ∨ ∃ cand, neighborhood.neighbor P entry.1 cand ∧
      utils.evaluate P (cand, 0) = some (true, r.1) := by
  cases neighborhood with
  | Shift =>
    unfold Neighborhood.first_improvement at h
    simp only [Option.map_eq_some'] at h
    obtain ⟨r0, h0, rfl⟩ := h
    unfold Shift.first_improvement at h0
    split at h0
    · rename_i hlen
      rcases firstImprovementLoop_cases P entry _ _ r0 h0 with hr | ⟨mv, hmv, he⟩
      · exact Or.inl hr
      · have hm := ((permute_perm R hR generator _).mem_iff).mp hmv
        exact Or.inr ⟨_, (shift_space P entry hlen _).mp (List.mem_map_of_mem _ hm), he⟩
    · exact absurd h0 (by simp)
  | Reassignement =>
    unfold Neighborhood.first_improvement at h
    simp only [Option.map_eq_some'] at h
    obtain ⟨r0, h0, rfl⟩ := h
    unfold Reassignement.first_improvement at h0
    split at h0
    · rcases firstImprovementLoop_cases P entry _ _ r0 h0 with hr | ⟨mv, hmv, he⟩
      · exact Or.inl hr
      · have hm := ((permute_perm R hR generator _).mem_iff).mp hmv
        exact Or.inr ⟨_, (reassignement_space P entry _).mp (List.mem_map_of_mem _ hm), he⟩
    · exact absurd h0 (by simp)
  | Swap =>
    unfold Neighborhood.first_improvement at h
    simp only [Option.map_eq_some'] at h
    obtain ⟨r0, h0, rfl⟩ := h
    unfold Swap.first_improvement at h0
    split at h0
    · rename_i hlen
      rcases firstImprovementLoop_cases P entry _ _ r0 h0 with hr | ⟨mv, hmv, he⟩
      · exact Or.inl hr
      · have hm := ((permute_perm R hR generator _).mem_iff).mp hmv
        exact Or.inr ⟨_, (swap_space P entry hlen _).mp (List.mem_map_of_mem _ hm), he⟩
    · exact absurd h0 (by simp)

theorem neighborhood_shake_cases {γ : Type} (neighborhood : Neighborhood) (R : Generator γ)
    (hR : R.lawful) (P : Problem) (entry : Schedule × ℚ) (feasible_only : Bool)
    (generator : γ) (r : (Schedule × ℚ) × γ)
    (h : neighborhood.shake R P entry feasible_only generator = some r) :
    r.1 = entry ∨ ∃ cand, neighborhood.neighbor P entry.1 cand ∧
      ∃ b, utils.evaluate P (cand, 0) = some (b, r.1) ∧ (feasible_only = true → b = true) := by
  cases neighborhood with
  | Shift =>
    unfold Neighborhood.shake at h
    simp only [Option.map_eq_some'] at h
    obtain ⟨r0, h0, rfl⟩ := h
    unfold Shift.shake at h0
    split at h0
    · rename_i hlen
      rcases shakeLoop_flag P entry _ _ _ r0 h0 with hr | ⟨mv, hmv, b, he, hb⟩
      · exact Or.inl hr
      · have hm := ((permute_perm R hR generator _).mem_iff).mp hmv
        exact Or.inr ⟨_, (shift_space P entry hlen _).mp (List.mem_map_of_mem _ hm), b, he, hb⟩
    · exact absurd h0 (by simp)
  | Reassignement =>
    unfold Neighborhood.shake at h
    simp only [Option.map_eq_some'] at h
    obtain ⟨r0, h0, rfl⟩ := h
    unfold Reassignement.shake at h0
    split at h0
    · rcases shakeLoop_flag P entry _ _ _ r0 h0 with hr | ⟨mv, hmv, b, he, hb⟩
      · exact Or.inl hr
      · have hm := ((permute_perm R hR generator _).mem_iff).mp hmv
        exact Or.inr ⟨_, (reassignement_space P entry _).mp (List.mem_map_of_mem _ hm), b, he,
          hb⟩
    · exact absurd h0 (by simp)
  | Swap =>
    unfold Neighborhood.shake at h
    simp only [Option.map_eq_some'] at h
    obtain ⟨r0, h0, rfl⟩ := h
    unfold Swap.shake at h0
    split at h0
    · rename_i hlen
      rcases shakeLoop_flag P entry _ _ _ r0 h0 with hr | ⟨mv, hmv, b, he, hb⟩
      · exact Or.inl hr
      · have hm := ((permute_perm R hR generator _).mem_iff).mp hmv
        exact Or.inr ⟨_, (swap_space P entry hlen _).mp (List.mem_map_of_mem _ hm), b, he, hb⟩
    · exact absurd h0 (by simp)

/-! ## Invariants of the search drivers -/

theorem descend_inv (step : Schedule × ℚ → Option (Schedule × ℚ))
    (I : Schedule × ℚ → Prop) (hI : ∀ e r, I e → step e = some r → I r) :
    ∀ fuel e r, I e → LocalSearch.descend step fuel e = some r → I r := by
  intro fuel
  induction fuel with
  | zero =>
    intro e r _ h
    exact absurd h (by simp [LocalSearch.descend])
  | succ fuel ih =>
    intro e r he h
    unfold LocalSearch.descend at h
    split at h
    · exact absurd h (by simp)
    · rename_i neighbor hs
      split at h
      · exact ih neighbor r (hI e neighbor he hs) h
      · injection h with h
        rw [← h]
        exact he

theorem vndLoop_inv (steps : List (Schedule × ℚ → Option (Schedule × ℚ)))
    (I : Schedule × ℚ → Prop)
    (hI : ∀ step ∈ steps, ∀ e r, I e → step e = some r → I r) :
    ∀ fuel rest e r, (∀ step ∈ rest, step ∈ steps) → I e →
      LocalSearch.vndLoop steps fuel rest e = some r → I r := by
  intro fuel
  induction fuel with
  | zero =>
    intro rest e r _ he h
    cases rest with
    | nil =>
      simp only [LocalSearch.vndLoop, Option.some.injEq] at h
      rw [← h]
      exact he
    | cons st rest => exact absurd h (by simp [LocalSearch.vndLoop])
  | succ fuel ih =>
    intro rest e r hrest he h
    cases rest with
    | nil =>
      simp only [LocalSearch.vndLoop, Option.some.injEq] at h
      rw [← h]
      exact he
    | cons st rest =>
      simp only [LocalSearch.vndLoop] at h
      split at h
      · exact absurd h (by simp)
      · rename_i neighbor hs
        split at h
        · exact ih _ neighbor r (fun step hstep => hstep)
            (hI st (hrest st (List.mem_cons_self _ _)) e neighbor he hs) h
        · exact ih _ e r (fun step hstep => hrest step (List.mem_cons_of_mem _ hstep)) he h

theorem descendWith_inv {γ : Type} (step : Schedule × ℚ → γ → Option ((Schedule × ℚ) × γ))
    (I : Schedule × ℚ → Prop) (hI : ∀ e g r, I e → step e g = some r → I r.1) :
    ∀ fuel e g r, I e → LocalSearch.descendWith step fuel e g = some r → I r.1 := by
  intro fuel
  induction fuel with
  | zero =>
    intro e g r _ h
    exact absurd h (by simp [LocalSearch.descendWith])
  | succ fuel ih =>
    intro e g r he h
    unfold LocalSearch.descendWith at h
    split at h
    · exact absurd h (by simp)
    · rename_i neighbor hs
      split at h
      · exact ih neighbor.1 neighbor.2 r (hI e g neighbor he hs) h
      · injection h with h
        rw [← h]
        exact he

theorem vndLoopWith_inv {γ : Type}
    (steps : List (Schedule × ℚ → γ → Option ((Schedule × ℚ) × γ)))
    (I : Schedule × ℚ → Prop)
    (hI : ∀ step ∈ steps, ∀ e g r, I e → step e g = some r → I r.1) :
    ∀ fuel rest e g r, (∀ step ∈ rest, step ∈ steps) → I e →
      LocalSearch.vndLoopWith steps fuel rest e g = some r → I r.1 := by
  intro fuel
  induction fuel with
  | zero =>
    intro rest e g r _ he h
    cases rest with
    | nil =>
      simp only [LocalSearch.vndLoopWith, Option.some.injEq] at h
      rw [← h]
      exact he
    | cons st rest => exact absurd h (by simp [LocalSearch.vndLoopWith])
  | succ fuel ih =>
    intro rest e g r hrest he h
    cases rest with
    | nil =>
      simp only [LocalSearch.vndLoopWith, Option.some.injEq] at h
      rw [← h]
      exact he
    | cons st rest =>
      simp only [LocalSearch.vndLoopWith] at h
      split at h
      · exact absurd h (by simp)
      · rename_i neighbor hs
        split at h
        · exact ih _ neighbor.1 neighbor.2 r (fun step hstep => hstep)
            (hI st (hrest st (List.mem_cons_self _ _)) e g neighbor he hs) h
        · exact ih _ e neighbor.2 r
            (fun step hstep => hrest step (List.mem_cons_of_mem _ hstep)) he h

/-! ## What a step of the chain of `ILS::perturb` returns -/

theorem tryPositions_cases (P : Problem) (base : Schedule) (l_target : Nat)
    (operation : Maneuver) (hlt : l_target ≤ P.m) :
    ∀ (indexes : List Nat) (cur : Schedule × ℚ) (success : Bool) (moved : Schedule × ℚ),
      ids cur.1 = ids base → cur.1.drop (P.m + 1) = base.drop (P.m + 1) →
      ILS.tryPositions P l_target operation cur indexes = some (success, moved) →
      (success = false → ids moved.1 = ids base ∧
        moved.1.drop (P.m + 1) = base.drop (P.m + 1)) ∧
      (success = true → ∃ k, k ≤ (teamOf base l_target).length ∧ ∃ μ,
        utils.evaluate P (insertAt base l_target k operation, μ) = some (true, moved)) := by
  intro indexes
  induction indexes with
  | nil =>
    intro cur success moved hids hdrop h
    simp only [ILS.tryPositions, Option.some.injEq, Prod.mk.injEq] at h
    obtain ⟨h1, h2⟩ := h
    subst h1 h2
    exact ⟨fun _ => ⟨hids, hdrop⟩, fun hs => absurd hs (by simp)⟩
  | cons k rest ih =>
    intro cur success moved hids hdrop h
    have hlen := teamOf_length_ids cur.1 base hids l_target
    have hids1 : ids (insertAt cur.1 l_target k operation) =
        ids (insertAt base l_target k operation) :=
      ids_insertAt cur.1 base hids l_target k operation operation rfl
    have hdrop1 : (insertAt cur.1 l_target k operation).drop (P.m + 1) =
        (insertAt base l_target k operation).drop (P.m + 1) := by
      rw [drop_insertAt P _ _ _ _ hlt, drop_insertAt P _ _ _ _ hlt, hdrop]
    have hcongr : utils.evaluate P (insertAt cur.1 l_target k operation, cur.2) =
        utils.evaluate P (insertAt base l_target k operation, cur.2) :=
      evaluate_congr P (insertAt cur.1 l_target k operation, cur.2)
        (insertAt base l_target k operation, cur.2) hids1 hdrop1
    unfold ILS.tryPositions at h
    split at h
    · rename_i hk
      rw [hlen] at hk
      split at h
      · exact absurd h (by simp)
      · rename_i b evaluated he
        rw [hcongr] at he
        split at h
        · rename_i hb
          simp only [Option.some.injEq, Prod.mk.injEq] at h
          obtain ⟨h1, h2⟩ := h
          subst h1 h2
          refine ⟨fun hs => absurd hs (by simp), fun _ => ⟨k, hk, cur.2, ?_⟩⟩
          rw [he, hb]
        · have hide := evaluate_ids P _ b evaluated he
          have hdre := evaluate_drop P _ b evaluated he
          simp only [] at hide hdre
          have hids2 : ids (eraseAt evaluated.1 l_target k) = ids base := by
            rw [ids_eraseAt evaluated.1 (insertAt base l_target k operation) hide,
              eraseAt_insertAt]
          have hdrop2 : (eraseAt evaluated.1 l_target k).drop (P.m + 1) =
              base.drop (P.m + 1) := by
            rw [drop_eraseAt P _ _ _ hlt, hdre, drop_insertAt P _ _ _ _ hlt]
          exact ih (eraseAt evaluated.1 l_target k, evaluated.2) success moved hids2 hdrop2 h
    · exact absurd h (by simp)

theorem relocate_cases (P : Problem) (perturbed : Schedule × ℚ)
    (l_origin idx_origin l_target : Nat) (indexes : List Nat) (out : Schedule × ℚ)
    (hlo : l_origin ≤ P.m) (hlt : l_target ≤ P.m)
    (hio : idx_origin < (teamOf perturbed.1 l_origin).length)
    (h : ILS.relocate P perturbed l_origin idx_origin l_target indexes = some out) :
    (∃ b, utils.evaluate P perturbed = some (b, out)) ∨
      ∃ k, k ≤ (teamOf (eraseAt perturbed.1 l_origin idx_origin) l_target).length ∧ ∃ μ,
        utils.evaluate P (insertAt (eraseAt perturbed.1 l_origin idx_origin) l_target k
          (maneuverAt perturbed.1 l_origin idx_origin), μ) = some (true, out) := by
  unfold ILS.relocate at h
  split at h
  · exact absurd h (by simp)
  · rename_i success moved htry
    obtain ⟨h2, h3⟩ := tryPositions_cases P (eraseAt perturbed.1 l_origin idx_origin) l_target
      (maneuverAt perturbed.1 l_origin idx_origin) hlt indexes
      (eraseAt perturbed.1 l_origin idx_origin, perturbed.2) success moved rfl rfl htry
    split at h
    · rename_i hs
      injection h with h
      subst h
      exact Or.inr (h3 hs)
    · rename_i hs
      have hs1 : success = false := by
        cases success
        · rfl
        · exact absurd rfl hs
      obtain ⟨h4, h5⟩ := h2 hs1
      have hids : ids (insertAt moved.1 l_origin idx_origin
          (maneuverAt perturbed.1 l_origin idx_origin)) = ids perturbed.1 := by
        rw [ids_insertAt moved.1 (eraseAt perturbed.1 l_origin idx_origin) h4 l_origin
          idx_origin _ _ rfl, insertAt_eraseAt _ _ _ hio]
      have hdrop : (insertAt moved.1 l_origin idx_origin
          (maneuverAt perturbed.1 l_origin idx_origin)).drop (P.m + 1) =
          perturbed.1.drop (P.m + 1) := by
        rw [drop_insertAt P _ _ _ _ hlo, h5, drop_eraseAt P _ _ _ hlo]
      have hcongr := evaluate_congr P
        (insertAt moved.1 l_origin idx_origin (maneuverAt perturbed.1 l_origin idx_origin),
          moved.2) perturbed hids hdrop
      rw [hcongr] at h
      simp only [Option.map_eq_some'] at h
      obtain ⟨res, hres, rfl⟩ := h
      exact Or.inl ⟨res.1, hres⟩

theorem chainStep_inv {γ : Type} (R : Generator γ) (P : Problem) (chain : List Nat)
    (I : Schedule × ℚ → Prop)
    (hI1 : ∀ e b out, I e → utils.evaluate P e = some (b, out) → I out)
    (hI2 : ∀ e l_origin idx_origin l_target k μ out, I e → 1 ≤ l_origin → l_origin ≤ P.m →
      1 ≤ l_target → l_target ≤ P.m → idx_origin < (teamOf e.1 l_origin).length →
      k ≤ (teamOf (eraseAt e.1 l_origin idx_origin) l_target).length →
      utils.evaluate P (insertAt (eraseAt e.1 l_origin idx_origin) l_target k
        (maneuverAt e.1 l_origin idx_origin), μ) = some (true, out) → I out)
    (state out : (Schedule × ℚ) × γ) (idx : Nat)
    (ho : 1 ≤ chain.getD idx 0 ∧ chain.getD idx 0 ≤ P.m)
    (ht : 1 ≤ chain.getD ((idx + 1) % chain.length) 0 ∧
      chain.getD ((idx + 1) % chain.length) 0 ≤ P.m)
    (h0 : I state.1) (h : ILS.chainStep R P chain state idx = some out) : I out.1 := by
  unfold ILS.chainStep at h
  simp only [] at h
  split at h
  · split at h
    · rename_i hne
      split at h
      · simp only [Option.map_eq_some'] at h
        obtain ⟨r, hr, rfl⟩ := h
        have hio : (R.draw state.2).1 % (teamOf state.1.1 (chain.getD idx 0)).length <
            (teamOf state.1.1 (chain.getD idx 0)).length :=
          Nat.mod_lt _ (Nat.pos_of_ne_zero hne)
        rcases relocate_cases P state.1 _ _ _ _ r ho.2 ht.2 hio hr with
          ⟨b, hb⟩ | ⟨k, hk, μ, he⟩
        · exact hI1 state.1 b r h0 hb
        · exact hI2 state.1 _ _ _ k μ r h0 ho.1 ho.2 ht.1 ht.2 hio hk he
      · exact absurd h (by simp)
    · injection h with h
      rw [← h]
      exact h0
  · exact absurd h (by simp)

theorem perturb_inv {γ : Type} (R : Generator γ) (hR : R.lawful) (P : Problem)
    (I : Schedule × ℚ → Prop)
    (hI1 : ∀ e b out, I e → utils.evaluate P e = some (b, out) → I out)
    (hI2 : ∀ e l_origin idx_origin l_target k μ out, I e → 1 ≤ l_origin → l_origin ≤ P.m →
      1 ≤ l_target → l_target ≤ P.m → idx_origin < (teamOf e.1 l_origin).length →
      k ≤ (teamOf (eraseAt e.1 l_origin idx_origin) l_target).length →
      utils.evaluate P (insertAt (eraseAt e.1 l_origin idx_origin) l_target k
        (maneuverAt e.1 l_origin idx_origin), μ) = some (true, out) → I out)
    (entry : Schedule × ℚ) (generator : γ) (out : (Schedule × ℚ) × γ)
    (h0 : I entry) (h : ILS.perturb R P entry generator = some out) : I out.1 := by
  unfold ILS.perturb at h
  simp only [] at h
  have hmem : ∀ i, i < (R.shuffle generator (List.range' 1 P.m)).1.length →
      1 ≤ (R.shuffle generator (List.range' 1 P.m)).1.getD i 0 ∧
      (R.shuffle generator (List.range' 1 P.m)).1.getD i 0 ≤ P.m := by
    intro i hi
    have h1 : (R.shuffle generator (List.range' 1 P.m)).1.getD i 0 ∈
        (R.shuffle generator (List.range' 1 P.m)).1 := by
      rw [List.getD_eq_getElem _ _ hi]
      exact List.getElem_mem _
    have h2 := ((hR _ _).mem_iff).mp h1
    rw [List.mem_range'_1] at h2
    omega
  exact foldlM_range_inv (ILS.chainStep R P (R.shuffle generator (List.range' 1 P.m)).1)
    (fun _ (state : (Schedule × ℚ) × γ) => I state.1) _
    (entry, (R.shuffle generator (List.range' 1 P.m)).2) h0
    (fun i s s1 hi hs hstep =>
      chainStep_inv R P _ I hI1 hI2 s s1 i (hmem i hi) (hmem _ (Nat.mod_lt _ (by omega)))
        hs hstep)
    out h

/-! ## The randomised operators return a result on well-formed entries -/

theorem neighborhood_first_defined {γ : Type} (neighborhood : Neighborhood) (R : Generator γ)
    (hR : R.lawful) (P : Problem) (hinv : P.inverseSets) (entry : Schedule × ℚ)
    (hw : wellFormed P entry.1) (generator : γ) :
    ∃ r, neighborhood.first_improvement R P entry generator = some r := by
  cases neighborhood with
  | Shift =>
    obtain ⟨r, hr⟩ := firstImprovementLoop_defined P entry (Shift.move entry.1)
      (R.permute generator (Shift.movements P entry))
      (shuffled_defined P _ _ _ (permute_perm R hR generator _)
        (shift_candidates_defined P hinv entry hw))
    refine ⟨(r, R.after generator (Shift.movements P entry).length), ?_⟩
    unfold Neighborhood.first_improvement Shift.first_improvement
    simp only []
    rw [if_pos hw.1, hr]
    rfl
  | Reassignement =>
    obtain ⟨r, hr⟩ := firstImprovementLoop_defined P entry (Reassignement.move entry.1)
      (R.permute generator (Reassignement.movements P entry))
      (shuffled_defined P _ _ _ (permute_perm R hR generator _)
        (reassignement_candidates_defined P hinv entry hw))
    refine ⟨(r, R.after generator (Reassignement.movements P entry).length), ?_⟩
    unfold Neighborhood.first_improvement Reassignement.first_improvement
    simp only []
    rw [if_pos (Or.inr hw.1), hr]
    rfl
  | Swap =>
    obtain ⟨r, hr⟩ := firstImprovementLoop_defined P entry (Swap.move entry.1)
      (R.permute generator (Swap.movements P entry))
      (shuffled_defined P _ _ _ (permute_perm R hR generator _)
        (swap_candidates_defined P hinv entry hw))
    refine ⟨(r, R.after generator (Swap.movements P entry).length), ?_⟩
    unfold Neighborhood.first_improvement Swap.first_improvement
    simp only []
    rw [if_pos (Or.inr hw.1), hr]
    rfl

theorem neighborhood_shake_defined {γ : Type} (neighborhood : Neighborhood) (R : Generator γ)
    (hR : R.lawful) (P : Problem) (hinv : P.inverseSets) (entry : Schedule × ℚ)
    (hw : wellFormed P entry.1) (feasible_only : Bool) (generator : γ) :
    ∃ r, neighborhood.shake R P entry feasible_only generator = some r := by
  cases neighborhood with
  | Shift =>
    obtain ⟨r, hr⟩ := shakeLoop_defined P entry feasible_only (Shift.move entry.1)
      (R.permute generator (Shift.movements P entry))
      (shuffled_defined P _ _ _ (permute_perm R hR generator _)
        (shift_candidates_defined P hinv entry hw))
    refine ⟨(r, R.after generator (Shift.movements P entry).length), ?_⟩
    unfold Neighborhood.shake Shift.shake
    simp only []
    rw [if_pos hw.1, hr]
    rfl
  | Reassignement =>
    obtain ⟨r, hr⟩ := shakeLoop_defined P entry feasible_only (Reassignement.move entry.1)
      (R.permute generator (Reassignement.movements P entry))
      (shuffled_defined P _ _ _ (permute_perm R hR generator _)
        (reassignement_candidates_defined P hinv entry hw))
    refine ⟨(r, R.after generator (Reassignement.movements P entry).length), ?_⟩
    unfold Neighborhood.shake Reassignement.shake
    simp only []
    rw [if_pos (Or.inr hw.1), hr]
    rfl
  | Swap =>
    obtain ⟨r, hr⟩ := shakeLoop_defined P entry feasible_only (Swap.move entry.1)
      (R.permute generator (Swap.movements P entry))
      (shuffled_defined P _ _ _ (permute_perm R hR generator _)
        (swap_candidates_defined P hinv entry hw))
    refine ⟨(r, R.after generator (Swap.movements P entry).length), ?_⟩
    unfold Neighborhood.shake Swap.shake
    simp only []
    rw [if_pos (Or.inr hw.1), hr]
    rfl

theorem first_lower_step {γ : Type} (neighborhood : Neighborhood) (R : Generator γ)
    (hR : R.lawful) (P : Problem) (incumbent : Schedule × ℚ) (generator : γ)
    (neighbor : (Schedule × ℚ) × γ) (hw : wellFormed P incumbent.1)
    (hs : neighborhood.first_improvement R P incumbent generator = some neighbor) :
    wellFormed P neighbor.1.1 ∧
      (utils.is_lower neighbor.1.2 incumbent.2 = true →
        rounds neighbor.1.2 + 1 ≤ rounds incumbent.2) := by
  have hT := threshold_pos
  rcases neighborhood_first_cases neighborhood R hR P incumbent generator neighbor hs with
    hr | ⟨cand, hc, he⟩
  · rw [hr]
    refine ⟨hw, fun hl => ?_⟩
    have := (is_lower_iff _ _).mp hl
    linarith
  · have hwc := neighbor_wellFormed P neighborhood incumbent.1 cand hw hc
    refine ⟨evaluate_wellFormed P (cand, 0) true neighbor.1 hwc he, fun hl => ?_⟩
    exact rounds_succ_le _ _ (evaluate_nonneg P (cand, 0) neighbor.1 hwc.2 he)
      ((is_lower_iff _ _).mp hl)

theorem descendWith_defined {γ : Type} (neighborhood : Neighborhood) (R : Generator γ)
    (hR : R.lawful) (P : Problem) (hinv : P.inverseSets) :
    ∀ fuel incumbent (generator : γ), wellFormed P incumbent.1 → rounds incumbent.2 < fuel →
      ∃ r, LocalSearch.descendWith (neighborhood.first_improvement R P) fuel incumbent
        generator = some r := by
  intro fuel
  induction fuel with
  | zero =>
    intro incumbent _ _ h
    exact absurd h (by omega)
  | succ fuel ih =>
    intro incumbent generator hw hf
    obtain ⟨neighbor, hs⟩ :=
      neighborhood_first_defined neighborhood R hR P hinv incumbent hw generator
    unfold LocalSearch.descendWith
    rw [hs]
    simp only []
    obtain ⟨h1, h2⟩ := first_lower_step neighborhood R hR P incumbent generator neighbor hw hs
    split
    · rename_i hl
      exact ih neighbor.1 neighbor.2 h1 (by have := h2 hl; omega)
    · exact ⟨_, rfl⟩

theorem vndLoopWith_defined {γ : Type} (R : Generator γ) (hR : R.lawful) (P : Problem)
    (hinv : P.inverseSets)
    (steps : List (Schedule × ℚ → γ → Option ((Schedule × ℚ) × γ))) :
    ∀ fuel rest incumbent (generator : γ), wellFormed P incumbent.1 →
      (∀ step ∈ rest, ∃ neighborhood : Neighborhood,
        step = neighborhood.first_improvement R P) →
      (∀ step ∈ steps, ∃ neighborhood : Neighborhood,
        step = neighborhood.first_improvement R P) →
      rest.length ≤ steps.length →
      rounds incumbent.2 * (steps.length + 1) + rest.length ≤ fuel →
      ∃ r, LocalSearch.vndLoopWith steps fuel rest incumbent generator = some r := by
  intro fuel
  induction fuel with
  | zero =>
    intro rest incumbent generator _ _ _ _ hf
    cases rest with
    | nil => exact ⟨(incumbent, generator), by simp [LocalSearch.vndLoopWith]⟩
    | cons st rest => simp at hf
  | succ fuel ih =>
    intro rest incumbent generator hw hrest hsteps hlen hf
    cases rest with
    | nil => exact ⟨(incumbent, generator), by simp [LocalSearch.vndLoopWith]⟩
    | cons st rest =>
      obtain ⟨neighborhood, rfl⟩ := hrest st (by simp)
      obtain ⟨neighbor, hs⟩ :=
        neighborhood_first_defined neighborhood R hR P hinv incumbent hw generator
      obtain ⟨h1, h2⟩ :=
        first_lower_step neighborhood R hR P incumbent generator neighbor hw hs
      simp only [LocalSearch.vndLoopWith, hs]
      simp only [List.length_cons] at hf hlen
      split
      · rename_i hl
        apply ih steps neighbor.1 neighbor.2 h1 hsteps hsteps (le_refl _)
        have h3 := Nat.mul_le_mul_right (steps.length + 1) (h2 hl)
        rw [Nat.add_mul, Nat.one_mul] at h3
        omega
      · exact ih rest incumbent neighbor.2 hw
          (fun step hm => hrest step (List.mem_cons_of_mem _ hm)) hsteps (by omega) (by omega)

theorem search_defined {γ : Type} (R : Generator γ) (hR : R.lawful) (P : Problem)
    (hinv : P.inverseSets) (entry : Schedule × ℚ) (hw : wellFormed P entry.1) :
    operatorsReturn R P entry := by
  refine ⟨?_, ?_, ?_, ?_, ?_, ?_, ?_, ?_⟩
  · exact fun neighborhood => best_improvement_defined P hinv neighborhood entry hw
  · exact fun neighborhood generator =>
      neighborhood_first_defined neighborhood R hR P hinv entry hw generator
  · exact fun neighborhood feasible_only generator =>
      neighborhood_shake_defined neighborhood R hR P hinv entry hw feasible_only generator
  · exact fun neighborhood =>
      descend_defined P hinv neighborhood _ entry hw (Nat.lt_succ_self _)
  · exact fun neighborhood generator =>
      descendWith_defined neighborhood R hR P hinv _ entry generator hw (Nat.lt_succ_self _)
  · intro neighborhoods
    have hsteps : ∀ step ∈ neighborhoods.map
        (fun neighborhood : Neighborhood => neighborhood.best_improvement P),
        ∃ neighborhood : Neighborhood, step = neighborhood.best_improvement P := by
      intro step hstep
      obtain ⟨neighborhood, _, rfl⟩ := List.mem_map.mp hstep
      exact ⟨neighborhood, rfl⟩
    exact vndLoop_defined P hinv _ _ _ entry hw hsteps hsteps (le_refl _) (by simp)
  · intro neighborhoods generator
    have hsteps : ∀ step ∈ neighborhoods.map
        (fun neighborhood : Neighborhood => neighborhood.first_improvement R P),
        ∃ neighborhood : Neighborhood, step = neighborhood.first_improvement R P := by
      intro step hstep
      obtain ⟨neighborhood, _, rfl⟩ := List.mem_map.mp hstep
      exact ⟨neighborhood, rfl⟩
    exact vndLoopWith_defined R hR P hinv _ _ _ entry generator hw hsteps hsteps (le_refl _)
      (by simp)
  · intro generator
    obtain ⟨r, hr, _⟩ := perturb_defined R hR P hinv entry generator hw
    exact ⟨r, hr⟩

/-- Every search operator returns an entry for which `I` holds when `I` holds for the
entry, passes from an entry to its evaluation and to the feasible evaluation of each of
its neighbors and of each relocation of a maneuver between teams `1..m`. -/
theorem search_inv {γ : Type} (R : Generator γ) (hR : R.lawful) (P : Problem)
    (I : Schedule × ℚ → Prop) (shaken : Bool)
    (hI0 : ∀ e b out, I e → utils.evaluate P e = some (b, out) → I out)
    (hI1 : ∀ (neighborhood : Neighborhood) e cand b out, I e →
      neighborhood.neighbor P e.1 cand → utils.evaluate P (cand, 0) = some (b, out) →
      (shaken = true → b = true) → I out)
    (hI2 : ∀ e l_origin idx_origin l_target k μ out, I e → 1 ≤ l_origin → l_origin ≤ P.m →
      1 ≤ l_target → l_target ≤ P.m → idx_origin < (teamOf e.1 l_origin).length →
      k ≤ (teamOf (eraseAt e.1 l_origin idx_origin) l_target).length →
      utils.evaluate P (insertAt (eraseAt e.1 l_origin idx_origin) l_target k
        (maneuverAt e.1 l_origin idx_origin), μ) = some (true, out) → I out)
    (entry : Schedule × ℚ) (h0 : I entry) : operatorsReturnOnly R P entry shaken I := by
  have hbest : ∀ (neighborhood : Neighborhood) e r, I e →
      neighborhood.best_improvement P e = some r → I r := by
    intro neighborhood e r he h
    rcases best_improvement_cases P neighborhood e r h with hr | ⟨cand, hc, hev⟩
    · rw [hr]
      exact he
    · exact hI1 neighborhood e cand true r he hc hev (fun _ => rfl)
  have hfirst : ∀ (neighborhood : Neighborhood) e (g : γ) r, I e →
      neighborhood.first_improvement R P e g = some r → I r.1 := by
    intro neighborhood e g r he h
    rcases neighborhood_first_cases neighborhood R hR P e g r h with hr | ⟨cand, hc, hev⟩
    · rw [hr]
      exact he
    · exact hI1 neighborhood e cand true r.1 he hc hev (fun _ => rfl)
  refine ⟨?_, ?_, ?_, ?_, ?_, ?_, ?_, ?_⟩
  · exact fun neighborhood r h => hbest neighborhood entry r h0 h
  · exact fun neighborhood generator r h => hfirst neighborhood entry generator r h0 h
  · intro neighborhood feasible_only generator r hf h
    rcases neighborhood_shake_cases neighborhood R hR P entry feasible_only generator r h with
      hr | ⟨cand, hc, b, hev, hb⟩
    · rw [hr]
      exact h0
    · exact hI1 neighborhood entry cand b r.1 h0 hc hev (fun hs => hb (hf hs))
  · intro neighborhood fuel r h
    exact descend_inv _ I (fun e r1 he hs => hbest neighborhood e r1 he hs) fuel entry r h0 h
  · intro neighborhood generator fuel r h
    exact descendWith_inv _ I (fun e g r1 he hs => hfirst neighborhood e g r1 he hs) fuel
      entry generator r h0 h
  · intro neighborhoods fuel r h
    refine vndLoop_inv _ I ?_ fuel _ entry r (fun step hstep => hstep) h0 h
    intro step hstep e r1 he hs
    obtain ⟨neighborhood, _, rfl⟩ := List.mem_map.mp hstep
    exact hbest neighborhood e r1 he hs
  · intro neighborhoods generator fuel r h
    refine vndLoopWith_inv _ I ?_ fuel _ entry generator r (fun step hstep => hstep) h0 h
    intro step hstep e g r1 he hs
    obtain ⟨neighborhood, _, rfl⟩ := List.mem_map.mp hstep
    exact hfirst neighborhood e g r1 he hs
  · exact fun generator r h => perturb_inv R hR P I hI0 hI2 entry generator r h0 h

/-! ## Claims on what the search operators keep -/

/-- C32. Feasibility and consistency are kept by every search operator: from an entry
that `utils::evaluate` marks feasible and whose moments and makespan are the evaluator's,
the entry returned by `best_improvement` and `first_improvement` of Shift, Reassignement
and Swap, by `shake` with `feasible_only = true`, by the four drivers of `LocalSearch` and
by `ILS::perturb`, for every state of a generator whose shuffle permutes, is again such
an entry; and on a well-formed entry each of these operators returns a result. -/
theorem search_keeps_consistency {γ : Type} (R : Generator γ) (hR : R.lawful) (P : Problem)
    (entry : Schedule × ℚ) (hc : consistent P entry) :
    operatorsReturnOnly R P entry true (consistent P) ∧
    (P.inverseSets → wellFormed P entry.1 → operatorsReturn R P entry) := by
  refine ⟨?_, fun hinv hw => search_defined R hR P hinv entry hw⟩
  apply search_inv R hR P (consistent P) true ?_ ?_ ?_ entry hc
  · intro e b out he h
    unfold consistent at he
    rw [he] at h
    injection h with h
    injection h with h1 h2
    rw [← h2]
    exact he
  · intro neighborhood e cand b out _ _ h hb
    rw [hb rfl] at h
    exact evaluate_idem P _ true out h
  · intro e l_origin idx_origin l_target k μ out _ _ _ _ _ _ _ h
    exact evaluate_idem P _ true out h

theorem search_keeps_consistency_witness :
    consistent exRotate
      ((([[], [(1, 0)], [(2, 0)], [(3, 0)]], 1), ()) : (Schedule × ℚ) × Unit).1 :=
  (search_keeps_consistency reversing reversing_lawful exRotate exStart
    (by unfold consistent; decide!)).1.2.2.2.2.2.2.2 ()
    (([[], [(1, 0)], [(2, 0)], [(3, 0)]], 1), ()) (by decide!)

/-- C33. The assignment is kept by every search operator: from an entry with the team
lists `0..m`, every entry returned by `best_improvement`, `first_improvement` and `shake`
of Shift, Reassignement and Swap, by the four drivers of `LocalSearch` and by
`ILS::perturb` has as many team lists, the same switch ids on team 0 and the same switch
ids, each as often, on the teams `1..m`; so it holds the same switch ids overall and
passes the checks of `is_feasible` on the team count, the switch ids, the assignment and
the technologies of team 0 and of the teams `1..m` when the entry does. -/
theorem search_keeps_assignment {γ : Type} (R : Generator γ) (hR : R.lawful) (P : Problem)
    (entry : Schedule × ℚ) (hlen : P.m + 1 ≤ entry.1.length) :
    operatorsReturnOnly R P entry false (fun r => keepsAssignment P entry.1 r.1) ∧
    ∀ r, keepsAssignment P entry.1 r →
      (switchIds P r).Perm (switchIds P entry.1) ∧
      (¬ violates P entry.1 Violation.teamCount → ¬ violates P r Violation.teamCount) ∧
      (¬ violates P entry.1 Violation.switchIds → ¬ violates P r Violation.switchIds) ∧
      (¬ violates P entry.1 Violation.assignment → ¬ violates P r Violation.assignment) ∧
      (¬ violates P entry.1 Violation.remote → ¬ violates P r Violation.remote) ∧
      (¬ violates P entry.1 Violation.manual → ¬ violates P r Violation.manual) := by
  refine ⟨?_, fun r h =>
    ⟨keeps_switchIds P entry.1 r hlen h, keeps_violations P entry.1 r hlen h⟩⟩
  apply search_inv R hR P (fun r => keepsAssignment P entry.1 r.1) false ?_ ?_ ?_ entry
    (keeps_refl P entry.1)
  · intro e b out he h
    exact keeps_ids P entry.1 out.1 e.1 (evaluate_ids P e b out h) he
  · intro neighborhood e cand b out he hc h _
    have hlen1 : P.m + 1 ≤ e.1.length := by rw [he.teams]; exact hlen
    exact keeps_ids P entry.1 out.1 cand (evaluate_ids P (cand, 0) b out h)
      (keeps_trans P entry.1 e.1 cand he (neighbor_keeps P neighborhood e.1 cand hlen1 hc))
  · intro e l_origin idx_origin l_target k μ out he hlo1 hlo hlt1 hlt hio hk h
    have hlen1 : P.m + 1 ≤ e.1.length := by rw [he.teams]; exact hlen
    exact keeps_ids P entry.1 out.1 _ (evaluate_ids P _ true out h)
      (keeps_trans P entry.1 e.1 _ he
        (relocated_keeps P e.1 l_origin idx_origin l_target k hlen1 hlo1 hlo hlt1 hlt hio hk))

theorem search_keeps_assignment_witness :
    keepsAssignment exRotate exStart.1
      ((([[], [(1, 0)], [(2, 0)], [(3, 0)]], 1), ()) : (Schedule × ℚ) × Unit).1.1 :=
  (search_keeps_assignment reversing reversing_lawful exRotate exStart
    (by decide)).1.2.2.2.2.2.2.2 ()
    (([[], [(1, 0)], [(2, 0)], [(3, 0)]], 1), ()) (by decide!)

/-! ## Rounding to the nearest double -/

theorem pow2_eq (k : Int) : binary64.pow2 k = (2 : ℚ) ^ k := by
  unfold binary64.pow2
  split
  · rename_i h
    obtain ⟨n, rfl⟩ := Int.eq_ofNat_of_zero_le h
    simp
  · rename_i h
    obtain ⟨n, hn⟩ := Int.eq_ofNat_of_zero_le (show 0 ≤ -k by omega)
    have hk : k = -(n : Int) := by omega
    subst hk
    simp

theorem pow2_pos (k : Int) : 0 < binary64.pow2 k := by
  rw [pow2_eq]
  positivity

theorem pow2_add (a b : Int) : binary64.pow2 (a + b) = binary64.pow2 a * binary64.pow2 b := by
  rw [pow2_eq, pow2_eq, pow2_eq, zpow_add₀ (by norm_num)]

theorem pow2_le (a b : Int) (h : a ≤ b) : binary64.pow2 a ≤ binary64.pow2 b := by
  rw [pow2_eq, pow2_eq]
  exact zpow_le_zpow_right₀ (by norm_num) h

theorem halvings_spec : ∀ fuel n, n ≠ 0 → n ≤ fuel →
    2 ^ binary64.halvings fuel n ≤ n ∧ n < 2 ^ (binary64.halvings fuel n + 1) := by
  intro fuel
  induction fuel with
  | zero =>
    intro n h0 h1
    omega
  | succ fuel ih =>
    intro n h0 h1
    unfold binary64.halvings
    split
    · rename_i h2
      have : n = 1 := by omega
      subst this
      simp
    · rename_i h2
      obtain ⟨h3, h4⟩ := ih (n / 2) (by omega) (by omega)
      constructor
      · rw [pow_succ]
        omega
      · rw [pow_succ]
        omega

theorem log2_spec (n : Nat) (h : n ≠ 0) :
    2 ^ binary64.log2 n ≤ n ∧ n < 2 ^ (binary64.log2 n + 1) :=
  halvings_spec n n h (le_refl n)

theorem exponent_spec (x : ℚ) (hx : x ≠ 0) :
    binary64.pow2 (binary64.exponent x) ≤ |x| ∧
    |x| < binary64.pow2 (binary64.exponent x + 1) := by
  have hnum : x.num.natAbs ≠ 0 := by
    intro h
    apply hx
    rw [Int.natAbs_eq_zero] at h
    exact Rat.zero_of_num_zero h
  obtain ⟨ha1, ha2⟩ := log2_spec x.num.natAbs hnum
  obtain ⟨hb1, hb2⟩ := log2_spec x.den x.den_ne_zero
  have habs : |x| = (x.num.natAbs : ℚ) / (x.den : ℚ) := by
    rw [Nat.cast_natAbs]
    conv_lhs => rw [← Rat.num_div_den x]
    rw [abs_div, Nat.abs_cast]
    simp
  have hB : (0 : ℚ) < (x.den : ℚ) := by exact_mod_cast x.den_pos
  have ha1q : (2 : ℚ) ^ binary64.log2 x.num.natAbs ≤ (x.num.natAbs : ℚ) := by
    exact_mod_cast ha1
  have ha2q : (x.num.natAbs : ℚ) < (2 : ℚ) ^ (binary64.log2 x.num.natAbs + 1) := by
    exact_mod_cast ha2
  have hb1q : (2 : ℚ) ^ binary64.log2 x.den ≤ (x.den : ℚ) := by exact_mod_cast hb1
  have hb2q : (x.den : ℚ) < (2 : ℚ) ^ (binary64.log2 x.den + 1) := by exact_mod_cast hb2
  have hk1 : binary64.pow2 ((binary64.log2 x.num.natAbs : Int) - (binary64.log2 x.den : Int) + 1)
      = (2 : ℚ) ^ (binary64.log2 x.num.natAbs + 1) / (2 : ℚ) ^ binary64.log2 x.den := by
    rw [pow2_eq, show ((binary64.log2 x.num.natAbs : Int) - (binary64.log2 x.den : Int) + 1)
      = ((binary64.log2 x.num.natAbs + 1 : Nat) : Int) - ((binary64.log2 x.den : Nat) : Int) by
        push_cast; ring, zpow_sub₀ (by norm_num), zpow_natCast, zpow_natCast]
  have hk2 : binary64.pow2 ((binary64.log2 x.num.natAbs : Int) - (binary64.log2 x.den : Int) - 1)
      = (2 : ℚ) ^ binary64.log2 x.num.natAbs / (2 : ℚ) ^ (binary64.log2 x.den + 1) := by
    rw [pow2_eq, show ((binary64.log2 x.num.natAbs : Int) - (binary64.log2 x.den : Int) - 1)
      = ((binary64.log2 x.num.natAbs : Nat) : Int) - ((binary64.log2 x.den + 1 : Nat) : Int) by
        push_cast; ring, zpow_sub₀ (by norm_num), zpow_natCast, zpow_natCast]
  have hupper : |x| < binary64.pow2
      ((binary64.log2 x.num.natAbs : Int) - (binary64.log2 x.den : Int) + 1) := by
    rw [hk1, habs, div_lt_div_iff₀ hB (by positivity)]
    calc (x.num.natAbs : ℚ) * 2 ^ binary64.log2 x.den
        ≤ (x.num.natAbs : ℚ) * (x.den : ℚ) :=
          mul_le_mul_of_nonneg_left hb1q (by positivity)
      _ < 2 ^ (binary64.log2 x.num.natAbs + 1) * (x.den : ℚ) :=
          mul_lt_mul_of_pos_right ha2q hB
  have hlower : binary64.pow2
      ((binary64.log2 x.num.natAbs : Int) - (binary64.log2 x.den : Int) - 1) ≤ |x| := by
    rw [hk2, habs, div_le_div_iff₀ (by positivity) hB]
    calc (2 : ℚ) ^ binary64.log2 x.num.natAbs * (x.den : ℚ)
        ≤ (x.num.natAbs : ℚ) * (x.den : ℚ) :=
          mul_le_mul_of_nonneg_right ha1q (le_of_lt hB)
      _ ≤ (x.num.natAbs : ℚ) * 2 ^ (binary64.log2 x.den + 1) :=
          mul_le_mul_of_nonneg_left (le_of_lt hb2q) (by positivity)
  unfold binary64.exponent
  split
  · rename_i h
    exact ⟨h, hupper⟩
  · rename_i h
    refine ⟨hlower, ?_⟩
    rw [show (binary64.log2 x.num.natAbs : Int) - (binary64.log2 x.den : Int) - 1 + 1 =
      (binary64.log2 x.num.natAbs : Int) - (binary64.log2 x.den : Int) by ring]
    exact lt_of_not_le h

theorem roundHalfEven_ge (y : ℚ) (N : Nat) (h : (N : ℚ) ≤ y) :
    N ≤ binary64.roundHalfEven y := by
  have hf : N ≤ ⌊y⌋₊ := Nat.le_floor h
  unfold binary64.roundHalfEven
  split
  · exact hf
  · split
    · omega
    · split <;> omega

theorem roundHalfEven_le (y : ℚ) (hy : 0 ≤ y) (N : Nat) (h : y ≤ (N : ℚ)) :
    binary64.roundHalfEven y ≤ N := by
  have hf1 : (⌊y⌋₊ : ℚ) ≤ y := Nat.floor_le hy
  have hf : ⌊y⌋₊ ≤ N := by
    have : (⌊y⌋₊ : ℚ) ≤ (N : ℚ) := le_trans hf1 h
    exact_mod_cast this
  rcases Nat.lt_or_ge ⌊y⌋₊ N with hlt | hge
  · unfold binary64.roundHalfEven
    split
    · exact hf
    · split
      · omega
      · split <;> omega
  · have heq : ⌊y⌋₊ = N := le_antisymm hf hge
    have hyN : y = (N : ℚ) := le_antisymm h (by rw [← heq]; exact hf1)
    unfold binary64.roundHalfEven
    rw [heq, hyN]
    simp

theorem roundHalfEven_le_even (y : ℚ) (hy : 0 ≤ y) (K : Nat) (hK : K % 2 = 0) :
    binary64.roundHalfEven y ≤ K ↔ y ≤ (K : ℚ) + 1 / 2 := by
  have hf1 : (⌊y⌋₊ : ℚ) ≤ y := Nat.floor_le hy
  have hf2 : y < (⌊y⌋₊ : ℚ) + 1 := Nat.lt_floor_add_one y
  constructor
  · intro h
    unfold binary64.roundHalfEven at h
    split at h
    · rename_i h1
      have : (⌊y⌋₊ : ℚ) ≤ (K : ℚ) := by exact_mod_cast h
      linarith
    · split at h
      · have : ((⌊y⌋₊ + 1 : Nat) : ℚ) ≤ (K : ℚ) := by exact_mod_cast h
        push_cast at this
        linarith
      · rename_i h1 h2
        split at h
        · have : (⌊y⌋₊ : ℚ) ≤ (K : ℚ) := by exact_mod_cast h
          linarith
        · have : ((⌊y⌋₊ + 1 : Nat) : ℚ) ≤ (K : ℚ) := by exact_mod_cast h
          push_cast at this
          linarith
  · intro h
    have hfK : ⌊y⌋₊ ≤ K := by
      by_contra hc
      have : K + 1 ≤ ⌊y⌋₊ := by omega
      have : ((K + 1 : Nat) : ℚ) ≤ (⌊y⌋₊ : ℚ) := by exact_mod_cast this
      push_cast at this
      linarith
    rcases Nat.lt_or_ge ⌊y⌋₊ K with hlt | hge
    · unfold binary64.roundHalfEven
      split
      · exact hfK
      · split
        · omega
        · split <;> omega
    · have heq : ⌊y⌋₊ = K := le_antisymm hfK hge
      unfold binary64.roundHalfEven
      rw [heq]
      split
      · exact le_refl _
      · rename_i h1
        split
        · rename_i h2
          linarith
        · simp [hK]

/-! ## The tolerance comparison in double arithmetic -/

theorem nearest_abs_lt (x T : ℚ) (hx : x ≠ 0) (hT : T < binary64.pow2 1024) :
    binary64.Double.lt (binary64.Double.abs (binary64.nearest x)) (binary64.Double.finite T) = true ↔
      (binary64.roundHalfEven (|x| / binary64.spacing x) : ℚ) * binary64.spacing x < T := by
  have hs : 0 < binary64.spacing x := pow2_pos _
  have hr : (0 : ℚ) ≤ (binary64.roundHalfEven (|x| / binary64.spacing x) : ℚ) * binary64.spacing x :=
    mul_nonneg (Nat.cast_nonneg _) (le_of_lt hs)
  unfold binary64.nearest
  rw [if_neg hx]
  split
  · rename_i hov
    constructor
    · intro h
      exact absurd h (by simp [binary64.Double.abs, binary64.Double.lt])
    · intro h
      linarith
  · split
    · simp only [binary64.Double.abs, binary64.Double.lt, abs_neg, abs_of_nonneg hr, decide_eq_true_eq]
    · simp only [binary64.Double.abs, binary64.Double.lt, abs_of_nonneg hr, decide_eq_true_eq]

theorem nearest_below_threshold (x : ℚ) :
    binary64.Double.lt (binary64.Double.abs (binary64.nearest x)) (binary64.Double.finite (5902958103587057 / 2 ^ 69)) = true ↔
      |x| ≤ 5902958103587057 / 2 ^ 69 - 1 / 2 ^ 70 := by
  by_cases hx : x = 0
  · subst hx
    have h0 : binary64.nearest 0 = binary64.Double.finite 0 := by
      unfold binary64.nearest
      rw [if_pos rfl]
    rw [h0]
    simp only [binary64.Double.abs, binary64.Double.lt, abs_zero, decide_eq_true_eq]
    constructor
    · intro _
      norm_num
    · intro _
      norm_num
  · have hT : (5902958103587057 / 2 ^ 69 : ℚ) < binary64.pow2 1024 := by
      rw [pow2_eq]
      have : (1 : ℚ) ≤ 2 ^ (1024 : Int) := one_le_zpow₀ (by norm_num) (by norm_num)
      have h2 : (5902958103587057 / 2 ^ 69 : ℚ) < 1 := by norm_num
      linarith
    rw [nearest_abs_lt x _ hx hT]
    obtain ⟨he1, he2⟩ := exponent_spec x hx
    have hxa : 0 ≤ |x| := abs_nonneg x
    have hs : 0 < binary64.spacing x := pow2_pos _
    rcases lt_trichotomy (binary64.exponent x) (-17) with he | he | he
    · -- below the binade of the threshold
      have hE : max (binary64.exponent x) (-1022) + 1 ≤ -17 := by
        rcases le_total (binary64.exponent x) (-1022) with h | h
        · rw [max_eq_right h]
          norm_num
        · rw [max_eq_left h]
          omega
      have hx1 : |x| < binary64.pow2 (max (binary64.exponent x) (-1022) + 1) :=
        lt_of_lt_of_le he2 (pow2_le _ _ (by have := le_max_left (binary64.exponent x) (-1022); omega))
      have hsp : binary64.pow2 (max (binary64.exponent x) (-1022) + 1) = (2 ^ 53 : Nat) * binary64.spacing x := by
        unfold binary64.spacing
        rw [show max (binary64.exponent x) (-1022) + 1 = 53 + (max (binary64.exponent x) (-1022) - 52) by ring,
          pow2_add]
        congr 1
      have hy : |x| / binary64.spacing x ≤ ((2 ^ 53 : Nat) : ℚ) := by
        rw [div_le_iff₀ hs]
        rw [← hsp]
        exact le_of_lt hx1
      have hN := roundHalfEven_le _ (div_nonneg hxa (le_of_lt hs)) _ hy
      have hN1 : (binary64.roundHalfEven (|x| / binary64.spacing x) : ℚ) ≤ ((2 ^ 53 : Nat) : ℚ) := by
        exact_mod_cast hN
      have hr : (binary64.roundHalfEven (|x| / binary64.spacing x) : ℚ) * binary64.spacing x ≤
          binary64.pow2 (max (binary64.exponent x) (-1022) + 1) := by
        rw [hsp]
        exact mul_le_mul_of_nonneg_right hN1 (le_of_lt hs)
      have h17 : binary64.pow2 (max (binary64.exponent x) (-1022) + 1) ≤ binary64.pow2 (-17) := pow2_le _ _ hE
      have hv : binary64.pow2 (-17) = 1 / 2 ^ 17 := by decide!
      rw [hv] at h17
      constructor
      · intro _
        have : (1 / 2 ^ 17 : ℚ) ≤ 5902958103587057 / 2 ^ 69 - 1 / 2 ^ 70 := by norm_num
        linarith
      · intro _
        have : (1 / 2 ^ 17 : ℚ) < 5902958103587057 / 2 ^ 69 := by norm_num
        linarith
    · -- the binade of the threshold
      have hsp : binary64.spacing x = 1 / 2 ^ 69 := by
        unfold binary64.spacing
        rw [he]
        decide!
      rw [hsp]
      have hy0 : 0 ≤ |x| / (1 / 2 ^ 69) := div_nonneg hxa (by norm_num)
      have hL := roundHalfEven_le_even (|x| / (1 / 2 ^ 69)) hy0 5902958103587056 (by norm_num)
      constructor
      · intro h
        have h1 : (binary64.roundHalfEven (|x| / (1 / 2 ^ 69)) : ℚ) < (5902958103587057 : Nat) := by
          have : (binary64.roundHalfEven (|x| / (1 / 2 ^ 69)) : ℚ) * (1 / 2 ^ 69) <
              ((5902958103587057 : Nat) : ℚ) * (1 / 2 ^ 69) := by
            push_cast
            linarith
          exact lt_of_mul_lt_mul_right this (by norm_num)
        have h2 : binary64.roundHalfEven (|x| / (1 / 2 ^ 69)) < 5902958103587057 := by
          exact_mod_cast h1
        have h3 := hL.mp (by omega)
        rw [div_le_iff₀ (by norm_num)] at h3
        push_cast at h3
        linarith
      · intro h
        have h3 : |x| / (1 / 2 ^ 69) ≤ ((5902958103587056 : Nat) : ℚ) + 1 / 2 := by
          rw [div_le_iff₀ (by norm_num)]
          push_cast
          linarith
        have h2 := hL.mpr h3
        have h1 : (binary64.roundHalfEven (|x| / (1 / 2 ^ 69)) : ℚ) ≤ (5902958103587056 : Nat) := by
          exact_mod_cast h2
        push_cast at h1
        have : (binary64.roundHalfEven (|x| / (1 / 2 ^ 69)) : ℚ) * (1 / 2 ^ 69) ≤
            5902958103587056 * (1 / 2 ^ 69) :=
          mul_le_mul_of_nonneg_right h1 (by norm_num)
        linarith
    · -- above the binade of the threshold
      have h16 : binary64.pow2 (-16) ≤ binary64.pow2 (binary64.exponent x) := pow2_le _ _ (by omega)
      have hv : binary64.pow2 (-16) = 1 / 2 ^ 16 := by decide!
      rw [hv] at h16
      have hsp : binary64.pow2 (binary64.exponent x) = (2 ^ 52 : Nat) * binary64.spacing x := by
        unfold binary64.spacing
        rw [max_eq_left (by omega)]
        conv_lhs => rw [show binary64.exponent x = 52 + (binary64.exponent x - 52) by ring, pow2_add]
        congr 1
      have hy : ((2 ^ 52 : Nat) : ℚ) ≤ |x| / binary64.spacing x := by
        rw [le_div_iff₀ hs, ← hsp]
        exact he1
      have hN := roundHalfEven_ge _ _ hy
      have hN1 : ((2 ^ 52 : Nat) : ℚ) ≤ (binary64.roundHalfEven (|x| / binary64.spacing x) : ℚ) := by
        exact_mod_cast hN
      have hr : binary64.pow2 (binary64.exponent x) ≤ (binary64.roundHalfEven (|x| / binary64.spacing x) : ℚ) * binary64.spacing x := by
        rw [hsp]
        exact mul_le_mul_of_nonneg_right hN1 (le_of_lt hs)
      constructor
      · intro h
        exfalso
        have : (5902958103587057 / 2 ^ 69 : ℚ) < 1 / 2 ^ 16 := by norm_num
        linarith
      · intro h
        exfalso
        have : (5902958103587057 / 2 ^ 69 - 1 / 2 ^ 70 : ℚ) < 1 / 2 ^ 16 := by norm_num
        linarith


theorem threshold_value :
    binary64.utils.THRESHOLD = binary64.Double.finite (5902958103587057 / 2 ^ 69) := by
  decide!

theorem compare64_finite (a b : ℚ) :
    binary64.utils.compare (binary64.Double.finite a) (binary64.Double.finite b) =
      if |a - b| ≤ 5902958103587057 / 2 ^ 69 - 1 / 2 ^ 70 then 0
      else (if a < b then -1 else 1) := by
  unfold binary64.utils.compare
  rw [threshold_value]
  have h := nearest_below_threshold (a - b)
  have hsub : (binary64.Double.finite a).sub (binary64.Double.finite b) = binary64.nearest (a - b) := rfl
  rw [hsub]
  by_cases hc : |a - b| ≤ 5902958103587057 / 2 ^ 69 - 1 / 2 ^ 70
  · rw [if_pos hc, if_pos (h.mpr hc)]
  · rw [if_neg hc, if_neg (fun h1 => hc (h.mp h1))]
    simp only [binary64.Double.lt, decide_eq_true_eq]

theorem compare64_cases (a b : binary64.Double) :
    binary64.utils.compare a b = 0 ∨ binary64.utils.compare a b = -1 ∨
      binary64.utils.compare a b = 1 := by
  unfold binary64.utils.compare
  split
  · exact Or.inl rfl
  · split
    · exact Or.inr (Or.inl rfl)
    · exact Or.inr (Or.inr rfl)

/-- C26 fails in double arithmetic. The doubles `a = 0x1.4f8b588e368f1p-17` (the constant
`THRESHOLD`) and `b = 0x1.fp-71` are less than `1e-5` apart, yet `utils::compare(a, b)`
returns 1 and not 0, because the subtraction `a - b` rounds to `a`, which is not below
`THRESHOLD`; and `utils::compare` returns 1 on two equal infinities, whose difference is
a NaN. -/
theorem compare_misses_tolerance :
    binary64.nearest (5902958103587057 / 2 ^ 69) =
      binary64.Double.finite (5902958103587057 / 2 ^ 69) ∧
    binary64.nearest (31 / 2 ^ 75) = binary64.Double.finite (31 / 2 ^ 75) ∧
    |(5902958103587057 / 2 ^ 69 : ℚ) - 31 / 2 ^ 75| < 1 / 100000 ∧
    binary64.utils.compare (binary64.Double.finite (5902958103587057 / 2 ^ 69))
      (binary64.Double.finite (31 / 2 ^ 75)) = 1 ∧
    binary64.utils.compare (binary64.Double.infinity false)
      (binary64.Double.infinity false) = 1 := by
  decide!

/-- C26, as amended. Tolerance comparison in double arithmetic. The constant `THRESHOLD` is
the double `T = 5902958103587057 / 2^69` binary64.nearest to `1e-5`, and `T - 2^(-70)` lies below
`1e-5`. For all finite doubles `a` and `b`, `utils::compare(a, b)` is 0 exactly when
`|a - b| ≤ T - 2^(-70)` (the differences that the rounded subtraction keeps below `T`),
-1 exactly when `a < b` and `|a - b| > T - 2^(-70)`, and 1 exactly when `a > b` and
`|a - b| > T - 2^(-70)`; `is_equal`, `is_lower` and `is_greater` hold exactly in these
three cases. With a NaN operand or two infinities of the same sign the result is 1. For
all doubles exactly one of `is_equal`, `is_lower` and `is_greater` holds, `is_lower_equal`
is the negation of `is_greater` and `is_greater_equal` the negation of `is_lower`. -/
theorem compare_tolerance :
    binary64.utils.THRESHOLD = binary64.Double.finite (5902958103587057 / 2 ^ 69) ∧
    (5902958103587057 / 2 ^ 69 - 1 / 2 ^ 70 : ℚ) < 1 / 100000 ∧
    (∀ a b : ℚ,
      (binary64.utils.compare (binary64.Double.finite a) (binary64.Double.finite b) = 0 ↔
        |a - b| ≤ 5902958103587057 / 2 ^ 69 - 1 / 2 ^ 70) ∧
      (binary64.utils.compare (binary64.Double.finite a) (binary64.Double.finite b) = -1 ↔
        a < b ∧ 5902958103587057 / 2 ^ 69 - 1 / 2 ^ 70 < |a - b|) ∧
      (binary64.utils.compare (binary64.Double.finite a) (binary64.Double.finite b) = 1 ↔
        b < a ∧ 5902958103587057 / 2 ^ 69 - 1 / 2 ^ 70 < |a - b|) ∧
      (binary64.utils.is_equal (binary64.Double.finite a) (binary64.Double.finite b) = true ↔
        |a - b| ≤ 5902958103587057 / 2 ^ 69 - 1 / 2 ^ 70) ∧
      (binary64.utils.is_lower (binary64.Double.finite a) (binary64.Double.finite b) = true ↔
        a < b ∧ 5902958103587057 / 2 ^ 69 - 1 / 2 ^ 70 < |a - b|) ∧
      (binary64.utils.is_greater (binary64.Double.finite a) (binary64.Double.finite b) = true ↔
        b < a ∧ 5902958103587057 / 2 ^ 69 - 1 / 2 ^ 70 < |a - b|)) ∧
    (∀ a : binary64.Double,
      binary64.utils.compare binary64.Double.nan a = 1 ∧
      binary64.utils.compare a binary64.Double.nan = 1) ∧
    (∀ negative : Bool,
      binary64.utils.compare (binary64.Double.infinity negative)
        (binary64.Double.infinity negative) = 1) ∧
    (∀ a b : binary64.Double,
      ((binary64.utils.is_equal a b = true ∧ binary64.utils.is_lower a b = false ∧
          binary64.utils.is_greater a b = false) ∨
        (binary64.utils.is_equal a b = false ∧ binary64.utils.is_lower a b = true ∧
          binary64.utils.is_greater a b = false) ∨
        (binary64.utils.is_equal a b = false ∧ binary64.utils.is_lower a b = false ∧
          binary64.utils.is_greater a b = true)) ∧
      binary64.utils.is_lower_equal a b = !binary64.utils.is_greater a b ∧
      binary64.utils.is_greater_equal a b = !binary64.utils.is_lower a b) := by
  have hpos : (0 : ℚ) < 5902958103587057 / 2 ^ 69 - 1 / 2 ^ 70 := by norm_num
  have hzero : ∀ a b : ℚ,
      binary64.utils.compare (binary64.Double.finite a) (binary64.Double.finite b) = 0 ↔
        |a - b| ≤ 5902958103587057 / 2 ^ 69 - 1 / 2 ^ 70 := by
    intro a b
    rw [compare64_finite]
    split
    · rename_i h
      exact ⟨fun _ => h, fun _ => rfl⟩
    · rename_i h
      split
      · exact ⟨fun e => absurd e (by decide), fun e => absurd e h⟩
      · exact ⟨fun e => absurd e (by decide), fun e => absurd e h⟩
  have hneg : ∀ a b : ℚ,
      binary64.utils.compare (binary64.Double.finite a) (binary64.Double.finite b) = -1 ↔
        a < b ∧ 5902958103587057 / 2 ^ 69 - 1 / 2 ^ 70 < |a - b| := by
    intro a b
    rw [compare64_finite]
    split
    · rename_i h
      exact ⟨fun e => absurd e (by decide), fun e => absurd h (not_le.mpr e.2)⟩
    · rename_i h
      split
      · rename_i h1
        exact ⟨fun _ => ⟨h1, lt_of_not_le h⟩, fun _ => rfl⟩
      · rename_i h1
        exact ⟨fun e => absurd e (by decide), fun e => absurd e.1 h1⟩
  have hgt : ∀ a b : ℚ,
      binary64.utils.compare (binary64.Double.finite a) (binary64.Double.finite b) = 1 ↔
        b < a ∧ 5902958103587057 / 2 ^ 69 - 1 / 2 ^ 70 < |a - b| := by
    intro a b
    rw [compare64_finite]
    split
    · rename_i h
      exact ⟨fun e => absurd e (by decide), fun e => absurd h (not_le.mpr e.2)⟩
    · rename_i h
      split
      · rename_i h1
        exact ⟨fun e => absurd e (by decide), fun e => absurd h1 (not_lt.mpr (le_of_lt e.1))⟩
      · rename_i h1
        refine ⟨fun _ => ⟨?_, lt_of_not_le h⟩, fun _ => rfl⟩
        rcases lt_or_eq_of_le (not_lt.mp h1) with h2 | h2
        · exact h2
        · exfalso
          apply h
          rw [h2, sub_self, abs_zero]
          exact le_of_lt hpos
  refine ⟨threshold_value, by norm_num, ?_, ?_, ?_, ?_⟩
  · intro a b
    refine ⟨hzero a b, hneg a b, hgt a b, ?_, ?_, ?_⟩
    · unfold binary64.utils.is_equal
      rw [decide_eq_true_eq]
      exact hzero a b
    · unfold binary64.utils.is_lower
      rw [decide_eq_true_eq]
      exact hneg a b
    · unfold binary64.utils.is_greater
      rw [decide_eq_true_eq]
      exact hgt a b
  · intro a
    constructor
    · cases a <;> rfl
    · cases a <;> rfl
  · intro negative
    cases negative <;> rfl
  · intro a b
    unfold binary64.utils.is_equal binary64.utils.is_lower binary64.utils.is_greater
      binary64.utils.is_lower_equal binary64.utils.is_greater_equal
    rcases compare64_cases a b with h | h | h <;> rw [h] <;> decide

/-! ## One team in double arithmetic -/

theorem visit64_idle (P : Problem) (team : List Maneuver) (t : Nat → Option utils.Ptr)
    (s : utils.EvalState) : binary64.utils.visit P [[], team] t s 0 = some s := by
  unfold binary64.utils.visit
  rw [if_neg (by simp [teamOf])]

theorem scan64_single (P : Problem) (team : List Maneuver) (hm : P.m = 1)
    (t : Nat → Option utils.Ptr) (s : utils.EvalState) :
    binary64.utils.scan P [[], team] t s =
      binary64.utils.visit P [[], team] t { s with feasibility := false } 1 := by
  unfold binary64.utils.scan
  rw [hm]
  show List.foldlM _ _ [0, 1] = _
  rw [List.foldlM_cons, visit64_idle]
  simp

theorem visit64_step (P : Problem) (team : List Maneuver) (t : Nat → Option utils.Ptr)
    (hpred : ∀ j, P.predecessors j = []) (hsucc : ∀ i, P.successors i = [])
    (s : utils.EvalState) (k i : Nat) (ti : ℚ)
    (hk : k < team.length) (hidx : s.index 1 = k)
    (hpend : s.pendings (switchAt [[], team] 1 k) = 0)
    (ht : t (switchAt [[], team] 1 k) = some (utils.Ptr.slot 1 k))
    (hloc : s.location 1 = i) (hti : utils.deref t s.mem i = some ti) :
    binary64.utils.visit P [[], team] t s 1 =
      match (binary64.add ti (P.p i)).bind
          (fun a => binary64.add a (P.c i (switchAt [[], team] 1 k) 1)) with
      | none => none
      | some tj =>
        match binary64.add tj (P.p (switchAt [[], team] 1 k)) with
        | none => none
        | some finish =>
          some
            { mem := Function.update s.mem (utils.Ptr.slot 1 k) tj
              makespan := max s.makespan finish
              index := Function.update s.index 1 (k + 1)
              location := Function.update s.location 1 (switchAt [[], team] 1 k)
              pendings := s.pendings
              n_done := s.n_done + 1
              feasibility := true } := by
  have hlen : (teamOf [[], team] 1).length = team.length := rfl
  unfold binary64.utils.visit
  rw [hidx, if_pos (by rw [hlen]; exact hk), if_pos hpend, ht, hloc, hti, hpred, hsucc]
  simp only [ne_eq, one_ne_zero, not_false_eq_true, if_true, Option.some_bind]
  cases h1 : (binary64.add ti (P.p i)).bind
      (fun a => binary64.add a (P.c i (switchAt [[], team] 1 k) 1)) with
  | none => rfl
  | some tj =>
    simp only [binary64.utils.maxPredecessors, List.foldlM_nil, pure, Function.update_same,
      utils.decPendings, List.foldl_nil]


theorem single_team_facts (P : Problem) (team : List Maneuver) (hm : P.m = 1)
    (hteam : (team.map Prod.fst).Perm ((List.range' 1 P.n).map Int.ofNat)) :
    wellFormed P [[], team] ∧ team.length = P.n := by
  refine ⟨⟨by rw [hm]; rfl, ?_⟩, ?_⟩
  · unfold placesEachSwitchOnce switchIds
    rw [hm]
    simpa using hteam
  · have := hteam.length_eq
    simpa using this

theorem drop_ids (team : List Maneuver) (k : Nat) (hk : k < team.length) :
    (team.map (fun mv => mv.1.toNat)).drop k =
      switchAt [[], team] 1 k :: (team.map (fun mv => mv.1.toNat)).drop (k + 1) := by
  have hsw : switchAt [[], team] 1 k = (team.getD k (0, 0)).1.toNat := rfl
  rw [hsw, List.getD_eq_getElem _ _ hk]
  rw [List.drop_eq_getElem_cons (by simpa using hk)]
  simp

theorem whileLoop64_serial (P : Problem) (team : List Maneuver) (hm : P.m = 1)
    (hpred : ∀ j, P.predecessors j = []) (hsucc : ∀ i, P.successors i = [])
    (hn : team.length = P.n) (t : Nat → Option utils.Ptr) (pendings : Nat → Int)
    (ht : ∀ idx, idx < team.length →
      t (switchAt [[], team] 1 idx) = some (utils.Ptr.slot 1 idx))
    (hpend : ∀ idx, idx < team.length → pendings (switchAt [[], team] 1 idx) = 0) :
    ∀ (rest : List Nat) (k : Nat) (s : utils.EvalState) (i : Nat) (ti : ℚ) (fuel : Nat),
      (team.map (fun mv => mv.1.toNat)).drop k = rest → k ≤ team.length →
      rest.length ≤ fuel → s.index 1 = k → s.pendings = pendings → s.location 1 = i →
      utils.deref t s.mem i = some ti → s.n_done = k → s.feasibility = true →
      match binary64.serial P i ti s.makespan rest with
      | none => binary64.utils.whileLoop P [[], team] t fuel s = none
      | some r =>
        ∃ s1, binary64.utils.whileLoop P [[], team] t fuel s = some s1 ∧
          s1.feasibility = true ∧ s1.makespan = r.2 ∧ r.1.length = rest.length ∧
          (∀ idx, idx < k → s1.mem (utils.Ptr.slot 1 idx) = s.mem (utils.Ptr.slot 1 idx)) ∧
          ∀ j, j < r.1.length → s1.mem (utils.Ptr.slot 1 (k + j)) = r.1.getD j 0 := by
  intro rest
  induction rest with
  | nil =>
    intro k s i ti fuel hdrop hk _ _ _ _ _ hdone hfeas
    have hkn : k = team.length := by
      have := congrArg List.length hdrop
      simp at this
      omega
    have hstop : ¬ (s.n_done < P.n ∧ s.feasibility = true) := by
      rw [hdone, hkn, hn]
      exact fun h => absurd h.1 (lt_irrefl _)
    have hloop : binary64.utils.whileLoop P [[], team] t fuel s = some s := by
      cases fuel with
      | zero => rfl
      | succ fuel =>
        unfold binary64.utils.whileLoop
        rw [if_neg hstop]
    simp only [binary64.serial]
    exact ⟨s, hloop, hfeas, rfl, rfl, fun _ _ => rfl, fun j hj => absurd hj (by simp)⟩
  | cons j rest ih =>
    intro k s i ti fuel hdrop hk hfuel hidx hp hloc hti hdone hfeas
    have hkn : k < team.length := by
      have := congrArg List.length hdrop
      simp at this
      omega
    rw [drop_ids team k hkn] at hdrop
    injection hdrop with hj hrest
    subst hj
    cases fuel with
    | zero => exact absurd hfuel (by simp)
    | succ fuel =>
      have hgo : s.n_done < P.n ∧ s.feasibility = true := by
        rw [hdone, ← hn]
        exact ⟨hkn, hfeas⟩
      have hvisit := visit64_step P team t hpred hsucc { s with feasibility := false } k i ti
        hkn hidx (by rw [hp]; exact hpend k hkn) (ht k hkn) hloc hti
      unfold binary64.utils.whileLoop
      rw [if_pos hgo, scan64_single P team hm, hvisit]
      simp only [binary64.serial]
      cases h1 : (binary64.add ti (P.p i)).bind
          (fun a => binary64.add a (P.c i (switchAt [[], team] 1 k) 1)) with
      | none => rfl
      | some tj =>
        simp only []
        cases h2 : binary64.add tj (P.p (switchAt [[], team] 1 k)) with
        | none => rfl
        | some finish =>
          simp only []
          have hnext := ih (k + 1)
            { mem := Function.update s.mem (utils.Ptr.slot 1 k) tj
              makespan := max s.makespan finish
              index := Function.update s.index 1 (k + 1)
              location := Function.update s.location 1 (switchAt [[], team] 1 k)
              pendings := s.pendings
              n_done := s.n_done + 1
              feasibility := true }
            (switchAt [[], team] 1 k) tj fuel hrest (by omega)
            (by simp only [List.length_cons] at hfuel; omega)
            (by simp) hp (by simp)
            (by
              unfold utils.deref
              rw [ht k hkn]
              simp)
            (by simp only []; omega) rfl
          simp only [] at hnext
          cases h3 : binary64.serial P (switchAt [[], team] 1 k) tj (max s.makespan finish)
              rest with
          | none =>
            rw [h3] at hnext
            simp only [Option.map_none']
            exact hnext
          | some r =>
            rw [h3] at hnext
            obtain ⟨s1, hl, hf, hmk, hlen, hold, hnew⟩ := hnext
            simp only [Option.map_some']
            refine ⟨s1, hl, hf, hmk, by simp [hlen], ?_, ?_⟩
            · intro idx hidx1
              rw [hold idx (by omega), Function.update_noteq]
              intro h
              injection h with _ h
              omega
            · intro j1 hj1
              cases j1 with
              | zero =>
                rw [Nat.add_zero, hold k (by omega)]
                simp
              | succ j1 =>
                simp only [List.length_cons] at hj1
                have := hnew j1 (by omega)
                rw [show k + (j1 + 1) = k + 1 + j1 by omega, this]
                simp


theorem writeBack_single (P : Problem) (team : List Maneuver) (hm : P.m = 1)
    (mem : utils.Ptr → ℚ) (ms : List ℚ) (hlen : ms.length = team.length)
    (hmem : ∀ j, j < ms.length → mem (utils.Ptr.slot 1 j) = ms.getD j 0) :
    utils.writeBack P [[], team] mem =
      [[], List.zipWith (fun (mv : Maneuver) (moment : ℚ) => (mv.1, moment)) team ms] := by
  unfold utils.writeBack
  simp only [List.mapIdx_cons, List.mapIdx_nil, hm, zero_le, if_true, le_refl, zero_add]
  congr 2
  apply List.ext_getElem
  · simp [hlen]
  · intro idx h1 h2
    simp only [List.getElem_mapIdx, List.getElem_zipWith]
    have hidx : idx < ms.length := by
      simp at h2
      exact h2.2
    rw [hmem idx hidx, List.getD_eq_getElem _ _ hidx]

theorem add_exact (x y : ℚ)
    (h : binary64.nearest (x + y) = binary64.Double.finite (x + y)) :
    binary64.add x y = some (x + y) := by
  unfold binary64.add
  rw [h]

theorem serial_exact (P : Problem) (team : List Maneuver) (hpp : ∀ i, 0 ≤ P.p i)
    (hc : ∀ i j l, P.c i j l = 0)
    (hexact : ∀ k, k ≤ team.length →
      binary64.nearest (elapsed P team k) = binary64.Double.finite (elapsed P team k)) :
    ∀ (rest : List Nat) (k i : Nat) (ti : ℚ),
      (team.map (fun mv => mv.1.toNat)).drop k = rest → k ≤ team.length →
      ti + P.p i = elapsed P team k →
      ∃ ms, binary64.serial P i ti (elapsed P team k) rest =
        some (ms, elapsed P team team.length) := by
  intro rest
  induction rest with
  | nil =>
    intro k i ti hdrop hk _
    have hkn : k = team.length := by
      have := congrArg List.length hdrop
      simp at this
      omega
    exact ⟨[], by rw [hkn]; rfl⟩
  | cons j rest ih =>
    intro k i ti hdrop hk hti
    have hkn : k < team.length := by
      have := congrArg List.length hdrop
      simp at this
      omega
    rw [drop_ids team k hkn] at hdrop
    injection hdrop with hj hrest
    subst hj
    have hsucc : elapsed P team k + P.p (switchAt [[], team] 1 k) = elapsed P team (k + 1) :=
      (elapsed_succ P team k hkn).symm
    have h1 : binary64.add ti (P.p i) = some (elapsed P team k) := by
      have := add_exact ti (P.p i) (by rw [hti]; exact hexact k hk)
      rw [this, hti]
    have h2 : binary64.add (elapsed P team k) (P.c i (switchAt [[], team] 1 k) 1) =
        some (elapsed P team k) := by
      have := add_exact (elapsed P team k) (P.c i (switchAt [[], team] 1 k) 1)
        (by rw [hc, add_zero]; exact hexact k hk)
      rw [this, hc, add_zero]
    have h3 : binary64.add (elapsed P team k) (P.p (switchAt [[], team] 1 k)) =
        some (elapsed P team (k + 1)) := by
      have := add_exact (elapsed P team k) (P.p (switchAt [[], team] 1 k))
        (by rw [hsucc]; exact hexact (k + 1) hkn)
      rw [this, hsucc]
    have hmax : max (elapsed P team k) (elapsed P team (k + 1)) = elapsed P team (k + 1) := by
      apply max_eq_right
      have := hpp (switchAt [[], team] 1 k)
      linarith
    obtain ⟨ms, hms⟩ := ih (k + 1) (switchAt [[], team] 1 k) (elapsed P team k) hrest hkn hsucc
    refine ⟨elapsed P team k :: ms, ?_⟩
    simp only [binary64.serial, h1, Option.some_bind, h2, h3, hmax, hms, Option.map_some']

theorem evaluate64_single (P : Problem) (team : List Maneuver) (makespan : ℚ)
    (hm : P.m = 1) (hpred : ∀ j, P.predecessors j = []) (hsucc : ∀ i, P.successors i = [])
    (hteam : (team.map Prod.fst).Perm ((List.range' 1 P.n).map Int.ofNat)) :
    binary64.utils.evaluate P ([[], team], makespan) =
      (binary64.serial P 0 0 0 (team.map (fun mv => mv.1.toNat))).map (fun r =>
        (true,
          ([[], List.zipWith (fun (mv : Maneuver) (moment : ℚ) => (mv.1, moment)) team r.1],
            r.2))) := by
  obtain ⟨hw, hn⟩ := single_team_facts P team hm hteam
  have hs : Slots P [[], team] := slots_of_once P _ hw.1 hw.2
  have hti := tinit_of_slots P [[], team] hs
  have hlen : ∀ idx, idx < team.length → idx < (teamOf [[], team] 1).length :=
    fun idx h => h
  have hmain := whileLoop64_serial P team hm hpred hsucc hn (utils.init P [[], team]).t
    (utils.init P [[], team]).pendings
    (fun idx hidx => hti.slot 1 idx (by omega) (hlen idx hidx))
    (fun idx hidx => by
      rw [init_pendings_slot P _ hs 1 idx (by omega) (hlen idx hidx), hpred]
      rfl)
    (team.map (fun mv => mv.1.toNat)) 0 (utils.evalStart P [[], team]) 0 0 P.n
    (List.drop_zero _) (Nat.zero_le _) (by simp [hn]) rfl rfl rfl
    (by
      unfold utils.deref
      rw [hti.zero]
      show some ((utils.init P [[], team]).mem utils.Ptr.t0) = some 0
      rw [init_mem_t0])
    rfl rfl
  unfold binary64.utils.evaluate
  rw [if_pos (inBounds_of_wellFormed P _ hw)]
  have hmk : (utils.evalStart P [[], team]).makespan = 0 := rfl
  rw [hmk] at hmain
  cases hser : binary64.serial P 0 0 0 (team.map (fun mv => mv.1.toNat)) with
  | none =>
    rw [hser] at hmain
    simp only [] at hmain
    rw [hmain]
    rfl
  | some r =>
    rw [hser] at hmain
    obtain ⟨s1, hl, hf, hmk1, hlen1, _, hnew⟩ := hmain
    rw [hl]
    simp only [Option.map_some', hf, if_true]
    rw [hmk1, writeBack_single P team hm s1.mem r.1 (by rw [hlen1]; simp)
      (fun j hj => by have := hnew j hj; rwa [Nat.zero_add] at this)]

/-! ## The timer of `ILS::solve` -/

/-- C25 fails in double arithmetic, and with a negative duration. The instance `exDecimal`
has one team, three MANUAL switches whose durations are the doubles of `0.1`, `0.2` and
`0.3`, no precedence and zero travel costs; `utils::evaluate` marks the orderings
`[1, 2, 3]` and `[3, 2, 1]` feasible with the makespans `5404319552844596 / 2^53` and
`5404319552844595 / 2^53`, which differ, and neither is the sum of the durations. On
`exNegative`, with the durations 2 and -1, the makespan of the ordering `[1, 2]` is 2 and
the sum of the durations is 1. -/
theorem one_team_order_matters :
    (binary64.nearest (1 / 10) = binary64.Double.finite (exDecimal.p 1) ∧
      binary64.nearest (2 / 10) = binary64.Double.finite (exDecimal.p 2) ∧
      binary64.nearest (3 / 10) = binary64.Double.finite (exDecimal.p 3)) ∧
    binary64.utils.evaluate exDecimal ([[], [(1, 0), (2, 0), (3, 0)]], 0) =
      some (true,
        ([[], [(1, 0), (2, 3602879701896397 / 2 ^ 55), (3, 1351079888211149 / 2 ^ 52)]],
          5404319552844596 / 2 ^ 53)) ∧
    binary64.utils.evaluate exDecimal ([[], [(3, 0), (2, 0), (1, 0)]], 0) =
      some (true,
        ([[], [(3, 0), (2, 5404319552844595 / 2 ^ 54), (1, 1 / 2)]],
          5404319552844595 / 2 ^ 53)) ∧
    ((List.range' 1 exDecimal.n).map exDecimal.p).sum = 21617278211378381 / 2 ^ 55 ∧
    (21617278211378381 / 2 ^ 55 : ℚ) ≠ 5404319552844596 / 2 ^ 53 ∧
    (21617278211378381 / 2 ^ 55 : ℚ) ≠ 5404319552844595 / 2 ^ 53 ∧
    binary64.utils.evaluate exNegative ([[], [(1, 0), (2, 0)]], 0) =
      some (true, ([[], [(1, 0), (2, 2)]], 2)) ∧
    ((List.range' 1 exNegative.n).map exNegative.p).sum = 1 := by
  refine ⟨by decide!, by decide!, by decide!, by decide!, by norm_num, by norm_num,
    by decide!, by decide!⟩

/-- C25, as amended. One team serialises all work: on an instance with `m = 1`, no
precedence and zero travel costs (`p[0] = 0` as the constructor leaves it), for every
ordering `team` of the `n` switches on team 1 with team 0 empty, `utils::evaluate` in
double arithmetic gives each maneuver the moment `(t + p) + c` from the moment `t` and the
duration `p` of the maneuver before it, rounded after each addition, marks the schedule
feasible and returns the largest rounded finish time as makespan (`binary64.serial`; there
is no result in the model when a sum overflows). When the durations are not negative and
the sum of the first `k` durations in list order is a double for every `k`, the makespan
is the sum of all durations. The technology of the switches is not read by the
evaluator. -/
theorem one_team_serialises (P : Problem) (team : List Maneuver) (makespan : ℚ)
    (hm : P.m = 1) (hp0 : P.p 0 = 0)
    (hpred : ∀ j, P.predecessors j = []) (hsucc : ∀ i, P.successors i = [])
    (hc : ∀ i j l, P.c i j l = 0)
    (hteam : (team.map Prod.fst).Perm ((List.range' 1 P.n).map Int.ofNat)) :
    binary64.utils.evaluate P ([[], team], makespan) =
      (binary64.serial P 0 0 0 (team.map (fun mv => mv.1.toNat))).map (fun r =>
        (true,
          ([[], List.zipWith (fun (mv : Maneuver) (moment : ℚ) => (mv.1, moment)) team r.1],
            r.2))) ∧
    ((∀ i, 0 ≤ P.p i) →
      (∀ k, k ≤ team.length →
        binary64.nearest (elapsed P team k) = binary64.Double.finite (elapsed P team k)) →
      ∃ out, binary64.utils.evaluate P ([[], team], makespan) = some (true, out) ∧
        out.2 = ((List.range' 1 P.n).map P.p).sum) := by
  have h1 := evaluate64_single P team makespan hm hpred hsucc hteam
  refine ⟨h1, fun hpp hexact => ?_⟩
  obtain ⟨ms, hms⟩ := serial_exact P team hpp hc hexact (team.map (fun mv => mv.1.toNat)) 0 0 0
    (List.drop_zero _) (Nat.zero_le _) (by
      rw [hp0]
      simp [elapsed])
  have h0 : elapsed P team 0 = 0 := by simp [elapsed]
  rw [h0] at hms
  rw [h1, hms]
  exact ⟨_, rfl, elapsed_total P team hteam⟩

theorem one_team_serialises_witness :
    ((List.range' 1 exSerial.n).map exSerial.p).sum = 6 ∧
    (∃ out, binary64.utils.evaluate exSerial ([[], [(1, 0), (2, 0), (3, 0)]], 0) =
        some (true, out) ∧ out.2 = ((List.range' 1 exSerial.n).map exSerial.p).sum) ∧
    (∃ out, binary64.utils.evaluate exSerial ([[], [(1, 0), (3, 0), (2, 0)]], 0) =
        some (true, out) ∧ out.2 = ((List.range' 1 exSerial.n).map exSerial.p).sum) ∧
    (∃ out, binary64.utils.evaluate exSerial ([[], [(2, 0), (1, 0), (3, 0)]], 0) =
        some (true, out) ∧ out.2 = ((List.range' 1 exSerial.n).map exSerial.p).sum) ∧
    (∃ out, binary64.utils.evaluate exSerial ([[], [(2, 0), (3, 0), (1, 0)]], 0) =
        some (true, out) ∧ out.2 = ((List.range' 1 exSerial.n).map exSerial.p).sum) ∧
    (∃ out, binary64.utils.evaluate exSerial ([[], [(3, 0), (1, 0), (2, 0)]], 0) =
        some (true, out) ∧ out.2 = ((List.range' 1 exSerial.n).map exSerial.p).sum) ∧
    (∃ out, binary64.utils.evaluate exSerial ([[], [(3, 0), (2, 0), (1, 0)]], 0) =
        some (true, out) ∧ out.2 = ((List.range' 1 exSerial.n).map exSerial.p).sum) :=
  ⟨by decide!,
    (one_team_serialises exSerial [(1, 0), (2, 0), (3, 0)] 0 rfl rfl (fun _ => rfl)
      (fun _ => rfl) (fun _ _ _ => rfl) (by decide)).2 exSerial_p_nonneg (by decide!),
    (one_team_serialises exSerial [(1, 0), (3, 0), (2, 0)] 0 rfl rfl (fun _ => rfl)
      (fun _ => rfl) (fun _ _ _ => rfl) (by decide)).2 exSerial_p_nonneg (by decide!),
    (one_team_serialises exSerial [(2, 0), (1, 0), (3, 0)] 0 rfl rfl (fun _ => rfl)
      (fun _ => rfl) (fun _ _ _ => rfl) (by decide)).2 exSerial_p_nonneg (by decide!),
    (one_team_serialises exSerial [(2, 0), (3, 0), (1, 0)] 0 rfl rfl (fun _ => rfl)
      (fun _ => rfl) (fun _ _ _ => rfl) (by decide)).2 exSerial_p_nonneg (by decide!),
    (one_team_serialises exSerial [(3, 0), (1, 0), (2, 0)] 0 rfl rfl (fun _ => rfl)
      (fun _ => rfl) (fun _ _ _ => rfl) (by decide)).2 exSerial_p_nonneg (by decide!),
    (one_team_serialises exSerial [(3, 0), (2, 0), (1, 0)] 0 rfl rfl (fun _ => rfl)
      (fun _ => rfl) (fun _ _ _ => rfl) (by decide)).2 exSerial_p_nonneg (by decide!)⟩

end orcs
